import Mathlib

/-! Rendera raster core: a shallow embedding.

The definitions below transcribe `src/src/Bitmap.cxx`, `src/src/Undo.cxx` and
`src/Map.cxx`.

Modelling conventions.

* A C++ `int` is a Lean `Int`; arithmetic is exact (no wrap-around), so the
  results speak about calls whose intermediate values fit the machine word.
* A pixel buffer `data` is a function from a flat cell index to the cell's
  content. The row table of a bitmap is `row[y] = data + w * y`, so the cell
  `*(row[y] + x)` is `data (w * y + x)`.
* `Blend::current` is a function pointer selected at run time; every drawing
  routine takes it as the parameter `blend`.
* A counted loop is written with `forLoop`, a loop that can stop early or whose
  trip count is not evident carries a fuel argument.
-/

namespace Rendera

/-! ## Generic helpers -/

/-- The loop `for(i = lo; i < lo + n; i++) s = body(i, s)`. -/
def forLoop {σ : Type} (body : Int → σ → σ) : Nat → Int → σ → σ
  | 0, _, s => s
  | n + 1, i, s => forLoop body n (i + 1) (body i s)

/-- The loop `for(i = lo; i <= hi; i++) s = body(i, s)`. -/
def forUpTo {σ : Type} (body : Int → σ → σ) (lo hi : Int) (s : σ) : σ :=
  forLoop body (hi + 1 - lo).toNat lo s

/-- Store `v` in cell `i` of a buffer. -/
def setCell (d : Int → Int) (i v : Int) : Int → Int :=
  fun j => if j = i then v else d j

/-! ## Bitmap -/

/-- The fields of `class Bitmap`; `data` is the pixel buffer. -/
structure Bitmap where
  x : Int
  y : Int
  w : Int
  h : Int
  overscroll : Int
  cl : Int
  cr : Int
  ct : Int
  cb : Int
  cw : Int
  ch : Int
  data : Int → Int

namespace Bitmap

/-- Index of the cell `*(row[y] + x)`. -/
def idx (b : Bitmap) (x y : Int) : Int := b.w * y + x

/-- Content of the cell `*(row[y] + x)`, no clipping. -/
def pix (b : Bitmap) (x y : Int) : Int := b.data (b.idx x y)

/-- `Bitmap::setClip`. -/
def setClip (b : Bitmap) (x1 y1 x2 y2 : Int) : Bitmap :=
  { b with cl := x1, ct := y1, cr := x2, cb := y2,
           cw := (x2 - x1) + 1, ch := (y2 - y1) + 1 }

/-- `Bitmap::Bitmap(int width, int height)`. The cells of the fresh buffer
are indeterminate in C++; here they hold `0`. -/
def create (width height : Int) : Bitmap :=
  let width := if width < 1 then 1 else width
  let height := if height < 1 then 1 else height
  let b : Bitmap :=
    { x := 0, y := 0, w := width, h := height, overscroll := 0,
      cl := 0, cr := 0, ct := 0, cb := 0, cw := 0, ch := 0, data := fun _ => 0 }
  b.setClip 0 0 (b.w - 1) (b.h - 1)

/-- `Bitmap::clear`. -/
def clear (b : Bitmap) (c : Int) : Bitmap :=
  { b with data := forLoop (fun i d => setCell d i c) (b.w * b.h).toNat 0 b.data }

/-- `Bitmap::clip`, on four distinct variables. -/
def clip (b : Bitmap) (x1 y1 x2 y2 : Int) : Int × Int × Int × Int :=
  (if x1 < b.cl then b.cl else x1,
   if y1 < b.ct then b.ct else y1,
   if x2 > b.cr then b.cr else x2,
   if y2 > b.cb then b.cb else y2)

/-- `Bitmap::getpixel`: the coordinates are clamped to the clip rectangle. -/
def getpixel (b : Bitmap) (x y : Int) : Int :=
  let x := if x < b.cl then b.cl else x
  let x := if x > b.cr then b.cr else x
  let y := if y < b.ct then b.ct else y
  let y := if y > b.cb then b.cb else y
  b.data (b.w * y + x)

/-- `Bitmap::setpixelSolid`. -/
def setpixelSolid (blend : Int → Int → Int → Int) (b : Bitmap)
    (x y c2 t : Int) : Bitmap :=
  if x < b.cl ∨ x > b.cr ∨ y < b.ct ∨ y > b.cb then b
  else { b with data := setCell b.data (b.w * y + x) (blend (b.data (b.w * y + x)) c2 t) }

/-- `Bitmap::hline`. The call `clip(&x1, &y, &x2, &y)` passes the same
variable `y` for both rows, so the two row tests act on `y` in turn. -/
def hline (blend : Int → Int → Int → Int) (b : Bitmap)
    (x1 y x2 c t : Int) : Bitmap :=
  let xa := if x1 > x2 then x2 else x1
  let xb := if x1 > x2 then x1 else x2
  if y < b.ct ∨ y > b.cb then b
  else if xa > b.cr then b
  else if xb < b.cl then b
  else
    let xa := if xa < b.cl then b.cl else xa
    let y := if y < b.ct then b.ct else y
    let xb := if xb > b.cr then b.cr else xb
    let y := if y > b.cb then b.cb else y
    let body := fun (x : Int) (d : Int → Int) =>
      setCell d (b.w * y + x) (blend (d (b.w * y + x)) c t)
    { b with data := forUpTo body xa xb b.data }

/-- Body of the loop `for(y = y1 + 1; y < y2; y++)` of `Bitmap::rect`: the two
side pixels of row `y`, the second read after the first write. -/
def rectSides (blend : Int → Int → Int → Int) (w xa xb c t : Int)
    (y : Int) (d : Int → Int) : Int → Int :=
  let d1 := setCell d (w * y + xa) (blend (d (w * y + xa)) c t)
  setCell d1 (w * y + xb) (blend (d1 (w * y + xb)) c t)

/-- `Bitmap::rect`. -/
def rect (blend : Int → Int → Int → Int) (b : Bitmap)
    (x1 y1 x2 y2 c t : Int) : Bitmap :=
  let xa := if x1 > x2 then x2 else x1
  let xb := if x1 > x2 then x1 else x2
  let ya := if y1 > y2 then y2 else y1
  let yb := if y1 > y2 then y1 else y2
  if xa > b.cr then b
  else if xb < b.cl then b
  else if ya > b.cb then b
  else if yb < b.ct then b
  else
    let r := b.clip xa ya xb yb
    let xa := r.1
    let ya := r.2.1
    let xb := r.2.2.1
    let yb := r.2.2.2
    let b1 := b.hline blend xa ya xb c t
    let b2 := b1.hline blend xa yb xb c t
    if ya = yb then b2
    else
      { b2 with data :=
          forLoop (rectSides blend b.w xa xb c t) (yb - (ya + 1)).toNat (ya + 1) b2.data }

/-- `Bitmap::rectfill`. -/
def rectfill (blend : Int → Int → Int → Int) (b : Bitmap)
    (x1 y1 x2 y2 c t : Int) : Bitmap :=
  let xa := if x1 > x2 then x2 else x1
  let xb := if x1 > x2 then x1 else x2
  let ya := if y1 > y2 then y2 else y1
  let yb := if y1 > y2 then y1 else y2
  if xa > b.cr then b
  else if xb < b.cl then b
  else if ya > b.cb then b
  else if yb < b.ct then b
  else forUpTo (fun y b => b.hline blend xa y xb c t) ya yb b

end Bitmap

/-- State of the two `while` loops of `Bitmap::line`: the canvas, the running
point `(x1, y1)` and the error term `e`. -/
structure LineState where
  bmp : Bitmap
  x1 : Int
  y1 : Int
  e : Int

/-- `while(cond(s)) s = body(s)`, running at most `fuel` iterations; `none`
when the fuel is used up before the condition turns false. -/
def whileLoop {σ : Type} (cond : σ → Bool) (body : σ → σ) : Nat → σ → Option σ
  | 0, _ => none
  | fuel + 1, s => if cond s then whileLoop cond body fuel (body s) else some s

namespace Bitmap

/-- Body of the loop `while(x1 != x2)` of `Bitmap::line` (branch `dx >= dy`);
`dx` and `dy` are the doubled values the loop uses. -/
def lineStepX (blend : Int → Int → Int → Int) (c t inx iny dx dy : Int)
    (s : LineState) : LineState :=
  let b := s.bmp.setpixelSolid blend s.x1 s.y1 c t
  let y1 := if s.e ≥ 0 then s.y1 + iny else s.y1
  let e := if s.e ≥ 0 then s.e - dx else s.e
  { bmp := b, x1 := s.x1 + inx, y1 := y1, e := e + dy }

/-- Body of the loop `while(y1 != y2)` of `Bitmap::line` (branch `dx < dy`). -/
def lineStepY (blend : Int → Int → Int → Int) (c t inx iny dx dy : Int)
    (s : LineState) : LineState :=
  let b := s.bmp.setpixelSolid blend s.x1 s.y1 c t
  let x1 := if s.e ≥ 0 then s.x1 + inx else s.x1
  let e := if s.e ≥ 0 then s.e - dy else s.e
  { bmp := b, x1 := x1, y1 := s.y1 + iny, e := e + dx }

/-- `Bitmap::line`; `ExtraMath::abs` is the absolute value and `<<= 1` doubles.
The result is `none` when `fuel` iterations do not finish the loop. -/
def line (blend : Int → Int → Int → Int) (fuel : Nat) (b : Bitmap)
    (x1 y1 x2 y2 c t : Int) : Option Bitmap :=
  let dx := x2 - x1
  let dy := y2 - y1
  let inx : Int := if dx > 0 then 1 else -1
  let iny : Int := if dy > 0 then 1 else -1
  let dx := |dx|
  let dy := |dy|
  let r :=
    if dx ≥ dy then
      let dy := 2 * dy
      let e := dy - dx
      let dx := 2 * dx
      whileLoop (fun s => decide (s.x1 ≠ x2)) (lineStepX blend c t inx iny dx dy) fuel
        { bmp := b, x1 := x1, y1 := y1, e := e }
    else
      let dx := 2 * dx
      let e := dx - dy
      let dy := 2 * dy
      whileLoop (fun s => decide (s.y1 ≠ y2)) (lineStepY blend c t inx iny dx dy) fuel
        { bmp := b, x1 := x1, y1 := y1, e := e }
  r.map (fun s => s.bmp.setpixelSolid blend s.x1 s.y1 c t)

end Bitmap

/-- Unsigned 32-bit pattern of a C++ `int`. -/
def toU32 (v : Int) : Nat := (v % 4294967296).toNat

/-- The C++ `int` with a given unsigned 32-bit pattern. -/
def ofU32 (n : Nat) : Int := if n < 2147483648 then (n : Int) else (n : Int) - 4294967296

/-- Bitwise `^` on two C++ `int`s. -/
def xor32 (a b : Int) : Int := ofU32 (toU32 a ^^^ toU32 b)

/-- `xorValue`: the checkerboard constant `c[(x & 1) ^ (y & 1)]`. -/
def xorValue (x y : Int) : Int :=
  if (x % 2 + y % 2) % 2 = 0 then 0x00FFFFFF else 0x00808080

namespace Bitmap

/-- `Bitmap::xorHline`. -/
def xorHline (b : Bitmap) (x1 y x2 : Int) : Bitmap :=
  let xa := if x1 > x2 then x2 else x1
  let xb := if x1 > x2 then x1 else x2
  if y < b.ct ∨ y > b.cb then b
  else if xa > b.cr then b
  else if xb < b.cl then b
  else
    let xa := if xa < b.cl then b.cl else xa
    let y := if y < b.ct then b.ct else y
    let xb := if xb > b.cr then b.cr else xb
    let y := if y > b.cb then b.cb else y
    let body := fun (x : Int) (d : Int → Int) =>
      setCell d (b.w * y + x) (xor32 (d (b.w * y + x)) (xorValue x y))
    { b with data := forUpTo body xa xb b.data }

/-- Body of the loop `for(; y1 < y2; y1++)` of `Bitmap::xorRect`; both writes
use `xorValue(x1, y1)`. -/
def xorRectSides (w xa xb : Int) (y : Int) (d : Int → Int) : Int → Int :=
  let d1 := setCell d (w * y + xa) (xor32 (d (w * y + xa)) (xorValue xa y))
  setCell d1 (w * y + xb) (xor32 (d1 (w * y + xb)) (xorValue xa y))

/-- `Bitmap::xorRect`. Both writes of the side loop use `xorValue(x1, y1)`. -/
def xorRect (b : Bitmap) (x1 y1 x2 y2 : Int) : Bitmap :=
  let xa := if x1 > x2 then x2 else x1
  let xb := if x1 > x2 then x1 else x2
  let ya := if y1 > y2 then y2 else y1
  let yb := if y1 > y2 then y1 else y2
  if xa > b.cr then b
  else if xb < b.cl then b
  else if ya > b.cb then b
  else if yb < b.ct then b
  else
    let r := b.clip xa ya xb yb
    let xa := r.1
    let ya := r.2.1
    let xb := r.2.2.1
    let yb := r.2.2.2
    let b1 := b.xorHline xa ya xb
    let b2 := b1.xorHline xa yb xb
    if ya = yb then b2
    else
      { b2 with data :=
          forLoop (xorRectSides b.w xa xb) (yb - (ya + 1)).toNat (ya + 1) b2.data }

/-- `Bitmap::xorRectfill`. -/
def xorRectfill (b : Bitmap) (x1 y1 x2 y2 : Int) : Bitmap :=
  let xa := if x1 > x2 then x2 else x1
  let xb := if x1 > x2 then x1 else x2
  let ya := if y1 > y2 then y2 else y1
  let yb := if y1 > y2 then y1 else y2
  if xa > b.cr then b
  else if xb < b.cl then b
  else if ya > b.cb then b
  else if yb < b.ct then b
  else
    let r := b.clip xa ya xb yb
    let xa := r.1
    let ya := r.2.1
    let xb := r.2.2.1
    let yb := r.2.2.2
    forUpTo (fun y b => b.xorHline xa y xb) ya yb b

end Bitmap

namespace Bitmap

/-- Body of the two copy loops of `Bitmap::blit`: cell `(dx + x, dy + y)` of the
destination receives cell `(sx + x, sy + y)` of the source. -/
def blitCell (src : Bitmap) (destw sx sy dx dy : Int) (y x : Int) (d : Int → Int) :
    Int → Int :=
  setCell d (destw * (dy + y) + dx + x) (src.data (src.w * (sy + y) + sx + x))

/-- `Bitmap::blit`: `src` is `this`; the result is the destination after the
call. The two canvases are distinct objects and the source is only read. -/
def blit (src dest : Bitmap) (sx sy dx dy ww hh : Int) : Bitmap :=
  if sx ≥ src.w ∨ sy ≥ src.h ∨ dx > dest.cr ∨ dy > dest.cb then dest
  else
    let ww := if sx < 0 then ww + sx else ww
    let dx := if sx < 0 then dx - sx else dx
    let sx := if sx < 0 then 0 else sx
    let hh := if sy < 0 then hh + sy else hh
    let dy := if sy < 0 then dy - sy else dy
    let sy := if sy < 0 then 0 else sy
    let ww := if sx + ww > src.w then src.w - sx else ww
    let hh := if sy + hh > src.h then src.h - sy else hh
    let ww := if dx < dest.cl then ww + (dx - dest.cl) else ww
    let sx := if dx < dest.cl then sx - (dx - dest.cl) else sx
    let dx := if dx < dest.cl then dest.cl else dx
    let hh := if dy < dest.ct then hh + (dy - dest.ct) else hh
    let sy := if dy < dest.ct then sy - (dy - dest.ct) else sy
    let dy := if dy < dest.ct then dest.ct else dy
    let ww := if dx + ww - 1 > dest.cr then dest.cr - dx + 1 else ww
    let hh := if dy + hh - 1 > dest.cb then dest.cb - dy + 1 else hh
    if ww < 1 ∨ hh < 1 then dest
    else
      { dest with data := (forLoop
          (fun y d => forLoop (blitCell src dest.w sx sy dx dy y) ww.toNat 0 d)
          hh.toNat 0 dest.data) }

/-- Exchange the contents of two cells. -/
def swapCells (d : Int → Int) (i j : Int) : Int → Int :=
  let temp := d i
  setCell (setCell d i (d j)) j temp

/-- `Bitmap::flipHorizontal`; `w / 2` is the C++ quotient, rounded towards zero. -/
def flipHorizontal (b : Bitmap) : Bitmap :=
  { b with data := (forLoop
      (fun y d =>
        forLoop (fun x d => swapCells d (b.w * y + x) (b.w * y + b.w - 1 - x))
          (Int.tdiv b.w 2).toNat 0 d)
      b.h.toNat 0 b.data) }

/-- `Bitmap::flipVertical`. -/
def flipVertical (b : Bitmap) : Bitmap :=
  { b with data := (forLoop
      (fun y d =>
        forLoop (fun x d => swapCells d (b.w * y + x) (b.w * (b.h - 1 - y) + x))
          b.w.toNat 0 d)
      (Int.tdiv b.h 2).toNat 0 b.data) }

/-- `Bitmap::rotate180`: the flat buffer is reversed. -/
def rotate180 (b : Bitmap) : Bitmap :=
  let size := b.w * b.h
  { b with data :=
      (forLoop (fun i d => swapCells d i (size - 1 - i)) (Int.tdiv size 2).toNat 0 b.data) }

/-- `Bitmap::rotate90`. After the copy to `temp` the source has
`free(this); new Bitmap(th, tw);`: the storage of the object is released, and a
`th x tw` canvas is built that no pointer receives. The two loops and `setClip`
that follow work on `this`, the released object, which C++ leaves undefined.
The definition takes the statements as they stand, for a released object whose
storage is left as it was: `w`, `h`, the row table and the buffer keep their
values, `*(row[yy] + xx)` is the cell `w * yy + xx` of the old buffer, and the
canvas that is built and dropped takes no part. The old row table has entries
for `yy < h` only. -/
def rotate90 (b : Bitmap) : Bitmap :=
  let tw := b.w
  let th := b.h
  let temp := b.blit (create tw th) 0 0 0 0 tw th
  let filled : Bitmap :=
    { b with data := (forLoop
        (fun yy d =>
          forLoop (fun xx d => setCell d (b.w * yy + xx) (temp.data (temp.w * xx + yy)))
            th.toNat 0 d)
        tw.toNat 0 b.data) }
  filled.setClip filled.overscroll filled.overscroll
    (filled.w - filled.overscroll - 1) (filled.h - filled.overscroll - 1)

end Bitmap

/-! ## `line` and `blit` with 32-bit arithmetic -/

/-- The `int` that an arithmetic operation with the exact result `v` leaves: the
low 32 bits of `v`, read as a two's-complement number. It is `v` itself when `v`
is a value of `int`; beyond that range C++ leaves the operation undefined, and
the compiled code wraps around. -/
def wrap32 (v : Int) : Int := ofU32 (toU32 v)

namespace Bitmap

/-- `lineStepX` with every sum and difference stored in an `int`. -/
def lineStepX32 (blend : Int → Int → Int → Int) (c t inx iny dx dy : Int)
    (s : LineState) : LineState :=
  let b := s.bmp.setpixelSolid blend s.x1 s.y1 c t
  let y1 := if s.e ≥ 0 then wrap32 (s.y1 + iny) else s.y1
  let e := if s.e ≥ 0 then wrap32 (s.e - dx) else s.e
  { bmp := b, x1 := wrap32 (s.x1 + inx), y1 := y1, e := wrap32 (e + dy) }

/-- `lineStepY` with every sum and difference stored in an `int`. -/
def lineStepY32 (blend : Int → Int → Int → Int) (c t inx iny dx dy : Int)
    (s : LineState) : LineState :=
  let b := s.bmp.setpixelSolid blend s.x1 s.y1 c t
  let x1 := if s.e ≥ 0 then wrap32 (s.x1 + inx) else s.x1
  let e := if s.e ≥ 0 then wrap32 (s.e - dy) else s.e
  { bmp := b, x1 := x1, y1 := wrap32 (s.y1 + iny), e := wrap32 (e + dx) }

/-- `Bitmap::line` with every arithmetic result stored in an `int`: the
statements of `line`, each difference, sum, absolute value (`ExtraMath::abs`)
and doubling (`<<= 1`) wrapped to 32 bits. The result is `none` when `fuel`
iterations do not finish the loop. -/
def line32 (blend : Int → Int → Int → Int) (fuel : Nat) (b : Bitmap)
    (x1 y1 x2 y2 c t : Int) : Option Bitmap :=
  let dx := wrap32 (x2 - x1)
  let dy := wrap32 (y2 - y1)
  let inx : Int := if dx > 0 then 1 else -1
  let iny : Int := if dy > 0 then 1 else -1
  let dx := wrap32 |dx|
  let dy := wrap32 |dy|
  let r :=
    if dx ≥ dy then
      let dy := wrap32 (2 * dy)
      let e := wrap32 (dy - dx)
      let dx := wrap32 (2 * dx)
      whileLoop (fun s => decide (s.x1 ≠ x2)) (lineStepX32 blend c t inx iny dx dy) fuel
        { bmp := b, x1 := x1, y1 := y1, e := e }
    else
      let dx := wrap32 (2 * dx)
      let e := wrap32 (dx - dy)
      let dy := wrap32 (2 * dy)
      whileLoop (fun s => decide (s.y1 ≠ y2)) (lineStepY32 blend c t inx iny dx dy) fuel
        { bmp := b, x1 := x1, y1 := y1, e := e }
  r.map (fun s => s.bmp.setpixelSolid blend s.x1 s.y1 c t)

/-- The statements of `Bitmap::blit` before the copy loops, with every sum and
difference stored in an `int`: `none` when the call returns there, and else the
values of `sx`, `sy`, `dx`, `dy`, `ww`, `hh` with which the loops run. -/
def blitClip32 (src dest : Bitmap) (sx sy dx dy ww hh : Int) :
    Option (Int × Int × Int × Int × Int × Int) :=
  if sx ≥ src.w ∨ sy ≥ src.h ∨ dx > dest.cr ∨ dy > dest.cb then none
  else
    let ww := if sx < 0 then wrap32 (ww + sx) else ww
    let dx := if sx < 0 then wrap32 (dx - sx) else dx
    let sx := if sx < 0 then 0 else sx
    let hh := if sy < 0 then wrap32 (hh + sy) else hh
    let dy := if sy < 0 then wrap32 (dy - sy) else dy
    let sy := if sy < 0 then 0 else sy
    let ww := if wrap32 (sx + ww) > src.w then wrap32 (src.w - sx) else ww
    let hh := if wrap32 (sy + hh) > src.h then wrap32 (src.h - sy) else hh
    let ww := if dx < dest.cl then wrap32 (ww + wrap32 (dx - dest.cl)) else ww
    let sx := if dx < dest.cl then wrap32 (sx - wrap32 (dx - dest.cl)) else sx
    let dx := if dx < dest.cl then dest.cl else dx
    let hh := if dy < dest.ct then wrap32 (hh + wrap32 (dy - dest.ct)) else hh
    let sy := if dy < dest.ct then wrap32 (sy - wrap32 (dy - dest.ct)) else sy
    let dy := if dy < dest.ct then dest.ct else dy
    let ww := if wrap32 (wrap32 (dx + ww) - 1) > dest.cr then wrap32 (wrap32 (dest.cr - dx) + 1)
      else ww
    let hh := if wrap32 (wrap32 (dy + hh) - 1) > dest.cb then wrap32 (wrap32 (dest.cb - dy) + 1)
      else hh
    if ww < 1 ∨ hh < 1 then none
    else some (sx, sy, dx, dy, ww, hh)

/-- `Bitmap::blit` with 32-bit arithmetic, called on a destination that is
another object than the source `this`: the result is the destination after the
call, and the source is only read. -/
def blit32 (src dest : Bitmap) (sx sy dx dy ww hh : Int) : Bitmap :=
  match blitClip32 src dest sx sy dx dy ww hh with
  | none => dest
  | some (sx, sy, dx, dy, ww, hh) =>
      { dest with data := (forLoop
          (fun y d => forLoop (blitCell src dest.w sx sy dx dy y) ww.toNat 0 d)
          hh.toNat 0 dest.data) }

/-- `Bitmap::blit` with 32-bit arithmetic, called as `b.blit(&b, ...)`: source
and destination are one buffer, so the statement `*dx1 = *sx1` reads what the
earlier iterations of the loops have stored. -/
def blitSelf32 (b : Bitmap) (sx sy dx dy ww hh : Int) : Bitmap :=
  match blitClip32 b b sx sy dx dy ww hh with
  | none => b
  | some (sx, sy, dx, dy, ww, hh) =>
      { b with data := (forLoop
          (fun y d => forLoop
            (fun x d => setCell d (b.w * (dy + y) + dx + x) (d (b.w * (sy + y) + sx + x)))
            ww.toNat 0 d)
          hh.toNat 0 b.data) }

end Bitmap

/-! ## The canvas with a border -/

/-- What the canvas code takes from outside of `src/`: the function behind the
pointer `Blend::current`, the toolkit colours `getFltkColor(FL_BACKGROUND2_COLOR)`
and `getFltkColor(FL_BACKGROUND_COLOR)`, and the colour `makeRgb(0, 0, 0)`. -/
structure Env where
  blend : Int → Int → Int → Int
  background2 : Int
  background : Int
  black : Int

namespace Bitmap

/-- `Bitmap::Bitmap(int width, int height, int overscroll)`. -/
def createOverscroll (env : Env) (width height overscroll : Int) : Bitmap :=
  let width := width + overscroll * 2
  let height := height + overscroll * 2
  let width := if width < 1 then 1 else width
  let height := if height < 1 then 1 else height
  let b : Bitmap :=
    { x := 0, y := 0, w := width, h := height, overscroll := overscroll,
      cl := 0, cr := 0, ct := 0, cb := 0, cw := 0, ch := 0, data := fun _ => 0 }
  let b := b.setClip overscroll overscroll (b.w - overscroll - 1) (b.h - overscroll - 1)
  let b := b.clear env.background2
  let b := b.rectfill env.blend b.cl b.ct b.cr b.cb env.black 0
  let b := b.setClip 0 0 (b.w - 1) (b.h - 1)
  let b := forLoop (fun i b =>
      b.rect env.blend (overscroll - 1 - i) (overscroll - 1 - i)
        (b.w - overscroll + i) (b.h - overscroll + i) env.background 0) 4 0 b
  b.setClip overscroll overscroll (b.w - overscroll - 1) (b.h - overscroll - 1)

end Bitmap

/-! ## Undo and redo -/

/-- `levels`, the number of slots of each ring. -/
def levels : Int := 10

/-- The state `Undo` works on: the two vectors of snapshots (slot `i` of a
vector is the value at `i`), the two cursors, the working canvas `Project::bmp`,
`Project::overscroll`, and the view origin `(ox, oy)`. -/
structure UndoState where
  undo_stack : Int → Bitmap
  redo_stack : Int → Bitmap
  undo_current : Int
  redo_current : Int
  bmp : Bitmap
  overscroll : Int
  ox : Int
  oy : Int

/-- Store a snapshot in slot `i` of a vector. -/
def setSlot (st : Int → Bitmap) (i : Int) (v : Bitmap) : Int → Bitmap :=
  fun j => if j = i then v else st j

/-- The rotation of a full ring in `doPush` and `pushRedo`: the last slot is
kept aside, `for(i = levels - 1; i > 0; i--) stack[i] = stack[i - 1]` moves every
snapshot one slot up, and the slot kept aside goes to slot 0. -/
def shiftStack (st : Int → Bitmap) : Int → Bitmap :=
  let temp_bmp := st (levels - 1)
  let st := forLoop (fun k st => setSlot st (levels - 1 - k) (st (levels - 1 - k - 1)))
    (levels - 1).toNat 0 st
  setSlot st 0 temp_bmp

/-- The snapshot both push routines take: a fresh `Bitmap(w, h)` into which the
working canvas is copied with `blit`. -/
def snapshot (b : Bitmap) : Bitmap :=
  b.blit (Bitmap.create b.w b.h) 0 0 0 0 b.w b.h

/-- Modelled from the spec: `Project::newImage(w, h)`, whose source is not part
of `src/`. Section 4.6 has `pop` restore the snapshot "as the working canvas
(resizing the working canvas/project to match)", section 5 has every resize
build a new canvas and swap the project's canvas pointer, and section 6 has the
project supply the overscroll margin size; `crop` in `Knife.cxx` calls
`newImage(w, h)` and then copies the image to offset `(overscroll, overscroll)`.
The working canvas becomes `Bitmap(w, h, Project::overscroll)`. -/
def newImage (env : Env) (s : UndoState) (w h : Int) : UndoState :=
  { s with bmp := Bitmap.createOverscroll env w h s.overscroll }

namespace Undo

/-- `Undo::init`. -/
def init (s : UndoState) : UndoState :=
  { s with
    undo_stack := forLoop (fun i st => setSlot st i (Bitmap.create 8 8)) levels.toNat 0
      s.undo_stack
    redo_stack := forLoop (fun i st => setSlot st i (Bitmap.create 8 8)) levels.toNat 0
      s.redo_stack
    undo_current := levels - 1
    redo_current := levels - 1 }

/-- `Undo::doPush`. -/
def doPush (s : UndoState) : UndoState :=
  let s : UndoState :=
    if s.undo_current < 0 then
      { s with undo_current := 0, undo_stack := shiftStack s.undo_stack }
    else s
  let s : UndoState :=
    { s with undo_stack := setSlot s.undo_stack s.undo_current (snapshot s.bmp) }
  { s with undo_current := s.undo_current - 1 }

/-- `Undo::push`. -/
def push (s : UndoState) : UndoState :=
  let s := doPush s
  { s with redo_current := levels - 1 }

/-- `Undo::pushRedo`. -/
def pushRedo (s : UndoState) : UndoState :=
  let s : UndoState :=
    if s.redo_current < 0 then
      { s with redo_current := 0, redo_stack := shiftStack s.redo_stack }
    else s
  let s : UndoState :=
    { s with redo_stack := setSlot s.redo_stack s.redo_current (snapshot s.bmp) }
  { s with redo_current := s.redo_current - 1 }

/-- The clamping of the view origin in `pop` and `popRedo`. -/
def clampView (s : UndoState) (w h : Int) : UndoState :=
  let ox := s.ox
  let oy := s.oy
  let ox := if ox < 0 then 0 else ox
  let ox := if ox > w - 1 then w - 1 else ox
  let oy := if oy < 0 then 0 else oy
  let oy := if oy > h - 1 then h - 1 else oy
  { s with ox := ox, oy := oy }

/-- `Undo::pop`; the redraw of the view at the end is not modelled. -/
def pop (env : Env) (s : UndoState) : UndoState :=
  if s.undo_current ≥ levels - 1 then s
  else
    let s := pushRedo s
    let s : UndoState := { s with undo_current := s.undo_current + 1 }
    let w := (s.undo_stack s.undo_current).w
    let h := (s.undo_stack s.undo_current).h
    let s := newImage env s (w - s.overscroll * 2) (h - s.overscroll * 2)
    let s := clampView s w h
    { s with bmp := (s.undo_stack s.undo_current).blit s.bmp 0 0 0 0 w h }

/-- `Undo::popRedo`; the redraw of the view at the end is not modelled. -/
def popRedo (env : Env) (s : UndoState) : UndoState :=
  if s.redo_current ≥ levels - 1 then s
  else
    let s := doPush s
    let s : UndoState := { s with redo_current := s.redo_current + 1 }
    let w := (s.redo_stack s.redo_current).w
    let h := (s.redo_stack s.redo_current).h
    let s := newImage env s (w - s.overscroll * 2) (h - s.overscroll * 2)
    let s := clampView s w h
    { s with bmp := (s.redo_stack s.redo_current).blit s.bmp 0 0 0 0 w h }

/-- The working canvas becomes `S 1` and is pushed, then `S 2`, and so on up
to `S n`. -/
def pushAll (S : Nat → Bitmap) : Nat → UndoState → UndoState
  | 0, s => s
  | n + 1, s => push { pushAll S n s with bmp := S (n + 1) }

/-- `n` consecutive calls of `pop`. -/
def popN (env : Env) : Nat → UndoState → UndoState
  | 0, s => s
  | n + 1, s => pop env (popN env n s)

/-- An environment whose blend function replaces the pixel, with toolkit
colours 2 and 1 and black 0. -/
def plainEnv : Env :=
  { blend := fun _ c _ => c, background2 := 2, background := 1, black := 0 }

/-- An initialised history around a 3 x 3 working canvas with an overscroll
margin of 1 in which every pixel, margin included, holds 7. -/
def marginState : UndoState :=
  init
    { undo_stack := fun _ => Bitmap.create 8 8
      redo_stack := fun _ => Bitmap.create 8 8
      undo_current := 0
      redo_current := 0
      bmp := { (Bitmap.createOverscroll plainEnv 1 1 1) with data := fun _ => 7 }
      overscroll := 1
      ox := 0
      oy := 0 }

end Undo

/-! ## The overlay map (`src/Map.cxx`) -/

/-- The fields of `class Map`. Both `data` and `row` are arrays of
`unsigned char`: `row = new unsigned char[height]`. -/
structure Map where
  w : Int
  h : Int
  data : Int → Int
  row : Int → Int

namespace Map

/-- `Map::Map(int width, int height)`. The assignment `row[i] = width * i`
stores the product in an `unsigned char`, that is modulo 256. The cells of the
fresh arrays hold `0` here. -/
def create (width height : Int) : Map :=
  let width := if width < 1 then 1 else width
  let height := if height < 1 then 1 else height
  { w := width, h := height, data := fun _ => 0,
    row := forLoop (fun i r => setCell r i ((width * i) % 256)) height.toNat 0 (fun _ => 0) }

/-- `Map::clear`; `color & 0xff` is the remainder modulo 256. -/
def clear (m : Map) (color : Int) : Map :=
  { m with data := forLoop (fun i d => setCell d i (color % 256)) (m.w * m.h).toNat 0 m.data }

/-- `Map::setpixel`. -/
def setpixel (m : Map) (x y color : Int) : Map :=
  if x < 0 ∨ x ≥ m.w ∨ y < 0 ∨ y ≥ m.h then m
  else { m with data := setCell m.data (m.row y + x) (color % 256) }

/-- `Map::getpixel`. -/
def getpixel (m : Map) (x y : Int) : Int :=
  if x < 0 ∨ x ≥ m.w ∨ y < 0 ∨ y ≥ m.h then 0
  else m.data (m.row y + x)

end Map

/-! ## Flood fill -/

/-- The flood-fill stack of `Bitmap.cxx`: the two vectors and the index `sp`. -/
structure Stack where
  stack_x : Int → Int
  stack_y : Int → Int
  sp : Int

/-- `stack_size`. -/
def stack_size : Int := 4096

namespace Stack

/-- `pop`: the coordinates read and the stack left, or `none` for `false`. -/
def pop (s : Stack) : Option ((Int × Int) × Stack) :=
  if s.sp > 0 then some ((s.stack_x s.sp, s.stack_y s.sp), { s with sp := s.sp - 1 })
  else none

/-- `push`: the stack left, or `none` for `false` (the stack is unchanged then). -/
def push (s : Stack) (x y : Int) : Option Stack :=
  if s.sp < stack_size - 1 then
    some { stack_x := setCell s.stack_x (s.sp + 1) x,
           stack_y := setCell s.stack_y (s.sp + 1) y,
           sp := s.sp + 1 }
  else none

/-- `emptyStack`: `pop` until it returns `false`; each `pop` lowers `sp` by
one, so `sp` iterations are enough. -/
def emptyStack (s : Stack) : Stack :=
  forLoop (fun _ s => match s.pop with
    | some (_, s2) => s2
    | none => s) s.sp.toNat 0 s

end Stack

/-- Floor of the square root, found bit by bit from bit `n - 1` down. -/
def isqrtAux (v : Nat) : Nat → Nat → Nat
  | 0, acc => acc
  | n + 1, acc =>
      isqrtAux v n (if (acc + 2 ^ n) * (acc + 2 ^ n) ≤ v then acc + 2 ^ n else acc)

/-- Floor of the square root of a number below `2 ^ 32`: the integer part of
`std::sqrt`. -/
def isqrt (v : Nat) : Nat := isqrtAux v 16 0

/-- One 8-bit channel of a packed colour: byte `k` of the 32-bit word. -/
def channel (c : Int) (k : Nat) : Int := (c / 256 ^ k) % 256

/-- Modelled from the spec: `diff32` of `Inline.H`, which is not in `src/`.
Section 4.3 calls the colour distance "a normalized Euclidean channel distance"
and section 9 gives the formula as `sqrt(channel-diff)/2`: `diff32` is the sum of
the squared differences of the four 8-bit channels, between 0 and `4 * 255^2`. -/
def diff32 (c1 c2 : Int) : Int :=
  (channel c1 0 - channel c2 0) ^ 2 + (channel c1 1 - channel c2 1) ^ 2 +
  (channel c1 2 - channel c2 2) ^ 2 + (channel c1 3 - channel c2 3) ^ 2

/-- `inRange`: the result and the value stored in `*trans`. `diff` is the
integer part of `std::sqrt(diff32(c1, c2)) / 2`. The single-precision product
`diff * (256.0f / (range + 1))` is given by the exact quotient, rounded down;
the two agree when `diff = 0` and when `range + 1` is a power of two. -/
def inRange (c1 c2 range : Int) : Bool × Int :=
  let diff : Int := ((isqrt (diff32 c1 c2).toNat / 2 : Nat) : Int)
  let trans := diff * 256 / (range + 1)
  (decide (diff ≤ range), trans)

/-- What the loops of `fill` work on: the copy `temp` of the canvas, the
blending map and the stack. -/
structure FillState where
  temp : Bitmap
  map : Map
  stack : Stack

/-- How a loop of `fill` ends: a `push` failed and `fill` returns at once, or
the loop ran to its end. -/
inductive FillRun where
  | overflow (s : FillState)
  | finished (s : FillState)

namespace Bitmap

/-- The first loop of an iteration of `fill`:
`while(x1 >= cl && inRange(temp.getpixel(x1, y), ...)) x1--`. The test needs
`x1 >= cl` and `x1` falls by one per iteration, so `x1 - cl + 1` iterations are
enough. -/
def scanLeft (temp : Bitmap) (cl old_color range y : Int) : Nat → Int → Int
  | 0, x1 => x1
  | n + 1, x1 =>
      if x1 ≥ cl ∧ (inRange (temp.getpixel x1 y) old_color range).1 = true then
        scanLeft temp cl old_color range y n (x1 - 1)
      else x1

/-- The test of the row above or below in the second loop of `fill`:
`if((!span && edge) && inRange(...)) { if(!push(px, py)) return; span = true; }`
`else if((span && edge) && !inRange(...)) span = false;`, where `edge` is
`y > ct` for the row above and `y < cb` for the row below and `inr` is the value
of `inRange`. The result is `none` when `push` fails. -/
def spanStep (edge inr : Bool) (px py : Int) (span : Bool) (st : Stack) :
    Option (Bool × Stack) :=
  if (!span && edge) && inr then
    match st.push px py with
    | none => none
    | some st2 => some (true, st2)
  else if (span && edge) && !inr then some (false, st)
  else some (span, st)

/-- The second loop of an iteration of `fill`:
`while(x1 <= cr && inRange(temp.getpixel(x1, y), ...)) { ... x1++; }`; `b` is the
live canvas, whose clip rectangle bounds the fill. The test needs `x1 <= cr` and
`x1` grows by one per iteration, so `cr - x1 + 1` iterations are enough. -/
def fillRow (blend : Int → Int → Int → Int) (b : Bitmap) (new_color old_color range y : Int) :
    Nat → Int → Bool → Bool → FillState → FillRun
  | 0, _, _, _, s => FillRun.finished s
  | n + 1, x1, span_t, span_b, s =>
      if x1 ≤ b.cr ∧ (inRange (s.temp.getpixel x1 y) old_color range).1 = true then
        let trans := (inRange (s.temp.getpixel x1 y) old_color range).2
        let temp := s.temp.setpixelSolid blend x1 y new_color 0
        let map := s.map.setpixel x1 y trans
        match spanStep (decide (y > b.ct))
            (inRange (temp.getpixel x1 (y - 1)) old_color range).1 x1 (y - 1) span_t
            s.stack with
        | none => FillRun.overflow { temp := temp, map := map, stack := s.stack }
        | some (span_t2, st2) =>
            match spanStep (decide (y < b.cb))
                (inRange (temp.getpixel x1 (y + 1)) old_color range).1 x1 (y + 1) span_b
                st2 with
            | none => FillRun.overflow { temp := temp, map := map, stack := st2 }
            | some (span_b2, st3) =>
                fillRow blend b new_color old_color range y n (x1 + 1) span_t2 span_b2
                  { temp := temp, map := map, stack := st3 }
      else FillRun.finished s

/-- The loop `while(pop(&x, &y))` of `fill`, at most `fuel` iterations; `none`
when the fuel is used up before the stack is empty. -/
def fillLoop (blend : Int → Int → Int → Int) (b : Bitmap) (new_color old_color range : Int) :
    Nat → FillState → Option FillRun
  | 0, _ => none
  | fuel + 1, s =>
      match s.stack.pop with
      | none => some (FillRun.finished s)
      | some ((x, y), st) =>
          let x1 := scanLeft s.temp b.cl old_color range y (x - b.cl + 1).toNat x
          let x1 := x1 + 1
          match fillRow blend b new_color old_color range y (b.cr - x1 + 1).toNat x1
              false false { s with stack := st } with
          | FillRun.overflow s2 => some (FillRun.overflow s2)
          | FillRun.finished s2 => fillLoop blend b new_color old_color range fuel s2

/-- The last loops of `fill`: every clip pixel whose map value is below 255 is
composited with that value as transparency. -/
def fillSweep (blend : Int → Int → Int → Int) (map : Map) (new_color : Int) (b : Bitmap) :
    Bitmap :=
  forUpTo (fun y b1 =>
      forUpTo (fun x b2 =>
          if map.getpixel x y < 255 then b2.setpixelSolid blend x y new_color (map.getpixel x y)
          else b2)
        b.cl b.cr b1)
    b.ct b.cb b

/-- `Bitmap::fill`, given the stack the previous call left. The result is the
canvas and the stack after the call, `none` when `fuel` iterations of the main
loop do not empty the stack. -/
def fill (blend : Int → Int → Int → Int) (fuel : Nat) (st : Stack) (b : Bitmap)
    (x y new_color old_color range : Int) : Option (Bitmap × Stack) :=
  if old_color = new_color then some (b, st)
  else
    let st := st.emptyStack
    match st.push x y with
    | none => some (b, st)
    | some st1 =>
        let temp := b.blit (create b.w b.h) 0 0 0 0 b.w b.h
        let map := (Map.create b.w b.h).clear 255
        match fillLoop blend b new_color old_color range fuel
            { temp := temp, map := map, stack := st1 } with
        | none => none
        | some (FillRun.overflow s) => some (b, s.stack)
        | some (FillRun.finished s) => some (fillSweep blend s.map new_color b, s.stack)

end Bitmap

/-! ## Unclipped line primitives, wrapped addressing -/

namespace Bitmap

/-- `Bitmap::vline`. The rows are clamped to the buffer, `y1` from below and
`y2` from above; the column is used as given. The pointer `y` starts at
`row[y2] + x` and moves up one row per iteration; the `do ... while(y2 >= y1)`
loop runs its body once and then once more for each further row down to `y1`. -/
def vline (blend : Int → Int → Int → Int) (b : Bitmap) (y1 x y2 c t : Int) : Bitmap :=
  let y1 := if y1 < 0 then 0 else y1
  let y2 := if y2 > b.h - 1 then b.h - 1 else y2
  { b with data := (forLoop
      (fun k d => setCell d (b.w * (y2 - k) + x) (blend (d (b.w * (y2 - k) + x)) c t))
      (max 1 (y2 - y1 + 1)).toNat 0 b.data) }

/-- The statement `*(row[y1] + x1) ^= xorValue(x1, y1)` of `xorLine`. -/
def xorPlot (b : Bitmap) (x1 y1 : Int) : Bitmap :=
  { b with data := (setCell b.data (b.w * y1 + x1)
      (xor32 (b.data (b.w * y1 + x1)) (xorValue x1 y1))) }

/-- Body of the loop `while(x1 != x2)` of `Bitmap::xorLine` (branch `dx >= dy`). -/
def xorLineStepX (inx iny dx dy : Int) (s : LineState) : LineState :=
  let b := s.bmp.xorPlot s.x1 s.y1
  let y1 := if s.e ≥ 0 then s.y1 + iny else s.y1
  let e := if s.e ≥ 0 then s.e - dx else s.e
  { bmp := b, x1 := s.x1 + inx, y1 := y1, e := e + dy }

/-- Body of the loop `while(y1 != y2)` of `Bitmap::xorLine` (branch `dx < dy`). -/
def xorLineStepY (inx iny dx dy : Int) (s : LineState) : LineState :=
  let b := s.bmp.xorPlot s.x1 s.y1
  let x1 := if s.e ≥ 0 then s.x1 + inx else s.x1
  let e := if s.e ≥ 0 then s.e - dy else s.e
  { bmp := b, x1 := x1, y1 := s.y1 + iny, e := e + dx }

/-- `Bitmap::xorLine`: the loops of `line`, writing each cell directly. The
result is `none` when `fuel` iterations do not finish the loop. -/
def xorLine (fuel : Nat) (b : Bitmap) (x1 y1 x2 y2 : Int) : Option Bitmap :=
  let dx := x2 - x1
  let dy := y2 - y1
  let inx : Int := if dx > 0 then 1 else -1
  let iny : Int := if dy > 0 then 1 else -1
  let dx := |dx|
  let dy := |dy|
  let r :=
    if dx ≥ dy then
      let dy := 2 * dy
      let e := dy - dx
      let dx := 2 * dx
      whileLoop (fun s => decide (s.x1 ≠ x2)) (xorLineStepX inx iny dx dy) fuel
        { bmp := b, x1 := x1, y1 := y1, e := e }
    else
      let dx := 2 * dx
      let e := dx - dy
      let dy := 2 * dy
      whileLoop (fun s => decide (s.y1 ≠ y2)) (xorLineStepY inx iny dx dy) fuel
        { bmp := b, x1 := x1, y1 := y1, e := e }
  r.map (fun s => s.bmp.xorPlot s.x1 s.y1)

/-- `Bitmap::setpixelWrap`: the four `while` loops move `x1` and `y1` by the clip
width and height, then the cell `row[y1] + x1` is composited. Each loop runs at
most `fuel` iterations; the result is `none` when one of them does not stop. -/
def setpixelWrap (blend : Int → Int → Int → Int) (fuel : Nat) (b : Bitmap)
    (x y c2 t : Int) : Option Bitmap :=
  (whileLoop (fun x1 => decide (x1 < b.cl)) (fun x1 => x1 + b.cw) fuel x).bind fun x1 =>
  (whileLoop (fun x1 => decide (x1 > b.cr)) (fun x1 => x1 - b.cw) fuel x1).bind fun x1 =>
  (whileLoop (fun y1 => decide (y1 < b.ct)) (fun y1 => y1 + b.ch) fuel y).bind fun y1 =>
  (whileLoop (fun y1 => decide (y1 > b.cb)) (fun y1 => y1 - b.ch) fuel y1).bind fun y1 =>
  some { b with data := setCell b.data (b.w * y1 + x1) (blend (b.data (b.w * y1 + x1)) c2 t) }

end Bitmap

/-! ## The knife (`src/src/Knife.cxx`) -/

/-- The variables of `Knife.cxx` that `crop`, `push` and `drag` read or write:
the two corners of the selection, `state` and `active`, the flags of a move and
of a resize in progress, the side being resized with the offset of the grab
point, and the floating canvas `bmp` of the duplicate state. -/
structure KnifeState where
  beginx : Int
  beginy : Int
  lastx : Int
  lasty : Int
  state : Int
  active : Bool
  drag_started : Bool
  resize_started : Bool
  side : Int
  offset : Int
  bmp : Bitmap

/-- `absrect`: the corners are put in order and clamped to the clip rectangle of
the working canvas. The result is `(x1, y1, x2, y2)`. -/
def absrect (bmp : Bitmap) (x1 y1 x2 y2 : Int) : Int × Int × Int × Int :=
  let xa := if x1 > x2 then x2 else x1
  let xb := if x1 > x2 then x1 else x2
  let ya := if y1 > y2 then y2 else y1
  let yb := if y1 > y2 then y1 else y2
  let xa := if xa < bmp.cl then bmp.cl else xa
  let ya := if ya < bmp.ct then bmp.ct else ya
  let xb := if xb > bmp.cr then bmp.cr else xb
  let yb := if yb > bmp.cb then bmp.cb else yb
  (xa, ya, xb, yb)

/-- `crop` of `Knife.cxx`. The view it is given is the main view, whose origin
is `(ox, oy)`; `view->zoom`, the redraw and `Gui::checkKnifeValues` act on the
user interface only and are not modelled. -/
def crop (env : Env) (k : KnifeState) (s : UndoState) : KnifeState × UndoState :=
  if k.state = 3 then (k, s)
  else
    let s := Undo.push s
    let r := absrect s.bmp k.beginx k.beginy k.lastx k.lasty
    let k : KnifeState :=
      { k with beginx := r.1, beginy := r.2.1, lastx := r.2.2.1, lasty := r.2.2.2,
               state := 0, active := false }
    let w := (k.lastx - k.beginx) + 1
    let h := (k.lasty - k.beginy) + 1
    let w := if w < 1 then 1 else w
    let h := if h < 1 then 1 else h
    let temp := s.bmp.blit (Bitmap.create w h) k.beginx k.beginy 0 0 w h
    let s := newImage env s w h
    let s : UndoState := { s with bmp := temp.blit s.bmp 0 0 s.overscroll s.overscroll w h }
    (k, { s with ox := 0, oy := 0 })

/-- `inbox`: the point `(x, y)` lies in the rectangle with the corners `(x1, y1)`
and `(x2, y2)`, given in either order. -/
def inbox (x y x1 y1 x2 y2 : Int) : Bool :=
  let xa := if x1 > x2 then x2 else x1
  let xb := if x1 > x2 then x1 else x2
  let ya := if y1 > y2 then y2 else y1
  let yb := if y1 > y2 then y1 else y2
  decide (x ≥ xa ∧ x ≤ xb ∧ y ≥ ya ∧ y ≤ yb)

namespace Knife

/-- `Knife::push`, the pointer going down at `(imgx, imgy)` of the image. The
result is the knife, the overlay map `Project::map` and the working canvas
`Project::bmp` after the call; `ExtraMath::abs` is the absolute value and
`bmp->w / 2` the C++ quotient. -/
def push (k : KnifeState) (map : Map) (pbmp : Bitmap) (imgx imgy : Int) :
    KnifeState × Map × Bitmap :=
  if k.state = 0 then
    ({ k with beginx := imgx, beginy := imgy, lastx := imgx, lasty := imgy,
              state := 1, active := true }, map.clear 0, pbmp)
  else if k.state = 2 then
    if !k.drag_started && !k.resize_started then
      if inbox imgx imgy k.beginx k.beginy k.lastx k.lasty then
        ({ k with drag_started := true }, map, pbmp)
      else
        let k : KnifeState :=
          if imgx < k.beginx then
            { k with side := 0, offset := |imgx - k.beginx|, resize_started := true }
          else if imgx > k.lastx then
            { k with side := 1, offset := |imgx - k.lastx|, resize_started := true }
          else if imgy < k.beginy then
            { k with side := 2, offset := |imgy - k.beginy|, resize_started := true }
          else if imgy > k.lasty then
            { k with side := 3, offset := |imgy - k.lasty|, resize_started := true }
          else k
        ({ k with resize_started := true }, map, pbmp)
    else (k, map, pbmp)
  else if k.state = 3 then
    (k, map, k.bmp.blit pbmp 0 0 (imgx - Int.tdiv k.bmp.w 2) (imgy - Int.tdiv k.bmp.h 2)
      k.bmp.w k.bmp.h)
  else (k, map, pbmp)

/-- `Knife::drag`, the pointer moving from `(oldimgx, oldimgy)` to `(imgx, imgy)`
with the button down; `pbmp` is the working canvas `Project::bmp`. The result is
the knife after the call. `drawHandles` takes the corners by value and draws on
the overlay map and the stroke, `redraw` sets `active` to `false` and back to
`true`, and `Gui::checkKnifeValues` shows numbers: they change no variable of
the knife and are not modelled. -/
def drag (k : KnifeState) (pbmp : Bitmap) (imgx imgy oldimgx oldimgy : Int) : KnifeState :=
  if k.state = 1 then { k with lastx := imgx, lasty := imgy }
  else if k.state = 2 then
    if k.drag_started then
      let dx := imgx - oldimgx
      let dy := imgy - oldimgy
      let cl := pbmp.cl
      let cr := pbmp.cr
      let ct := pbmp.ct
      let cb := pbmp.cb
      if (k.beginx + dx ≥ cl) ∧ (k.beginx + dx ≤ cr) ∧
          (k.beginy + dy ≥ ct) ∧ (k.beginy + dy ≤ cb) ∧
          (k.lastx + dx ≥ cl) ∧ (k.lastx + dx ≤ cr) ∧
          (k.lasty + dy ≥ ct) ∧ (k.lasty + dy ≤ cb) then
        { k with beginx := k.beginx + dx, beginy := k.beginy + dy,
                 lastx := k.lastx + dx, lasty := k.lasty + dy }
      else k
    else if k.resize_started then
      if k.side = 0 then { k with beginx := imgx + k.offset }
      else if k.side = 1 then { k with lastx := imgx - k.offset }
      else if k.side = 2 then { k with beginy := imgy + k.offset }
      else if k.side = 3 then { k with lasty := imgy - k.offset }
      else k
    else k
  else k

end Knife

/-! ## Scaling (`Bitmap::scale`) -/

/-- The largest number below `2 ^ bits` that passes the test `ok`, found bit by
bit from the top, for a test that the small numbers pass and the large fail. -/
def searchMax (ok : Nat → Bool) : Nat → Nat → Nat
  | 0, acc => acc
  | n + 1, acc => searchMax ok n (if ok (acc + 2 ^ n) then acc + 2 ^ n else acc)

/-- `Gamma::fix`, the table `table_fix` of `Gamma.H`: entry `i` is
`std::pow((double)i / 255, 2.2) * 65535` cut to `int`. The entry is given here
by the exact value of that expression, whose integer part is the largest `n`
with `n^5 * 255^11 <= 65535^5 * i^11`; the rounding of double precision is not
modelled. The table has the entries `0..255`. -/
def gammaFix (val : Int) : Int :=
  (searchMax (fun n => decide (n ^ 5 * 255 ^ 11 ≤ 65535 ^ 5 * val.toNat ^ 11)) 16 0 : Nat)

/-- `Gamma::unfix`, the table `table_unfix` of `Gamma.H`: entry `i` is
`std::pow((double)i / 65535, (1.0 / 2.2)) * 255` cut to `int`, given here by the
exact value, whose integer part is the largest `n` with
`n^11 * 65535^5 <= 255^11 * i^5`. The table has the entries `0..65535`. -/
def gammaUnfix (val : Int) : Int :=
  (searchMax (fun n => decide (n ^ 11 * 65535 ^ 5 ≤ 255 ^ 11 * val.toNat ^ 5)) 8 0 : Nat)

/-- Modelled from the spec: `makeRgba` of `Inline.H`, which is not in `src/`.
Section 3 has a pixel hold "packed 32-bit color values (8-bit
red/green/blue/alpha channels)" and section 2 names the "channel pack/unpack":
the four channels are packed from the low byte up, red first, so that
`getRgba` reads red, green, blue and alpha as `channel c 0` to `channel c 3`. -/
def makeRgba (r g b a : Int) : Int :=
  ofU32 ((r % 256 + g % 256 * 256 + b % 256 * 65536 + a % 256 * 16777216).toNat)

/-- The conversion `(int)f` of a `float`: the fraction is dropped. -/
def truncQ (q : Rat) : Int := if 0 ≤ q then ⌊q⌋ else ⌈q⌉

/-- The loop `for(i = lo; i < lo + n; i++)` whose body can `break`: the body
returns `none` to leave the loop. -/
def forBreak {σ : Type} (body : Int → σ → Option σ) : Nat → Int → σ → σ
  | 0, _, s => s
  | n + 1, i, s =>
      match body i s with
      | none => s
      | some s2 => forBreak body n (i + 1) s2

namespace Bitmap

/-- The pixel `scale` computes from the four source cells `c[0..3]` and the
fractions `u`, `v`: the gamma-expanded red, green and blue and the plain alpha
are summed with the weights `f[0..3]`, the sums are cut to `int`, the colours are
mapped back, and the four values are packed. `fix` and `unfix` are the tables
`Gamma::fix` and `Gamma::unfix`. -/
def scalePixel (fix unfix : Int → Int) (c0 c1 c2 c3 : Int) (u v : Rat) : Int :=
  let f0 : Rat := (1 - u) * (1 - v)
  let f1 : Rat := u * (1 - v)
  let f2 : Rat := (1 - u) * v
  let f3 : Rat := u * v
  let sum := fun (g : Int → Int) =>
    (0 : Rat) + (g c0 : Rat) * f0 + (g c1 : Rat) * f1 + (g c2 : Rat) * f2 + (g c3 : Rat) * f3
  let r : Rat := sum (fun c => fix (channel c 0))
  let g : Rat := sum (fun c => fix (channel c 1))
  let b : Rat := sum (fun c => fix (channel c 2))
  let a : Rat := sum (fun c => channel c 3)
  let r : Rat := unfix (truncQ r)
  let g : Rat := unfix (truncQ g)
  let b : Rat := unfix (truncQ b)
  makeRgba (truncQ r) (truncQ g) (truncQ b) (truncQ a)

/-- `Bitmap::scale`: `src` is `this`, the result is the destination after the
call. A `float` is a rational number here and the arithmetic is exact: the
rounding of single precision is not modelled. The pointer `d` is the cell
`dest->row[dy + y] + dx + x`, and `c[0..3]` are the cells of the source pixels
`(sx + u1, sy + v1)`, `(sx + u2, sy + v1)`, `(sx + u1, sy + v2)`, `(sx + u2, sy + v2)`. -/
def scale (fix unfix : Int → Int) (src dest : Bitmap) : Bitmap :=
  let sx := src.cl
  let sy := src.ct
  let sw := src.cw
  let sh := src.ch
  let dx := dest.cl
  let dy := dest.ct
  let dw := dest.cw
  let dh := dest.ch
  let ax : Rat := (sw : Rat) / (dw : Rat)
  let ay : Rat := (sh : Rat) / (dh : Rat)
  if sw < 1 ∨ sh < 1 then dest
  else if dw < 1 ∨ dh < 1 then dest
  else
    { dest with data := (forBreak (fun y d =>
        let vv : Rat := (y : Rat) * ay
        let v1 : Int := truncQ vv
        let v : Rat := vv - (v1 : Rat)
        if sy + v1 ≥ src.h - 1 then none
        else
          let v2 := v1 + 1
          let v2 := if v2 ≥ sh then v2 - 1 else v2
          some (forBreak (fun x d =>
            let uu : Rat := (x : Rat) * ax
            let u1 : Int := truncQ uu
            let u : Rat := uu - (u1 : Rat)
            if sx + u1 ≥ src.w - 1 then none
            else
              let u2 := u1 + 1
              let u2 := if u2 ≥ sw then u2 - 1 else u2
              some (setCell d (dest.w * (dy + y) + dx + x)
                (scalePixel fix unfix
                  (src.data (src.w * (sy + v1) + sx + u1))
                  (src.data (src.w * (sy + v1) + sx + u2))
                  (src.data (src.w * (sy + v2) + sx + u1))
                  (src.data (src.w * (sy + v2) + sx + u2)) u v)))
            dw.toNat 0 d))
        dh.toNat 0 dest.data) }

end Bitmap

/-! ## Specification vocabulary -/

namespace Bitmap

/-- The pixel `(x, y)` lies in the clip rectangle `[cl, cr] x [ct, cb]`. -/
def inClip (b : Bitmap) (x y : Int) : Prop :=
  b.cl ≤ x ∧ x ≤ b.cr ∧ b.ct ≤ y ∧ y ≤ b.cb

instance (b : Bitmap) (x y : Int) : Decidable (b.inClip x y) := by
  unfold inClip; infer_instance

/-- The clip rectangle is a rectangle of pixels of the buffer. -/
def ClipInside (b : Bitmap) : Prop :=
  0 ≤ b.cl ∧ b.cl ≤ b.cr ∧ b.cr < b.w ∧ 0 ≤ b.ct ∧ b.ct ≤ b.cb ∧ b.cb < b.h

instance (b : Bitmap) : Decidable b.ClipInside := by
  unfold ClipInside; infer_instance

/-- The box spanned by the corners `(x1, y1)` and `(x2, y2)` does not meet the
clip rectangle: it lies to the left, to the right, above or below it. -/
def BoxOutside (b : Bitmap) (x1 y1 x2 y2 : Int) : Prop :=
  (x1 < b.cl ∧ x2 < b.cl) ∨ (x1 > b.cr ∧ x2 > b.cr) ∨
  (y1 < b.ct ∧ y2 < b.ct) ∨ (y1 > b.cb ∧ y2 > b.cb)

instance (b : Bitmap) (x1 y1 x2 y2 : Int) : Decidable (b.BoxOutside x1 y1 x2 y2) := by
  unfold BoxOutside; infer_instance

/-- The clipping `blit` applies along one axis, in the order of the source:
`s`, `d`, `n` are the source offset, the destination offset and the extent,
`srcN` the source size and `[cl, cr]` the destination clip range. -/
def blitAxis (srcN cl cr s d n : Int) : Int × Int × Int :=
  let n := if s < 0 then n + s else n
  let d := if s < 0 then d - s else d
  let s := if s < 0 then 0 else s
  let n := if s + n > srcN then srcN - s else n
  let n := if d < cl then n + (d - cl) else n
  let s := if d < cl then s - (d - cl) else s
  let d := if d < cl then cl else d
  let n := if d + n - 1 > cr then cr - d + 1 else n
  (s, d, n)

/-- The destination pixels `blit` is to copy into: `(X, Y)` lies in the
destination clip rectangle and in `[dx, dx+ww) x [dy, dy+hh)`, and its source
pixel `(X - dx + sx, Y - dy + sy)` lies in the source buffer. -/
def BlitRegion (src dest : Bitmap) (sx sy dx dy ww hh X Y : Int) : Prop :=
  dest.inClip X Y ∧ (dx ≤ X ∧ X < dx + ww) ∧ (dy ≤ Y ∧ Y < dy + hh) ∧
    (0 ≤ X - dx + sx ∧ X - dx + sx < src.w) ∧ (0 ≤ Y - dy + sy ∧ Y - dy + sy < src.h)

instance (src dest : Bitmap) (sx sy dx dy ww hh X Y : Int) :
    Decidable (BlitRegion src dest sx sy dx dy ww hh X Y) := by
  unfold BlitRegion; infer_instance

/-- The buffer `d` is the buffer `d0` of width `w` in which every pixel of the
set `S` holds what `d0` holds at its image under `(σx, σy)`, and every other pixel
holds what it held. -/
def Moved (w : Int) (σx σy : Int → Int → Int) (S : Int → Int → Prop)
    (d0 d : Int → Int) : Prop :=
  ∀ X Y : Int, 0 ≤ X → X < w →
    (S X Y → d (w * Y + X) = d0 (w * σy X Y + σx X Y)) ∧
    (¬ S X Y → d (w * Y + X) = d0 (w * Y + X))

/-- The point `(x, y)` lies in the box spanned by `(x1, y1)` and `(x2, y2)`. -/
def InBox (x1 y1 x2 y2 x y : Int) : Prop :=
  min x1 x2 ≤ x ∧ x ≤ max x1 x2 ∧ min y1 y2 ≤ y ∧ y ≤ max y1 y2

instance (x1 y1 x2 y2 x y : Int) : Decidable (InBox x1 y1 x2 y2 x y) := by
  unfold InBox; infer_instance

/-- Invariant of the loop `while(x1 != x2)` of `line`: after `k` iterations, `j`
of which stepped the minor axis (`j <= k`), the state is at `(x1 + k*inx, y1 + j*iny)`
and the error term is `2*DY*(k+1) - DX - 2*DX*j`, at least `2*DY - 2*DX`. -/
def LineInvX (x1 y1 inx iny DX DY : Int) (s : LineState) : Prop :=
  ∃ k j : Int, 0 ≤ k ∧ k ≤ DX ∧ 0 ≤ j ∧ j ≤ k ∧
    s.x1 = x1 + k * inx ∧ s.y1 = y1 + j * iny ∧
    s.e = 2 * (DY * k) + 2 * DY - DX - 2 * (DX * j) ∧ 2 * DY - 2 * DX ≤ s.e

/-- Invariant of the loop `while(y1 != y2)` of `line`, the mirror image of
`LineInvX`. -/
def LineInvY (x1 y1 inx iny DX DY : Int) (s : LineState) : Prop :=
  ∃ k j : Int, 0 ≤ k ∧ k ≤ DY ∧ 0 ≤ j ∧ j ≤ k ∧
    s.y1 = y1 + k * iny ∧ s.x1 = x1 + j * inx ∧
    s.e = 2 * (DX * k) + 2 * DX - DY - 2 * (DY * j) ∧ 2 * DX - 2 * DY ≤ s.e

/-- `b2` is `b` with some cells of clip pixels rewritten: every field but the
buffer is the same, and a cell that is not `row[y] + x` for a clip pixel
`(x, y)` keeps its content. -/
def OnlyClip (b b2 : Bitmap) : Prop :=
  ∃ d : Int → Int, b2 = { b with data := d } ∧
    ∀ i : Int, (∀ x y : Int, b.inClip x y → i ≠ b.w * y + x) → d i = b.data i

/-- `b2` has the geometry of `b` and the same content in every pixel of the
buffer that lies outside the clip rectangle. -/
def SameOutsideClip (b b2 : Bitmap) : Prop :=
  b2.w = b.w ∧ b2.h = b.h ∧ b2.cl = b.cl ∧ b2.cr = b.cr ∧ b2.ct = b.ct ∧ b2.cb = b.cb ∧
    ∀ X Y : Int, 0 ≤ X → X < b.w → 0 ≤ Y → Y < b.h → ¬ b.inClip X Y →
      b2.pix X Y = b.pix X Y

/-- A drawing call that turned `b` into `b2` respected the clip rectangle: the
pixels outside it are unchanged, and the canvas is unchanged altogether when
`outside` holds, which says that the coordinates of the call lie entirely
outside the clip rectangle. -/
def RespectsClip (b b2 : Bitmap) (outside : Prop) : Prop :=
  SameOutsideClip b b2 ∧ (outside → b2 = b)

/-- The image area of a `w x h` canvas with a margin of `ov` pixels: the clip
rectangle `Bitmap(w - 2*ov, h - 2*ov, ov)` ends with. -/
def InImage (ov w h X Y : Int) : Prop :=
  ov ≤ X ∧ X ≤ w - ov - 1 ∧ ov ≤ Y ∧ Y ≤ h - ov - 1

instance (ov w h X Y : Int) : Decidable (InImage ov w h X Y) := by
  unfold InImage; infer_instance

/-- The canvas `pop` and `popRedo` install for the snapshot `T`: a new image of
the size of `T` into which `T` is copied with `blit`. -/
def restore (env : Env) (ov : Int) (T : Bitmap) : Bitmap :=
  T.blit (createOverscroll env (T.w - ov * 2) (T.h - ov * 2) ov) 0 0 0 0 T.w T.h

/-- The working canvas `b` shows the canvas `S` again: it has the width and
height of `S`, the pixel of `S` at every position of the image area, and the
pixel of a newly created image of that size at every position of the margin. -/
def Restored (env : Env) (ov : Int) (S b : Bitmap) : Prop :=
  b.w = S.w ∧ b.h = S.h ∧
    ∀ X Y : Int, 0 ≤ X → X < S.w → 0 ≤ Y → Y < S.h →
      b.pix X Y = if InImage ov S.w S.h X Y then S.pix X Y
        else (createOverscroll env (S.w - ov * 2) (S.h - ov * 2) ov).pix X Y

/-- A pixel of the clip rectangle whose colour is in range of `old_color` at
tolerance 0. -/
def Elig (b : Bitmap) (old_color X Y : Int) : Prop :=
  b.inClip X Y ∧ (inRange (b.pix X Y) old_color 0).1 = true

instance (b : Bitmap) (old_color X Y : Int) : Decidable (Elig b old_color X Y) := by
  unfold Elig; infer_instance

/-- The pixels `(x, y)` and `(x2, y2)` are neighbours in a row or in a column. -/
def Adj (x y x2 y2 : Int) : Prop :=
  (y2 = y ∧ (x2 = x + 1 ∨ x2 = x - 1)) ∨ (x2 = x ∧ (y2 = y + 1 ∨ y2 = y - 1))

/-- The 4-connected region of the seed `(sx, sy)`: the eligible pixels joined to
the seed by a chain of neighbouring eligible pixels. It is the largest
4-connected set of eligible pixels that contains the seed. -/
inductive Region (b : Bitmap) (old_color sx sy : Int) : Int → Int → Prop where
  | seed : Elig b old_color sx sy → Region b old_color sx sy sx sy
  | step {x y x2 y2 : Int} : Region b old_color sx sy x y → Adj x y x2 y2 →
      Elig b old_color x2 y2 → Region b old_color sx sy x2 y2

/-- An eligible pixel that the fill has not reached yet; `F` is the set of the
pixels filled so far. -/
def Unf (b : Bitmap) (old_color : Int) (F : Finset (Int × Int)) (X Y : Int) : Prop :=
  Elig b old_color X Y ∧ (X, Y) ∉ F

/-- The stack entry `i` covers the pixel `(X, Y)`: it lies in row `Y` and every
pixel from it to `(X, Y)` is eligible and not filled yet. -/
def CoveredBy (st : Stack) (b : Bitmap) (old_color : Int) (F : Finset (Int × Int))
    (i X Y : Int) : Prop :=
  st.stack_y i = Y ∧
    ∀ x : Int, min (st.stack_x i) X ≤ x → x ≤ max (st.stack_x i) X → Unf b old_color F x Y

/-- Some entry of the stack covers the pixel `(X, Y)`. -/
def Covered (st : Stack) (b : Bitmap) (old_color : Int) (F : Finset (Int × Int))
    (X Y : Int) : Prop :=
  ∃ i : Int, 1 ≤ i ∧ i ≤ st.sp ∧ CoveredBy st b old_color F i X Y

/-- The copy `temp` and the blending `map` record the set `F` of filled pixels
of the canvas `b`: `temp` is a `w x h` canvas with the full clip rectangle that
holds `new_color` on `F` and the pixels of `b` elsewhere; `map` is a `w x h` map
whose row table holds the true offsets and that holds 0 on `F` and 255
elsewhere; and `F` lies in the clip rectangle of `b`. -/
structure FillAbs (b : Bitmap) (new_color : Int) (F : Finset (Int × Int))
    (temp : Bitmap) (map : Map) : Prop where
  tw : temp.w = b.w
  tcl : temp.cl = 0
  tcr : temp.cr = b.w - 1
  tct : temp.ct = 0
  tcb : temp.cb = b.h - 1
  tpix : ∀ X Y : Int, 0 ≤ X → X < b.w → 0 ≤ Y → Y < b.h →
    temp.data (b.w * Y + X) = if (X, Y) ∈ F then new_color else b.data (b.w * Y + X)
  mw : map.w = b.w
  mh : map.h = b.h
  mrow : ∀ Y : Int, 0 ≤ Y → Y < b.h → map.row Y = b.w * Y
  mpix : ∀ X Y : Int, 0 ≤ X → X < b.w → 0 ≤ Y → Y < b.h →
    map.data (b.w * Y + X) = if (X, Y) ∈ F then 0 else 255
  fclip : ∀ p ∈ F, b.inClip p.1 p.2

/-- The stack `st2` is the stack `st` with entries pushed on top, each of which
satisfies `P`. -/
def StackExt (st st2 : Stack) (P : Int → Int → Prop) : Prop :=
  st.sp ≤ st2.sp ∧
  (∀ i : Int, 1 ≤ i → i ≤ st.sp →
    st2.stack_x i = st.stack_x i ∧ st2.stack_y i = st.stack_y i) ∧
  (∀ i : Int, st.sp < i → i ≤ st2.sp → P (st2.stack_x i) (st2.stack_y i))

/-- The invariant of the main loop of `fill`; `F` is the set of the pixels filled
so far. The copy and the map record `F`; `F` and the stack entries lie in the
region of the seed; no pixel next to a filled pixel in its row is still to be
filled; a pixel above or below a filled pixel that is still to be filled is
covered by a stack entry; the seed is filled or covered; and the stack holds at
most one entry more than twice the number of filled pixels. -/
structure FillInv (b : Bitmap) (new_color old_color sx sy : Int) (F : Finset (Int × Int))
    (s : FillState) : Prop where
  abs : FillAbs b new_color F s.temp s.map
  sub : ∀ p ∈ F, Region b old_color sx sy p.1 p.2
  ent : ∀ i : Int, 1 ≤ i → i ≤ s.stack.sp →
    Region b old_color sx sy (s.stack.stack_x i) (s.stack.stack_y i)
  hmax : ∀ p ∈ F, ∀ X : Int, (X = p.1 + 1 ∨ X = p.1 - 1) → ¬ Unf b old_color F X p.2
  cov : ∀ p ∈ F, ∀ Y : Int, (Y = p.2 + 1 ∨ Y = p.2 - 1) → Unf b old_color F p.1 Y →
    Covered s.stack b old_color F p.1 Y
  seed : (sx, sy) ∈ F ∨ Covered s.stack b old_color F sx sy
  sp0 : 0 ≤ s.stack.sp
  pot : s.stack.sp ≤ 2 * (F.card : Int) + 1

/-- The 10 x 10 canvas of colour 0 with the rectangle `[2,2]-[5,5]` of colour 10,
drawn by `clear` and `rectfill` under a replacing blend. -/
def demoCanvas : Bitmap :=
  ((create 10 10).clear 0).rectfill (fun _ c _ => c) 2 2 5 5 10 0

/-- A 2 x 1 canvas whose pixels hold the colours 0 and 1. -/
def nearCanvas : Bitmap :=
  { (create 2 1) with data := fun i => if i = 1 then 1 else 0 }

/-- A stack with no entry. -/
def emptyStk : Stack := { stack_x := fun _ => 0, stack_y := fun _ => 0, sp := 0 }

end Bitmap

namespace Bitmap

/-- The 4 x 4 canvas of colour 0 with the clip rectangle `[1,2] x [1,2]`. -/
def insetCanvas : Bitmap := (create 4 4).setClip 1 1 2 2

/-- The 4 x 4 canvas of colour 0 whose clip rectangle is the pixel `(1, 1)`. -/
def dotCanvas : Bitmap := (create 4 4).setClip 1 1 1 1

end Bitmap

/-- A project whose working canvas is a new 3 x 2 image with a margin of 1 and
a replacing blend, with an initialised history. -/
def cropProject : UndoState :=
  { Undo.marginState with bmp := Bitmap.createOverscroll Undo.plainEnv 3 2 1 }

/-- A committed selection with the corners `(3, 2)` and `(1, 1)`, given in
inverted order. -/
def cropKnife : KnifeState :=
  { beginx := 3, beginy := 2, lastx := 1, lasty := 1, state := 2, active := true,
    drag_started := false, resize_started := false, side := 0, offset := 0,
    bmp := Bitmap.create 8 8 }

/-- A sequence of pointer movements `(imgx, imgy, oldimgx, oldimgy)`, each given
to `Knife::drag` in turn. -/
def dragAll (pbmp : Bitmap) : List (Int × Int × Int × Int) → KnifeState → KnifeState
  | [], k => k
  | m :: ms, k => dragAll pbmp ms (Knife.drag k pbmp m.1 m.2.1 m.2.2.1 m.2.2.2)

/-- A committed selection with the corners `(1, 1)` and `(2, 2)`, no move and no
resize in progress. -/
def selKnife : KnifeState :=
  { beginx := 1, beginy := 1, lastx := 2, lasty := 2, state := 2, active := true,
    drag_started := false, resize_started := false, side := 0, offset := 0,
    bmp := Bitmap.create 8 8 }

/-- The stack holds the coordinate pairs of the list `l`, the oldest first:
`sp` is their number and pair `i` (from 0) is in slot `i + 1`. -/
def Holds (st : Stack) (l : List (Int × Int)) : Prop :=
  st.sp = l.length ∧
    ∀ (i : Nat) (p : Int × Int), l[i]? = some p →
      st.stack_x ((i : Int) + 1) = p.1 ∧ st.stack_y ((i : Int) + 1) = p.2

/-- The stack after `n` more calls `push(0, 0)`, `none` if one of them fails. -/
def pushZeros : Nat → Stack → Option Stack
  | 0, st => some st
  | n + 1, st => (pushZeros n st).bind (fun s => s.push 0 0)

namespace Bitmap

/-- The 1 x 2 canvas of colour 0. -/
def pingCanvas : Bitmap := create 1 2

/-- The 16 x 17 canvas whose first row holds the colour 0 and whose other rows
hold the colour 7. -/
def aliasCanvas : Bitmap :=
  { (create 16 17) with data := fun i => if i < 16 then 0 else 7 }


/-- What every iteration of the main loop of `fill(0, 0, 1, 0, 0)` on the
1 x 2 canvas of colour 0 finds: the copy is 1 x 2 with both pixels of colour 0
or 1, and the stack holds one pair, `(0, 0)` or `(0, 1)`. -/
def PingInv (s : FillState) : Prop :=
  s.temp.w = 1 ∧ s.temp.cl = 0 ∧ s.temp.cr = 0 ∧ s.temp.ct = 0 ∧ s.temp.cb = 1 ∧
  (s.temp.data 0 = 0 ∨ s.temp.data 0 = 1) ∧ (s.temp.data 1 = 0 ∨ s.temp.data 1 = 1) ∧
  s.stack.sp = 1 ∧ s.stack.stack_x 1 = 0 ∧
  (s.stack.stack_y 1 = 0 ∨ s.stack.stack_y 1 = 1)

end Bitmap

/-- The loops of `Bitmap::line` with the canvas left out: the positions passed
to `setpixelSolid` so far, the running point `(x1, y1)` and the error term. -/
structure TraceState where
  pts : List (Int × Int)
  x1 : Int
  y1 : Int
  e : Int

namespace Bitmap

/-- Body of the loop `while(x1 != x2)` of `Bitmap::line`, where the call
`setpixelSolid(x1, y1, c, t)` is recorded as the position `(x1, y1)`. -/
def traceStepX (inx iny dx dy : Int) (s : TraceState) : TraceState :=
  let y1 := if s.e ≥ 0 then s.y1 + iny else s.y1
  let e := if s.e ≥ 0 then s.e - dx else s.e
  { pts := s.pts ++ [(s.x1, s.y1)], x1 := s.x1 + inx, y1 := y1, e := e + dy }

/-- Body of the loop `while(y1 != y2)` of `Bitmap::line`, recording the call of
`setpixelSolid` in the same way. -/
def traceStepY (inx iny dx dy : Int) (s : TraceState) : TraceState :=
  let x1 := if s.e ≥ 0 then s.x1 + inx else s.x1
  let e := if s.e ≥ 0 then s.e - dy else s.e
  { pts := s.pts ++ [(s.x1, s.y1)], x1 := x1, y1 := s.y1 + iny, e := e + dx }

/-- The positions that `Bitmap::line` passes to `setpixelSolid`, in the order of
the calls: the statements of `line` with every call recorded and no canvas.
`none` when `fuel` iterations do not finish the loop. -/
def linePoints (fuel : Nat) (x1 y1 x2 y2 : Int) : Option (List (Int × Int)) :=
  let dx := x2 - x1
  let dy := y2 - y1
  let inx : Int := if dx > 0 then 1 else -1
  let iny : Int := if dy > 0 then 1 else -1
  let dx := |dx|
  let dy := |dy|
  let r :=
    if dx ≥ dy then
      let dy := 2 * dy
      let e := dy - dx
      let dx := 2 * dx
      whileLoop (fun s => decide (s.x1 ≠ x2)) (traceStepX inx iny dx dy) fuel
        { pts := [], x1 := x1, y1 := y1, e := e }
    else
      let dx := 2 * dx
      let e := dx - dy
      let dy := 2 * dy
      whileLoop (fun s => decide (s.y1 ≠ y2)) (traceStepY inx iny dx dy) fuel
        { pts := [], x1 := x1, y1 := y1, e := e }
  r.map (fun s => s.pts ++ [(s.x1, s.y1)])

/-- The calls `setpixelSolid(x, y, c, t)` for the positions of a list, in order. -/
def plotAll (blend : Int → Int → Int → Int) (c t : Int) (b : Bitmap)
    (pts : List (Int × Int)) : Bitmap :=
  pts.foldl (fun b p => b.setpixelSolid blend p.1 p.2 c t) b

end Bitmap

/-- What the `dx >= dy` loop of `line` keeps, for the list `L` of the positions
recorded so far followed by the running point: after `k` iterations, `j` of
which stepped the minor axis, `L` has `k + 1` entries, starts at `(x1, y1)`,
moves by `inx` along x and by 0 or `iny` along y at each step, and its entries
have the x coordinates `x1 + i * inx` for `i <= k`, each once. -/
def TraceInvX (x1 y1 inx iny DX DY : Int) (s : TraceState) : Prop :=
  ∃ k j : Int, 0 ≤ k ∧ k ≤ DX ∧ 0 ≤ j ∧ j ≤ k ∧
    s.x1 = x1 + k * inx ∧ s.y1 = y1 + j * iny ∧
    s.e = 2 * (DY * k) + 2 * DY - DX - 2 * (DX * j) ∧ 2 * DY - 2 * DX ≤ s.e ∧
    (DX = 0 ∨ s.e < 2 * DY) ∧
    ((s.pts ++ [(s.x1, s.y1)]).length : Int) = k + 1 ∧
    (s.pts ++ [(s.x1, s.y1)]).head? = some (x1, y1) ∧
    (s.pts ++ [(s.x1, s.y1)]).Chain'
      (fun p q => q.1 = p.1 + inx ∧ (q.2 = p.2 ∨ q.2 = p.2 + iny)) ∧
    (∀ p ∈ s.pts ++ [(s.x1, s.y1)], ∃ i : Int, 0 ≤ i ∧ i ≤ k ∧ p.1 = x1 + i * inx) ∧
    (s.pts ++ [(s.x1, s.y1)]).Nodup

/-- The mirror image of `TraceInvX` for the `dx < dy` loop. -/
def TraceInvY (x1 y1 inx iny DX DY : Int) (s : TraceState) : Prop :=
  ∃ k j : Int, 0 ≤ k ∧ k ≤ DY ∧ 0 ≤ j ∧ j ≤ k ∧
    s.y1 = y1 + k * iny ∧ s.x1 = x1 + j * inx ∧
    s.e = 2 * (DX * k) + 2 * DX - DY - 2 * (DY * j) ∧ 2 * DX - 2 * DY ≤ s.e ∧
    (DY = 0 ∨ s.e < 2 * DX) ∧
    ((s.pts ++ [(s.x1, s.y1)]).length : Int) = k + 1 ∧
    (s.pts ++ [(s.x1, s.y1)]).head? = some (x1, y1) ∧
    (s.pts ++ [(s.x1, s.y1)]).Chain'
      (fun p q => q.2 = p.2 + iny ∧ (q.1 = p.1 ∨ q.1 = p.1 + inx)) ∧
    (∀ p ∈ s.pts ++ [(s.x1, s.y1)], ∃ i : Int, 0 ≤ i ∧ i ≤ k ∧ p.2 = y1 + i * iny) ∧
    (s.pts ++ [(s.x1, s.y1)]).Nodup

/-- The values of a C++ `int`: the cells of a pixel buffer hold nothing else. -/
def Word (a : Int) : Prop := -2147483648 ≤ a ∧ a < 2147483648

instance (a : Int) : Decidable (Word a) := by
  unfold Word; infer_instance

/-- The buffer transformation `T` XORs every cell with a fixed 32-bit mask that
does not depend on the content of the buffer. -/
def XorMap (T : (Int → Int) → Int → Int) : Prop :=
  ∃ m : Int → Nat, (∀ i, m i < 4294967296) ∧
    ∀ d : Int → Int, (∀ i, Word (d i)) → ∀ i, T d i = ofU32 (toU32 (d i) ^^^ m i)

/-- The operation `f` leaves every field of a canvas but the buffer as it is and
XORs the buffer with masks fixed by those fields. -/
def XorOp (f : Bitmap → Bitmap) : Prop :=
  ∀ b : Bitmap, ∃ T, XorMap T ∧ ∀ d : Int → Int, f { b with data := d } = { b with data := T d }

namespace Bitmap

/-- A 2 x 1 canvas whose pixels hold the colours 7 and 0. -/
def farCanvas : Bitmap :=
  { (create 2 1) with data := fun i => if i = 0 then 7 else 0 }

/-- A blend function that adds the colour to the pixel, so that the number of
times a pixel was composited can be read from its value. -/
def addBlend : Int → Int → Int → Int := fun p c _ => p + c


/-- The 8191 x 2 canvas whose first row holds the colour 0 and whose second
row holds 0 in the even columns and 7 in the odd ones: a comb of 4096 teeth. -/
def combCanvas : Bitmap :=
  { (create 8191 2) with data := fun i => if i < 8191 then 0 else if i % 2 = 1 then 0 else 7 }

/-- What the scan of row 0 of the comb finds at column `x`: the copy has the
size and the clip rectangle of the canvas, its first row is untouched from
column `x` on, its second row is the comb, and the stack holds one pair for each
tooth passed. -/
def CombInv (x : Int) (s : FillState) : Prop :=
  (s.temp.w = 8191 ∧ s.temp.cl = 0 ∧ s.temp.cr = 8190 ∧ s.temp.ct = 0 ∧ s.temp.cb = 1) ∧
  (∀ X : Int, x ≤ X → X < 8191 → s.temp.data X = 0) ∧
  (∀ X : Int, 0 ≤ X → X < 8191 → s.temp.data (8191 + X) = if X % 2 = 0 then 0 else 7) ∧
  s.stack.sp = (x + 1) / 2

end Bitmap

/-- The pixel `(X, Y)` is on the outline of the rectangle with the corners
`(xa, ya)` and `(xb, yb)`: inside it, in its first or last column or row. -/
def OnOutline (xa ya xb yb X Y : Int) : Prop :=
  (xa ≤ X ∧ X ≤ xb ∧ ya ≤ Y ∧ Y ≤ yb) ∧ (X = xa ∨ X = xb ∨ Y = ya ∨ Y = yb)

instance (xa ya xb yb X Y : Int) : Decidable (OnOutline xa ya xb yb X Y) := by
  unfold OnOutline; infer_instance

/-- A call on the history: one of the four entry points `Undo::init`, `push`,
`pop` and `popRedo`, or, between two of them, any change of the working canvas
and of the view origin by the rest of the program. -/
inductive UndoOp where
  | init
  | push
  | pop
  | popRedo
  | edit (b : Bitmap) (ox oy : Int)

namespace Undo

/-- One call on the history. -/
def applyOp (env : Env) : UndoOp → UndoState → UndoState
  | UndoOp.init, s => init s
  | UndoOp.push, s => push s
  | UndoOp.pop, s => pop env s
  | UndoOp.popRedo, s => popRedo env s
  | UndoOp.edit b ox oy, s => { s with bmp := b, ox := ox, oy := oy }

/-- A sequence of calls on the history, the first of the list first. -/
def runOps (env : Env) : List UndoOp → UndoState → UndoState
  | [], s => s
  | op :: ops, s => runOps env ops (applyOp env op s)

/-- Both cursors are between -1 and 9. -/
def CursorsOk (s : UndoState) : Prop :=
  (-1 ≤ s.undo_current ∧ s.undo_current ≤ 9) ∧ (-1 ≤ s.redo_current ∧ s.redo_current ≤ 9)

instance (s : UndoState) : Decidable (CursorsOk s) := by
  unfold CursorsOk; infer_instance

/-- Two vectors of snapshots hold the same snapshots in the slots 0 to 9. -/
def RingEq (st st2 : Int → Bitmap) : Prop := ∀ j : Int, 0 ≤ j → j ≤ 9 → st j = st2 j

/-- Two vectors of snapshots hold the same snapshots outside the slots 0 to 9. -/
def OutsideEq (st st2 : Int → Bitmap) : Prop := ∀ j : Int, j < 0 ∨ 9 < j → st j = st2 j

/-- Two states of the history that differ at most in what is stored outside the
slots 0 to 9 of the two vectors. -/
def SameRing (s s2 : UndoState) : Prop :=
  s.undo_current = s2.undo_current ∧ s.redo_current = s2.redo_current ∧
  s.bmp = s2.bmp ∧ s.overscroll = s2.overscroll ∧ s.ox = s2.ox ∧ s.oy = s2.oy ∧
  RingEq s.undo_stack s2.undo_stack ∧ RingEq s.redo_stack s2.redo_stack

/-- What a call that uses the slots 0 to 9 only does from a state with both
cursors between -1 and 9: it keeps the cursors there, it leaves every other slot
of both vectors as it is (no write outside 0..9), and its result in the slots
0 to 9 and in every other part of the state does not depend on what the other
slots hold (no read outside 0..9). -/
def UsesRingOnly (f : UndoState → UndoState) : Prop :=
  ∀ s : UndoState, CursorsOk s →
    CursorsOk (f s) ∧
    OutsideEq s.undo_stack (f s).undo_stack ∧ OutsideEq s.redo_stack (f s).redo_stack ∧
    ∀ s2 : UndoState, SameRing s s2 → SameRing (f s) (f s2)

end Undo

namespace Bitmap

/-- `traceStepX` with every sum and difference stored in an `int`. -/
def traceStepX32 (inx iny dx dy : Int) (s : TraceState) : TraceState :=
  let y1 := if s.e ≥ 0 then wrap32 (s.y1 + iny) else s.y1
  let e := if s.e ≥ 0 then wrap32 (s.e - dx) else s.e
  { pts := s.pts ++ [(s.x1, s.y1)], x1 := wrap32 (s.x1 + inx), y1 := y1, e := wrap32 (e + dy) }

/-- `traceStepY` with every sum and difference stored in an `int`. -/
def traceStepY32 (inx iny dx dy : Int) (s : TraceState) : TraceState :=
  let x1 := if s.e ≥ 0 then wrap32 (s.x1 + inx) else s.x1
  let e := if s.e ≥ 0 then wrap32 (s.e - dy) else s.e
  { pts := s.pts ++ [(s.x1, s.y1)], x1 := x1, y1 := wrap32 (s.y1 + iny), e := wrap32 (e + dx) }

/-- The positions that `line32` passes to `setpixelSolid`, in the order of the
calls: the statements of `line32` with every call recorded and no canvas. -/
def linePoints32 (fuel : Nat) (x1 y1 x2 y2 : Int) : Option (List (Int × Int)) :=
  let dx := wrap32 (x2 - x1)
  let dy := wrap32 (y2 - y1)
  let inx : Int := if dx > 0 then 1 else -1
  let iny : Int := if dy > 0 then 1 else -1
  let dx := wrap32 |dx|
  let dy := wrap32 |dy|
  let r :=
    if dx ≥ dy then
      let dy := wrap32 (2 * dy)
      let e := wrap32 (dy - dx)
      let dx := wrap32 (2 * dx)
      whileLoop (fun s => decide (s.x1 ≠ x2)) (traceStepX32 inx iny dx dy) fuel
        { pts := [], x1 := x1, y1 := y1, e := e }
    else
      let dx := wrap32 (2 * dx)
      let e := wrap32 (dx - dy)
      let dy := wrap32 (2 * dy)
      whileLoop (fun s => decide (s.y1 ≠ y2)) (traceStepY32 inx iny dx dy) fuel
        { pts := [], x1 := x1, y1 := y1, e := e }
  r.map (fun s => s.pts ++ [(s.x1, s.y1)])

/-- The magnitudes for which the sums and differences `blit` forms stay values
of `int`: at most `2^28`. -/
def Small (v : Int) : Prop := -268435456 ≤ v ∧ v ≤ 268435456

instance (v : Int) : Decidable (Small v) := by
  unfold Small; infer_instance

/-- A 4 x 2 canvas whose cells hold 11, 12, ..., 18, row by row. -/
def countCanvas : Bitmap :=
  { (create 4 2) with data := fun i => 11 + i }

/-- A 4 x 1 canvas whose cells hold 11, 12, 13, 14. -/
def rowCanvas : Bitmap :=
  { (create 4 1) with data := fun i => 11 + i }

/-- The clipping of `blitClip32` along one axis: `blitAxis` with every sum and
difference stored in an `int`. -/
def blitAxis32 (srcN cl cr s d n : Int) : Int × Int × Int :=
  let n := if s < 0 then wrap32 (n + s) else n
  let d := if s < 0 then wrap32 (d - s) else d
  let s := if s < 0 then 0 else s
  let n := if wrap32 (s + n) > srcN then wrap32 (srcN - s) else n
  let n := if d < cl then wrap32 (n + wrap32 (d - cl)) else n
  let s := if d < cl then wrap32 (s - wrap32 (d - cl)) else s
  let d := if d < cl then cl else d
  let n := if wrap32 (wrap32 (d + n) - 1) > cr then wrap32 (wrap32 (cr - d) + 1) else n
  (s, d, n)

/-- A 2 x 3 canvas whose cells hold 1, 2, ..., 6, row by row. -/
def tallCanvas : Bitmap :=
  { (create 2 3) with data := fun i => 1 + i }

end Bitmap

namespace Undo

/-- The 3 x 3 working canvas with an overscroll margin of 1 in which every
pixel, margin included, holds `n`; its image area is the pixel `(1, 1)`. -/
def flatCanvas (n : Nat) : Bitmap :=
  { (Bitmap.createOverscroll plainEnv 1 1 1) with data := fun _ => (n : Int) }

end Undo

/-! ## Loop lemmas -/

theorem forLoop_succ {σ : Type} (body : Int → σ → σ) (n : Nat) (i : Int) (s : σ) :
    forLoop body (n + 1) i s = forLoop body n (i + 1) (body i s) := rfl

/-- An invariant kept by every iteration is kept by the loop. -/
theorem forLoop_inv {σ : Type} (body : Int → σ → σ) (P : σ → Prop) :
    ∀ (n : Nat) (lo : Int) (s : σ), P s →
      (∀ i s, lo ≤ i → i < lo + n → P s → P (body i s)) → P (forLoop body n lo s)
  | 0, _, _, h, _ => h
  | n + 1, lo, s, h, step => by
      rw [forLoop_succ]
      apply forLoop_inv body P n (lo + 1) _ (step lo s le_rfl (by push_cast; omega) h)
      intro i s hi hi2 hs
      exact step i s (by omega) (by push_cast; omega) hs

/-- A loop that rewrites the consecutive cells `base + lo, ..., base + lo + n - 1`,
each from its own old content. -/
theorem forLoop_cells (f : Int → Int → Int) (base : Int) :
    ∀ (n : Nat) (lo : Int) (d : Int → Int) (i : Int),
      forLoop (fun x d => setCell d (base + x) (f x (d (base + x)))) n lo d i
        = if lo ≤ i - base ∧ i - base < lo + n then f (i - base) (d i) else d i
  | 0, lo, d, i => by
      simp only [forLoop]
      rw [if_neg]; push_cast; omega
  | n + 1, lo, d, i => by
      rw [forLoop_succ, forLoop_cells f base n (lo + 1)]
      simp only [setCell]
      by_cases h1 : i = base + lo
      · subst h1
        have : ¬ (lo + 1 ≤ base + lo - base ∧ base + lo - base < lo + 1 + (n : Int)) := by omega
        rw [if_neg this, if_pos rfl, if_pos (by push_cast; omega)]
        congr 1; omega
      · rw [if_neg h1]
        by_cases h2 : lo + 1 ≤ i - base ∧ i - base < lo + 1 + (n : Int)
        · rw [if_pos h2, if_pos (by push_cast; omega)]
        · rw [if_neg h2, if_neg (by push_cast; omega)]

/-- `forUpTo` keeps an invariant that every iteration keeps. -/
theorem forUpTo_inv {σ : Type} (body : Int → σ → σ) (P : σ → Prop) (lo hi : Int) (s : σ)
    (h : P s) (step : ∀ i s, lo ≤ i → i ≤ hi → P s → P (body i s)) :
    P (forUpTo body lo hi s) := by
  unfold forUpTo
  apply forLoop_inv body P _ lo s h
  intro i s h1 h2 hs
  exact step i s h1 (by omega) hs

/-- Two pixels of one buffer with the same cell are the same pixel. -/
theorem cell_inj {w X Y x y : Int} (hX0 : 0 ≤ X) (hX : X < w) (hx0 : 0 ≤ x) (hx : x < w)
    (h : w * Y + X = w * y + x) : X = x ∧ Y = y := by
  have hw : 0 < w := by omega
  have hY : Y = y := by
    rcases lt_trichotomy Y y with hlt | heq | hgt
    · exfalso
      have : w * (y - Y) ≥ w * 1 := mul_le_mul_of_nonneg_left (by omega) hw.le
      have e : w * (y - Y) = w * y - w * Y := by ring
      omega
    · exact heq
    · exfalso
      have : w * (Y - y) ≥ w * 1 := mul_le_mul_of_nonneg_left (by omega) hw.le
      have e : w * (Y - y) = w * Y - w * y := by ring
      omega
  subst hY
  exact ⟨by omega, rfl⟩

/-! ## Cells, rows and columns -/

/-- Row and column of a cell of a buffer of width `W`. -/
theorem cell_row_col {W X Y : Int} (hX0 : 0 ≤ X) (hX : X < W) :
    (W * Y + X) / W = Y ∧ (W * Y + X) % W = X := by
  have hW : W ≠ 0 := by omega
  constructor
  · rw [add_comm, Int.add_mul_ediv_left _ _ hW, Int.ediv_eq_zero_of_lt hX0 hX, zero_add]
  · rw [add_comm, Int.add_mul_emod_self_left, Int.emod_eq_of_lt hX0 hX]

/-- A cell lies in columns `lo..hi` of row `r` exactly when its quotient by the
width is `r` and its remainder lies in `lo..hi`. -/
theorem cell_in_row {W lo hi : Int} (hlo : 0 ≤ lo) (hhi : hi < W) (i r : Int) :
    (lo ≤ i - W * r ∧ i - W * r ≤ hi) ↔ (i / W = r ∧ lo ≤ i % W ∧ i % W ≤ hi) := by
  constructor
  · rintro ⟨h1, h2⟩
    have e : i = W * r + (i - W * r) := by ring
    obtain ⟨e1, e2⟩ := cell_row_col (W := W) (X := i - W * r) (Y := r) (by omega) (by omega)
    rw [← e] at e1 e2
    rw [e1, e2]
    exact ⟨rfl, h1, h2⟩
  · rintro ⟨h1, h2, h3⟩
    have e := Int.ediv_add_emod i W
    rw [h1] at e
    have e2 : i - W * r = i % W := by omega
    rw [e2]
    exact ⟨h2, h3⟩

/-- A loop over rows, each iteration of which rewrites the columns `lo..hi` of
its own row (when the row passes the test `R`), rewrites a grid of cells, each
once. Row `y` of the loop is row `y0 + y` of the buffer. -/
theorem forLoop_rows (W lo hi y0 : Int) (hlo : 0 ≤ lo) (hhi : hi < W)
    (R : Int → Prop) [DecidablePred R] (F : Int → Int → Int → Int)
    (rowOp : Int → (Int → Int) → Int → Int)
    (hrow : ∀ y d i, rowOp y d i =
      if R y ∧ lo ≤ i - W * (y0 + y) ∧ i - W * (y0 + y) ≤ hi
      then F y (i - W * (y0 + y)) (d i) else d i) :
    ∀ (n : Nat) (ylo : Int) (d : Int → Int) (i : Int),
      forLoop rowOp n ylo d i =
        if ylo ≤ i / W - y0 ∧ i / W - y0 < ylo + n ∧ R (i / W - y0) ∧ lo ≤ i % W ∧ i % W ≤ hi
        then F (i / W - y0) (i % W) (d i) else d i
  | 0, ylo, d, i => by
      simp only [forLoop]
      rw [if_neg]; push_cast; omega
  | n + 1, ylo, d, i => by
      rw [forLoop_succ, forLoop_rows W lo hi y0 hlo hhi R F rowOp hrow n (ylo + 1), hrow]
      have key := cell_in_row hlo hhi i (y0 + ylo)
      by_cases h1 : ylo + 1 ≤ i / W - y0 ∧ i / W - y0 < ylo + 1 + (n : Int) ∧
          R (i / W - y0) ∧ lo ≤ i % W ∧ i % W ≤ hi
      · have hn : ¬ (R ylo ∧ lo ≤ i - W * (y0 + ylo) ∧ i - W * (y0 + ylo) ≤ hi) := by
          rintro ⟨_, h⟩
          have := key.mp h
          omega
        rw [if_pos h1, if_neg hn,
          if_pos ⟨by omega, by push_cast; omega, h1.2.2.1, h1.2.2.2.1, h1.2.2.2.2⟩]
      · rw [if_neg h1]
        by_cases h2 : R ylo ∧ lo ≤ i - W * (y0 + ylo) ∧ i - W * (y0 + ylo) ≤ hi
        · rw [if_pos h2]
          have h3 := key.mp h2.2
          have e : i / W - y0 = ylo := by omega
          have e2 : i - W * (y0 + ylo) = i % W := by
            have := Int.ediv_add_emod i W
            rw [h3.1] at this
            omega
          rw [if_pos (by rw [e]; push_cast; exact ⟨le_rfl, by omega, h2.1, h3.2.1, h3.2.2⟩),
            e, e2]
        · rw [if_neg h2, if_neg]
          rintro ⟨h3, h4, h5, h6, h7⟩
          by_cases h8 : i / W - y0 = ylo
          · apply h2
            rw [h8] at h5
            exact ⟨h5, key.mpr ⟨by omega, h6, h7⟩⟩
          · apply h1
            push_cast at h4
            exact ⟨by omega, by omega, h5, h6, h7⟩

/-- A loop over canvases that only rewrites the buffer is a loop over the buffer. -/
theorem forLoop_data (b : Bitmap) (op : Int → Bitmap → Bitmap)
    (rowOp : Int → (Int → Int) → Int → Int)
    (hop : ∀ y d, op y { b with data := d } = { b with data := rowOp y d }) :
    ∀ (n : Nat) (lo : Int) (d : Int → Int),
      forLoop op n lo { b with data := d } = { b with data := forLoop rowOp n lo d }
  | 0, _, _ => rfl
  | n + 1, lo, d => by
      rw [forLoop_succ, forLoop_succ, hop, forLoop_data b op rowOp hop n (lo + 1)]

/-! ## Loops of swaps -/

/-- An invariant that depends on the loop counter. -/
theorem forLoop_inv_idx {σ : Type} (body : Int → σ → σ) (P : Int → σ → Prop) :
    ∀ (n : Nat) (lo : Int) (s : σ), P lo s →
      (∀ i s, lo ≤ i → i < lo + n → P i s → P (i + 1) (body i s)) →
      P (lo + n) (forLoop body n lo s)
  | 0, lo, s, h, _ => by simpa using h
  | n + 1, lo, s, h, step => by
      rw [forLoop_succ]
      have e : lo + ((n + 1 : Nat) : Int) = (lo + 1) + (n : Int) := by push_cast; omega
      rw [e]
      apply forLoop_inv_idx body P n (lo + 1) _ (step lo s le_rfl (by push_cast; omega) h)
      intro i s hi hi2 hs
      exact step i s (by omega) (by push_cast; omega) hs

/-- Every cell of a buffer of positive width is the cell of one pixel. -/
theorem cell_decomp {w : Int} (hw : 0 < w) (i : Int) :
    ∃ X Y : Int, 0 ≤ X ∧ X < w ∧ i = w * Y + X :=
  ⟨i % w, i / w, Int.emod_nonneg i (by omega), Int.emod_lt_of_pos i hw,
    (Int.ediv_add_emod i w).symm⟩

theorem swapCells_apply (d : Int → Int) (i j k : Int) :
    Bitmap.swapCells d i j k = if k = j then d i else if k = i then d j else d k := by
  unfold Bitmap.swapCells setCell
  rfl

/-- Swapping a pixel that is still in place with its image, itself still in
place, adds both to the set of moved pixels. -/
theorem moved_swap {w : Int} {σx σy : Int → Int → Int} {S S2 : Int → Int → Prop}
    {d0 d : Int → Int} (h : Bitmap.Moved w σx σy S d0 d) (xa ya : Int)
    (hxa : 0 ≤ xa ∧ xa < w) (hxb : 0 ≤ σx xa ya ∧ σx xa ya < w)
    (hSa : ¬ S xa ya) (hSb : ¬ S (σx xa ya) (σy xa ya))
    (hback : σx (σx xa ya) (σy xa ya) = xa ∧ σy (σx xa ya) (σy xa ya) = ya)
    (hS2 : ∀ X Y, S2 X Y ↔ S X Y ∨ (X = xa ∧ Y = ya) ∨ (X = σx xa ya ∧ Y = σy xa ya)) :
    Bitmap.Moved w σx σy S2 d0 (Bitmap.swapCells d (w * ya + xa) (w * σy xa ya + σx xa ya)) := by
  intro X Y hX0 hX
  rw [swapCells_apply]
  have ha := h xa ya hxa.1 hxa.2
  have hb := h (σx xa ya) (σy xa ya) hxb.1 hxb.2
  by_cases e1 : w * Y + X = w * σy xa ya + σx xa ya
  · obtain ⟨rfl, rfl⟩ := cell_inj hX0 hX hxb.1 hxb.2 e1
    rw [if_pos rfl]
    refine ⟨fun _ => ?_, fun hn => absurd ((hS2 _ _).mpr (Or.inr (Or.inr ⟨rfl, rfl⟩))) hn⟩
    rw [hback.1, hback.2]
    exact ha.2 hSa
  · rw [if_neg e1]
    by_cases e2 : w * Y + X = w * ya + xa
    · obtain ⟨rfl, rfl⟩ := cell_inj hX0 hX hxa.1 hxa.2 e2
      rw [if_pos rfl]
      refine ⟨fun _ => hb.2 hSb, fun hn => absurd ((hS2 _ _).mpr (Or.inr (Or.inl ⟨rfl, rfl⟩))) hn⟩
    · rw [if_neg e2]
      have hne1 : ¬ (X = xa ∧ Y = ya) := fun hh => e2 (by rw [hh.1, hh.2])
      have hne2 : ¬ (X = σx xa ya ∧ Y = σy xa ya) := fun hh => e1 (by rw [hh.1, hh.2])
      have hiff : S2 X Y ↔ S X Y := by
        rw [hS2]
        constructor
        · rintro (h1 | h1 | h1)
          · exact h1
          · exact absurd h1 hne1
          · exact absurd h1 hne2
        · exact Or.inl
      have hXY := h X Y hX0 hX
      exact ⟨fun h2 => hXY.1 (hiff.mp h2), fun h2 => hXY.2 (fun h3 => h2 (hiff.mpr h3))⟩

/-- The same moved pixels, described by an equivalent set. -/
theorem moved_congr {w : Int} {σx σy : Int → Int → Int} {S S2 : Int → Int → Prop}
    {d0 d : Int → Int} (h : Bitmap.Moved w σx σy S d0 d)
    (hS : ∀ X Y, 0 ≤ X → X < w → (S2 X Y ↔ S X Y)) : Bitmap.Moved w σx σy S2 d0 d := by
  intro X Y hX0 hX
  have := h X Y hX0 hX
  have e := hS X Y hX0 hX
  exact ⟨fun h2 => this.1 (e.mp h2), fun h2 => this.2 (fun h3 => h2 (e.mpr h3))⟩

/-- Moving twice along an involution that keeps the set `S` restores the buffer. -/
theorem moved_twice {w : Int} (hw : 0 < w) {σx σy : Int → Int → Int} {S : Int → Int → Prop}
    {d0 d1 d2 : Int → Int} (h1 : Bitmap.Moved w σx σy S d0 d1) (h2 : Bitmap.Moved w σx σy S d1 d2)
    (hσ : ∀ X Y, 0 ≤ X → X < w → S X Y →
      (0 ≤ σx X Y ∧ σx X Y < w) ∧ S (σx X Y) (σy X Y) ∧
      σx (σx X Y) (σy X Y) = X ∧ σy (σx X Y) (σy X Y) = Y) :
    d2 = d0 := by
  funext i
  obtain ⟨X, Y, hX0, hX, rfl⟩ := cell_decomp hw i
  by_cases hS : S X Y
  · obtain ⟨hr, hS2, e1, e2⟩ := hσ X Y hX0 hX hS
    rw [(h2 X Y hX0 hX).1 hS, (h1 _ _ hr.1 hr.2).1 hS2, e1, e2]
  · rw [(h2 X Y hX0 hX).2 hS, (h1 X Y hX0 hX).2 hS]

/-- C++ division by two on a width or a height. -/
theorem tdiv_two (w : Int) :
    (0 ≤ w → Int.tdiv w 2 = w / 2) ∧ (w ≤ 0 → (Int.tdiv w 2).toNat = 0) := by
  constructor
  · intro h
    exact Int.tdiv_eq_ediv h (by omega)
  · intro h
    have e : w = -(-w) := by omega
    have h2 : 0 ≤ Int.tdiv (-w) 2 := Int.tdiv_nonneg (by omega) (by omega)
    rw [e, Int.neg_tdiv]
    omega

/-- A loop whose iterations change nothing changes nothing. -/
theorem forLoop_id {σ : Type} (body : Int → σ → σ) (hbody : ∀ i s, body i s = s)
    (n : Nat) (lo : Int) (s : σ) : forLoop body n lo s = s :=
  forLoop_inv body (fun t => t = s) n lo s rfl (fun i t _ _ ht => by rw [hbody, ht])

namespace Bitmap

theorem onlyClip_refl (b : Bitmap) : OnlyClip b b :=
  ⟨b.data, rfl, fun _ _ => rfl⟩

theorem onlyClip_trans {a b c : Bitmap} (h1 : OnlyClip a b) (h2 : OnlyClip b c) :
    OnlyClip a c := by
  obtain ⟨d1, rfl, hd1⟩ := h1
  obtain ⟨d2, rfl, hd2⟩ := h2
  exact ⟨d2, rfl, fun i hi => (hd2 i hi).trans (hd1 i hi)⟩

/-- Rewriting the cell of one clip pixel. -/
theorem onlyClip_setCell {b : Bitmap} {d : Int → Int} (h : OnlyClip b { b with data := d })
    {x y : Int} (hxy : b.inClip x y) (v : Int) :
    OnlyClip b { b with data := Rendera.setCell d (b.w * y + x) v } := by
  obtain ⟨d1, e, hd1⟩ := h
  have ed : d = d1 := by
    have := congrArg Bitmap.data e
    simpa using this
  subst ed
  refine ⟨_, rfl, fun i hi => ?_⟩
  simp only [Rendera.setCell]
  rw [if_neg (hi x y hxy)]
  exact hd1 i hi

theorem onlyClip_sameOutside {b b2 : Bitmap} (hb : b.ClipInside) (h : OnlyClip b b2) :
    SameOutsideClip b b2 := by
  obtain ⟨d, rfl, hd⟩ := h
  refine ⟨rfl, rfl, rfl, rfl, rfl, rfl, ?_⟩
  intro X Y hX0 hX _ _ hout
  simp only [pix, idx]
  apply hd
  intro x y hxy heq
  obtain ⟨h1, h2, h3, h4⟩ := hxy
  obtain ⟨h5, h6, h7, h8, h9, h10⟩ := hb
  obtain ⟨rfl, rfl⟩ := cell_inj hX0 hX (by omega) (by omega) heq
  exact hout ⟨h1, h2, h3, h4⟩

theorem setpixelSolid_onlyClip (blend : Int → Int → Int → Int) (b : Bitmap) (x y c t : Int) :
    OnlyClip b (b.setpixelSolid blend x y c t) := by
  unfold setpixelSolid
  split
  · exact onlyClip_refl b
  · next h =>
    have hxy : b.inClip x y := by unfold inClip; omega
    exact onlyClip_setCell (onlyClip_refl b) hxy _

/-- A loop over the buffer whose iterations each rewrite clip cells only. -/
theorem onlyClip_data_loop (b : Bitmap) (body : Int → (Int → Int) → (Int → Int))
    (n : Nat) (lo : Int) (d0 : Int → Int) (h0 : OnlyClip b { b with data := d0 })
    (step : ∀ i d, lo ≤ i → i < lo + n → OnlyClip b { b with data := d } →
      OnlyClip b { b with data := body i d }) :
    OnlyClip b { b with data := forLoop body n lo d0 } :=
  forLoop_inv body (fun d => OnlyClip b { b with data := d }) n lo d0 h0 step

/-- Normal form of `hline`: inside the guards it rewrites the cells of row `y`
between the clipped ends. -/
theorem hline_eq (blend : Int → Int → Int → Int) (b : Bitmap) (x1 y x2 c t : Int) :
    b.hline blend x1 y x2 c t =
      if b.ct ≤ y ∧ y ≤ b.cb ∧ min x1 x2 ≤ b.cr ∧ b.cl ≤ max x1 x2 then
        { b with data := (forUpTo
            (fun x d => Rendera.setCell d (b.w * y + x) (blend (d (b.w * y + x)) c t))
            (max (min x1 x2) b.cl) (min (max x1 x2) b.cr) b.data) }
      else b := by
  unfold hline
  have e1 : (if x1 > x2 then x2 else x1) = min x1 x2 := by
    split_ifs <;> omega
  have e2 : (if x1 > x2 then x1 else x2) = max x1 x2 := by
    split_ifs <;> omega
  simp only [e1, e2]
  by_cases hy : y < b.ct ∨ y > b.cb
  · rw [if_pos hy, if_neg (show ¬ (b.ct ≤ y ∧ y ≤ b.cb ∧ min x1 x2 ≤ b.cr ∧ b.cl ≤ max x1 x2) by omega)]
  rw [if_neg hy]
  by_cases ha : min x1 x2 > b.cr
  · rw [if_pos ha, if_neg (show ¬ (b.ct ≤ y ∧ y ≤ b.cb ∧ min x1 x2 ≤ b.cr ∧ b.cl ≤ max x1 x2) by omega)]
  rw [if_neg ha]
  by_cases hb : max x1 x2 < b.cl
  · rw [if_pos hb, if_neg (show ¬ (b.ct ≤ y ∧ y ≤ b.cb ∧ min x1 x2 ≤ b.cr ∧ b.cl ≤ max x1 x2) by omega)]
  rw [if_neg hb, if_pos (show b.ct ≤ y ∧ y ≤ b.cb ∧ min x1 x2 ≤ b.cr ∧ b.cl ≤ max x1 x2 by omega)]
  have e3 : (if min x1 x2 < b.cl then b.cl else min x1 x2) = max (min x1 x2) b.cl := by
    split_ifs <;> omega
  have e4 : (if max x1 x2 > b.cr then b.cr else max x1 x2) = min (max x1 x2) b.cr := by
    split_ifs <;> omega
  have e5 : (if y < b.ct then b.ct else y) = y := if_neg (by omega)
  rw [e3, e4, e5, if_neg (show ¬ y > b.cb by omega)]

theorem hline_onlyClip (blend : Int → Int → Int → Int) (b : Bitmap) (x1 y x2 c t : Int) :
    OnlyClip b (b.hline blend x1 y x2 c t) := by
  rw [hline_eq]
  split
  · next h =>
    unfold forUpTo
    apply onlyClip_data_loop b _ _ _ _ (onlyClip_refl b)
    intro i d hi1 hi2 hd
    apply onlyClip_setCell hd
    unfold inClip
    omega
  · exact onlyClip_refl b

/-- Normal form of `xorHline`. -/
theorem xorHline_eq (b : Bitmap) (x1 y x2 : Int) :
    b.xorHline x1 y x2 =
      if b.ct ≤ y ∧ y ≤ b.cb ∧ min x1 x2 ≤ b.cr ∧ b.cl ≤ max x1 x2 then
        { b with data := (forUpTo
            (fun x d => Rendera.setCell d (b.w * y + x) (xor32 (d (b.w * y + x)) (xorValue x y)))
            (max (min x1 x2) b.cl) (min (max x1 x2) b.cr) b.data) }
      else b := by
  unfold xorHline
  have e1 : (if x1 > x2 then x2 else x1) = min x1 x2 := by
    split_ifs <;> omega
  have e2 : (if x1 > x2 then x1 else x2) = max x1 x2 := by
    split_ifs <;> omega
  simp only [e1, e2]
  by_cases hy : y < b.ct ∨ y > b.cb
  · rw [if_pos hy, if_neg (show ¬ (b.ct ≤ y ∧ y ≤ b.cb ∧ min x1 x2 ≤ b.cr ∧ b.cl ≤ max x1 x2) by omega)]
  rw [if_neg hy]
  by_cases ha : min x1 x2 > b.cr
  · rw [if_pos ha, if_neg (show ¬ (b.ct ≤ y ∧ y ≤ b.cb ∧ min x1 x2 ≤ b.cr ∧ b.cl ≤ max x1 x2) by omega)]
  rw [if_neg ha]
  by_cases hb : max x1 x2 < b.cl
  · rw [if_pos hb, if_neg (show ¬ (b.ct ≤ y ∧ y ≤ b.cb ∧ min x1 x2 ≤ b.cr ∧ b.cl ≤ max x1 x2) by omega)]
  rw [if_neg hb, if_pos (show b.ct ≤ y ∧ y ≤ b.cb ∧ min x1 x2 ≤ b.cr ∧ b.cl ≤ max x1 x2 by omega)]
  have e3 : (if min x1 x2 < b.cl then b.cl else min x1 x2) = max (min x1 x2) b.cl := by
    split_ifs <;> omega
  have e4 : (if max x1 x2 > b.cr then b.cr else max x1 x2) = min (max x1 x2) b.cr := by
    split_ifs <;> omega
  have e5 : (if y < b.ct then b.ct else y) = y := if_neg (by omega)
  rw [e3, e4, e5, if_neg (show ¬ y > b.cb by omega)]

theorem xorHline_onlyClip (b : Bitmap) (x1 y x2 : Int) :
    OnlyClip b (b.xorHline x1 y x2) := by
  rw [xorHline_eq]
  split
  · next h =>
    unfold forUpTo
    apply onlyClip_data_loop b _ _ _ _ (onlyClip_refl b)
    intro i d hi1 hi2 hd
    apply onlyClip_setCell hd
    unfold inClip
    omega
  · exact onlyClip_refl b

/-- The four results of `clip`. -/
theorem clip_eq (b : Bitmap) (x1 y1 x2 y2 : Int) :
    b.clip x1 y1 x2 y2 = (max x1 b.cl, max y1 b.ct, min x2 b.cr, min y2 b.cb) := by
  unfold clip
  have e1 : (if x1 < b.cl then b.cl else x1) = max x1 b.cl := by split_ifs <;> omega
  have e2 : (if y1 < b.ct then b.ct else y1) = max y1 b.ct := by split_ifs <;> omega
  have e3 : (if x2 > b.cr then b.cr else x2) = min x2 b.cr := by split_ifs <;> omega
  have e4 : (if y2 > b.cb then b.cb else y2) = min y2 b.cb := by split_ifs <;> omega
  rw [e1, e2, e3, e4]

/-- The guards of `rect`, `rectfill`, `xorRect` and `xorRectfill` pass. -/
theorem box_guards (b : Bitmap) (x1 y1 x2 y2 : Int) {α : Type} (r : α) (k : α) :
    (if (if x1 > x2 then x2 else x1) > b.cr then r
      else if (if x1 > x2 then x1 else x2) < b.cl then r
      else if (if y1 > y2 then y2 else y1) > b.cb then r
      else if (if y1 > y2 then y1 else y2) < b.ct then r
      else k) =
    if min x1 x2 ≤ b.cr ∧ b.cl ≤ max x1 x2 ∧ min y1 y2 ≤ b.cb ∧ b.ct ≤ max y1 y2
    then k else r := by
  have e1 : (if x1 > x2 then x2 else x1) = min x1 x2 := by split_ifs <;> omega
  have e2 : (if x1 > x2 then x1 else x2) = max x1 x2 := by split_ifs <;> omega
  have e3 : (if y1 > y2 then y2 else y1) = min y1 y2 := by split_ifs <;> omega
  have e4 : (if y1 > y2 then y1 else y2) = max y1 y2 := by split_ifs <;> omega
  rw [e1, e2, e3, e4]
  by_cases h1 : min x1 x2 > b.cr
  · rw [if_pos h1, if_neg (by omega)]
  rw [if_neg h1]
  by_cases h2 : max x1 x2 < b.cl
  · rw [if_pos h2, if_neg (by omega)]
  rw [if_neg h2]
  by_cases h3 : min y1 y2 > b.cb
  · rw [if_pos h3, if_neg (by omega)]
  rw [if_neg h3]
  by_cases h4 : max y1 y2 < b.ct
  · rw [if_pos h4, if_neg (by omega)]
  rw [if_neg h4, if_pos (by omega)]

theorem swap_lo (x1 x2 : Int) : (if x1 > x2 then x2 else x1) = min x1 x2 := by
  split_ifs <;> omega

theorem swap_hi (x1 x2 : Int) : (if x1 > x2 then x1 else x2) = max x1 x2 := by
  split_ifs <;> omega

/-- Normal form of `rect`. -/
theorem rect_eq (blend : Int → Int → Int → Int) (b : Bitmap) (x1 y1 x2 y2 c t : Int) :
    b.rect blend x1 y1 x2 y2 c t =
      if min x1 x2 ≤ b.cr ∧ b.cl ≤ max x1 x2 ∧ min y1 y2 ≤ b.cb ∧ b.ct ≤ max y1 y2 then
        let xa := max (min x1 x2) b.cl
        let ya := max (min y1 y2) b.ct
        let xb := min (max x1 x2) b.cr
        let yb := min (max y1 y2) b.cb
        let b2 := (b.hline blend xa ya xb c t).hline blend xa yb xb c t
        if ya = yb then b2
        else { b2 with data :=
          (forLoop (rectSides blend b.w xa xb c t) (yb - (ya + 1)).toNat (ya + 1) b2.data) }
      else b := by
  unfold rect
  simp only
  rw [box_guards]
  simp only [clip_eq, swap_lo, swap_hi]

/-- Normal form of `xorRect`. -/
theorem xorRect_eq (b : Bitmap) (x1 y1 x2 y2 : Int) :
    b.xorRect x1 y1 x2 y2 =
      if min x1 x2 ≤ b.cr ∧ b.cl ≤ max x1 x2 ∧ min y1 y2 ≤ b.cb ∧ b.ct ≤ max y1 y2 then
        let xa := max (min x1 x2) b.cl
        let ya := max (min y1 y2) b.ct
        let xb := min (max x1 x2) b.cr
        let yb := min (max y1 y2) b.cb
        let b2 := (b.xorHline xa ya xb).xorHline xa yb xb
        if ya = yb then b2
        else { b2 with data :=
          (forLoop (xorRectSides b.w xa xb) (yb - (ya + 1)).toNat (ya + 1) b2.data) }
      else b := by
  unfold xorRect
  simp only
  rw [box_guards]
  simp only [clip_eq, swap_lo, swap_hi]

/-- Normal form of `rectfill`. -/
theorem rectfill_eq (blend : Int → Int → Int → Int) (b : Bitmap) (x1 y1 x2 y2 c t : Int) :
    b.rectfill blend x1 y1 x2 y2 c t =
      if min x1 x2 ≤ b.cr ∧ b.cl ≤ max x1 x2 ∧ min y1 y2 ≤ b.cb ∧ b.ct ≤ max y1 y2 then
        forUpTo (fun y b => b.hline blend (min x1 x2) y (max x1 x2) c t)
          (min y1 y2) (max y1 y2) b
      else b := by
  unfold rectfill
  simp only
  rw [box_guards]
  simp only [swap_lo, swap_hi]

/-- Normal form of `xorRectfill`. -/
theorem xorRectfill_eq (b : Bitmap) (x1 y1 x2 y2 : Int) :
    b.xorRectfill x1 y1 x2 y2 =
      if min x1 x2 ≤ b.cr ∧ b.cl ≤ max x1 x2 ∧ min y1 y2 ≤ b.cb ∧ b.ct ≤ max y1 y2 then
        forUpTo (fun y s => s.xorHline (max (min x1 x2) b.cl) y (min (max x1 x2) b.cr))
          (max (min y1 y2) b.ct) (min (max y1 y2) b.cb) b
      else b := by
  unfold xorRectfill
  simp only
  rw [box_guards]
  simp only [clip_eq, swap_lo, swap_hi]

/-- A side loop that rewrites two clip cells per row rewrites clip cells only. -/
theorem sides_onlyClip (b b2 : Bitmap) (h2 : OnlyClip b b2)
    (body : Int → (Int → Int) → (Int → Int)) (xa xb ya yb : Int)
    (hbody : ∀ y d, ∃ v1 v2, body y d =
      Rendera.setCell (Rendera.setCell d (b.w * y + xa) v1) (b.w * y + xb) v2)
    (hxa : b.cl ≤ xa ∧ xa ≤ b.cr) (hxb : b.cl ≤ xb ∧ xb ≤ b.cr)
    (hya : b.ct ≤ ya) (hyb : yb ≤ b.cb) :
    OnlyClip b { b2 with data := forLoop body (yb - (ya + 1)).toNat (ya + 1) b2.data } := by
  obtain ⟨d2, rfl, hd2⟩ := h2
  apply onlyClip_data_loop b _ _ _ _ ⟨d2, rfl, hd2⟩
  intro i d hi1 hi2 hd
  have hin1 : b.inClip xa i := by unfold inClip; omega
  have hin2 : b.inClip xb i := by unfold inClip; omega
  obtain ⟨v1, v2, e⟩ := hbody i d
  rw [e]
  exact onlyClip_setCell (onlyClip_setCell hd hin1 _) hin2 _

theorem rect_onlyClip (blend : Int → Int → Int → Int) (b : Bitmap) (hc : b.cl ≤ b.cr)
    (x1 y1 x2 y2 c t : Int) : OnlyClip b (b.rect blend x1 y1 x2 y2 c t) := by
  rw [rect_eq]
  split
  · next h =>
    have hb2 := onlyClip_trans (hline_onlyClip blend b (max (min x1 x2) b.cl)
        (max (min y1 y2) b.ct) (min (max x1 x2) b.cr) c t)
      (hline_onlyClip blend _ (max (min x1 x2) b.cl) (min (max y1 y2) b.cb)
        (min (max x1 x2) b.cr) c t)
    simp only
    split
    · exact hb2
    · exact sides_onlyClip b _ hb2 _ _ _ _ _ (fun y d => ⟨_, _, rfl⟩)
        (by omega) (by omega) (by omega) (by omega)
  · exact onlyClip_refl b

theorem xorRect_onlyClip (b : Bitmap) (hc : b.cl ≤ b.cr) (x1 y1 x2 y2 : Int) :
    OnlyClip b (b.xorRect x1 y1 x2 y2) := by
  rw [xorRect_eq]
  split
  · next h =>
    have hb2 := onlyClip_trans (xorHline_onlyClip b (max (min x1 x2) b.cl)
        (max (min y1 y2) b.ct) (min (max x1 x2) b.cr))
      (xorHline_onlyClip _ (max (min x1 x2) b.cl) (min (max y1 y2) b.cb)
        (min (max x1 x2) b.cr))
    simp only
    split
    · exact hb2
    · exact sides_onlyClip b _ hb2 _ _ _ _ _ (fun y d => ⟨_, _, rfl⟩)
        (by omega) (by omega) (by omega) (by omega)
  · exact onlyClip_refl b

theorem rectfill_onlyClip (blend : Int → Int → Int → Int) (b : Bitmap)
    (x1 y1 x2 y2 c t : Int) : OnlyClip b (b.rectfill blend x1 y1 x2 y2 c t) := by
  rw [rectfill_eq]
  split
  swap
  · exact onlyClip_refl b
  apply forUpTo_inv _ (fun b2 => OnlyClip b b2) _ _ _ (onlyClip_refl b)
  intro i s _ _ hs
  exact onlyClip_trans hs (hline_onlyClip blend s _ _ _ c t)

theorem xorRectfill_onlyClip (b : Bitmap) (x1 y1 x2 y2 : Int) :
    OnlyClip b (b.xorRectfill x1 y1 x2 y2) := by
  rw [xorRectfill_eq]
  split
  swap
  · exact onlyClip_refl b
  apply forUpTo_inv _ (fun b2 => OnlyClip b b2) _ _ _ (onlyClip_refl b)
  intro i s _ _ hs
  exact onlyClip_trans hs (xorHline_onlyClip s _ _ _)

end Bitmap

/-! ## `while` loops -/

/-- What holds before a `while` loop and is kept by its body holds after it,
together with the negated condition. -/
theorem whileLoop_inv {σ : Type} (cond : σ → Bool) (body : σ → σ) (P : σ → Prop)
    (step : ∀ s, cond s = true → P s → P (body s)) :
    ∀ (fuel : Nat) (s s2 : σ), P s → whileLoop cond body fuel s = some s2 →
      P s2 ∧ cond s2 = false
  | 0, _, _, _, h => by simp [whileLoop] at h
  | fuel + 1, s, s2, hP, h => by
      unfold whileLoop at h
      by_cases hc : cond s = true
      · rw [if_pos hc] at h
        exact whileLoop_inv cond body P step fuel (body s) s2 (step s hc hP) h
      · rw [if_neg hc] at h
        cases h
        exact ⟨hP, by simpa using hc⟩

/-- A `while` loop whose body lowers a natural-number measure finishes within
that many iterations. -/
theorem whileLoop_terminates {σ : Type} (cond : σ → Bool) (body : σ → σ) (P : σ → Prop)
    (m : σ → Nat) (step : ∀ s, cond s = true → P s → P (body s) ∧ m (body s) < m s) :
    ∀ (fuel : Nat) (s : σ), P s → m s < fuel → ∃ s2, whileLoop cond body fuel s = some s2
  | 0, _, _, h => by omega
  | fuel + 1, s, hP, h => by
      unfold whileLoop
      by_cases hc : cond s = true
      · rw [if_pos hc]
        have := step s hc hP
        exact whileLoop_terminates cond body P m step fuel (body s) this.1 (by omega)
      · rw [if_neg hc]
        exact ⟨s, rfl⟩

namespace Bitmap

theorem setpixelSolid_outside (blend : Int → Int → Int → Int) (b : Bitmap) (x y c t : Int)
    (h : ¬ b.inClip x y) : b.setpixelSolid blend x y c t = b := by
  unfold setpixelSolid
  rw [if_pos]
  unfold inClip at h
  omega

/-- In the `dx >= dy` loop the minor axis has stepped at most `DY` times. -/
theorem lineInvX_minor_le {x1 y1 inx iny DX DY : Int} {s : LineState}
    (h : LineInvX x1 y1 inx iny DX DY s) (hDY : 0 ≤ DY) :
    ∃ k j : Int, 0 ≤ k ∧ k ≤ DX ∧ 0 ≤ j ∧ j ≤ DY ∧
      s.x1 = x1 + k * inx ∧ s.y1 = y1 + j * iny := by
  obtain ⟨k, j, hk0, hk, hj0, hjk, hx, hy, he, hlow⟩ := h
  refine ⟨k, j, hk0, hk, hj0, ?_, hx, hy⟩
  by_contra hcon
  have hj : DY + 1 ≤ j := by omega
  have hDX : 0 ≤ DX := by omega
  have h1 : DX * (DY + 1) ≤ DX * j := mul_le_mul_of_nonneg_left hj hDX
  have h2 : DY * k ≤ DY * DX := mul_le_mul_of_nonneg_left hk hDY
  have h3 : DX * (DY + 1) = DY * DX + DX := by ring
  omega

/-- In the `dx < dy` loop the minor axis has stepped at most `DX` times. -/
theorem lineInvY_minor_le {x1 y1 inx iny DX DY : Int} {s : LineState}
    (h : LineInvY x1 y1 inx iny DX DY s) (hDX : 0 ≤ DX) :
    ∃ k j : Int, 0 ≤ k ∧ k ≤ DY ∧ 0 ≤ j ∧ j ≤ DX ∧
      s.y1 = y1 + k * iny ∧ s.x1 = x1 + j * inx := by
  obtain ⟨k, j, hk0, hk, hj0, hjk, hy, hx, he, hlow⟩ := h
  refine ⟨k, j, hk0, hk, hj0, ?_, hy, hx⟩
  by_contra hcon
  have hj : DX + 1 ≤ j := by omega
  have hDY : 0 ≤ DY := by omega
  have h1 : DY * (DX + 1) ≤ DY * j := mul_le_mul_of_nonneg_left hj hDY
  have h2 : DX * k ≤ DX * DY := mul_le_mul_of_nonneg_left hk hDX
  have h3 : DY * (DX + 1) = DX * DY + DY := by ring
  omega

/-- One iteration of the `dx >= dy` loop keeps `LineInvX`. -/
theorem lineStepX_inv (blend : Int → Int → Int → Int) (c t x1 y1 x2 inx iny DX DY : Int)
    (hx2 : x2 = x1 + DX * inx) (hDY : 0 ≤ DY)
    (s : LineState) (hc : s.x1 ≠ x2) (h : LineInvX x1 y1 inx iny DX DY s) :
    LineInvX x1 y1 inx iny DX DY (lineStepX blend c t inx iny (2 * DX) (2 * DY) s) := by
  obtain ⟨k, j, hk0, hk, hj0, hjk, hx, hy, he, hlow⟩ := h
  have hk1 : k < DX := by
    rcases lt_or_eq_of_le hk with h | h
    · exact h
    · exfalso; apply hc; rw [hx, hx2, h]
  unfold lineStepX
  by_cases hpos : s.e ≥ 0
  · refine ⟨k + 1, j + 1, by omega, by omega, by omega, by omega, ?_, ?_, ?_, ?_⟩
    · simp only [hx]; ring
    · simp only [if_pos hpos, hy]; ring
    · simp only [if_pos hpos]
      have e1 : DY * (k + 1) = DY * k + DY := by ring
      have e2 : DX * (j + 1) = DX * j + DX := by ring
      rw [e1, e2]; omega
    · simp only [if_pos hpos]; omega
  · refine ⟨k + 1, j, by omega, by omega, hj0, by omega, ?_, ?_, ?_, ?_⟩
    · simp only [hx]; ring
    · simp only [if_neg hpos, hy]
    · simp only [if_neg hpos]
      have e1 : DY * (k + 1) = DY * k + DY := by ring
      rw [e1]; omega
    · simp only [if_neg hpos]; omega

/-- One iteration of the `dx < dy` loop keeps `LineInvY`. -/
theorem lineStepY_inv (blend : Int → Int → Int → Int) (c t x1 y1 y2 inx iny DX DY : Int)
    (hy2 : y2 = y1 + DY * iny) (hDX : 0 ≤ DX)
    (s : LineState) (hc : s.y1 ≠ y2) (h : LineInvY x1 y1 inx iny DX DY s) :
    LineInvY x1 y1 inx iny DX DY (lineStepY blend c t inx iny (2 * DX) (2 * DY) s) := by
  obtain ⟨k, j, hk0, hk, hj0, hjk, hy, hx, he, hlow⟩ := h
  have hk1 : k < DY := by
    rcases lt_or_eq_of_le hk with h | h
    · exact h
    · exfalso; apply hc; rw [hy, hy2, h]
  unfold lineStepY
  by_cases hpos : s.e ≥ 0
  · refine ⟨k + 1, j + 1, by omega, by omega, by omega, by omega, ?_, ?_, ?_, ?_⟩
    · simp only [hy]; ring
    · simp only [if_pos hpos, hx]; ring
    · simp only [if_pos hpos]
      have e1 : DX * (k + 1) = DX * k + DX := by ring
      have e2 : DY * (j + 1) = DY * j + DY := by ring
      rw [e1, e2]; omega
    · simp only [if_pos hpos]; omega
  · refine ⟨k + 1, j, by omega, by omega, hj0, by omega, ?_, ?_, ?_, ?_⟩
    · simp only [hy]; ring
    · simp only [if_neg hpos, hx]
    · simp only [if_neg hpos]
      have e1 : DX * (k + 1) = DX * k + DX := by ring
      rw [e1]; omega
    · simp only [if_neg hpos]; omega

/-- A point of the box spanned by the arguments is outside the clip rectangle
when the box is. -/
theorem boxOutside_not_inClip {b : Bitmap} {x1 y1 x2 y2 x y : Int}
    (h : b.BoxOutside x1 y1 x2 y2) (hb : InBox x1 y1 x2 y2 x y) : ¬ b.inClip x y := by
  unfold BoxOutside at h
  unfold InBox at hb
  unfold inClip
  omega

/-- The step direction and the absolute difference recover the end point. -/
theorem sign_mul_abs (a b : Int) :
    b = a + |b - a| * (if b - a > 0 then 1 else -1) := by
  rcases abs_cases (b - a) with ⟨h1, h2⟩ | ⟨h1, h2⟩
  · rw [h1]; split_ifs <;> omega
  · rw [h1, if_neg (by omega)]; omega

/-- A point `k` steps from `a` towards `b`, `0 <= k <= |b - a|`, lies between them. -/
theorem steps_between (a b k : Int) (hk0 : 0 ≤ k) (hk : k ≤ |b - a|) :
    min a b ≤ a + k * (if b - a > 0 then 1 else -1) ∧
      a + k * (if b - a > 0 then 1 else -1) ≤ max a b := by
  rcases abs_cases (b - a) with ⟨h1, h2⟩ | ⟨h1, h2⟩
  · rw [h1] at hk; split_ifs <;> omega
  · rw [h1] at hk; rw [if_neg (by omega)]; omega

/-- What every run of the `dx >= dy` loop of `line` keeps: only clip cells are
rewritten, the Bresenham invariant holds, and nothing is written when the box of
the end points misses the clip rectangle. -/
theorem lineX_keeps (blend : Int → Int → Int → Int) (b : Bitmap) (x1 y1 x2 y2 c t : Int)
    (s : LineState) (hc : s.x1 ≠ x2)
    (h : OnlyClip b s.bmp ∧ (b.BoxOutside x1 y1 x2 y2 → s.bmp = b) ∧
      LineInvX x1 y1 (if x2 - x1 > 0 then 1 else -1) (if y2 - y1 > 0 then 1 else -1)
        |x2 - x1| |y2 - y1| s) :
    let s2 := lineStepX blend c t (if x2 - x1 > 0 then 1 else -1)
      (if y2 - y1 > 0 then 1 else -1) (2 * |x2 - x1|) (2 * |y2 - y1|) s
    (OnlyClip b s2.bmp ∧ (b.BoxOutside x1 y1 x2 y2 → s2.bmp = b) ∧
      LineInvX x1 y1 (if x2 - x1 > 0 then 1 else -1) (if y2 - y1 > 0 then 1 else -1)
        |x2 - x1| |y2 - y1| s2) ∧ (x2 - s2.x1).natAbs < (x2 - s.x1).natAbs := by
  obtain ⟨h1, h2, h3⟩ := h
  have hinv := lineStepX_inv blend c t x1 y1 x2 _ _ _ _ (sign_mul_abs x1 x2)
    (abs_nonneg (y2 - y1)) s hc h3
  refine ⟨⟨?_, ?_, hinv⟩, ?_⟩
  · exact onlyClip_trans h1 (setpixelSolid_onlyClip blend s.bmp s.x1 s.y1 c t)
  · intro hout
    obtain ⟨k, j, hk0, hk, hj0, hj, hx, hy⟩ := lineInvX_minor_le h3 (abs_nonneg _)
    have hbx := steps_between x1 x2 k hk0 hk
    have hby := steps_between y1 y2 j hj0 hj
    have hbox : InBox x1 y1 x2 y2 s.x1 s.y1 := by
      unfold InBox; rw [hx, hy]; exact ⟨hbx.1, hbx.2, hby.1, hby.2⟩
    show (s.bmp.setpixelSolid blend s.x1 s.y1 c t) = b
    rw [h2 hout]
    exact setpixelSolid_outside blend b _ _ c t (boxOutside_not_inClip hout hbox)
  · obtain ⟨k, j, hk0, hk, hj0, hjk, hx, hy, he, hlow⟩ := h3
    have hx2 := sign_mul_abs x1 x2
    show (x2 - (s.x1 + (if x2 - x1 > 0 then 1 else -1))).natAbs < (x2 - s.x1).natAbs
    have hk1 : k < |x2 - x1| := by
      rcases lt_or_eq_of_le hk with h | h
      · exact h
      · exfalso; apply hc; rw [hx, h]; exact hx2.symm
    rcases abs_cases (x2 - x1) with ⟨e1, e2⟩ | ⟨e1, e2⟩
    · rw [e1] at hk1 hx2
      split_ifs at hx hx2 ⊢ <;> omega
    · rw [e1] at hk1 hx2
      rw [if_neg (by omega)] at hx hx2 ⊢
      omega

/-- The mirror image of `lineX_keeps` for the `dx < dy` loop. -/
theorem lineY_keeps (blend : Int → Int → Int → Int) (b : Bitmap) (x1 y1 x2 y2 c t : Int)
    (s : LineState) (hc : s.y1 ≠ y2)
    (h : OnlyClip b s.bmp ∧ (b.BoxOutside x1 y1 x2 y2 → s.bmp = b) ∧
      LineInvY x1 y1 (if x2 - x1 > 0 then 1 else -1) (if y2 - y1 > 0 then 1 else -1)
        |x2 - x1| |y2 - y1| s) :
    let s2 := lineStepY blend c t (if x2 - x1 > 0 then 1 else -1)
      (if y2 - y1 > 0 then 1 else -1) (2 * |x2 - x1|) (2 * |y2 - y1|) s
    (OnlyClip b s2.bmp ∧ (b.BoxOutside x1 y1 x2 y2 → s2.bmp = b) ∧
      LineInvY x1 y1 (if x2 - x1 > 0 then 1 else -1) (if y2 - y1 > 0 then 1 else -1)
        |x2 - x1| |y2 - y1| s2) ∧ (y2 - s2.y1).natAbs < (y2 - s.y1).natAbs := by
  obtain ⟨h1, h2, h3⟩ := h
  have hinv := lineStepY_inv blend c t x1 y1 y2 _ _ _ _ (sign_mul_abs y1 y2)
    (abs_nonneg (x2 - x1)) s hc h3
  refine ⟨⟨?_, ?_, hinv⟩, ?_⟩
  · exact onlyClip_trans h1 (setpixelSolid_onlyClip blend s.bmp s.x1 s.y1 c t)
  · intro hout
    obtain ⟨k, j, hk0, hk, hj0, hj, hy, hx⟩ := lineInvY_minor_le h3 (abs_nonneg _)
    have hby := steps_between y1 y2 k hk0 hk
    have hbx := steps_between x1 x2 j hj0 hj
    have hbox : InBox x1 y1 x2 y2 s.x1 s.y1 := by
      unfold InBox; rw [hx, hy]; exact ⟨hbx.1, hbx.2, hby.1, hby.2⟩
    show (s.bmp.setpixelSolid blend s.x1 s.y1 c t) = b
    rw [h2 hout]
    exact setpixelSolid_outside blend b _ _ c t (boxOutside_not_inClip hout hbox)
  · obtain ⟨k, j, hk0, hk, hj0, hjk, hy, hx, he, hlow⟩ := h3
    have hy2 := sign_mul_abs y1 y2
    show (y2 - (s.y1 + (if y2 - y1 > 0 then 1 else -1))).natAbs < (y2 - s.y1).natAbs
    have hk1 : k < |y2 - y1| := by
      rcases lt_or_eq_of_le hk with h | h
      · exact h
      · exfalso; apply hc; rw [hy, h]; exact hy2.symm
    rcases abs_cases (y2 - y1) with ⟨e1, e2⟩ | ⟨e1, e2⟩
    · rw [e1] at hk1 hy2
      split_ifs at hy hy2 ⊢ <;> omega
    · rw [e1] at hk1 hy2
      rw [if_neg (by omega)] at hy hy2 ⊢
      omega

/-- Whatever `line` returns differs from the canvas in clip cells only, and is
the canvas itself when the box of the end points misses the clip rectangle. -/
theorem line_result (blend : Int → Int → Int → Int) (b : Bitmap) (x1 y1 x2 y2 c t : Int)
    (fuel : Nat) (b2 : Bitmap) (h : b.line blend fuel x1 y1 x2 y2 c t = some b2) :
    OnlyClip b b2 ∧ (b.BoxOutside x1 y1 x2 y2 → b2 = b) := by
  unfold line at h
  simp only [Option.map_eq_some'] at h
  obtain ⟨s, hs, rfl⟩ := h
  have hfin : ∀ s : LineState, OnlyClip b s.bmp → (b.BoxOutside x1 y1 x2 y2 → s.bmp = b) →
      InBox x1 y1 x2 y2 s.x1 s.y1 →
      OnlyClip b (s.bmp.setpixelSolid blend s.x1 s.y1 c t) ∧
        (b.BoxOutside x1 y1 x2 y2 → s.bmp.setpixelSolid blend s.x1 s.y1 c t = b) := by
    intro s h1 h2 hbox
    refine ⟨onlyClip_trans h1 (setpixelSolid_onlyClip blend s.bmp s.x1 s.y1 c t), fun hout => ?_⟩
    rw [h2 hout]
    exact setpixelSolid_outside blend b _ _ c t (boxOutside_not_inClip hout hbox)
  have hdx := abs_nonneg (x2 - x1)
  have hdy := abs_nonneg (y2 - y1)
  by_cases hmaj : |x2 - x1| ≥ |y2 - y1|
  · rw [if_pos hmaj] at hs
    have := whileLoop_inv _ _
      (fun s => OnlyClip b s.bmp ∧ (b.BoxOutside x1 y1 x2 y2 → s.bmp = b) ∧
        LineInvX x1 y1 (if x2 - x1 > 0 then 1 else -1) (if y2 - y1 > 0 then 1 else -1)
          |x2 - x1| |y2 - y1| s)
      (fun s hc hP => (lineX_keeps blend b x1 y1 x2 y2 c t s (by simpa using hc) hP).1)
      fuel _ s ⟨onlyClip_refl b, fun _ => rfl, 0, 0, le_rfl, hdx, le_rfl, le_rfl,
        by simp, by simp, by simp, by simp; omega⟩ hs
    obtain ⟨⟨h1, h2, h3⟩, _⟩ := this
    obtain ⟨k, j, hk0, hk, hj0, hj, hx, hy⟩ := lineInvX_minor_le h3 hdy
    have hbx := steps_between x1 x2 k hk0 hk
    have hby := steps_between y1 y2 j hj0 hj
    exact hfin s h1 h2 (by unfold InBox; rw [hx, hy]; exact ⟨hbx.1, hbx.2, hby.1, hby.2⟩)
  · rw [if_neg hmaj] at hs
    have := whileLoop_inv _ _
      (fun s => OnlyClip b s.bmp ∧ (b.BoxOutside x1 y1 x2 y2 → s.bmp = b) ∧
        LineInvY x1 y1 (if x2 - x1 > 0 then 1 else -1) (if y2 - y1 > 0 then 1 else -1)
          |x2 - x1| |y2 - y1| s)
      (fun s hc hP => (lineY_keeps blend b x1 y1 x2 y2 c t s (by simpa using hc) hP).1)
      fuel _ s ⟨onlyClip_refl b, fun _ => rfl, 0, 0, le_rfl, hdy, le_rfl, le_rfl,
        by simp, by simp, by simp, by simp; omega⟩ hs
    obtain ⟨⟨h1, h2, h3⟩, _⟩ := this
    obtain ⟨k, j, hk0, hk, hj0, hj, hy, hx⟩ := lineInvY_minor_le h3 hdx
    have hby := steps_between y1 y2 k hk0 hk
    have hbx := steps_between x1 x2 j hj0 hj
    exact hfin s h1 h2 (by unfold InBox; rw [hx, hy]; exact ⟨hbx.1, hbx.2, hby.1, hby.2⟩)

/-- `line` returns once the fuel exceeds the length of the longer side of the
box of its end points. -/
theorem line_terminates (blend : Int → Int → Int → Int) (b : Bitmap) (x1 y1 x2 y2 c t : Int)
    (fuel : Nat) (hf : max (x2 - x1).natAbs (y2 - y1).natAbs < fuel) :
    ∃ b2, b.line blend fuel x1 y1 x2 y2 c t = some b2 := by
  unfold line
  simp only [Option.map_eq_some']
  have hdx := abs_nonneg (x2 - x1)
  have hdy := abs_nonneg (y2 - y1)
  by_cases hmaj : |x2 - x1| ≥ |y2 - y1|
  · rw [if_pos hmaj]
    obtain ⟨s, hs⟩ := whileLoop_terminates (fun s : LineState => decide (s.x1 ≠ x2)) _
      (fun s => OnlyClip b s.bmp ∧ (b.BoxOutside x1 y1 x2 y2 → s.bmp = b) ∧
        LineInvX x1 y1 (if x2 - x1 > 0 then 1 else -1) (if y2 - y1 > 0 then 1 else -1)
          |x2 - x1| |y2 - y1| s)
      (fun s => (x2 - s.x1).natAbs)
      (fun s hc hP => lineX_keeps blend b x1 y1 x2 y2 c t s (by simpa using hc) hP)
      fuel { bmp := b, x1 := x1, y1 := y1, e := 2 * |y2 - y1| - |x2 - x1| }
      ⟨onlyClip_refl b, fun _ => rfl, 0, 0, le_rfl, hdx, le_rfl, le_rfl,
        by simp, by simp, by simp, by simp; omega⟩
      (by simp only; omega)
    exact ⟨_, ⟨s, hs, rfl⟩⟩
  · rw [if_neg hmaj]
    obtain ⟨s, hs⟩ := whileLoop_terminates (fun s : LineState => decide (s.y1 ≠ y2)) _
      (fun s => OnlyClip b s.bmp ∧ (b.BoxOutside x1 y1 x2 y2 → s.bmp = b) ∧
        LineInvY x1 y1 (if x2 - x1 > 0 then 1 else -1) (if y2 - y1 > 0 then 1 else -1)
          |x2 - x1| |y2 - y1| s)
      (fun s => (y2 - s.y1).natAbs)
      (fun s hc hP => lineY_keeps blend b x1 y1 x2 y2 c t s (by simpa using hc) hP)
      fuel { bmp := b, x1 := x1, y1 := y1, e := 2 * |x2 - x1| - |y2 - y1| }
      ⟨onlyClip_refl b, fun _ => rfl, 0, 0, le_rfl, hdy, le_rfl, le_rfl,
        by simp, by simp, by simp, by simp; omega⟩
      (by simp only; omega)
    exact ⟨_, ⟨s, hs, rfl⟩⟩

/-! ## C1: the drawing primitives write inside the clip rectangle only -/

theorem onlyClip_respects {b b2 : Bitmap} (hb : b.ClipInside) (h : OnlyClip b b2)
    {outside : Prop} (hout : outside → b2 = b) : RespectsClip b b2 outside :=
  ⟨onlyClip_sameOutside hb h, hout⟩

theorem boxOutside_guard_false {b : Bitmap} {x1 y1 x2 y2 : Int}
    (h : b.BoxOutside x1 y1 x2 y2) :
    ¬ (min x1 x2 ≤ b.cr ∧ b.cl ≤ max x1 x2 ∧ min y1 y2 ≤ b.cb ∧ b.ct ≤ max y1 y2) := by
  unfold BoxOutside at h
  omega

/-- The buffer after `hline`, cell by cell. -/
theorem hline_data (blend : Int → Int → Int → Int) (b : Bitmap) (x1 y x2 c t : Int) :
    b.hline blend x1 y x2 c t = { b with data := (fun i =>
      if (b.ct ≤ y ∧ y ≤ b.cb) ∧ max (min x1 x2) b.cl ≤ i - b.w * y ∧
          i - b.w * y ≤ min (max x1 x2) b.cr
      then blend (b.data i) c t else b.data i) } := by
  rw [hline_eq]
  by_cases hg : b.ct ≤ y ∧ y ≤ b.cb ∧ min x1 x2 ≤ b.cr ∧ b.cl ≤ max x1 x2
  · rw [if_pos hg]
    congr 1
    funext i
    unfold forUpTo
    rw [forLoop_cells (fun _ p => blend p c t) (b.w * y)]
    by_cases h : max (min x1 x2) b.cl ≤ i - b.w * y ∧ i - b.w * y ≤ min (max x1 x2) b.cr
    · have hl : max (min x1 x2) b.cl ≤ i - b.w * y ∧ i - b.w * y <
          max (min x1 x2) b.cl + ((min (max x1 x2) b.cr + 1 - max (min x1 x2) b.cl).toNat : Int) := by
        omega
      rw [if_pos hl, if_pos ⟨⟨hg.1, hg.2.1⟩, h⟩]
    · have hl : ¬ (max (min x1 x2) b.cl ≤ i - b.w * y ∧ i - b.w * y <
          max (min x1 x2) b.cl + ((min (max x1 x2) b.cr + 1 - max (min x1 x2) b.cl).toNat : Int)) := by
        omega
      rw [if_neg hl, if_neg (fun hh => h hh.2)]
  · rw [if_neg hg]
    have : b = { b with data := b.data } := rfl
    conv_lhs => rw [this]
    congr 1
    funext i
    rw [if_neg]
    omega

/-- The buffer after `rectfill`, cell by cell, when the columns of the clip
rectangle are columns of the buffer. -/
theorem rectfill_data (blend : Int → Int → Int → Int) (b : Bitmap)
    (hcl : 0 ≤ b.cl) (hcr : b.cr < b.w) (x1 y1 x2 y2 c t : Int) :
    b.rectfill blend x1 y1 x2 y2 c t = { b with data := (fun i =>
      if (min y1 y2 ≤ i / b.w ∧ i / b.w ≤ max y1 y2) ∧ (b.ct ≤ i / b.w ∧ i / b.w ≤ b.cb) ∧
          max (min x1 x2) b.cl ≤ i % b.w ∧ i % b.w ≤ min (max x1 x2) b.cr
      then blend (b.data i) c t else b.data i) } := by
  rw [rectfill_eq]
  by_cases hg : min x1 x2 ≤ b.cr ∧ b.cl ≤ max x1 x2 ∧ min y1 y2 ≤ b.cb ∧ b.ct ≤ max y1 y2
  · rw [if_pos hg]
    unfold forUpTo
    have hb0 : b = { b with data := b.data } := rfl
    conv_lhs => rw [hb0]
    rw [forLoop_data b _ (fun y d i =>
      if (b.ct ≤ y ∧ y ≤ b.cb) ∧ max (min x1 x2) b.cl ≤ i - b.w * (0 + y) ∧
          i - b.w * (0 + y) ≤ min (max x1 x2) b.cr
      then blend (d i) c t else d i)]
    · congr 1
      funext i
      rw [forLoop_rows b.w (max (min x1 x2) b.cl) (min (max x1 x2) b.cr) 0 (by omega) (by omega)
        (fun y => b.ct ≤ y ∧ y ≤ b.cb) (fun _ _ p => blend p c t) _ (fun y d i => rfl)]
      simp only [sub_zero]
      by_cases h : (min y1 y2 ≤ i / b.w ∧ i / b.w ≤ max y1 y2) ∧
          (b.ct ≤ i / b.w ∧ i / b.w ≤ b.cb) ∧
          max (min x1 x2) b.cl ≤ i % b.w ∧ i % b.w ≤ min (max x1 x2) b.cr
      · rw [if_pos h, if_pos]
        refine ⟨h.1.1, ?_, h.2.1, h.2.2.1, h.2.2.2⟩
        omega
      · rw [if_neg h, if_neg]
        rintro ⟨h1, h2, h3, h4, h5⟩
        apply h
        refine ⟨⟨h1, ?_⟩, h3, h4, h5⟩
        omega
    · intro y d
      have e1 : min (min x1 x2) (max x1 x2) = min x1 x2 := by omega
      have e2 : max (min x1 x2) (max x1 x2) = max x1 x2 := by omega
      rw [hline_data, e1, e2]
      simp only [zero_add]
  · rw [if_neg hg]
    have : b = { b with data := b.data } := rfl
    conv_lhs => rw [this]
    congr 1
    funext i
    rw [if_neg]
    omega

/-- Along one axis the clipped range of `blit` is the set of destination
coordinates inside the requested range, inside the clip range and with a source
coordinate inside the source; the offset between source and destination is kept. -/
theorem blitAxis_spec (srcN cl cr s d n : Int) :
    (blitAxis srcN cl cr s d n).1 - (blitAxis srcN cl cr s d n).2.1 = s - d ∧
    ∀ X : Int, ((blitAxis srcN cl cr s d n).2.1 ≤ X ∧
        X < (blitAxis srcN cl cr s d n).2.1 + (blitAxis srcN cl cr s d n).2.2) ↔
      ((cl ≤ X ∧ X ≤ cr) ∧ (d ≤ X ∧ X < d + n) ∧ (0 ≤ X - d + s ∧ X - d + s < srcN)) := by
  unfold blitAxis
  simp only
  constructor
  · split_ifs <;> omega
  · intro X
    split_ifs <;> omega

/-- `blit` in terms of `blitAxis`. -/
theorem blit_eq (src dest : Bitmap) (sx sy dx dy ww hh : Int) :
    src.blit dest sx sy dx dy ww hh =
      if sx ≥ src.w ∨ sy ≥ src.h ∨ dx > dest.cr ∨ dy > dest.cb then dest
      else if (blitAxis src.w dest.cl dest.cr sx dx ww).2.2 < 1 ∨
          (blitAxis src.h dest.ct dest.cb sy dy hh).2.2 < 1 then dest
      else { dest with data := (forLoop
        (fun y d => forLoop
          (blitCell src dest.w (blitAxis src.w dest.cl dest.cr sx dx ww).1
            (blitAxis src.h dest.ct dest.cb sy dy hh).1
            (blitAxis src.w dest.cl dest.cr sx dx ww).2.1
            (blitAxis src.h dest.ct dest.cb sy dy hh).2.1 y)
          (blitAxis src.w dest.cl dest.cr sx dx ww).2.2.toNat 0 d)
        (blitAxis src.h dest.ct dest.cb sy dy hh).2.2.toNat 0 dest.data) } := rfl

/-- The buffer after the two copy loops of `blit`, cell by cell, for a
destination range of columns inside the buffer. -/
theorem blit_loops (src : Bitmap) (W sx sy dx dy : Int) (nx ny : Nat)
    (hdx : 0 ≤ dx) (hW : dx + nx ≤ W) (d0 : Int → Int) (i : Int) :
    forLoop (fun y d => forLoop (blitCell src W sx sy dx dy y) nx 0 d) ny 0 d0 i =
      if (dy ≤ i / W ∧ i / W < dy + ny) ∧ (dx ≤ i % W ∧ i % W < dx + nx)
      then src.data (src.w * (sy + (i / W - dy)) + sx + (i % W - dx)) else d0 i := by
  rw [forLoop_rows W dx (dx + nx - 1) dy hdx (by omega) (fun _ => True)
    (fun y c _ => src.data (src.w * (sy + y) + sx + (c - dx)))]
  · by_cases h : (dy ≤ i / W ∧ i / W < dy + ny) ∧ (dx ≤ i % W ∧ i % W < dx + nx)
    · rw [if_pos h, if_pos ⟨by omega, by omega, trivial, by omega, by omega⟩]
    · rw [if_neg h, if_neg]
      rintro ⟨h1, h2, _, h3, h4⟩
      apply h
      omega
  · intro y d j
    refine Eq.trans (forLoop_cells (fun x _ => src.data (src.w * (sy + y) + sx + x))
      (W * (dy + y) + dx) nx 0 d j) ?_
    by_cases h : dx ≤ j - W * (dy + y) ∧ j - W * (dy + y) ≤ dx + nx - 1
    · rw [if_pos (show 0 ≤ j - (W * (dy + y) + dx) ∧ j - (W * (dy + y) + dx) < 0 + (nx : Int)
        by omega), if_pos ⟨trivial, h⟩]
      show src.data _ = src.data _
      congr 1
      omega
    · rw [if_neg (show ¬ (0 ≤ j - (W * (dy + y) + dx) ∧
        j - (W * (dy + y) + dx) < 0 + (nx : Int)) by omega), if_neg (fun hh => h hh.2)]

/-- What `blit` does, for a destination whose clip columns are columns of its
buffer. -/
theorem blit_pix (src dest : Bitmap) (c1 : 0 ≤ dest.cl) (c3 : dest.cr < dest.w)
    (sx sy dx dy ww hh : Int) :
    (∃ d, src.blit dest sx sy dx dy ww hh = { dest with data := d }) ∧
    (∀ X Y : Int, 0 ≤ X → X < dest.w →
      (src.blit dest sx sy dx dy ww hh).pix X Y =
        if BlitRegion src dest sx sy dx dy ww hh X Y
        then src.pix (X - dx + sx) (Y - dy + sy) else dest.pix X Y) ∧
    ((∀ X Y : Int, ¬ BlitRegion src dest sx sy dx dy ww hh X Y) →
      src.blit dest sx sy dx dy ww hh = dest) := by
  obtain ⟨hox, hax⟩ := blitAxis_spec src.w dest.cl dest.cr sx dx ww
  obtain ⟨hoy, hay⟩ := blitAxis_spec src.h dest.ct dest.cb sy dy hh
  rw [blit_eq]
  by_cases hg : sx ≥ src.w ∨ sy ≥ src.h ∨ dx > dest.cr ∨ dy > dest.cb
  · rw [if_pos hg]
    refine ⟨⟨dest.data, rfl⟩, ?_, fun _ => rfl⟩
    intro X Y _ _
    rw [if_neg]
    unfold BlitRegion inClip
    omega
  rw [if_neg hg]
  by_cases hn : (blitAxis src.w dest.cl dest.cr sx dx ww).2.2 < 1 ∨
      (blitAxis src.h dest.ct dest.cb sy dy hh).2.2 < 1
  · rw [if_pos hn]
    refine ⟨⟨dest.data, rfl⟩, ?_, fun _ => rfl⟩
    intro X Y _ _
    rw [if_neg]
    unfold BlitRegion inClip
    have hX := hax X
    have hY := hay Y
    omega
  rw [if_neg hn]
  have h0x := (hax (blitAxis src.w dest.cl dest.cr sx dx ww).2.1).mp (by omega)
  have h0y := (hay (blitAxis src.h dest.ct dest.cb sy dy hh).2.1).mp (by omega)
  refine ⟨⟨_, rfl⟩, ?_, fun hemp => ?_⟩
  · intro X Y hX0 hXw
    simp only [pix, idx]
    have hlast := (hax ((blitAxis src.w dest.cl dest.cr sx dx ww).2.1 +
      (blitAxis src.w dest.cl dest.cr sx dx ww).2.2 - 1)).mp (by omega)
    have hb1 : 0 ≤ (blitAxis src.w dest.cl dest.cr sx dx ww).2.1 := by omega
    have hb2 : (blitAxis src.w dest.cl dest.cr sx dx ww).2.1 +
        ((blitAxis src.w dest.cl dest.cr sx dx ww).2.2.toNat : Int) ≤ dest.w := by omega
    rw [blit_loops src dest.w _ _ _ _ _ _ hb1 hb2]
    obtain ⟨e1, e2⟩ := cell_row_col (W := dest.w) (X := X) (Y := Y) hX0 hXw
    rw [e1, e2]
    have hX := hax X
    have hY := hay Y
    by_cases hr : BlitRegion src dest sx sy dx dy ww hh X Y
    · rw [if_pos hr, if_pos]
      · congr 1
        have e3 : (blitAxis src.h dest.ct dest.cb sy dy hh).1 +
            (Y - (blitAxis src.h dest.ct dest.cb sy dy hh).2.1) = Y - dy + sy := by omega
        have e4 : (blitAxis src.w dest.cl dest.cr sx dx ww).1 +
            (X - (blitAxis src.w dest.cl dest.cr sx dx ww).2.1) = X - dx + sx := by omega
        rw [e3, add_assoc, e4]
      · unfold BlitRegion inClip at hr
        omega
    · rw [if_neg hr, if_neg]
      unfold BlitRegion inClip at hr
      omega
  · exfalso
    apply hemp (blitAxis src.w dest.cl dest.cr sx dx ww).2.1
      (blitAxis src.h dest.ct dest.cb sy dy hh).2.1
    unfold BlitRegion inClip
    omega

/-- An arithmetic result that is a value of `int` is stored as it is. -/
theorem wrap32_id (v : Int) (h : Word v) : wrap32 v = v := by
  unfold Word at h
  unfold wrap32 ofU32 toU32
  split_ifs <;> omega

/-- `blitClip32` in terms of `blitAxis32`. -/
theorem blitClip32_eq (src dest : Bitmap) (sx sy dx dy ww hh : Int) :
    blitClip32 src dest sx sy dx dy ww hh =
      if sx ≥ src.w ∨ sy ≥ src.h ∨ dx > dest.cr ∨ dy > dest.cb then none
      else if (blitAxis32 src.w dest.cl dest.cr sx dx ww).2.2 < 1 ∨
          (blitAxis32 src.h dest.ct dest.cb sy dy hh).2.2 < 1 then none
      else some ((blitAxis32 src.w dest.cl dest.cr sx dx ww).1,
        (blitAxis32 src.h dest.ct dest.cb sy dy hh).1,
        (blitAxis32 src.w dest.cl dest.cr sx dx ww).2.1,
        (blitAxis32 src.h dest.ct dest.cb sy dy hh).2.1,
        (blitAxis32 src.w dest.cl dest.cr sx dx ww).2.2,
        (blitAxis32 src.h dest.ct dest.cb sy dy hh).2.2) := rfl

/-- With all six quantities of an axis of magnitude at most `2^28`, no sum or
difference of the clipping leaves the range of `int`. -/
theorem blitAxis32_eq (srcN cl cr s d n : Int) (hN : Small srcN) (hcl : Small cl)
    (hcr : Small cr) (hs : Small s) (hd : Small d) (hn : Small n) :
    blitAxis32 srcN cl cr s d n = blitAxis srcN cl cr s d n := by
  unfold Small at *
  have w : ∀ v : Int, -2147483648 ≤ v → v < 2147483648 → wrap32 v = v :=
    fun v a b => wrap32_id v ⟨a, b⟩
  unfold blitAxis32 blitAxis
  simp only []
  rw [w (n + s) (by omega) (by omega), w (d - s) (by omega) (by omega)]
  have b1 : -536870912 ≤ (if s < 0 then n + s else n) ∧
      (if s < 0 then n + s else n) ≤ 536870912 := by split_ifs <;> omega
  have b2 : -536870912 ≤ (if s < 0 then d - s else d) ∧
      (if s < 0 then d - s else d) ≤ 536870912 := by split_ifs <;> omega
  have b3 : 0 ≤ (if s < 0 then 0 else s) ∧ (if s < 0 then 0 else s) ≤ 268435456 := by
    split_ifs <;> omega
  generalize (if s < 0 then n + s else n) = n1 at *
  generalize (if s < 0 then d - s else d) = d1 at *
  generalize (if s < 0 then 0 else s) = s1 at *
  rw [w (s1 + n1) (by omega) (by omega), w (srcN - s1) (by omega) (by omega)]
  have b4 : -536870912 ≤ (if s1 + n1 > srcN then srcN - s1 else n1) ∧
      (if s1 + n1 > srcN then srcN - s1 else n1) ≤ 536870912 := by split_ifs <;> omega
  generalize (if s1 + n1 > srcN then srcN - s1 else n1) = n2 at *
  rw [w (d1 - cl) (by omega) (by omega), w (n2 + (d1 - cl)) (by omega) (by omega),
    w (s1 - (d1 - cl)) (by omega) (by omega)]
  have b5 : -1342177280 ≤ (if d1 < cl then n2 + (d1 - cl) else n2) ∧
      (if d1 < cl then n2 + (d1 - cl) else n2) ≤ 1342177280 := by split_ifs <;> omega
  have b6 : -536870912 ≤ (if d1 < cl then cl else d1) ∧
      (if d1 < cl then cl else d1) ≤ 536870912 := by split_ifs <;> omega
  generalize (if d1 < cl then n2 + (d1 - cl) else n2) = n3 at *
  generalize (if d1 < cl then cl else d1) = d2 at *
  rw [w (d2 + n3) (by omega) (by omega), w (d2 + n3 - 1) (by omega) (by omega),
    w (cr - d2) (by omega) (by omega), w (cr - d2 + 1) (by omega) (by omega)]

/-- For canvases at most `2^28` wide and high and arguments of magnitude at
most `2^28`, `blit` with 32-bit arithmetic is `blit` with exact arithmetic. -/
theorem blit32_eq (src dest : Bitmap) (hd : dest.ClipInside)
    (hsw : Small src.w) (hsh : Small src.h)
    (hdw : dest.w ≤ 268435456) (hdh : dest.h ≤ 268435456)
    (sx sy dx dy ww hh : Int) (hsx : Small sx) (hsy : Small sy) (hdx : Small dx)
    (hdy : Small dy) (hww : Small ww) (hhh : Small hh) :
    src.blit32 dest sx sy dx dy ww hh = src.blit dest sx sy dx dy ww hh := by
  unfold ClipInside at hd
  have hx := blitAxis32_eq src.w dest.cl dest.cr sx dx ww hsw (by unfold Small; omega)
    (by unfold Small; omega) hsx hdx hww
  have hy := blitAxis32_eq src.h dest.ct dest.cb sy dy hh hsh (by unfold Small; omega)
    (by unfold Small; omega) hsy hdy hhh
  rw [blit_eq]
  unfold blit32
  rw [blitClip32_eq, hx, hy]
  by_cases hg : sx ≥ src.w ∨ sy ≥ src.h ∨ dx > dest.cr ∨ dy > dest.cb
  · simp only [if_pos hg]
  · simp only [if_neg hg]
    by_cases hn : (blitAxis src.w dest.cl dest.cr sx dx ww).2.2 < 1 ∨
        (blitAxis src.h dest.ct dest.cb sy dy hh).2.2 < 1
    · simp only [if_pos hn]
    · simp only [if_neg hn]

/-- C2, for two canvases and arguments that the arithmetic of `blit` can handle.
For a source canvas and a destination canvas that is another object, both at most
`2^28` wide and high, the clip rectangle of the destination inside its buffer,
and arguments `sx sy dx dy ww hh` of magnitude at most `2^28`: `blit` (with every
arithmetic result stored in 32 bits) keeps the geometry of the destination;
afterwards a destination pixel `(X,Y)` holds the source pixel `(X-dx+sx, Y-dy+sy)`
when `(X,Y)` is in the destination clip rectangle and in
`[dx,dx+ww) x [dy,dy+hh)` and that source position is in the source buffer, and
holds its old content otherwise; when no pixel qualifies the call returns the
destination unchanged. The source is a value that `blit32` only reads. -/
theorem blit_spec (src dest : Bitmap) (hd : dest.ClipInside)
    (hsw : Small src.w) (hsh : Small src.h)
    (hdw : dest.w ≤ 268435456) (hdh : dest.h ≤ 268435456)
    (sx sy dx dy ww hh : Int) (hsx : Small sx) (hsy : Small sy) (hdx : Small dx)
    (hdy : Small dy) (hww : Small ww) (hhh : Small hh) :
    (∃ d, src.blit32 dest sx sy dx dy ww hh = { dest with data := d }) ∧
    (∀ X Y : Int, 0 ≤ X → X < dest.w → 0 ≤ Y → Y < dest.h →
      (src.blit32 dest sx sy dx dy ww hh).pix X Y =
        if BlitRegion src dest sx sy dx dy ww hh X Y
        then src.pix (X - dx + sx) (Y - dy + sy) else dest.pix X Y) ∧
    ((∀ X Y : Int, ¬ BlitRegion src dest sx sy dx dy ww hh X Y) →
      src.blit32 dest sx sy dx dy ww hh = dest) := by
  rw [blit32_eq src dest hd hsw hsh hdw hdh sx sy dx dy ww hh hsx hsy hdx hdy hww hhh]
  obtain ⟨h1, h2, h3⟩ := blit_pix src dest hd.1 hd.2.2.1 sx sy dx dy ww hh
  exact ⟨h1, fun X Y hX0 hX _ _ => h2 X Y hX0 hX, h3⟩

/-- C2 for the 4 x 2 source `countCanvas` and the 4 x 4 destination with clip
rectangle `[1,2] x [1,2]`, with a negative source offset: the clip pixels
`(1,1)` and `(2,2)` receive the source pixels `(0,0)` and `(1,1)`, the pixel
`(1,2)` too is copied, and the pixel `(0,0)` outside the clip rectangle is kept. -/
theorem blit_spec_witness :
    (insetCanvas.ClipInside ∧ Small countCanvas.w ∧ Small countCanvas.h ∧
      insetCanvas.w ≤ 268435456 ∧ insetCanvas.h ≤ 268435456 ∧
      Small (-1) ∧ Small 0 ∧ Small 1 ∧ Small 3 ∧ Small 5) ∧
    ((∃ d, countCanvas.blit32 insetCanvas (-1) 0 0 1 3 5 = { insetCanvas with data := d }) ∧
    (∀ X Y : Int, 0 ≤ X → X < insetCanvas.w → 0 ≤ Y → Y < insetCanvas.h →
      (countCanvas.blit32 insetCanvas (-1) 0 0 1 3 5).pix X Y =
        if BlitRegion countCanvas insetCanvas (-1) 0 0 1 3 5 X Y
        then countCanvas.pix (X - 0 + (-1)) (Y - 1 + 0) else insetCanvas.pix X Y) ∧
    ((∀ X Y : Int, ¬ BlitRegion countCanvas insetCanvas (-1) 0 0 1 3 5 X Y) →
      countCanvas.blit32 insetCanvas (-1) 0 0 1 3 5 = insetCanvas)) ∧
    ((countCanvas.blit32 insetCanvas (-1) 0 0 1 3 5).pix 1 1 = 11 ∧
      (countCanvas.blit32 insetCanvas (-1) 0 0 1 3 5).pix 2 2 = 16 ∧
      (countCanvas.blit32 insetCanvas (-1) 0 0 1 3 5).pix 1 2 = 15 ∧
      (countCanvas.blit32 insetCanvas (-1) 0 0 1 3 5).pix 0 0 = 0) :=
  ⟨by decide,
    blit_spec countCanvas insetCanvas (by decide) (by decide) (by decide) (by decide)
      (by decide) (-1) 0 0 1 3 5 (by decide) (by decide) (by decide) (by decide) (by decide)
      (by decide),
    by decide⟩

/-- C2 as stated fails in two ways. With `sx = 1` and `ww = 2147483647` the sum
`sx + ww` is stored as `-2147483648`, the test `(sx + ww) > w` fails and the
width is clamped to the destination only: from the 4 x 2 source `countCanvas`
four cells are copied into the 4 x 1 destination, and the destination pixel
`(3,0)`, whose source position `(4,0)` is outside the source, changes from 0 to
15, the source pixel `(0,1)`. And when the destination is the source itself the
copy reads what it has written: `blit(this, 0, 0, 1, 0, 3, 1)` on the row
11, 12, 13, 14 leaves 11 in pixel `(2,0)`, where the source pixel `(1,0)` held 12. -/
theorem blit_overflow_alias_counterexample :
    ((countCanvas.blit32 (create 4 1) 1 0 0 0 2147483647 1).pix 3 0 = 15 ∧
      (create 4 1).pix 3 0 = 0 ∧ (create 4 1).ClipInside ∧
      ¬ BlitRegion countCanvas (create 4 1) 1 0 0 0 2147483647 1 3 0) ∧
    ((rowCanvas.blitSelf32 0 0 1 0 3 1).pix 2 0 = 11 ∧ rowCanvas.pix 1 0 = 12 ∧
      rowCanvas.ClipInside ∧ BlitRegion rowCanvas rowCanvas 0 0 1 0 3 1 2 0) := by
  decide

/-! ## C8, C9: flips and `rotate180` are involutions -/

/-- The buffer after `flipHorizontal`: column `X` of every row of the buffer
holds what column `w - 1 - X` held. -/
theorem flipHorizontal_moved (b : Bitmap) (hw : 0 < b.w) :
    Moved b.w (fun X _ => b.w - 1 - X) (fun _ Y => Y)
      (fun X Y => (0 ≤ Y ∧ Y < b.h) ∧ (X < b.w / 2 ∨ b.w - b.w / 2 ≤ X))
      b.data b.flipHorizontal.data := by
  have hK : Int.tdiv b.w 2 = b.w / 2 := (tdiv_two b.w).1 hw.le
  unfold flipHorizontal
  simp only [hK]
  have houter := forLoop_inv_idx
    (fun y d => forLoop (fun x d => swapCells d (b.w * y + x) (b.w * y + b.w - 1 - x))
      (b.w / 2).toNat 0 d)
    (fun y d => Moved b.w (fun X _ => b.w - 1 - X) (fun _ Y => Y)
      (fun X Y => (0 ≤ Y ∧ Y < y) ∧ (X < b.w / 2 ∨ b.w - b.w / 2 ≤ X)) b.data d)
    b.h.toNat 0 b.data
    (fun X Y _ _ => ⟨fun h => by omega, fun _ => rfl⟩)
    (by
      intro y d hy0 _ hP
      have hinner := forLoop_inv_idx
        (fun x d => swapCells d (b.w * y + x) (b.w * y + b.w - 1 - x))
        (fun x d => Moved b.w (fun X _ => b.w - 1 - X) (fun _ Y => Y)
          (fun X Y => ((0 ≤ Y ∧ Y < y) ∧ (X < b.w / 2 ∨ b.w - b.w / 2 ≤ X)) ∨
            (Y = y ∧ (X < x ∨ b.w - x ≤ X))) b.data d)
        (b.w / 2).toNat 0 d
        (moved_congr hP (fun X Y _ _ => by omega))
        (by
          intro x d2 hx0 hx hQ
          have e : b.w * y + b.w - 1 - x = b.w * y + (b.w - 1 - x) := by ring
          beta_reduce
          rw [e]
          exact moved_swap hQ x y (by omega) (by omega) (by omega) (by omega)
            ⟨by omega, rfl⟩ (fun X Y => by omega))
      exact moved_congr hinner (fun X Y _ _ => by omega))
  exact moved_congr houter (fun X Y _ _ => by omega)

/-- The buffer after `flipVertical`: row `Y` of the buffer holds what row
`h - 1 - Y` held. -/
theorem flipVertical_moved (b : Bitmap) (hw : 0 < b.w) (hh : 0 < b.h) :
    Moved b.w (fun X _ => X) (fun _ Y => b.h - 1 - Y)
      (fun _ Y => (0 ≤ Y ∧ Y < b.h) ∧ (Y < b.h / 2 ∨ b.h - b.h / 2 ≤ Y))
      b.data b.flipVertical.data := by
  have hK : Int.tdiv b.h 2 = b.h / 2 := (tdiv_two b.h).1 hh.le
  unfold flipVertical
  simp only [hK]
  have houter := forLoop_inv_idx
    (fun y d => forLoop (fun x d => swapCells d (b.w * y + x) (b.w * (b.h - 1 - y) + x))
      b.w.toNat 0 d)
    (fun y d => Moved b.w (fun X _ => X) (fun _ Y => b.h - 1 - Y)
      (fun _ Y => (0 ≤ Y ∧ Y < b.h) ∧ (Y < y ∨ b.h - y ≤ Y)) b.data d)
    (b.h / 2).toNat 0 b.data
    (fun X Y _ _ => ⟨fun h => by omega, fun _ => rfl⟩)
    (by
      intro y d hy0 hy hP
      have hinner := forLoop_inv_idx
        (fun x d => swapCells d (b.w * y + x) (b.w * (b.h - 1 - y) + x))
        (fun x d => Moved b.w (fun X _ => X) (fun _ Y => b.h - 1 - Y)
          (fun X Y => ((0 ≤ Y ∧ Y < b.h) ∧ (Y < y ∨ b.h - y ≤ Y)) ∨
            ((Y = y ∨ Y = b.h - 1 - y) ∧ X < x)) b.data d)
        b.w.toNat 0 d
        (moved_congr hP (fun X Y _ _ => by omega))
        (by
          intro x d2 hx0 hx hQ
          exact moved_swap hQ x y (by omega) (by omega) (by omega) (by omega)
            ⟨rfl, by omega⟩ (fun X Y => by omega))
      exact moved_congr hinner (fun X Y _ _ => by omega))
  exact moved_congr houter (fun X Y _ _ => by omega)

/-- The buffer after `rotate180`, read as one row of `w * h` cells: cell `X`
holds what cell `w * h - 1 - X` held. -/
theorem rotate180_moved (b : Bitmap) (hs : 0 < b.w * b.h) :
    Moved (b.w * b.h) (fun X _ => b.w * b.h - 1 - X) (fun _ Y => Y)
      (fun X Y => Y = 0 ∧ (X < b.w * b.h / 2 ∨ b.w * b.h - b.w * b.h / 2 ≤ X))
      b.data b.rotate180.data := by
  have hK : Int.tdiv (b.w * b.h) 2 = b.w * b.h / 2 := (tdiv_two (b.w * b.h)).1 hs.le
  unfold rotate180
  simp only [hK]
  have hloop := forLoop_inv_idx
    (fun i d => swapCells d i (b.w * b.h - 1 - i))
    (fun x d => Moved (b.w * b.h) (fun X _ => b.w * b.h - 1 - X) (fun _ Y => Y)
      (fun X Y => Y = 0 ∧ (X < x ∨ b.w * b.h - x ≤ X)) b.data d)
    (b.w * b.h / 2).toNat 0 b.data
    (fun X Y _ _ => ⟨fun h => by omega, fun _ => rfl⟩)
    (by
      intro x d hx0 hx hQ
      have key := @moved_swap _ _ _ _
        (fun X Y => Y = 0 ∧ (X < x + 1 ∨ b.w * b.h - (x + 1) ≤ X)) _ _
        hQ x 0 (by omega) (by omega) (by omega) (by omega)
        ⟨by omega, rfl⟩
        (fun X Y => by omega)
      simp only [mul_zero, zero_add] at key
      exact key)
  exact moved_congr hloop (fun X Y _ _ => by omega)

/-- C8. For every canvas, of any width and height, `flipHorizontal` applied
twice gives the canvas back, and so does `flipVertical` applied twice. -/
theorem flip_twice (b : Bitmap) :
    b.flipHorizontal.flipHorizontal = b ∧ b.flipVertical.flipVertical = b := by
  constructor
  · by_cases hw : 0 < b.w
    · have h1 := flipHorizontal_moved b hw
      have h2 := flipHorizontal_moved b.flipHorizontal hw
      have e : b.flipHorizontal.flipHorizontal.data = b.data :=
        moved_twice hw h1 h2 (fun X Y _ _ hS => by
          refine ⟨?_, ?_, ?_, rfl⟩
          · show 0 ≤ b.w - 1 - X ∧ b.w - 1 - X < b.w
            omega
          · show (0 ≤ Y ∧ Y < b.h) ∧ (b.w - 1 - X < b.w / 2 ∨ b.w - b.w / 2 ≤ b.w - 1 - X)
            have : (0 ≤ Y ∧ Y < b.h) ∧ (X < b.w / 2 ∨ b.w - b.w / 2 ≤ X) := hS
            omega
          · show b.w - 1 - (b.w - 1 - X) = X
            omega)
      exact congrArg (fun d => ({ b with data := d } : Bitmap)) e
    · have hz : (Int.tdiv b.w 2).toNat = 0 := (tdiv_two b.w).2 (by omega)
      have e : b.flipHorizontal = b := by
        unfold flipHorizontal
        rw [hz]
        exact congrArg (fun d => ({ b with data := d } : Bitmap))
          (forLoop_id _ (fun _ _ => rfl) _ _ _)
      rw [e, e]
  · by_cases hh : 0 < b.h
    · by_cases hw : 0 < b.w
      · have h1 := flipVertical_moved b hw hh
        have h2 := flipVertical_moved b.flipVertical hw hh
        have e : b.flipVertical.flipVertical.data = b.data :=
          moved_twice hw h1 h2 (fun X Y hX0 hX hS => by
            refine ⟨⟨hX0, hX⟩, ?_, rfl, ?_⟩
            · show (0 ≤ b.h - 1 - Y ∧ b.h - 1 - Y < b.h) ∧
                (b.h - 1 - Y < b.h / 2 ∨ b.h - b.h / 2 ≤ b.h - 1 - Y)
              have : (0 ≤ Y ∧ Y < b.h) ∧ (Y < b.h / 2 ∨ b.h - b.h / 2 ≤ Y) := hS
              omega
            · show b.h - 1 - (b.h - 1 - Y) = Y
              omega)
        exact congrArg (fun d => ({ b with data := d } : Bitmap)) e
      · have hz : b.w.toNat = 0 := by omega
        have e : b.flipVertical = b := by
          unfold flipVertical
          rw [hz]
          exact congrArg (fun d => ({ b with data := d } : Bitmap))
            (forLoop_id _ (fun _ _ => rfl) _ _ _)
        rw [e, e]
    · have hz : (Int.tdiv b.h 2).toNat = 0 := (tdiv_two b.h).2 (by omega)
      have e : b.flipVertical = b := by
        unfold flipVertical
        rw [hz]
        rfl
      rw [e, e]

/-- C9. For every canvas, of any width and height, `rotate180` applied twice
gives the canvas back. -/
theorem rotate180_twice (b : Bitmap) : b.rotate180.rotate180 = b := by
  by_cases hs : 0 < b.w * b.h
  · have h1 := rotate180_moved b hs
    have h2 := rotate180_moved b.rotate180 hs
    have e : b.rotate180.rotate180.data = b.data :=
      moved_twice hs h1 h2 (fun X Y _ _ hS => by
        refine ⟨?_, ?_, ?_, rfl⟩
        · show 0 ≤ b.w * b.h - 1 - X ∧ b.w * b.h - 1 - X < b.w * b.h
          omega
        · show Y = 0 ∧ (b.w * b.h - 1 - X < b.w * b.h / 2 ∨
            b.w * b.h - b.w * b.h / 2 ≤ b.w * b.h - 1 - X)
          have : Y = 0 ∧ (X < b.w * b.h / 2 ∨ b.w * b.h - b.w * b.h / 2 ≤ X) := hS
          omega
        · show b.w * b.h - 1 - (b.w * b.h - 1 - X) = X
          omega)
    exact congrArg (fun d => ({ b with data := d } : Bitmap)) e
  · have hz : (Int.tdiv (b.w * b.h) 2).toNat = 0 := (tdiv_two (b.w * b.h)).2 (by omega)
    have e : b.rotate180 = b := by
      unfold rotate180
      simp only [hz]
      rfl
    rw [e, e]

/-! ## C10: `rotate90` -/

theorem create_w (width height : Int) (hw : 0 < width) : (create width height).w = width := by
  unfold create setClip
  simp only
  rw [if_neg (by omega)]

theorem create_h (width height : Int) (hh : 0 < height) : (create width height).h = height := by
  unfold create setClip
  simp only
  rw [if_neg (by omega)]

theorem create_clipInside (width height : Int) (hw : 0 < width) (hh : 0 < height) :
    (create width height).ClipInside := by
  unfold create setClip ClipInside
  simp only
  rw [if_neg (show ¬ width < 1 by omega), if_neg (show ¬ height < 1 by omega)]
  omega

/-- A full copy: `blit` of the whole source into a fresh canvas of the same size. -/
theorem blit_copy (b : Bitmap) (hw : 0 < b.w) (hh : 0 < b.h) :
    (b.blit (create b.w b.h) 0 0 0 0 b.w b.h).w = b.w ∧
    (b.blit (create b.w b.h) 0 0 0 0 b.w b.h).h = b.h ∧
    ∀ X Y : Int, 0 ≤ X → X < b.w → 0 ≤ Y → Y < b.h →
      (b.blit (create b.w b.h) 0 0 0 0 b.w b.h).pix X Y = b.pix X Y := by
  obtain ⟨⟨d, hd⟩, hpix, _⟩ := blit_pix b (create b.w b.h)
    (create_clipInside b.w b.h hw hh).1 (create_clipInside b.w b.h hw hh).2.2.1
    0 0 0 0 b.w b.h
  have e1 : (b.blit (create b.w b.h) 0 0 0 0 b.w b.h).w = b.w := by
    rw [hd]; exact create_w b.w b.h hw
  have e2 : (b.blit (create b.w b.h) 0 0 0 0 b.w b.h).h = b.h := by
    rw [hd]; exact create_h b.w b.h hh
  refine ⟨e1, e2, fun X Y hX0 hX hY0 hY => ?_⟩
  rw [hpix X Y hX0 (by rw [create_w b.w b.h hw]; exact hX), if_pos]
  · simp
  · have hc := create_clipInside b.w b.h hw hh
    have hcw := create_w b.w b.h hw
    have hch := create_h b.w b.h hh
    have hcl : (create b.w b.h).cl = 0 ∧ (create b.w b.h).cr = b.w - 1 ∧
        (create b.w b.h).ct = 0 ∧ (create b.w b.h).cb = b.h - 1 := by
      unfold create setClip
      simp only
      rw [if_neg (show ¬ b.w < 1 by omega), if_neg (show ¬ b.h < 1 by omega)]
      simp
    unfold BlitRegion inClip
    omega

theorem hline_header (blend : Int → Int → Int → Int) (b : Bitmap) (x1 y x2 c t : Int) :
    ∃ d, b.hline blend x1 y x2 c t = { b with data := d } :=
  ⟨_, hline_data blend b x1 y x2 c t⟩

theorem rect_header (blend : Int → Int → Int → Int) (b : Bitmap) (x1 y1 x2 y2 c t : Int) :
    ∃ d, b.rect blend x1 y1 x2 y2 c t = { b with data := d } := by
  rw [rect_eq]
  split
  · simp only
    obtain ⟨d1, e1⟩ := hline_header blend b (max (min x1 x2) b.cl) (max (min y1 y2) b.ct)
      (min (max x1 x2) b.cr) c t
    obtain ⟨d2, e2⟩ := hline_header blend (b.hline blend (max (min x1 x2) b.cl)
      (max (min y1 y2) b.ct) (min (max x1 x2) b.cr) c t) (max (min x1 x2) b.cl)
      (min (max y1 y2) b.cb) (min (max x1 x2) b.cr) c t
    rw [e2, e1]
    split
    · exact ⟨d2, rfl⟩
    · exact ⟨_, rfl⟩
  · exact ⟨b.data, rfl⟩

theorem rectfill_header (blend : Int → Int → Int → Int) (b : Bitmap)
    (x1 y1 x2 y2 c t : Int) : ∃ d, b.rectfill blend x1 y1 x2 y2 c t = { b with data := d } := by
  rw [rectfill_eq]
  split
  · refine forUpTo_inv (fun y s => s.hline blend (min x1 x2) y (max x1 x2) c t)
      (fun b2 => ∃ d, b2 = { b with data := d }) _ _ b ⟨b.data, rfl⟩ ?_
    rintro i s _ _ ⟨d, rfl⟩
    exact hline_header blend _ _ _ _ c t
  · exact ⟨b.data, rfl⟩

/-- The geometry of `Bitmap(width, height, overscroll)`. -/
theorem createOverscroll_geom (env : Env) (width height ov : Int) :
    (createOverscroll env width height ov).w = max (width + ov * 2) 1 ∧
    (createOverscroll env width height ov).h = max (height + ov * 2) 1 ∧
    (createOverscroll env width height ov).cl = ov ∧
    (createOverscroll env width height ov).cr = max (width + ov * 2) 1 - ov - 1 ∧
    (createOverscroll env width height ov).ct = ov ∧
    (createOverscroll env width height ov).cb = max (height + ov * 2) 1 - ov - 1 := by
  have e1 : (if width + ov * 2 < 1 then 1 else width + ov * 2) = max (width + ov * 2) 1 := by
    split_ifs <;> omega
  have e2 : (if height + ov * 2 < 1 then 1 else height + ov * 2)
      = max (height + ov * 2) 1 := by
    split_ifs <;> omega
  unfold createOverscroll
  simp only [e1, e2]
  generalize max (width + ov * 2) 1 = W
  generalize max (height + ov * 2) 1 = H
  have key : ∀ b0 : Bitmap,
      (forLoop (fun (i : Int) (b : Bitmap) => b.rect env.blend (ov - 1 - i) (ov - 1 - i)
        (b.w - ov + i) (b.h - ov + i) env.background 0) 4 0 b0).w = b0.w ∧
      (forLoop (fun (i : Int) (b : Bitmap) => b.rect env.blend (ov - 1 - i) (ov - 1 - i)
        (b.w - ov + i) (b.h - ov + i) env.background 0) 4 0 b0).h = b0.h := by
    intro b0
    refine forLoop_inv _ (fun b2 : Bitmap => b2.w = b0.w ∧ b2.h = b0.h) 4 0 b0 ⟨rfl, rfl⟩ ?_
    rintro i s _ _ ⟨h1, h2⟩
    obtain ⟨d, hd⟩ := rect_header env.blend s (ov - 1 - i) (ov - 1 - i)
      (s.w - ov + i) (s.h - ov + i) env.background 0
    rw [hd]
    exact ⟨h1, h2⟩
  have hfill : ∀ b0 : Bitmap,
      (b0.rectfill env.blend b0.cl b0.ct b0.cr b0.cb env.black 0).w = b0.w ∧
      (b0.rectfill env.blend b0.cl b0.ct b0.cr b0.cb env.black 0).h = b0.h := by
    intro b0
    obtain ⟨d, hd⟩ := rectfill_header env.blend b0 b0.cl b0.ct b0.cr b0.cb env.black 0
    rw [hd]
    exact ⟨rfl, rfl⟩
  simp only [setClip, (key _).1, (key _).2, (hfill _).1, (hfill _).2, clear, and_self]

/-- A snapshot has the size and the pixels of the canvas. -/
theorem snapshot_spec (b : Bitmap) (hw : 0 < b.w) (hh : 0 < b.h) :
    (snapshot b).w = b.w ∧ (snapshot b).h = b.h ∧
    ∀ X Y : Int, 0 ≤ X → X < b.w → 0 ≤ Y → Y < b.h → (snapshot b).pix X Y = b.pix X Y :=
  blit_copy b hw hh

/-- Restoring a snapshot `T`: the new working canvas has the size of `T`, the
pixels of `T` in the image area and the pixels of a new image in the margin. -/
theorem restore_spec (env : Env) (ov : Int) (hov : 0 ≤ ov) (T : Bitmap)
    (hw : 0 < T.w) (hh : 0 < T.h) :
    (restore env ov T).w = T.w ∧ (restore env ov T).h = T.h ∧
    ∀ X Y : Int, 0 ≤ X → X < T.w → 0 ≤ Y → Y < T.h →
      (restore env ov T).pix X Y = if InImage ov T.w T.h X Y then T.pix X Y
        else (createOverscroll env (T.w - ov * 2) (T.h - ov * 2) ov).pix X Y := by
  obtain ⟨fw, fh, fcl, fcr, fct, fcb⟩ := createOverscroll_geom env (T.w - ov * 2) (T.h - ov * 2) ov
  have eW : max (T.w - ov * 2 + ov * 2) 1 = T.w := by omega
  have eH : max (T.h - ov * 2 + ov * 2) 1 = T.h := by omega
  rw [eW] at fw fcr
  rw [eH] at fh fcb
  obtain ⟨⟨d2, h2⟩, hpix, _⟩ := blit_pix T
    (createOverscroll env (T.w - ov * 2) (T.h - ov * 2) ov)
    (by rw [fcl]; exact hov) (by rw [fcr, fw]; omega) 0 0 0 0 T.w T.h
  unfold restore
  refine ⟨by rw [h2]; exact fw, by rw [h2]; exact fh, fun X Y hX0 hX hY0 hY => ?_⟩
  rw [hpix X Y hX0 (by rw [fw]; exact hX)]
  have hiff : BlitRegion T (createOverscroll env (T.w - ov * 2) (T.h - ov * 2) ov)
      0 0 0 0 T.w T.h X Y ↔ InImage ov T.w T.h X Y := by
    unfold BlitRegion inClip InImage
    rw [fcl, fcr, fct, fcb]
    omega
  by_cases hi : InImage ov T.w T.h X Y
  · rw [if_pos (hiff.mpr hi), if_pos hi]
    simp
  · rw [if_neg (fun h => hi (hiff.mp h)), if_neg hi]

/-- Restoring the snapshot of a canvas shows that canvas again. -/
theorem restore_snapshot (env : Env) (ov : Int) (hov : 0 ≤ ov) (S : Bitmap)
    (hw : 0 < S.w) (hh : 0 < S.h) : Restored env ov S (restore env ov (snapshot S)) := by
  obtain ⟨sw, sh, sp⟩ := snapshot_spec S hw hh
  obtain ⟨rw1, rh, rp⟩ := restore_spec env ov hov (snapshot S) (by omega) (by omega)
  refine ⟨by omega, by omega, fun X Y hX0 hX hY0 hY => ?_⟩
  rw [rp X Y hX0 (by omega) hY0 (by omega), sw, sh]
  by_cases hi : InImage ov S.w S.h X Y
  · rw [if_pos hi, if_pos hi, sp X Y hX0 hX hY0 hY]
  · rw [if_neg hi, if_neg hi]

end Bitmap

/-! ## C3, C4, C5: the history -/

namespace Undo

open Bitmap

theorem pop_of_ge (env : Env) (s : UndoState) (h : s.undo_current ≥ levels - 1) :
    pop env s = s := by
  unfold pop
  rw [if_pos h]

/-- `pop` on a non-empty ring: the working canvas is restored from the newest
snapshot, the undo cursor moves up, the undo vector and the overscroll stay. -/
theorem pop_of_lt (env : Env) (s : UndoState) (h : s.undo_current < levels - 1) :
    (pop env s).bmp = restore env s.overscroll (s.undo_stack (s.undo_current + 1)) ∧
    (pop env s).undo_current = s.undo_current + 1 ∧
    (pop env s).undo_stack = s.undo_stack ∧
    (pop env s).overscroll = s.overscroll := by
  unfold pop
  rw [if_neg (by omega)]
  unfold pushRedo newImage clampView restore
  split_ifs <;> exact ⟨rfl, rfl, rfl, rfl⟩

/-- What `pop` leaves in the redo ring: the snapshot of the canvas it replaced,
in the slot under the new redo cursor, which is below the top. -/
theorem pop_redo (env : Env) (s : UndoState) (h : s.undo_current < levels - 1)
    (hr : s.redo_current ≤ levels - 1) :
    (pop env s).redo_stack ((pop env s).redo_current + 1) = snapshot s.bmp ∧
    (pop env s).redo_current < levels - 1 := by
  unfold pop
  rw [if_neg (by omega)]
  unfold pushRedo newImage clampView
  unfold levels at hr ⊢
  split_ifs <;> simp [setSlot] <;> omega

/-- `doPush`: the snapshot of the working canvas is in the slot under the new
undo cursor; the canvas, the overscroll and the redo ring stay. -/
theorem doPush_spec (s : UndoState) :
    (doPush s).undo_stack ((doPush s).undo_current + 1) = snapshot s.bmp ∧
    (doPush s).undo_current = (if s.undo_current < 0 then 0 else s.undo_current) - 1 ∧
    (doPush s).bmp = s.bmp ∧ (doPush s).overscroll = s.overscroll ∧
    (doPush s).redo_stack = s.redo_stack ∧ (doPush s).redo_current = s.redo_current := by
  unfold doPush
  split_ifs <;> simp [setSlot]

/-- `popRedo` on a non-empty redo ring restores the newest redo snapshot. -/
theorem popRedo_of_lt (env : Env) (s : UndoState) (h : s.redo_current < levels - 1) :
    (popRedo env s).bmp = restore env s.overscroll (s.redo_stack (s.redo_current + 1)) := by
  unfold popRedo
  rw [if_neg (by omega)]
  obtain ⟨_, _, _, h4, h5, h6⟩ := doPush_spec s
  unfold newImage clampView restore
  simp only [h4, h5, h6]

/-- C3, as the code has it. From a history whose undo cursor is at most 9, with a
non-negative overscroll: after `push`, any replacement `B` of the working canvas
and `pop`, the working canvas has the width and height it had before the `push`
and the same pixel at every position of the image area; a margin pixel is the one
a newly created image has. -/
theorem push_modify_pop (env : Env) (s : UndoState) (B : Bitmap)
    (hcur : s.undo_current ≤ levels - 1) (hov : 0 ≤ s.overscroll)
    (hw : 0 < s.bmp.w) (hh : 0 < s.bmp.h) :
    Restored env s.overscroll s.bmp (pop env { push s with bmp := B }).bmp := by
  obtain ⟨h1, h2, _, h4, _, _⟩ := doPush_spec s
  have hlt : ({ push s with bmp := B } : UndoState).undo_current < levels - 1 := by
    show (doPush s).undo_current < levels - 1
    rw [h2]
    unfold levels at hcur ⊢
    split_ifs <;> omega
  obtain ⟨p1, _, _, _⟩ := pop_of_lt env { push s with bmp := B } hlt
  rw [p1]
  show Restored env s.overscroll s.bmp
    (restore env (doPush s).overscroll ((doPush s).undo_stack ((doPush s).undo_current + 1)))
  rw [h1, h4]
  exact restore_snapshot env s.overscroll hov s.bmp hw hh

/-- C3 for the history `marginState`, the working canvas replaced by an 8 x 8 one. -/
theorem push_modify_pop_witness :
    (marginState.undo_current ≤ levels - 1 ∧ 0 ≤ marginState.overscroll ∧
      0 < marginState.bmp.w ∧ 0 < marginState.bmp.h) ∧
    Restored plainEnv marginState.overscroll marginState.bmp
      (pop plainEnv { push marginState with bmp := Bitmap.create 8 8 }).bmp :=
  ⟨by decide, push_modify_pop plainEnv marginState (Bitmap.create 8 8)
    (by decide) (by decide) (by decide) (by decide)⟩

/-- C3 as stated fails on a canvas with a margin: in `marginState` the corner
pixel `(0, 0)` of the working canvas holds 7 before `push`, and the margin
colour 1 after `push` and `pop`. -/
theorem push_pop_margin_counterexample :
    (pop plainEnv (push marginState)).bmp.pix 0 0 = 1 ∧ marginState.bmp.pix 0 0 = 7 := by
  decide

/-- C4, as the code has it. With a non-empty undo ring, a redo cursor at most 9
and a non-negative overscroll: after `pop` and `popRedo` the working canvas has
the width and height it had before the `pop` and the same pixel at every position
of the image area; a margin pixel is the one a newly created image has. -/
theorem pop_popRedo (env : Env) (s : UndoState)
    (hne : s.undo_current < levels - 1) (hr : s.redo_current ≤ levels - 1)
    (hov : 0 ≤ s.overscroll) (hw : 0 < s.bmp.w) (hh : 0 < s.bmp.h) :
    Restored env s.overscroll s.bmp (popRedo env (pop env s)).bmp := by
  obtain ⟨r1, r2⟩ := pop_redo env s hne hr
  obtain ⟨_, _, _, p4⟩ := pop_of_lt env s hne
  rw [popRedo_of_lt env (pop env s) r2, r1, p4]
  exact restore_snapshot env s.overscroll hov s.bmp hw hh

/-- C4 for the history `marginState` after one `push`. -/
theorem pop_popRedo_witness :
    ((push marginState).undo_current < levels - 1 ∧
      (push marginState).redo_current ≤ levels - 1 ∧ 0 ≤ (push marginState).overscroll ∧
      0 < (push marginState).bmp.w ∧ 0 < (push marginState).bmp.h) ∧
    Restored plainEnv (push marginState).overscroll (push marginState).bmp
      (popRedo plainEnv (pop plainEnv (push marginState))).bmp :=
  ⟨by decide, pop_popRedo plainEnv (push marginState)
    (by decide) (by decide) (by decide) (by decide) (by decide)⟩

/-- C4 as stated fails on a canvas with a margin: after one `push` of
`marginState` the undo ring is non-empty and the corner pixel `(0, 0)` of the
working canvas holds 7; after `pop` and `popRedo` it holds the margin colour 1. -/
theorem pop_popRedo_margin_counterexample :
    (push marginState).undo_current < levels - 1 ∧
    (popRedo plainEnv (pop plainEnv (push marginState))).bmp.pix 0 0 = 1 ∧
    (push marginState).bmp.pix 0 0 = 7 := by
  decide

/-- The descending loop that moves every snapshot one slot up. -/
theorem shift_loop (N : Int) :
    ∀ (n : Nat) (lo : Int) (st : Int → Bitmap) (j : Int),
      forLoop (fun k st => setSlot st (N - k) (st (N - k - 1))) n lo st j =
        if N - (lo + n) < j ∧ j ≤ N - lo then st (j - 1) else st j
  | 0, lo, st, j => by
      simp only [forLoop]
      rw [if_neg]; push_cast; omega
  | n + 1, lo, st, j => by
      rw [forLoop_succ, shift_loop N n (lo + 1)]
      simp only [setSlot]
      by_cases h1 : N - (lo + 1 + (n : Int)) < j ∧ j ≤ N - (lo + 1)
      · rw [if_pos h1, if_neg (by omega), if_pos (by push_cast; omega)]
      · rw [if_neg h1]
        by_cases h2 : j = N - lo
        · rw [if_pos h2, if_pos (by push_cast; omega), h2]
        · rw [if_neg h2, if_neg (by push_cast; omega)]

/-- The rotation of a full ring: slot 0 receives the oldest snapshot, slot `j`
the snapshot of slot `j - 1`. -/
theorem shiftStack_spec (st : Int → Bitmap) (j : Int) :
    shiftStack st j =
      if j = 0 then st 9 else if 1 ≤ j ∧ j ≤ 9 then st (j - 1) else st j := by
  unfold shiftStack
  simp only [setSlot]
  by_cases h0 : j = 0
  · rw [if_pos h0, if_pos h0]; rfl
  · rw [if_neg h0, if_neg h0, shift_loop]
    have e : ((levels - 1).toNat : Int) = 9 := by decide
    have e2 : levels = 10 := rfl
    rw [e, e2]
    by_cases h1 : 1 ≤ j ∧ j ≤ 9
    · rw [if_pos h1, if_pos (by omega)]
    · rw [if_neg h1, if_neg (by omega)]

/-- The history after `n <= 10` pushes from an initialised one: the cursor is
at `9 - n`, slot `j` for `10 - n <= j <= 9` holds the snapshot of `S (10 - j)`. -/
theorem pushAll_le_ten (S : Nat → Bitmap) (s0 : UndoState) :
    ∀ n : Nat, n ≤ 10 →
      (pushAll S n (init s0)).undo_current = 9 - n ∧
      (pushAll S n (init s0)).overscroll = s0.overscroll ∧
      ∀ j : Int, 10 - (n : Int) ≤ j → j ≤ 9 →
        (pushAll S n (init s0)).undo_stack j = snapshot (S (10 - j).toNat)
  | 0, _ => ⟨rfl, rfl, fun j h1 h2 => by omega⟩
  | n + 1, hn => by
      obtain ⟨h1, h2, h3⟩ := pushAll_le_ten S s0 n (by omega)
      have hcur : ¬ ({ pushAll S n (init s0) with bmp := S (n + 1) } : UndoState).undo_current
          < 0 := by
        show ¬ (pushAll S n (init s0)).undo_current < 0
        omega
      refine ⟨?_, ?_, ?_⟩
      · show (doPush { pushAll S n (init s0) with bmp := S (n + 1) }).undo_current = _
        rw [(doPush_spec _).2.1, if_neg hcur]
        show (pushAll S n (init s0)).undo_current - 1 = _
        push_cast
        omega
      · show (doPush { pushAll S n (init s0) with bmp := S (n + 1) }).overscroll = _
        rw [(doPush_spec _).2.2.2.1]
        exact h2
      · intro j hj1 hj2
        show (doPush { pushAll S n (init s0) with bmp := S (n + 1) }).undo_stack j = _
        unfold doPush
        simp only [if_neg hcur, setSlot]
        by_cases hj : j = (pushAll S n (init s0)).undo_current
        · rw [if_pos hj]
          have e : (10 - j).toNat = n + 1 := by omega
          rw [e]
        · rw [if_neg hj]
          exact h3 j (by push_cast at hj1; omega) hj2

/-- The history after 11 pushes from an initialised one: the ring is full and
slot `j` holds the snapshot of `S (11 - j)`; the snapshot of `S 1` is gone. -/
theorem pushAll_eleven (S : Nat → Bitmap) (s0 : UndoState) :
    (pushAll S 11 (init s0)).undo_current = -1 ∧
    (pushAll S 11 (init s0)).overscroll = s0.overscroll ∧
    ∀ j : Int, 0 ≤ j → j ≤ 9 →
      (pushAll S 11 (init s0)).undo_stack j = snapshot (S (11 - j).toNat) := by
  obtain ⟨h1, h2, h3⟩ := pushAll_le_ten S s0 10 le_rfl
  have hcur : ({ pushAll S 10 (init s0) with bmp := S (10 + 1) } : UndoState).undo_current
      < 0 := by
    show (pushAll S 10 (init s0)).undo_current < 0
    omega
  refine ⟨?_, ?_, ?_⟩
  · show (doPush { pushAll S 10 (init s0) with bmp := S (10 + 1) }).undo_current = _
    rw [(doPush_spec _).2.1, if_pos hcur]
    rfl
  · show (doPush { pushAll S 10 (init s0) with bmp := S (10 + 1) }).overscroll = _
    rw [(doPush_spec _).2.2.2.1]
    exact h2
  · intro j hj1 hj2
    show (doPush { pushAll S 10 (init s0) with bmp := S (10 + 1) }).undo_stack j = _
    unfold doPush
    simp only [if_pos hcur, setSlot]
    by_cases hj : j = 0
    · rw [if_pos hj, hj]
      rfl
    · rw [if_neg hj, shiftStack_spec, if_neg hj, if_pos (by omega)]
      rw [h3 (j - 1) (by push_cast; omega) (by omega)]
      have e : (10 - (j - 1)).toNat = (11 - j).toNat := by omega
      rw [e]

/-- `k <= 10` pops on a full ring: the cursor is at `k - 1`, the vector is
untouched, and from the first pop on the working canvas is the one restored
from slot `k - 1`. -/
theorem popN_full (env : Env) (s : UndoState) (hfull : s.undo_current = -1) :
    ∀ k : Nat, k ≤ 10 →
      (popN env k s).undo_current = k - 1 ∧
      (popN env k s).undo_stack = s.undo_stack ∧
      (popN env k s).overscroll = s.overscroll ∧
      (1 ≤ k → (popN env k s).bmp = restore env s.overscroll (s.undo_stack (k - 1)))
  | 0, _ => ⟨by simp [popN, hfull], rfl, rfl, fun h => by omega⟩
  | k + 1, hk => by
      obtain ⟨h1, h2, h3, _⟩ := popN_full env s hfull k (by omega)
      have hlt : (popN env k s).undo_current < levels - 1 := by
        rw [h1]
        unfold levels
        omega
      obtain ⟨p1, p2, p3, p4⟩ := pop_of_lt env (popN env k s) hlt
      refine ⟨?_, ?_, ?_, fun _ => ?_⟩
      · show (pop env (popN env k s)).undo_current = _
        rw [p2, h1]
        push_cast
        omega
      · show (pop env (popN env k s)).undo_stack = _
        rw [p3, h2]
      · show (pop env (popN env k s)).overscroll = _
        rw [p4, h3]
      · show (pop env (popN env k s)).bmp = _
        rw [p1, h3, h2, h1]
        congr 2
        push_cast
        omega

/-- From the tenth pop on, nothing changes. -/
theorem popN_after_ten (env : Env) (s : UndoState) (hfull : s.undo_current = -1) :
    ∀ k : Nat, 10 ≤ k → popN env k s = popN env 10 s := by
  intro k hk
  induction k with
  | zero => omega
  | succ k ih =>
      by_cases h : k + 1 = 10
      · rw [h]
      · show pop env (popN env k s) = _
        rw [ih (by omega)]
        apply pop_of_ge
        rw [(popN_full env s hfull 10 le_rfl).1]
        decide

/-- Pushes and pops keep the undo cursor between -1 and 9: the ring holds
`9 - undo_current` snapshots, never more than 10. -/
theorem cursor_range (env : Env) (S : Nat → Bitmap) (s0 : UndoState) (n k : Nat) :
    -1 ≤ (popN env k (pushAll S n (init s0))).undo_current ∧
    (popN env k (pushAll S n (init s0))).undo_current ≤ 9 := by
  have hpush : ∀ n : Nat, -1 ≤ (pushAll S n (init s0)).undo_current ∧
      (pushAll S n (init s0)).undo_current ≤ 9 := by
    intro n
    induction n with
    | zero =>
        show -1 ≤ levels - 1 ∧ levels - 1 ≤ 9
        decide
    | succ n ih =>
        show -1 ≤ (doPush { pushAll S n (init s0) with bmp := S (n + 1) }).undo_current ∧
          (doPush { pushAll S n (init s0) with bmp := S (n + 1) }).undo_current ≤ 9
        rw [(doPush_spec _).2.1]
        have : ({ pushAll S n (init s0) with bmp := S (n + 1) } : UndoState).undo_current
            = (pushAll S n (init s0)).undo_current := rfl
        rw [this]
        split_ifs <;> omega
  induction k with
  | zero => exact hpush n
  | succ k ih =>
      show -1 ≤ (pop env (popN env k (pushAll S n (init s0)))).undo_current ∧
        (pop env (popN env k (pushAll S n (init s0)))).undo_current ≤ 9
      by_cases h : (popN env k (pushAll S n (init s0))).undo_current ≥ levels - 1
      · rw [pop_of_ge env _ h]
        exact ih
      · have hl : (popN env k (pushAll S n (init s0))).undo_current < levels - 1 := by omega
        rw [(pop_of_lt env _ hl).2.1]
        unfold levels at hl
        omega

/-- C5, as the code has it. From an initialised history with a non-negative
overscroll, after 11 pushes of the working canvases `S 1, ..., S 11` (each at
least 1 x 1): the ring holds the snapshots of `S 11, ..., S 2` in slots 0 to 9
(that of `S 1` is gone); the `k`-th `pop`, for `1 <= k <= 10`, restores
`S (12 - k)`, that is `S 11, S 10, ..., S 2` in this order, in the sense of
`Restored`: the width and height of that canvas, its pixel at every position of
the image area, and at every position of the margin the pixel of a newly created
image; every further `pop` changes nothing; and at every moment the undo cursor
is between -1 and 9, so the ring holds at most 10 snapshots. -/
theorem eleven_pushes (env : Env) (s0 : UndoState) (S : Nat → Bitmap)
    (hov : 0 ≤ s0.overscroll) (hS : ∀ i, 0 < (S i).w ∧ 0 < (S i).h) :
    (∀ j : Int, 0 ≤ j → j ≤ 9 →
      (pushAll S 11 (init s0)).undo_stack j = snapshot (S (11 - j).toNat)) ∧
    (∀ k : Nat, 1 ≤ k → k ≤ 10 →
      Restored env s0.overscroll (S (12 - k)) (popN env k (pushAll S 11 (init s0))).bmp) ∧
    (∀ k : Nat, 10 ≤ k →
      popN env k (pushAll S 11 (init s0)) = popN env 10 (pushAll S 11 (init s0))) ∧
    (∀ n k : Nat, -1 ≤ (popN env k (pushAll S n (init s0))).undo_current ∧
      (popN env k (pushAll S n (init s0))).undo_current ≤ 9) := by
  obtain ⟨h1, h2, h3⟩ := pushAll_eleven S s0
  refine ⟨h3, ?_, popN_after_ten env _ h1, cursor_range env S s0⟩
  intro k hk1 hk10
  obtain ⟨_, _, _, p4⟩ := popN_full env (pushAll S 11 (init s0)) h1 k hk10
  rw [p4 hk1, h2, h3 (k - 1) (by omega) (by omega)]
  have e : (11 - ((k : Int) - 1)).toNat = 12 - k := by omega
  rw [e]
  exact restore_snapshot env s0.overscroll hov (S (12 - k)) (hS _).1 (hS _).2

/-- The canvases `flatCanvas n` are 3 wide and 3 high. -/
theorem flatCanvas_size (n : Nat) : 0 < (flatCanvas n).w ∧ 0 < (flatCanvas n).h := by
  have h : (Bitmap.createOverscroll plainEnv 1 1 1).w = 3 ∧
      (Bitmap.createOverscroll plainEnv 1 1 1).h = 3 := by decide
  unfold flatCanvas
  simp only []
  omega

set_option maxRecDepth 100000 in
/-- C5 for the history `marginState` (overscroll 1) and the eleven canvases
`flatCanvas 1, ..., flatCanvas 11`, whose image area is the pixel `(1, 1)`: the
pops bring back 11, 10, 9, ..., 2 in that pixel, the eleventh and twelfth pop
leave the 2, and the slots 0 and 9 of the ring hold the snapshots with 11 and 2. -/
theorem eleven_pushes_witness :
    (0 ≤ marginState.overscroll ∧ ∀ i : Nat, 0 < (flatCanvas i).w ∧ 0 < (flatCanvas i).h) ∧
    ((∀ j : Int, 0 ≤ j → j ≤ 9 →
      (pushAll flatCanvas 11 (init marginState)).undo_stack j
        = snapshot (flatCanvas (11 - j).toNat)) ∧
    (∀ k : Nat, 1 ≤ k → k ≤ 10 →
      Restored plainEnv marginState.overscroll (flatCanvas (12 - k))
        (popN plainEnv k (pushAll flatCanvas 11 (init marginState))).bmp) ∧
    (∀ k : Nat, 10 ≤ k →
      popN plainEnv k (pushAll flatCanvas 11 (init marginState))
        = popN plainEnv 10 (pushAll flatCanvas 11 (init marginState))) ∧
    (∀ n k : Nat,
      -1 ≤ (popN plainEnv k (pushAll flatCanvas n (init marginState))).undo_current ∧
      (popN plainEnv k (pushAll flatCanvas n (init marginState))).undo_current ≤ 9)) ∧
    ((List.range 13).map
        (fun k => (popN plainEnv k (pushAll flatCanvas 11 (init marginState))).bmp.pix 1 1)
      = [11, 11, 10, 9, 8, 7, 6, 5, 4, 3, 2, 2, 2] ∧
    ((pushAll flatCanvas 11 (init marginState)).undo_stack 0).pix 1 1 = 11 ∧
    ((pushAll flatCanvas 11 (init marginState)).undo_stack 9).pix 1 1 = 2) :=
  ⟨⟨by decide, flatCanvas_size⟩,
    eleven_pushes plainEnv marginState flatCanvas (by decide) flatCanvas_size,
    by decide⟩

/-- C5 as stated fails on canvases with a margin: after the eleven pushes of
`flatCanvas 1, ..., flatCanvas 11` the first `pop` leaves the margin colour 1 in
the corner pixel `(0, 0)`, where `flatCanvas 11` held 11; only the pixel `(1, 1)`
of the image area holds 11 again. -/
theorem eleven_pushes_margin_counterexample :
    (popN plainEnv 1 (pushAll flatCanvas 11 (init marginState))).bmp.pix 0 0 = 1 ∧
    (flatCanvas 11).pix 0 0 = 11 ∧
    (popN plainEnv 1 (pushAll flatCanvas 11 (init marginState))).bmp.pix 1 1 = 11 := by
  decide

end Undo

/-! ## C6: flood fill at tolerance 0 -/

namespace Bitmap

/-- A loop that stores `g i` in every cell `i` of a range. -/
theorem forLoop_store (g : Int → Int) :
    ∀ (n : Nat) (lo : Int) (d : Int → Int) (j : Int),
      forLoop (fun i d => setCell d i (g i)) n lo d j
        = if lo ≤ j ∧ j < lo + n then g j else d j
  | 0, lo, d, j => by
      simp only [forLoop]
      rw [if_neg]; push_cast; omega
  | n + 1, lo, d, j => by
      rw [forLoop_succ, forLoop_store g n (lo + 1)]
      simp only [setCell]
      by_cases h1 : lo + 1 ≤ j ∧ j < lo + 1 + (n : Int)
      · rw [if_pos h1, if_pos (by push_cast; omega)]
      · rw [if_neg h1]
        by_cases h2 : j = lo
        · rw [if_pos h2, if_pos (by push_cast; omega), h2]
        · rw [if_neg h2, if_neg (by push_cast; omega)]

/-- At tolerance 0 a colour in range has distance 0, and so has weight 0. -/
theorem inRange_trans (c old_color : Int) (h : (inRange c old_color 0).1 = true) :
    (inRange c old_color 0).2 = 0 := by
  unfold inRange at h ⊢
  simp only [decide_eq_true_eq] at h
  have h0 : (0 : Int) ≤ ((isqrt (diff32 c old_color).toNat / 2 : Nat) : Int) :=
    Int.natCast_nonneg _
  have e : ((isqrt (diff32 c old_color).toNat / 2 : Nat) : Int) = 0 := by omega
  simp only [e]
  decide

/-- `getpixel` at a pixel of the clip rectangle reads that pixel. -/
theorem getpixel_inside (t : Bitmap) (X Y : Int) (h : t.inClip X Y) :
    t.getpixel X Y = t.data (t.w * Y + X) := by
  unfold inClip at h
  unfold getpixel
  simp only
  rw [if_neg (show ¬ X < t.cl by omega), if_neg (show ¬ X > t.cr by omega),
    if_neg (show ¬ Y < t.ct by omega), if_neg (show ¬ Y > t.cb by omega)]

/-- `setpixelSolid` at a pixel of the clip rectangle rewrites that pixel. -/
theorem setpixelSolid_inside (blend : Int → Int → Int → Int) (t : Bitmap) (X Y c tr : Int)
    (h : t.inClip X Y) :
    t.setpixelSolid blend X Y c tr =
      { t with data := setCell t.data (t.w * Y + X) (blend (t.data (t.w * Y + X)) c tr) } := by
  unfold inClip at h
  unfold setpixelSolid
  rw [if_neg (by omega)]

/-- A pixel of the clip rectangle of the canvas is a pixel of the copy. -/
theorem fillAbs_inTemp {b : Bitmap} {new_color : Int} {F : Finset (Int × Int)}
    {temp : Bitmap} {map : Map} (hA : FillAbs b new_color F temp map)
    {X Y : Int} (hX0 : 0 ≤ X) (hX : X < b.w) (hY0 : 0 ≤ Y) (hY : Y < b.h) :
    temp.inClip X Y := by
  unfold inClip
  rw [hA.tcl, hA.tcr, hA.tct, hA.tcb]
  omega

/-- The range test on the copy: a pixel is in range exactly when it is not
filled and the pixel of the canvas is in range. -/
theorem fillAbs_inr {b : Bitmap} {new_color old_color : Int} {F : Finset (Int × Int)}
    {temp : Bitmap} {map : Map} (hA : FillAbs b new_color F temp map)
    (hnew : (inRange new_color old_color 0).1 = false)
    {X Y : Int} (hX0 : 0 ≤ X) (hX : X < b.w) (hY0 : 0 ≤ Y) (hY : Y < b.h) :
    (inRange (temp.getpixel X Y) old_color 0).1 = true ↔
      ((X, Y) ∉ F ∧ (inRange (b.pix X Y) old_color 0).1 = true) := by
  rw [getpixel_inside temp X Y (fillAbs_inTemp hA hX0 hX hY0 hY), hA.tw,
    hA.tpix X Y hX0 hX hY0 hY]
  by_cases hF : (X, Y) ∈ F
  · rw [if_pos hF, hnew]
    simp [hF]
  · rw [if_neg hF]
    simp [hF, pix, idx]

/-- Filling one more pixel of the clip rectangle: the copy receives `new_color`
and the map the weight 0. -/
theorem fillAbs_insert {blend : Int → Int → Int → Int} (hblend : ∀ p c, blend p c 0 = c)
    {b : Bitmap} (hb : b.ClipInside) {new_color : Int} {F : Finset (Int × Int)}
    {temp : Bitmap} {map : Map} (hA : FillAbs b new_color F temp map)
    {X Y : Int} (hc : b.inClip X Y) :
    FillAbs b new_color (insert (X, Y) F) (temp.setpixelSolid blend X Y new_color 0)
      (map.setpixel X Y 0) := by
  obtain ⟨c1, c2, c3, c4, c5, c6⟩ := hb
  have hc2 := hc
  unfold inClip at hc2
  have hX0 : 0 ≤ X := by omega
  have hX : X < b.w := by omega
  have hY0 : 0 ≤ Y := by omega
  have hY : Y < b.h := by omega
  rw [setpixelSolid_inside blend temp X Y new_color 0 (fillAbs_inTemp hA hX0 hX hY0 hY), hblend]
  have hm : map.setpixel X Y 0 = { map with data := setCell map.data (b.w * Y + X) 0 } := by
    unfold Map.setpixel
    rw [if_neg (by rw [hA.mw, hA.mh]; omega), hA.mrow Y hY0 hY]
    rfl
  rw [hm]
  refine ⟨hA.tw, hA.tcl, hA.tcr, hA.tct, hA.tcb, ?_, hA.mw, hA.mh, hA.mrow, ?_, ?_⟩
  · intro X2 Y2 h1 h2 h3 h4
    simp only [setCell, hA.tw]
    by_cases e : b.w * Y2 + X2 = b.w * Y + X
    · obtain ⟨rfl, rfl⟩ := cell_inj h1 h2 hX0 hX e
      rw [if_pos rfl, if_pos (Finset.mem_insert_self _ _)]
    · rw [if_neg e, hA.tpix X2 Y2 h1 h2 h3 h4]
      have hne : (X2, Y2) ≠ (X, Y) := fun h => e (by rw [(Prod.mk.inj h).1, (Prod.mk.inj h).2])
      simp only [Finset.mem_insert, hne, false_or]
  · intro X2 Y2 h1 h2 h3 h4
    simp only [setCell]
    by_cases e : b.w * Y2 + X2 = b.w * Y + X
    · obtain ⟨rfl, rfl⟩ := cell_inj h1 h2 hX0 hX e
      rw [if_pos rfl, if_pos (Finset.mem_insert_self _ _)]
    · rw [if_neg e, hA.mpix X2 Y2 h1 h2 h3 h4]
      have hne : (X2, Y2) ≠ (X, Y) := fun h => e (by rw [(Prod.mk.inj h).1, (Prod.mk.inj h).2])
      simp only [Finset.mem_insert, hne, false_or]
  · intro p hp
    rcases Finset.mem_insert.mp hp with rfl | hp
    · exact hc
    · exact hA.fclip p hp

/-- The row table of a new map holds the true offsets when they fit a byte. -/
theorem map_create_row (w h : Int) (hw : 0 < w) (hh : 0 < h) (hfit : w * (h - 1) ≤ 255)
    (Y : Int) (hY0 : 0 ≤ Y) (hY : Y < h) : (Map.create w h).row Y = w * Y := by
  unfold Map.create
  simp only
  rw [if_neg (show ¬ w < 1 by omega), if_neg (show ¬ h < 1 by omega), forLoop_store,
    if_pos (by omega)]
  apply Int.emod_eq_of_lt
  · exact mul_nonneg hw.le hY0
  · have : w * Y ≤ w * (h - 1) := mul_le_mul_of_nonneg_left (by omega) hw.le
    omega

/-- At the start of `fill` the copy and the map record the empty set. -/
theorem fillAbs_init (b : Bitmap) (new_color : Int) (hw : 0 < b.w) (hh : 0 < b.h)
    (hfit : b.w * (b.h - 1) ≤ 255) :
    FillAbs b new_color ∅ (b.blit (create b.w b.h) 0 0 0 0 b.w b.h)
      ((Map.create b.w b.h).clear 255) := by
  obtain ⟨⟨d, hd⟩, _, _⟩ := blit_pix b (create b.w b.h)
    (create_clipInside b.w b.h hw hh).1 (create_clipInside b.w b.h hw hh).2.2.1
    0 0 0 0 b.w b.h
  obtain ⟨tw, th, tpix⟩ := blit_copy b hw hh
  have hcl : (create b.w b.h).cl = 0 ∧ (create b.w b.h).cr = b.w - 1 ∧
      (create b.w b.h).ct = 0 ∧ (create b.w b.h).cb = b.h - 1 := by
    unfold create setClip
    simp only
    rw [if_neg (show ¬ b.w < 1 by omega), if_neg (show ¬ b.h < 1 by omega)]
    simp
  have mw : ((Map.create b.w b.h).clear 255).w = b.w := by
    unfold Map.clear Map.create
    simp only
    rw [if_neg (show ¬ b.w < 1 by omega)]
  have mh : ((Map.create b.w b.h).clear 255).h = b.h := by
    unfold Map.clear Map.create
    simp only
    rw [if_neg (show ¬ b.h < 1 by omega)]
  have cw : (Map.create b.w b.h).w = b.w := mw
  have ch : (Map.create b.w b.h).h = b.h := mh
  refine ⟨tw, ?_, ?_, ?_, ?_, ?_, mw, mh, ?_, ?_, ?_⟩
  · rw [hd]; exact hcl.1
  · rw [hd]; exact hcl.2.1
  · rw [hd]; exact hcl.2.2.1
  · rw [hd]; exact hcl.2.2.2
  · intro X Y h1 h2 h3 h4
    have := tpix X Y h1 h2 h3 h4
    simp only [pix, idx, tw] at this
    rw [this, if_neg (Finset.not_mem_empty _)]
  · intro Y h1 h2
    exact map_create_row b.w b.h hw hh hfit Y h1 h2
  · intro X Y h1 h2 h3 h4
    unfold Map.clear
    simp only
    rw [forLoop_store (fun _ => 255 % 256), cw, ch, if_pos, if_neg (Finset.not_mem_empty _)]
    · rfl
    · have e1 : b.w * Y ≤ b.w * (b.h - 1) := mul_le_mul_of_nonneg_left (by omega) hw.le
      have e2 : b.w * (b.h - 1) = b.w * b.h - b.w := by ring
      have e3 : 0 ≤ b.w * Y := mul_nonneg hw.le h3
      have e4 : 0 ≤ b.w * b.h := mul_nonneg hw.le hh.le
      omega
  · intro p hp
    exact absurd hp (Finset.not_mem_empty _)

/-- `push` on a stack with room. -/
theorem push_room (st : Stack) (x y : Int) (h : st.sp < stack_size - 1) :
    st.push x y = some { stack_x := setCell st.stack_x (st.sp + 1) x,
                         stack_y := setCell st.stack_y (st.sp + 1) y,
                         sp := st.sp + 1 } := by
  unfold Stack.push
  rw [if_pos h]

/-- What one test of the row above or below does to the span flag and to the
stack, when the stack has room for one more entry. -/
theorem spanStep_spec (edge inr : Bool) (px py : Int) (span : Bool) (st : Stack)
    (hroom : edge = true → st.sp < stack_size - 1) :
    ∃ (span2 : Bool) (st2 : Stack), spanStep edge inr px py span st = some (span2, st2) ∧
      st.sp ≤ st2.sp ∧ st2.sp ≤ st.sp + 1 ∧
      (∀ i : Int, i ≤ st.sp → st2.stack_x i = st.stack_x i ∧ st2.stack_y i = st.stack_y i) ∧
      (st2.sp = st.sp + 1 → edge = true ∧ inr = true ∧
        st2.stack_x (st.sp + 1) = px ∧ st2.stack_y (st.sp + 1) = py) ∧
      (edge = true → inr = true → (st2.sp = st.sp + 1 ∨ span = true)) ∧
      (span2 = true → edge = true → inr = true) ∧
      (span2 = true → (st2.sp = st.sp + 1 ∨ span = true)) := by
  unfold spanStep
  cases hs : span <;> cases he : edge <;> cases hi : inr <;>
    simp only [Bool.not_false, Bool.not_true, Bool.and_false, Bool.and_true, Bool.false_and,
      Bool.true_and, Bool.false_eq_true, if_false, if_true, ite_true, ite_false]
  all_goals first
    | exact ⟨_, _, rfl, le_rfl, by omega, fun _ _ => ⟨rfl, rfl⟩, fun h => by omega,
        by simp, by simp, by simp⟩
    | skip
  · rw [push_room st px py (hroom he)]
    refine ⟨true, _, rfl, by simp, by simp, ?_, ?_, by simp, by simp, by simp⟩
    · intro i hi2
      simp only [setCell]
      rw [if_neg (by omega), if_neg (by omega)]
      exact ⟨rfl, rfl⟩
    · intro _
      simp [setCell]

/-- The range test on the copy at a clip pixel of the canvas. -/
theorem unf_iff {b : Bitmap} (hb : b.ClipInside) {new_color old_color : Int}
    {F : Finset (Int × Int)} {temp : Bitmap} {map : Map}
    (hA : FillAbs b new_color F temp map)
    (hnew : (inRange new_color old_color 0).1 = false) {X Y : Int} (hc : b.inClip X Y) :
    (inRange (temp.getpixel X Y) old_color 0).1 = true ↔ Unf b old_color F X Y := by
  obtain ⟨c1, c2, c3, c4, c5, c6⟩ := hb
  have hc2 := hc
  unfold inClip at hc2
  rw [fillAbs_inr hA hnew (by omega) (by omega) (by omega) (by omega)]
  unfold Unf Elig
  constructor
  · rintro ⟨h1, h2⟩
    exact ⟨⟨hc, h2⟩, h1⟩
  · rintro ⟨⟨_, h2⟩, h1⟩
    exact ⟨h1, h2⟩

/-- The first loop of an iteration of `fill` stops left of a run of unfilled
eligible pixels, at a pixel that is not one (or left of the clip rectangle). -/
theorem scanLeft_spec {b : Bitmap} (hb : b.ClipInside) {new_color old_color : Int}
    {F : Finset (Int × Int)} {temp : Bitmap} {map : Map}
    (hA : FillAbs b new_color F temp map)
    (hnew : (inRange new_color old_color 0).1 = false) {y : Int}
    (hy : b.ct ≤ y ∧ y ≤ b.cb) :
    ∀ (n : Nat) (x1 : Int), (x1 - b.cl + 1).toNat ≤ n → x1 ≤ b.cr → b.cl - 1 ≤ x1 →
      scanLeft temp b.cl old_color 0 y n x1 ≤ x1 ∧
      b.cl - 1 ≤ scanLeft temp b.cl old_color 0 y n x1 ∧
      (∀ c : Int, scanLeft temp b.cl old_color 0 y n x1 < c → c ≤ x1 →
        Unf b old_color F c y) ∧
      (b.cl ≤ scanLeft temp b.cl old_color 0 y n x1 →
        ¬ Unf b old_color F (scanLeft temp b.cl old_color 0 y n x1) y)
  | 0, x1, hn, _, hlo => by
      unfold scanLeft
      exact ⟨le_rfl, hlo, fun c h1 h2 => by omega, fun h => by omega⟩
  | n + 1, x1, hn, hcr, hlo => by
      unfold scanLeft
      by_cases ht : x1 ≥ b.cl ∧ (inRange (temp.getpixel x1 y) old_color 0).1 = true
      · rw [if_pos ht]
        obtain ⟨h1, h2, h3, h4⟩ := scanLeft_spec hb hA hnew hy n (x1 - 1) (by omega) (by omega)
          (by omega)
        have hU : Unf b old_color F x1 y :=
          (unf_iff hb hA hnew (by unfold inClip; omega)).mp ht.2
        refine ⟨by omega, h2, fun c hc1 hc2 => ?_, h4⟩
        by_cases e : c = x1
        · rw [e]; exact hU
        · exact h3 c hc1 (by omega)
      · rw [if_neg ht]
        refine ⟨le_rfl, hlo, fun c h1 h2 => by omega, fun h hU => ?_⟩
        exact ht ⟨h, (unf_iff hb hA hnew (by unfold inClip; omega)).mpr hU⟩

/-- A set of clip pixels has at most as many elements as the clip rectangle. -/
theorem card_le_clip (b : Bitmap) (F : Finset (Int × Int))
    (hF : ∀ p ∈ F, b.inClip p.1 p.2) (hx : b.cl ≤ b.cr) (hy : b.ct ≤ b.cb) :
    (F.card : Int) ≤ (b.cr - b.cl + 1) * (b.cb - b.ct + 1) := by
  have hsub : F ⊆ Finset.Icc b.cl b.cr ×ˢ Finset.Icc b.ct b.cb := by
    intro p hp
    have := hF p hp
    unfold inClip at this
    simp only [Finset.mem_product, Finset.mem_Icc]
    omega
  have hcard := Finset.card_le_card hsub
  rw [Finset.card_product, Int.card_Icc, Int.card_Icc] at hcard
  have e1 : ((b.cr + 1 - b.cl).toNat : Int) = b.cr - b.cl + 1 := by omega
  have e2 : ((b.cb + 1 - b.ct).toNat : Int) = b.cb - b.ct + 1 := by omega
  have : ((F.card : Nat) : Int) ≤ (((b.cr + 1 - b.cl).toNat * (b.cb + 1 - b.ct).toNat : Nat) : Int) :=
    Int.ofNat_le.mpr hcard
  rw [Nat.cast_mul, e1, e2] at this
  exact this

theorem unf_mono {b : Bitmap} {old_color : Int} {F : Finset (Int × Int)} {p : Int × Int}
    {X Y : Int} (h : Unf b old_color (insert p F) X Y) : Unf b old_color F X Y :=
  ⟨h.1, fun hm => h.2 (Finset.mem_insert_of_mem hm)⟩

theorem unf_insert {b : Bitmap} {old_color : Int} {F : Finset (Int × Int)} {p : Int × Int}
    {X Y : Int} (hne : (X, Y) ≠ p) (h : Unf b old_color F X Y) :
    Unf b old_color (insert p F) X Y :=
  ⟨h.1, fun hm => (Finset.mem_insert.mp hm).elim hne h.2⟩

/-- One step of the second loop of `fill`, seen from one of the two rows next to
the row being filled: the pixels of that row not yet filled are covered by an
entry pushed during the loop, or by the span that was open when the loop began. -/
theorem cover_step {b : Bitmap} {old_color : Int} {F : Finset (Int × Int)}
    {x1 y2 t lo top : Int} {sa sb s2 : Stack} {edge inr span span2 : Bool}
    (hlo : lo ≤ sa.sp) (h0 : 0 ≤ sa.sp) (hab : sa.sp ≤ sb.sp) (htop : sb.sp ≤ top)
    (hsb : sb.sp ≤ s2.sp)
    (hkeep : ∀ i : Int, 1 ≤ i → i ≤ sb.sp →
      s2.stack_x i = sb.stack_x i ∧ s2.stack_y i = sb.stack_y i)
    (hpush : sb.sp = sa.sp + 1 → edge = true ∧ inr = true ∧
      sb.stack_x (sa.sp + 1) = x1 ∧ sb.stack_y (sa.sp + 1) = y2)
    (h1 : edge = true → inr = true → (sb.sp = sa.sp + 1 ∨ span = true))
    (h2 : span2 = true → edge = true → inr = true)
    (h3 : span2 = true → (sb.sp = sa.sp + 1 ∨ span = true))
    (hinr : edge = true → (inr = true ↔ Unf b old_color F x1 y2))
    (hedge : ∀ c : Int, Unf b old_color F c y2 → edge = true)
    (ih : ∀ c : Int, x1 + 1 ≤ c → c < t → Unf b old_color F c y2 →
      (∃ i : Int, top < i ∧ i ≤ s2.sp ∧ s2.stack_y i = y2 ∧ s2.stack_x i ≤ c ∧
        ∀ x : Int, s2.stack_x i ≤ x → x ≤ c → Unf b old_color F x y2) ∨
      (span2 = true ∧ ∀ x : Int, x1 + 1 ≤ x → x ≤ c → Unf b old_color F x y2)) :
    ∀ c : Int, x1 ≤ c → c < t → Unf b old_color F c y2 →
      (∃ i : Int, lo < i ∧ i ≤ s2.sp ∧ s2.stack_y i = y2 ∧ s2.stack_x i ≤ c ∧
        ∀ x : Int, s2.stack_x i ≤ x → x ≤ c → Unf b old_color F x y2) ∨
      (span = true ∧ ∀ x : Int, x1 ≤ x → x ≤ c → Unf b old_color F x y2) := by
  intro c hc1 hc2 hU
  have he := hedge c hU
  have pushed : sb.sp = sa.sp + 1 → (∀ x : Int, x1 ≤ x → x ≤ c → Unf b old_color F x y2) →
      ∃ i : Int, lo < i ∧ i ≤ s2.sp ∧ s2.stack_y i = y2 ∧ s2.stack_x i ≤ c ∧
        ∀ x : Int, s2.stack_x i ≤ x → x ≤ c → Unf b old_color F x y2 := by
    intro hp hall
    obtain ⟨_, _, px, py⟩ := hpush hp
    obtain ⟨kx, ky⟩ := hkeep (sa.sp + 1) (by omega) (by omega)
    refine ⟨sa.sp + 1, by omega, by omega, by rw [ky, py], by rw [kx, px]; exact hc1, ?_⟩
    intro x hx1 hx2
    rw [kx, px] at hx1
    exact hall x hx1 hx2
  by_cases e : c = x1
  · have hall : ∀ x : Int, x1 ≤ x → x ≤ c → Unf b old_color F x y2 := by
      intro x hx1 hx2
      have : x = c := by omega
      rw [this]; exact hU
    rw [e] at hU
    rcases h1 he ((hinr he).mpr hU) with hp | hs
    · exact Or.inl (pushed hp hall)
    · exact Or.inr ⟨hs, hall⟩
  · rcases ih c (by omega) hc2 hU with ⟨i, hi1, hi2, hi3, hi4, hi5⟩ | ⟨hs2, hrest⟩
    · exact Or.inl ⟨i, by omega, hi2, hi3, hi4, hi5⟩
    · have hU1 : Unf b old_color F x1 y2 := (hinr he).mp (h2 hs2 he)
      have hall : ∀ x : Int, x1 ≤ x → x ≤ c → Unf b old_color F x y2 := by
        intro x hx1 hx2
        by_cases ex : x = x1
        · rw [ex]; exact hU1
        · exact hrest x (by omega) hx2
      rcases h3 hs2 with hp | hs
      · exact Or.inl (pushed hp hall)
      · exact Or.inr ⟨hs, hall⟩

/-- The second loop of an iteration of `fill` at tolerance 0, started at column
`x1` of a clip row `y` with room on the stack: it runs to its end, fills the run
`[x1, t)` of unfilled eligible pixels and stops at a pixel that is not one, and
the entries it pushes cover the unfilled eligible pixels above and below the
run, apart from those covered by a span open at the start. -/
theorem fillRow_spec {blend : Int → Int → Int → Int} (hblend : ∀ p c, blend p c 0 = c)
    {b : Bitmap} (hb : b.ClipInside) {new_color old_color : Int}
    (hnew : (inRange new_color old_color 0).1 = false)
    (hcap : b.ct < b.cb → 2 * ((b.cr - b.cl + 1) * (b.cb - b.ct + 1)) < stack_size)
    {y : Int} (hy : b.ct ≤ y ∧ y ≤ b.cb) :
    ∀ (n : Nat) (x1 : Int) (span_t span_b : Bool) (s : FillState) (F : Finset (Int × Int)),
      FillAbs b new_color F s.temp s.map → b.cl ≤ x1 → x1 ≤ b.cr + 1 →
      (b.cr - x1 + 1).toNat ≤ n →
      0 ≤ s.stack.sp → s.stack.sp ≤ 2 * (F.card : Int) →
      ∃ (s2 : FillState) (t : Int) (F2 : Finset (Int × Int)),
        fillRow blend b new_color old_color 0 y n x1 span_t span_b s = FillRun.finished s2 ∧
        x1 ≤ t ∧ t ≤ b.cr + 1 ∧
        (∀ c : Int, x1 ≤ c → c < t → Unf b old_color F c y) ∧
        (t ≤ b.cr → ¬ Unf b old_color F t y) ∧
        (∀ p : Int × Int, p ∈ F2 ↔ p ∈ F ∨ (p.2 = y ∧ x1 ≤ p.1 ∧ p.1 < t)) ∧
        FillAbs b new_color F2 s2.temp s2.map ∧
        (F2.card : Int) = F.card + (t - x1) ∧
        s2.stack.sp - 2 * (F2.card : Int) ≤ s.stack.sp - 2 * (F.card : Int) ∧
        StackExt s.stack s2.stack (fun px py =>
          x1 ≤ px ∧ px < t ∧ (py = y - 1 ∨ py = y + 1) ∧ Unf b old_color F px py) ∧
        (∀ c : Int, x1 ≤ c → c < t → Unf b old_color F c (y - 1) →
          (∃ i : Int, s.stack.sp < i ∧ i ≤ s2.stack.sp ∧ s2.stack.stack_y i = y - 1 ∧
            s2.stack.stack_x i ≤ c ∧
            ∀ x : Int, s2.stack.stack_x i ≤ x → x ≤ c → Unf b old_color F x (y - 1)) ∨
          (span_t = true ∧ ∀ x : Int, x1 ≤ x → x ≤ c → Unf b old_color F x (y - 1))) ∧
        (∀ c : Int, x1 ≤ c → c < t → Unf b old_color F c (y + 1) →
          (∃ i : Int, s.stack.sp < i ∧ i ≤ s2.stack.sp ∧ s2.stack.stack_y i = y + 1 ∧
            s2.stack.stack_x i ≤ c ∧
            ∀ x : Int, s2.stack.stack_x i ≤ x → x ≤ c → Unf b old_color F x (y + 1)) ∨
          (span_b = true ∧ ∀ x : Int, x1 ≤ x → x ≤ c → Unf b old_color F x (y + 1)))
  | 0, x1, span_t, span_b, s, F, hA, hx, hxr, hn, h0, hsp => by
      refine ⟨s, x1, F, rfl, le_rfl, by omega, fun c h1 h2 => by omega, fun h => by omega,
        fun p => ?_, hA, by omega, le_rfl, ⟨le_rfl, fun i _ _ => ⟨rfl, rfl⟩, fun i h1 h2 => by omega⟩,
        fun c h1 h2 => by omega, fun c h1 h2 => by omega⟩
      constructor
      · exact Or.inl
      · rintro (h | h)
        · exact h
        · omega
  | n + 1, x1, span_t, span_b, s, F, hA, hx, hxr, hn, h0, hsp => by
      unfold fillRow
      by_cases ht : x1 ≤ b.cr ∧ (inRange (s.temp.getpixel x1 y) old_color 0).1 = true
      swap
      · rw [if_neg ht]
        refine ⟨s, x1, F, rfl, le_rfl, ?_, fun c h1 h2 => by omega, ?_,
          fun p => ?_, hA, by omega, le_rfl,
          ⟨le_rfl, fun i _ _ => ⟨rfl, rfl⟩, fun i h1 h2 => by omega⟩,
          fun c h1 h2 => by omega, fun c h1 h2 => by omega⟩
        · exact hxr
        · intro h hU
          exact ht ⟨h, (unf_iff hb hA hnew (by unfold inClip; omega)).mpr hU⟩
        · constructor
          · exact Or.inl
          · rintro (h | h)
            · exact h
            · omega
      · rw [if_pos ht]
        have hc : b.inClip x1 y := by unfold inClip; omega
        have hU : Unf b old_color F x1 y := (unf_iff hb hA hnew hc).mp ht.2
        have hA1 := fillAbs_insert hblend hb hA hc
        have hcard1 : ((insert (x1, y) F).card : Int) = F.card + 1 := by
          rw [Finset.card_insert_of_not_mem hU.2]; push_cast; rfl
        have hK := card_le_clip b _ hA1.fclip hb.2.1 hb.2.2.2.2.1
        have hroom : b.ct < b.cb → s.stack.sp + 1 < stack_size - 1 := by
          intro hlt
          have := hcap hlt
          unfold stack_size at this ⊢
          linarith
        obtain ⟨span_t2, st2, e2, a1, a2, a3, a4, a5, a6, a7⟩ :=
          spanStep_spec (decide (y > b.ct))
            (inRange ((s.temp.setpixelSolid blend x1 y new_color 0).getpixel x1 (y - 1))
              old_color 0).1 x1 (y - 1) span_t s.stack
            (by intro h; have := of_decide_eq_true h; have := hroom (by omega); omega)
        obtain ⟨span_b2, st3, e3, b1, b2, b3, b4, b5, b6, b7⟩ :=
          spanStep_spec (decide (y < b.cb))
            (inRange ((s.temp.setpixelSolid blend x1 y new_color 0).getpixel x1 (y + 1))
              old_color 0).1 x1 (y + 1) span_b st2
            (by intro h; have := of_decide_eq_true h; have := hroom (by omega); omega)
        simp only []
        rw [e2]
        simp only []
        rw [e3]
        simp only []
        rw [inRange_trans _ _ ht.2]
        obtain ⟨s2, t, F2, r1, r2, r3, r4, r5, r6, r7, r8, r9, r10, r11, r12⟩ :=
          fillRow_spec hblend hb hnew hcap hy n (x1 + 1) span_t2 span_b2
            { temp := s.temp.setpixelSolid blend x1 y new_color 0,
              map := s.map.setpixel x1 y 0, stack := st3 }
            (insert (x1, y) F) hA1 (by omega) (by omega) (by omega) (by show 0 ≤ st3.sp; omega)
            (by show st3.sp ≤ _; omega)
        simp only [] at r9 r10 r11 r12
        obtain ⟨k1, k2, k3⟩ := r10
        have keep2 : ∀ i : Int, 1 ≤ i → i ≤ st2.sp →
            s2.stack.stack_x i = st2.stack_x i ∧ s2.stack.stack_y i = st2.stack_y i := by
          intro i hi1 hi2
          rw [(k2 i hi1 (by omega)).1, (k2 i hi1 (by omega)).2]
          exact b3 i hi2
        have nerow : ∀ (c y2 : Int), y2 ≠ y → (c, y2) ≠ (x1, y) :=
          fun c y2 h e => h (congrArg Prod.snd e)
        have inrT : decide (y > b.ct) = true →
            ((inRange ((s.temp.setpixelSolid blend x1 y new_color 0).getpixel x1 (y - 1))
              old_color 0).1 = true ↔ Unf b old_color F x1 (y - 1)) := by
          intro h
          have := of_decide_eq_true h
          rw [unf_iff hb hA1 hnew (by unfold inClip; omega)]
          exact ⟨unf_mono, unf_insert (nerow _ _ (by omega))⟩
        have inrB : decide (y < b.cb) = true →
            ((inRange ((s.temp.setpixelSolid blend x1 y new_color 0).getpixel x1 (y + 1))
              old_color 0).1 = true ↔ Unf b old_color F x1 (y + 1)) := by
          intro h
          have := of_decide_eq_true h
          rw [unf_iff hb hA1 hnew (by unfold inClip; omega)]
          exact ⟨unf_mono, unf_insert (nerow _ _ (by omega))⟩
        refine ⟨s2, t, F2, r1, by omega, r3, ?_, ?_, ?_, r7, by omega, by omega,
          ⟨by omega, ?_, ?_⟩, ?_, ?_⟩
        · intro c hc1 hc2
          by_cases e : c = x1
          · rw [e]; exact hU
          · exact unf_mono (r4 c (by omega) hc2)
        · intro h hU2
          refine r5 h (unf_insert ?_ hU2)
          intro e
          have : t = x1 := congrArg Prod.fst e
          omega
        · rintro ⟨p1, p2⟩
          rw [r6, Finset.mem_insert, Prod.mk.injEq]
          simp only []
          constructor
          · rintro ((⟨e1, e2⟩ | h) | ⟨h1, h2, h3⟩)
            · exact Or.inr ⟨e2, by omega, by omega⟩
            · exact Or.inl h
            · exact Or.inr ⟨h1, by omega, h3⟩
          · rintro (h | ⟨h1, h2, h3⟩)
            · exact Or.inl (Or.inr h)
            · by_cases e : p1 = x1
              · exact Or.inl (Or.inl ⟨e, h1⟩)
              · exact Or.inr ⟨h1, by omega, h3⟩
        · intro i hi1 hi2
          rw [(k2 i hi1 (by omega)).1, (k2 i hi1 (by omega)).2, (b3 i (by omega)).1,
            (b3 i (by omega)).2]
          exact a3 i hi2
        · intro i hi1 hi2
          by_cases c3 : i ≤ st3.sp
          · rw [(k2 i (by omega) c3).1, (k2 i (by omega) c3).2]
            by_cases c2 : i ≤ st2.sp
            · have e : st2.sp = s.stack.sp + 1 := by omega
              have ei : i = s.stack.sp + 1 := by omega
              obtain ⟨q1, q2, q3, q4⟩ := a4 e
              rw [(b3 i c2).1, (b3 i c2).2, ei, q3, q4]
              exact ⟨le_rfl, by omega, Or.inl rfl, (inrT q1).mp q2⟩
            · have e : st3.sp = st2.sp + 1 := by omega
              have ei : i = st2.sp + 1 := by omega
              obtain ⟨q1, q2, q3, q4⟩ := b4 e
              rw [ei, q3, q4]
              exact ⟨le_rfl, by omega, Or.inr rfl, (inrB q1).mp q2⟩
          · obtain ⟨q1, q2, q3, q4⟩ := k3 i (by omega) hi2
            exact ⟨by omega, q2, q3, unf_mono q4⟩
        · refine cover_step (le_refl s.stack.sp) h0 a1 b1 (by omega) keep2 a4 a5 a6 a7 inrT
            ?_ ?_
          · intro c hUc
            have := hUc.1.1
            unfold inClip at this
            exact decide_eq_true (by omega)
          · intro c h1 h2 hUc
            rcases r11 c h1 h2 (unf_insert (nerow _ _ (by omega)) hUc) with
              ⟨i, i1, i2, i3, i4, i5⟩ | ⟨hs, hall⟩
            · exact Or.inl ⟨i, i1, i2, i3, i4, fun x hx1 hx2 => unf_mono (i5 x hx1 hx2)⟩
            · exact Or.inr ⟨hs, fun x hx1 hx2 => unf_mono (hall x hx1 hx2)⟩
        · refine cover_step a1 (by omega) b1 (le_refl st3.sp) k1
            (fun i hi1 hi2 => k2 i hi1 hi2) b4 b5 b6 b7 inrB ?_ ?_
          · intro c hUc
            have := hUc.1.1
            unfold inClip at this
            exact decide_eq_true (by omega)
          · intro c h1 h2 hUc
            rcases r12 c h1 h2 (unf_insert (nerow _ _ (by omega)) hUc) with
              ⟨i, i1, i2, i3, i4, i5⟩ | ⟨hs, hall⟩
            · exact Or.inl ⟨i, i1, i2, i3, i4, fun x hx1 hx2 => unf_mono (i5 x hx1 hx2)⟩
            · exact Or.inr ⟨hs, fun x hx1 hx2 => unf_mono (hall x hx1 hx2)⟩

theorem region_elig {b : Bitmap} {old_color sx sy X Y : Int}
    (h : Region b old_color sx sy X Y) : Elig b old_color X Y := by
  cases h with
  | seed h => exact h
  | step _ _ h => exact h

/-- The region of the seed contains the eligible pixels to the right of one of
its pixels, up to the first that is not eligible. -/
theorem region_right {b : Bitmap} {old_color sx sy a y : Int}
    (h : Region b old_color sx sy a y) :
    ∀ k : Nat, (∀ j : Int, 0 ≤ j → j ≤ k → Elig b old_color (a + j) y) →
      Region b old_color sx sy (a + k) y
  | 0, _ => by simpa using h
  | k + 1, hall => by
      have ih := region_right h k (fun j h1 h2 => hall j h1 (by push_cast; omega))
      refine Region.step ih (Or.inl ⟨rfl, Or.inl ?_⟩) (hall _ (by positivity) le_rfl)
      push_cast; ring

/-- The same to the left. -/
theorem region_left {b : Bitmap} {old_color sx sy a y : Int}
    (h : Region b old_color sx sy a y) :
    ∀ k : Nat, (∀ j : Int, 0 ≤ j → j ≤ k → Elig b old_color (a - j) y) →
      Region b old_color sx sy (a - k) y
  | 0, _ => by simpa using h
  | k + 1, hall => by
      have ih := region_left h k (fun j h1 h2 => hall j h1 (by push_cast; omega))
      refine Region.step ih (Or.inl ⟨rfl, Or.inr ?_⟩) (hall _ (by positivity) le_rfl)
      push_cast; ring

/-- The region of the seed contains every pixel joined to one of its pixels by
a run of eligible pixels of its row. -/
theorem region_row {b : Bitmap} {old_color sx sy a y c : Int}
    (h : Region b old_color sx sy a y)
    (hall : ∀ x : Int, min a c ≤ x → x ≤ max a c → Elig b old_color x y) :
    Region b old_color sx sy c y := by
  by_cases hc : a ≤ c
  · have := region_right h (c - a).toNat (fun j h1 h2 => hall _ (by omega) (by omega))
    have e : a + ((c - a).toNat : Int) = c := by omega
    rw [e] at this
    exact this
  · have := region_left h (a - c).toNat (fun j h1 h2 => hall _ (by omega) (by omega))
    have e : a - ((a - c).toNat : Int) = c := by omega
    rw [e] at this
    exact this

theorem unf_sub {b : Bitmap} {old_color : Int} {F F2 : Finset (Int × Int)}
    (hsub : ∀ p, p ∈ F → p ∈ F2) {X Y : Int} (h : Unf b old_color F2 X Y) :
    Unf b old_color F X Y :=
  ⟨h.1, fun hm => h.2 (hsub _ hm)⟩

/-- One iteration of the main loop of `fill` at tolerance 0 keeps the invariant
and lowers the measure `sp - 2 * |F|`. -/
theorem fill_step {blend : Int → Int → Int → Int} (hblend : ∀ p c, blend p c 0 = c)
    {b : Bitmap} (hb : b.ClipInside) {new_color old_color sx sy : Int}
    (hnew : (inRange new_color old_color 0).1 = false)
    (hcap : b.ct < b.cb → 2 * ((b.cr - b.cl + 1) * (b.cb - b.ct + 1)) < stack_size)
    (hseed : Elig b old_color sx sy)
    {F : Finset (Int × Int)} {s : FillState}
    (inv : FillInv b new_color old_color sx sy F s) (hsp : s.stack.sp > 0) :
    ∃ (s2 : FillState) (F2 : Finset (Int × Int)),
      fillRow blend b new_color old_color 0 (s.stack.stack_y s.stack.sp)
        (b.cr - (scanLeft s.temp b.cl old_color 0 (s.stack.stack_y s.stack.sp)
          (s.stack.stack_x s.stack.sp - b.cl + 1).toNat (s.stack.stack_x s.stack.sp) + 1)
          + 1).toNat
        (scanLeft s.temp b.cl old_color 0 (s.stack.stack_y s.stack.sp)
          (s.stack.stack_x s.stack.sp - b.cl + 1).toNat (s.stack.stack_x s.stack.sp) + 1)
        false false { s with stack := { s.stack with sp := s.stack.sp - 1 } }
        = FillRun.finished s2 ∧
      FillInv b new_color old_color sx sy F2 s2 ∧
      s2.stack.sp - 2 * (F2.card : Int) < s.stack.sp - 2 * (F.card : Int) := by
  have hreg := inv.ent s.stack.sp (by omega) le_rfl
  have hel := region_elig hreg
  have hcl := hel.1
  unfold inClip at hcl
  obtain ⟨sc1, sc2, sc3, sc4⟩ := scanLeft_spec hb inv.abs hnew ⟨hcl.2.2.1, hcl.2.2.2⟩
    (s.stack.stack_x s.stack.sp - b.cl + 1).toNat (s.stack.stack_x s.stack.sp) le_rfl
    hcl.2.1 (by omega)
  generalize scanLeft s.temp b.cl old_color 0 (s.stack.stack_y s.stack.sp)
    (s.stack.stack_x s.stack.sp - b.cl + 1).toNat (s.stack.stack_x s.stack.sp) = r
    at sc1 sc2 sc3 sc4 ⊢
  generalize hxe : s.stack.stack_x s.stack.sp = x at *
  generalize hye : s.stack.stack_y s.stack.sp = y at *
  have pot := inv.pot
  obtain ⟨s2, t, F2, r1, r2, r3, r4, r5, r6, r7, r8, r9, ⟨k1, k2, k3⟩, r11, r12⟩ :=
    fillRow_spec hblend hb hnew hcap ⟨hcl.2.2.1, hcl.2.2.2⟩ (b.cr - (r + 1) + 1).toNat (r + 1)
      false false { s with stack := { s.stack with sp := s.stack.sp - 1 } } F inv.abs
      (by omega) (by omega) le_rfl (by show 0 ≤ s.stack.sp - 1; omega)
      (by show s.stack.sp - 1 ≤ _; omega)
  simp only [] at r9 k1 k2 k3 r11 r12
  have hsubF : ∀ p, p ∈ F → p ∈ F2 := fun p hp => (r6 p).mpr (Or.inl hp)
  have hrunF : ∀ c : Int, r + 1 ≤ c → c < t → (c, y) ∈ F2 :=
    fun c h1 h2 => (r6 (c, y)).mpr (Or.inr ⟨rfl, h1, h2⟩)
  have hL : ¬ Unf b old_color F r y := by
    by_cases h : b.cl ≤ r
    · exact sc4 h
    · intro hU
      have := hU.1.1
      unfold inClip at this
      omega
  have hR : ¬ Unf b old_color F t y := by
    by_cases h : t ≤ b.cr
    · exact r5 h
    · intro hU
      have := hU.1.1
      unfold inClip at this
      omega
  have hxin : Unf b old_color F x y → r + 1 ≤ x ∧ x < t := by
    intro hU
    have h1 : r < x := by
      by_contra hc
      have e : r = x := by omega
      rw [e] at hL
      exact hL hU
    refine ⟨by omega, ?_⟩
    by_contra hc
    exact hR (sc3 t (by omega) (by omega))
  have hrunx : r + 1 < t → Unf b old_color F x y := by
    intro hne
    by_contra hU
    have hxF : (x, y) ∈ F := by
      by_contra hn
      exact hU ⟨hel, hn⟩
    have e : r = x := by
      by_contra hc
      exact hU (sc3 x (by omega) le_rfl)
    have := r4 (r + 1) le_rfl hne
    rw [e] at this
    exact inv.hmax (x, y) hxF (x + 1) (Or.inl rfl) this
  have hrunReg : ∀ c : Int, r + 1 ≤ c → c < t → Region b old_color sx sy c y := by
    intro c h1 h2
    have hU := hrunx (by omega)
    obtain ⟨hx1, hx2⟩ := hxin hU
    exact region_row hreg (fun z hz1 hz2 => (r4 z (by omega) (by omega)).1)
  have hclean : ∀ (X Y : Int) (e : Int), Unf b old_color F2 X Y →
      (∀ z : Int, min e X ≤ z → z ≤ max e X → Unf b old_color F z Y) →
      ∀ z : Int, min e X ≤ z → z ≤ max e X → Unf b old_color F2 z Y := by
    intro X Y e hU2 hall z hz1 hz2
    refine ⟨(hall z hz1 hz2).1, fun hm => ?_⟩
    rcases (r6 (z, Y)).mp hm with h | ⟨h1, h2, h3⟩
    · exact (hall z hz1 hz2).2 h
    · simp only [] at h1 h2 h3
      subst h1
      have hX1 : r + 1 ≤ X := by
        by_contra hc
        exact hL (hall r (by omega) (by omega))
      have hX2 : X < t := by
        by_contra hc
        exact hR (hall t (by omega) (by omega))
      exact hU2.2 (hrunF X hX1 hX2)
  have hcov : ∀ X Y : Int, Covered s.stack b old_color F X Y → Unf b old_color F2 X Y →
      Covered s2.stack b old_color F2 X Y := by
    rintro X Y ⟨i, i1, i2, hy, hall⟩ hU2
    have hall2 := hclean X Y _ hU2 hall
    by_cases ei : i = s.stack.sp
    · exfalso
      rw [ei, hxe] at hall hall2
      rw [ei, hye] at hy
      subst hy
      have hUx : Unf b old_color F x y := hall x (by omega) (by omega)
      obtain ⟨hx1, hx2⟩ := hxin hUx
      exact (hall2 x (by omega) (by omega)).2 (hrunF x hx1 hx2)
    · obtain ⟨e1, e2⟩ := k2 i i1 (by omega)
      refine ⟨i, i1, by omega, ?_, ?_⟩
      · rw [e2]; exact hy
      · rw [e1]; exact hall2
  refine ⟨s2, F2, r1, ⟨r7, ?_, ?_, ?_, ?_, ?_, by omega, by omega⟩, by omega⟩
  · intro p hp
    rcases (r6 p).mp hp with h | ⟨h1, h2, h3⟩
    · exact inv.sub p h
    · rw [h1]; exact hrunReg p.1 h2 h3
  · intro i i1 i2
    by_cases c : i ≤ s.stack.sp - 1
    · rw [(k2 i i1 c).1, (k2 i i1 c).2]
      exact inv.ent i i1 (by omega)
    · obtain ⟨q1, q2, q3, q4⟩ := k3 i (by omega) i2
      exact Region.step (hrunReg _ q1 q2) (Or.inr ⟨rfl, by omega⟩) q4.1
  · intro p hp X hX hU2
    have hUF := unf_sub hsubF hU2
    rcases (r6 p).mp hp with h | ⟨h1, h2, h3⟩
    · exact inv.hmax p h X hX hUF
    · rw [h1] at hU2 hUF
      by_cases c1 : X = r
      · rw [c1] at hUF; exact hL hUF
      · by_cases c2 : X = t
        · rw [c2] at hUF; exact hR hUF
        · exact hU2.2 (hrunF X (by omega) (by omega))
  · intro p hp Y hY hU2
    have hUF := unf_sub hsubF hU2
    rcases (r6 p).mp hp with h | ⟨h1, h2, h3⟩
    · exact hcov _ _ (inv.cov p h Y hY hUF) hU2
    · have key : ∀ i : Int, s.stack.sp - 1 < i → i ≤ s2.stack.sp → s2.stack.stack_y i = Y →
          s2.stack.stack_x i ≤ p.1 →
          (∀ z : Int, s2.stack.stack_x i ≤ z → z ≤ p.1 → Unf b old_color F z Y) →
          Covered s2.stack b old_color F2 p.1 Y := by
        intro i j1 j2 j3 j4 j5
        refine ⟨i, by omega, j2, j3, ?_⟩
        exact hclean p.1 Y _ hU2 (fun z hz1 hz2 => j5 z (by omega) (by omega))
      rcases hY with e | e
      · rw [h1] at e
        rw [e] at hUF
        rcases r12 p.1 h2 h3 hUF with ⟨i, j1, j2, j3, j4, j5⟩ | ⟨hf, _⟩
        · rw [← e] at j3 j5
          exact key i j1 j2 j3 j4 j5
        · exact absurd hf (by decide)
      · rw [h1] at e
        rw [e] at hUF
        rcases r11 p.1 h2 h3 hUF with ⟨i, j1, j2, j3, j4, j5⟩ | ⟨hf, _⟩
        · rw [← e] at j3 j5
          exact key i j1 j2 j3 j4 j5
        · exact absurd hf (by decide)
  · rcases inv.seed with h | h
    · exact Or.inl (hsubF _ h)
    · by_cases c : (sx, sy) ∈ F2
      · exact Or.inl c
      · exact Or.inr (hcov _ _ h ⟨hseed, c⟩)

/-- The main loop of `fill` at tolerance 0 runs to its end within
`2 * cw * ch + 2` iterations from the initial state, and then the stack is
empty and the invariant holds. -/
theorem fillLoop_spec {blend : Int → Int → Int → Int} (hblend : ∀ p c, blend p c 0 = c)
    {b : Bitmap} (hb : b.ClipInside) {new_color old_color sx sy : Int}
    (hnew : (inRange new_color old_color 0).1 = false)
    (hcap : b.ct < b.cb → 2 * ((b.cr - b.cl + 1) * (b.cb - b.ct + 1)) < stack_size)
    (hseed : Elig b old_color sx sy) :
    ∀ (fuel : Nat) (s : FillState) (F : Finset (Int × Int)),
      FillInv b new_color old_color sx sy F s →
      (s.stack.sp - 2 * (F.card : Int) + 2 * ((b.cr - b.cl + 1) * (b.cb - b.ct + 1))).toNat
        < fuel →
      ∃ (s2 : FillState) (F2 : Finset (Int × Int)),
        fillLoop blend b new_color old_color 0 fuel s = some (FillRun.finished s2) ∧
        FillInv b new_color old_color sx sy F2 s2 ∧ s2.stack.sp = 0
  | 0, s, F, _, hf => absurd hf (Nat.not_lt_zero _)
  | fuel + 1, s, F, inv, hf => by
      unfold fillLoop
      by_cases hsp : s.stack.sp > 0
      · have hp : s.stack.pop = some ((s.stack.stack_x s.stack.sp, s.stack.stack_y s.stack.sp),
            { s.stack with sp := s.stack.sp - 1 }) := by
          unfold Stack.pop
          rw [if_pos hsp]
        obtain ⟨s2, F2, e, inv2, hlt⟩ := fill_step hblend hb hnew hcap hseed inv hsp
        rw [hp]
        simp only []
        rw [e]
        simp only []
        have hK := card_le_clip b F2 inv2.abs.fclip hb.2.1 hb.2.2.2.2.1
        have h0 := inv2.sp0
        refine fillLoop_spec hblend hb hnew hcap hseed fuel s2 F2 inv2 ?_
        generalize (b.cr - b.cl + 1) * (b.cb - b.ct + 1) = K at hK hf ⊢
        omega
      · have hp : s.stack.pop = none := by
          unfold Stack.pop
          rw [if_neg hsp]
        rw [hp]
        have h0 := inv.sp0
        exact ⟨s, F, rfl, inv, by omega⟩

/-- When the stack is empty the filled pixels are the region of the seed. -/
theorem fill_done {b : Bitmap} {new_color old_color sx sy : Int} {F : Finset (Int × Int)}
    {s : FillState} (inv : FillInv b new_color old_color sx sy F s) (hsp : s.stack.sp = 0)
    (X Y : Int) : Region b old_color sx sy X Y ↔ (X, Y) ∈ F := by
  have nocov : ∀ X Y : Int, ¬ Covered s.stack b old_color F X Y := by
    rintro X Y ⟨i, i1, i2, _⟩
    omega
  constructor
  · intro h
    induction h with
    | seed _ =>
        rcases inv.seed with h | h
        · exact h
        · exact absurd h (nocov _ _)
    | @step x y x2 y2 _ hadj hel ih =>
        by_contra hn
        have hU : Unf b old_color F x2 y2 := ⟨hel, hn⟩
        rcases hadj with ⟨e1, e2⟩ | ⟨e1, e2⟩
        · rw [e1] at hU
          exact inv.hmax (x, y) ih x2 e2 hU
        · rw [e1] at hU
          exact nocov _ _ (inv.cov (x, y) ih y2 e2 hU)
  · intro h
    exact inv.sub (X, Y) h

/-- At tolerance 0 a colour is in range of itself. -/
theorem inRange_self (c : Int) : (inRange c c 0).1 = true := by
  unfold inRange diff32
  simp only [sub_self]
  decide

/-- A loop that lowers `sp` by one while it is positive, run `sp` times. -/
theorem popLoop_sp (body : Int → Stack → Stack)
    (hbody : ∀ i s, s.sp > 0 → (body i s).sp = s.sp - 1) (st : Stack) (h : 0 ≤ st.sp) :
    (forLoop body st.sp.toNat 0 st).sp = 0 := by
  have := forLoop_inv_idx body (fun i s => s.sp = st.sp - i) st.sp.toNat 0 st (by simp) (by
    intro i s hi1 hi2 hs
    rw [hbody i s (by omega)]
    omega)
  simp only [] at this
  omega

/-- `emptyStack` leaves no entry. -/
theorem emptyStack_sp (st : Stack) (h : 0 ≤ st.sp) : st.emptyStack.sp = 0 := by
  unfold Stack.emptyStack
  apply popLoop_sp _ _ st h
  intro i s hs
  simp only [Stack.pop]
  rw [if_pos hs]

/-- The map read at a pixel of the buffer: 0 on the filled pixels, 255 elsewhere. -/
theorem fillAbs_map {b : Bitmap} {new_color : Int} {F : Finset (Int × Int)}
    {temp : Bitmap} {map : Map} (hA : FillAbs b new_color F temp map)
    {X Y : Int} (hX0 : 0 ≤ X) (hX : X < b.w) (hY0 : 0 ≤ Y) (hY : Y < b.h) :
    map.getpixel X Y = if (X, Y) ∈ F then 0 else 255 := by
  unfold Map.getpixel
  rw [hA.mw, hA.mh, if_neg (by omega), hA.mrow Y hY0 hY, hA.mpix X Y hX0 hX hY0 hY]

/-- The last loops of `fill` at tolerance 0 store `new_color` in the filled
pixels and leave the other pixels as they are. -/
theorem fillSweep_spec {blend : Int → Int → Int → Int} (hblend : ∀ p c, blend p c 0 = c)
    {b : Bitmap} (hb : b.ClipInside) {new_color : Int} {F : Finset (Int × Int)}
    {temp : Bitmap} {map : Map} (hA : FillAbs b new_color F temp map) :
    ∃ d : Int → Int, fillSweep blend map new_color b = { b with data := d } ∧
      ∀ X Y : Int, 0 ≤ X → X < b.w → 0 ≤ Y → Y < b.h →
        d (b.w * Y + X) = if (X, Y) ∈ F then new_color else b.data (b.w * Y + X) := by
  obtain ⟨c1, c2, c3, c4, c5, c6⟩ := hb
  have inner : ∀ (y : Int) (b1 : Bitmap), b.ct ≤ y → y ≤ b.cb →
      (∃ d : Int → Int, b1 = { b with data := d } ∧
        ∀ X Y : Int, 0 ≤ X → X < b.w → 0 ≤ Y → Y < b.h →
          d (b.w * Y + X) = if Y < y ∧ (X, Y) ∈ F then new_color else b.data (b.w * Y + X)) →
      (∃ d : Int → Int,
        forLoop (fun x b2 =>
          if map.getpixel x y < 255 then
            b2.setpixelSolid blend x y new_color (map.getpixel x y)
          else b2) (b.cr + 1 - b.cl).toNat b.cl b1 = { b with data := d } ∧
        ∀ X Y : Int, 0 ≤ X → X < b.w → 0 ≤ Y → Y < b.h →
          d (b.w * Y + X) =
            if Y < y + 1 ∧ (X, Y) ∈ F then new_color else b.data (b.w * Y + X)) := by
    intro y b1 hy1 hy2 hP
    have key := forLoop_inv_idx (fun x b2 =>
        if map.getpixel x y < 255 then
          b2.setpixelSolid blend x y new_color (map.getpixel x y)
        else b2)
      (fun xl b2 => ∃ d : Int → Int, b2 = { b with data := d } ∧
        ∀ X Y : Int, 0 ≤ X → X < b.w → 0 ≤ Y → Y < b.h →
          d (b.w * Y + X) = if (Y < y ∨ (Y = y ∧ X < xl)) ∧ (X, Y) ∈ F then new_color
            else b.data (b.w * Y + X))
      (b.cr + 1 - b.cl).toNat b.cl b1 ?_ ?_
    · obtain ⟨d, e, hd⟩ := key
      refine ⟨d, e, fun X Y hX0 hX hY0 hY => ?_⟩
      rw [hd X Y hX0 hX hY0 hY]
      by_cases hF : (X, Y) ∈ F
      · have := hA.fclip _ hF
        unfold inClip at this
        simp only [] at this
        by_cases hlt : Y < y + 1
        · rw [if_pos ⟨by omega, hF⟩, if_pos ⟨hlt, hF⟩]
        · rw [if_neg (fun h => by omega), if_neg (fun h => hlt h.1)]
      · rw [if_neg (fun h => hF h.2), if_neg (fun h => hF h.2)]
    · obtain ⟨d, e, hd⟩ := hP
      refine ⟨d, e, fun X Y hX0 hX hY0 hY => ?_⟩
      rw [hd X Y hX0 hX hY0 hY]
      by_cases hF : (X, Y) ∈ F
      · have := hA.fclip _ hF
        unfold inClip at this
        simp only [] at this
        by_cases hlt : Y < y
        · rw [if_pos ⟨hlt, hF⟩, if_pos ⟨Or.inl hlt, hF⟩]
        · rw [if_neg (fun h => hlt h.1), if_neg (fun h => by omega)]
      · rw [if_neg (fun h => hF h.2), if_neg (fun h => hF h.2)]
    · rintro x b2 hx1 hx2 ⟨d, e, hd⟩
      simp only []
      have hxr : x ≤ b.cr := by omega
      rw [fillAbs_map hA (by omega) (by omega) (by omega) (by omega)]
      by_cases hF : (x, y) ∈ F
      · rw [if_pos hF, if_pos (by decide), e,
          setpixelSolid_inside blend _ x y new_color 0 (by unfold inClip; simp only []; omega)]
        refine ⟨_, rfl, fun X Y hX0 hX hY0 hY => ?_⟩
        simp only [setCell]
        by_cases hc : b.w * Y + X = b.w * y + x
        · obtain ⟨ex, ey⟩ := cell_inj hX0 hX (by omega) (by omega) hc
          rw [if_pos hc, hblend, ex, ey, if_pos ⟨Or.inr ⟨rfl, by omega⟩, hF⟩]
        · rw [if_neg hc, hd X Y hX0 hX hY0 hY]
          have hne : ¬ (X = x ∧ Y = y) := by
            rintro ⟨rfl, rfl⟩
            exact hc rfl
          by_cases hcond : (Y < y ∨ (Y = y ∧ X < x)) ∧ (X, Y) ∈ F
          · rw [if_pos hcond, if_pos ⟨by omega, hcond.2⟩]
          · rw [if_neg hcond, if_neg]
            rintro ⟨h1, h2⟩
            exact hcond ⟨by omega, h2⟩
      · rw [if_neg hF, if_neg (by decide)]
        refine ⟨d, e, fun X Y hX0 hX hY0 hY => ?_⟩
        rw [hd X Y hX0 hX hY0 hY]
        by_cases hcond : (Y < y ∨ (Y = y ∧ X < x)) ∧ (X, Y) ∈ F
        · rw [if_pos hcond, if_pos ⟨by omega, hcond.2⟩]
        · rw [if_neg hcond, if_neg]
          rintro ⟨h1, h2⟩
          have hne : ¬ (X = x ∧ Y = y) := by
            rintro ⟨rfl, rfl⟩
            exact hF h2
          exact hcond ⟨by omega, h2⟩
  unfold fillSweep forUpTo
  have key := forLoop_inv_idx (fun y b1 =>
      forLoop (fun x b2 =>
        if map.getpixel x y < 255 then
          b2.setpixelSolid blend x y new_color (map.getpixel x y)
        else b2) (b.cr + 1 - b.cl).toNat b.cl b1)
    (fun yl b1 => ∃ d : Int → Int, b1 = { b with data := d } ∧
      ∀ X Y : Int, 0 ≤ X → X < b.w → 0 ≤ Y → Y < b.h →
        d (b.w * Y + X) = if Y < yl ∧ (X, Y) ∈ F then new_color else b.data (b.w * Y + X))
    (b.cb + 1 - b.ct).toNat b.ct b ?_ ?_
  · obtain ⟨d, e, hd⟩ := key
    refine ⟨d, e, fun X Y hX0 hX hY0 hY => ?_⟩
    rw [hd X Y hX0 hX hY0 hY]
    by_cases hF : (X, Y) ∈ F
    · have := hA.fclip _ hF
      unfold inClip at this
      simp only [] at this
      rw [if_pos ⟨by omega, hF⟩, if_pos hF]
    · rw [if_neg (fun h => hF h.2), if_neg hF]
  · refine ⟨b.data, rfl, fun X Y hX0 hX hY0 hY => ?_⟩
    by_cases hF : (X, Y) ∈ F
    · have := hA.fclip _ hF
      unfold inClip at this
      simp only [] at this
      rw [if_neg (fun h => by omega)]
    · rw [if_neg (fun h => hF h.2)]
  · intro y b1 hy1 hy2 hP
    exact inner y b1 hy1 (by omega) hP

/-- The start of the main loop of `fill`: nothing is filled and the stack holds
the seed. -/
theorem fillInv_init {b : Bitmap} (hb : b.ClipInside) (hfit : b.w * (b.h - 1) ≤ 255)
    {new_color old_color sx sy : Int} (hseed : Elig b old_color sx sy)
    (st : Stack) (hst : st.sp = 1) (hx : st.stack_x 1 = sx) (hy : st.stack_y 1 = sy) :
    FillInv b new_color old_color sx sy ∅
      { temp := b.blit (create b.w b.h) 0 0 0 0 b.w b.h,
        map := (Map.create b.w b.h).clear 255, stack := st } := by
  obtain ⟨c1, c2, c3, c4, c5, c6⟩ := hb
  refine ⟨fillAbs_init b new_color (by omega) (by omega) hfit, ?_, ?_, ?_, ?_, ?_, ?_, ?_⟩
  · intro p hp
    exact absurd hp (Finset.not_mem_empty _)
  · intro i i1 i2
    simp only [] at i2 ⊢
    have e : i = 1 := by omega
    rw [e, hx, hy]
    exact Region.seed hseed
  · intro p hp
    exact absurd hp (Finset.not_mem_empty _)
  · intro p hp
    exact absurd hp (Finset.not_mem_empty _)
  · refine Or.inr ⟨1, le_rfl, by simp only []; omega, by simp only []; exact hy, ?_⟩
    intro x h1 h2
    simp only [] at h1 h2
    rw [hx] at h1 h2
    have e : x = sx := by omega
    rw [e]
    exact ⟨hseed, Finset.not_mem_empty _⟩
  · simp only []; omega
  · simp only [Finset.card_empty]; omega

/-- A canvas that the row table of the map can address has fewer clip pixels
than half the stack. -/
theorem clip_small {b : Bitmap} (hb : b.ClipInside) (hfit : b.w * (b.h - 1) ≤ 255)
    (hlt : b.ct < b.cb) : 2 * ((b.cr - b.cl + 1) * (b.cb - b.ct + 1)) < stack_size := by
  obtain ⟨c1, c2, c3, c4, c5, c6⟩ := hb
  have h1 : (b.cr - b.cl + 1) * (b.cb - b.ct + 1) ≤ b.w * b.h :=
    mul_le_mul (by omega) (by omega) (by omega) (by omega)
  have h2 : b.w * 1 ≤ b.w * (b.h - 1) := mul_le_mul_of_nonneg_left (by omega) (by omega)
  have h3 : b.w * b.h = b.w * (b.h - 1) + b.w := by ring
  unfold stack_size
  omega

/-- C6 (as amended): assume that compositing at transparency 0 replaces the
pixel by the new colour. For every canvas whose clip rectangle is non-empty and
lies inside the buffer and whose rows start below cell 256 (`w * (h - 1) ≤ 255`),
if the seed is a clip pixel whose colour is in range of `old_color` at tolerance
0 and `new_color` is not in range of `old_color`, then `fill` with tolerance 0
returns within `2 * cw * ch + 2` iterations of its main loop, whatever entries
the stack held before (`sp` is never negative), keeps the geometry of the canvas, sets every pixel of the region of
the seed (the largest 4-connected set of clip pixels in range of `old_color`
that contains the seed) to `new_color` and leaves every other pixel as it was. -/
theorem fill_exact {blend : Int → Int → Int → Int} (hblend : ∀ p c, blend p c 0 = c)
    (b : Bitmap) (hb : b.ClipInside) (hfit : b.w * (b.h - 1) ≤ 255)
    (st : Stack) (hst : 0 ≤ st.sp) (sx sy new_color old_color : Int)
    (hseed : Elig b old_color sx sy)
    (hnew : (inRange new_color old_color 0).1 = false)
    (fuel : Nat)
    (hfuel : 2 * ((b.cr - b.cl + 1) * (b.cb - b.ct + 1)) + 1 < (fuel : Int)) :
    ∃ r : Bitmap × Stack,
      fill blend fuel st b sx sy new_color old_color 0 = some r ∧
      (∃ d : Int → Int, r.1 = { b with data := d }) ∧
      ∀ X Y : Int, 0 ≤ X → X < b.w → 0 ≤ Y → Y < b.h →
        (Region b old_color sx sy X Y → r.1.pix X Y = new_color) ∧
        (¬ Region b old_color sx sy X Y → r.1.pix X Y = b.pix X Y) := by
  have hne : ¬ old_color = new_color := by
    intro e
    rw [e, inRange_self] at hnew
    exact absurd hnew (by decide)
  have hpush := push_room st.emptyStack sx sy (by rw [emptyStack_sp st hst]; decide)
  have inv0 : FillInv b new_color old_color sx sy ∅
      { temp := b.blit (create b.w b.h) 0 0 0 0 b.w b.h,
        map := (Map.create b.w b.h).clear 255,
        stack := { stack_x := setCell st.emptyStack.stack_x (st.emptyStack.sp + 1) sx,
                   stack_y := setCell st.emptyStack.stack_y (st.emptyStack.sp + 1) sy,
                   sp := st.emptyStack.sp + 1 } } :=
    fillInv_init hb hfit hseed _ (by simp only [emptyStack_sp st hst]; rfl)
      (by simp only [emptyStack_sp st hst, setCell]; rfl)
      (by simp only [emptyStack_sp st hst, setCell]; rfl)
  have hK0 : 0 ≤ (b.cr - b.cl + 1) * (b.cb - b.ct + 1) :=
    mul_nonneg (by have := hb.2.1; omega) (by have := hb.2.2.2.2.1; omega)
  obtain ⟨s2, F2, e, inv2, hsp2⟩ := fillLoop_spec hblend hb hnew (clip_small hb hfit) hseed
    fuel _ ∅ inv0 (by
      simp only [emptyStack_sp st hst, Finset.card_empty]
      generalize (b.cr - b.cl + 1) * (b.cb - b.ct + 1) = K at hfuel hK0 ⊢
      push_cast
      omega)
  obtain ⟨d, e2, hd⟩ := fillSweep_spec hblend hb inv2.abs
  unfold fill
  rw [if_neg hne]
  simp only []
  rw [hpush]
  simp only []
  rw [e]
  simp only []
  rw [e2]
  refine ⟨_, rfl, ⟨d, rfl⟩, fun X Y hX0 hX hY0 hY => ?_⟩
  simp only [pix, idx]
  rw [hd X Y hX0 hX hY0 hY]
  constructor
  · intro hR
    rw [if_pos ((fill_done inv2 hsp2 X Y).mp hR)]
  · intro hR
    rw [if_neg (fun h => hR ((fill_done inv2 hsp2 X Y).mpr h))]

set_option maxRecDepth 100000 in
theorem fill_exact_witness :
    demoCanvas.ClipInside ∧ demoCanvas.w * (demoCanvas.h - 1) ≤ 255 ∧
    Elig demoCanvas 10 3 3 ∧ (inRange 100 10 0).1 = false ∧
    ∃ r : Bitmap × Stack,
      fill (fun _ c _ => c) 202 emptyStk demoCanvas 3 3 100 10 0 = some r ∧
      (∃ d : Int → Int, r.1 = { demoCanvas with data := d }) ∧
      ∀ X Y : Int, 0 ≤ X → X < demoCanvas.w → 0 ≤ Y → Y < demoCanvas.h →
        (Region demoCanvas 10 3 3 X Y → r.1.pix X Y = 100) ∧
        (¬ Region demoCanvas 10 3 3 X Y → r.1.pix X Y = demoCanvas.pix X Y) :=
  ⟨by decide!, by decide!, by decide!, by decide!,
    fill_exact (fun _ _ => rfl) demoCanvas (by decide!) (by decide!) emptyStk (by decide!)
      3 3 100 10 (by decide!) (by decide!) 202 (by decide!)⟩

set_option maxRecDepth 100000 in
/-- The end-to-end example of section 8, evaluated: on the 10 x 10 canvas of
colour 0 with `[2,2]-[5,5]` of colour 10, `fill` from `(3, 3)` with tolerance 0
and colour 100 ends with exactly that 4 x 4 block equal to 100 and the rest
equal to 0. -/
theorem fill_demo :
    (fill (fun _ c _ => c) 50 emptyStk demoCanvas 3 3 100 10 0).map
      (fun r => decide (∀ X : Int, 0 ≤ X → X < 10 → ∀ Y : Int, 0 ≤ Y → Y < 10 →
        r.1.pix X Y = if 2 ≤ X ∧ X ≤ 5 ∧ 2 ≤ Y ∧ Y ≤ 5 then 100 else 0)) = some true := by
  decide!

set_option maxRecDepth 100000 in
/-- C6 (as stated) fails: on the 2 x 1 canvas with the colours 0 and 1, `fill`
from `(0, 0)` with `new_color = 100`, `old_color = 0` and tolerance 0 also sets
the pixel `(1, 0)` to 100, although its colour 1 is not `old_color`, so that it
is not in the set of pixels whose colour equals `old_color`: at tolerance 0 the
range test accepts every colour whose distance `sqrt(diff32) / 2` has integer
part 0. -/
theorem fill_near_colour_counterexample :
    nearCanvas.pix 0 0 = 0 ∧ nearCanvas.pix 1 0 = 1 ∧ (1 : Int) ≠ 0 ∧ (100 : Int) ≠ 0 ∧
    (fill (fun _ c _ => c) 50 emptyStk nearCanvas 0 0 100 0 0).map
      (fun r => (r.1.pix 0 0, r.1.pix 1 0)) = some (100, 100) := by
  decide!

end Bitmap

/-! ## C11: `rotate90` and the size of the canvas -/

namespace Bitmap

/-- C12. For canvases `A` and `B` (clip rectangles inside their buffers) and a
rectangle of `ww x hh` pixels that lies in the clip rectangle of `A` at
`(sx, sy)` and in the clip rectangle of `B` at `(dx, dy)`, so that neither call
truncates it: after `A.blit(B, sx, sy, dx, dy, ww, hh)` the rectangle of `B` at
`(dx, dy)` equals the rectangle of `A` at `(sx, sy)`, and the following
`B.blit(A, dx, dy, sx, sy, ww, hh)` rewrites only the buffer of `A` and leaves
every pixel of `A` equal to its original value. -/
theorem blit_round_trip (A B : Bitmap) (hA : A.ClipInside) (hB : B.ClipInside)
    (sx sy dx dy ww hh : Int)
    (hAx : A.cl ≤ sx ∧ sx + ww - 1 ≤ A.cr) (hAy : A.ct ≤ sy ∧ sy + hh - 1 ≤ A.cb)
    (hBx : B.cl ≤ dx ∧ dx + ww - 1 ≤ B.cr) (hBy : B.ct ≤ dy ∧ dy + hh - 1 ≤ B.cb) :
    (∀ i j : Int, 0 ≤ i → i < ww → 0 ≤ j → j < hh →
      (A.blit B sx sy dx dy ww hh).pix (dx + i) (dy + j) = A.pix (sx + i) (sy + j)) ∧
    (∃ d, (A.blit B sx sy dx dy ww hh).blit A dx dy sx sy ww hh = { A with data := d }) ∧
    (∀ X Y : Int, 0 ≤ X → X < A.w → 0 ≤ Y → Y < A.h →
      ((A.blit B sx sy dx dy ww hh).blit A dx dy sx sy ww hh).pix X Y = A.pix X Y) := by
  obtain ⟨a1, a2, a3, a4, a5, a6⟩ := hA
  obtain ⟨b1, b2, b3, b4, b5, b6⟩ := hB
  obtain ⟨⟨d1, e1⟩, p1, _⟩ := blit_pix A B b1 b3 sx sy dx dy ww hh
  obtain ⟨e2, p2, _⟩ := blit_pix (A.blit B sx sy dx dy ww hh) A a1 a3 dx dy sx sy ww hh
  have hBw : (A.blit B sx sy dx dy ww hh).w = B.w := by rw [e1]
  have hBh : (A.blit B sx sy dx dy ww hh).h = B.h := by rw [e1]
  have first : ∀ i j : Int, 0 ≤ i → i < ww → 0 ≤ j → j < hh →
      (A.blit B sx sy dx dy ww hh).pix (dx + i) (dy + j) = A.pix (sx + i) (sy + j) := by
    intro i j hi0 hi hj0 hj
    rw [p1 (dx + i) (dy + j) (by omega) (by omega), if_pos]
    · congr 1 <;> omega
    · unfold BlitRegion inClip
      omega
  refine ⟨first, e2, fun X Y hX0 hX hY0 hY => ?_⟩
  rw [p2 X Y hX0 hX]
  by_cases hr : BlitRegion (A.blit B sx sy dx dy ww hh) A dx dy sx sy ww hh X Y
  · rw [if_pos hr]
    unfold BlitRegion inClip at hr
    have := first (X - sx) (Y - sy) (by omega) (by omega) (by omega) (by omega)
    have ex : dx + (X - sx) = X - sx + dx := by omega
    have ey : dy + (Y - sy) = Y - sy + dy := by omega
    have ex2 : sx + (X - sx) = X := by omega
    have ey2 : sy + (Y - sy) = Y := by omega
    rw [ex, ey, ex2, ey2] at this
    exact this
  · rw [if_neg hr]

theorem blit_round_trip_witness :
    (demoCanvas.ClipInside ∧ (create 4 4).ClipInside ∧
      (demoCanvas.cl ≤ 2 ∧ 2 + 3 - 1 ≤ demoCanvas.cr) ∧
      (demoCanvas.ct ≤ 3 ∧ 3 + 2 - 1 ≤ demoCanvas.cb) ∧
      ((create 4 4).cl ≤ 1 ∧ 1 + 3 - 1 ≤ (create 4 4).cr) ∧
      ((create 4 4).ct ≤ 0 ∧ 0 + 2 - 1 ≤ (create 4 4).cb)) ∧
    ((∀ i j : Int, 0 ≤ i → i < 3 → 0 ≤ j → j < 2 →
      (demoCanvas.blit (create 4 4) 2 3 1 0 3 2).pix (1 + i) (0 + j)
        = demoCanvas.pix (2 + i) (3 + j)) ∧
    (∃ d, (demoCanvas.blit (create 4 4) 2 3 1 0 3 2).blit demoCanvas 1 0 2 3 3 2
      = { demoCanvas with data := d }) ∧
    (∀ X Y : Int, 0 ≤ X → X < demoCanvas.w → 0 ≤ Y → Y < demoCanvas.h →
      ((demoCanvas.blit (create 4 4) 2 3 1 0 3 2).blit demoCanvas 1 0 2 3 3 2).pix X Y
        = demoCanvas.pix X Y)) :=
  ⟨by decide!, blit_round_trip demoCanvas (create 4 4) (by decide!) (by decide!) 2 3 1 0 3 2
    (by decide!) (by decide!) (by decide!) (by decide!)⟩

/-! ## C15: the constructors clamp their arguments -/

/-- C15. For all integers `width` and `height`, `Bitmap(width, height)` is a
canvas with `w = max(width, 1)`, `h = max(height, 1)`, overscroll 0, origin
`(0, 0)` and clip rectangle `[0, w-1] x [0, h-1]`, and `Map(width, height)` has
`w = max(width, 1)` and `h = max(height, 1)`. -/
theorem constructors_clamp (width height : Int) :
    ((create width height).w = max width 1 ∧ (create width height).h = max height 1 ∧
      (create width height).overscroll = 0 ∧
      (create width height).x = 0 ∧ (create width height).y = 0 ∧
      (create width height).cl = 0 ∧ (create width height).ct = 0 ∧
      (create width height).cr = (create width height).w - 1 ∧
      (create width height).cb = (create width height).h - 1) ∧
    ((Map.create width height).w = max width 1 ∧
      (Map.create width height).h = max height 1) := by
  refine ⟨⟨?_, ?_, rfl, rfl, rfl, rfl, rfl, rfl, rfl⟩, ?_, ?_⟩ <;>
    simp only [create, setClip, Map.create] <;> split_ifs <;> omega

end Bitmap

/-! ## C13, C14: exhausted rings, `push` and the redo ring -/

namespace Undo

/-- C13. `pop` called when the undo ring holds no entry (the undo cursor is at
its top, `levels - 1`) and `popRedo` called when the redo ring holds no entry
return the state they were given: the working canvas, both rings, both cursors
and everything else are unchanged. -/
theorem exhausted_noop (env : Env) (s : UndoState) :
    (s.undo_current ≥ levels - 1 → pop env s = s) ∧
    (s.redo_current ≥ levels - 1 → popRedo env s = s) := by
  constructor
  · intro h
    unfold pop
    rw [if_pos h]
  · intro h
    unfold popRedo
    rw [if_pos h]

theorem exhausted_noop_witness :
    ((init marginState).undo_current ≥ levels - 1 ∧
      (init marginState).redo_current ≥ levels - 1) ∧
    pop plainEnv (init marginState) = init marginState ∧
    popRedo plainEnv (init marginState) = init marginState :=
  ⟨by decide, (exhausted_noop plainEnv (init marginState)).1 (by decide),
    (exhausted_noop plainEnv (init marginState)).2 (by decide)⟩

/-- C14. After any `push` the redo ring is logically empty, whatever it held
before: the redo cursor is at its top and an immediately following `popRedo`
returns the state unchanged (working canvas, undo ring and all). `pop`, by
contrast, never empties the redo ring: a redo ring that holds an entry still
holds one after `pop`, and a `pop` that restores a snapshot (the undo ring holds
an entry, the redo cursor is at most at its top) leaves an entry in the redo
ring. -/
theorem push_clears_redo (env : Env) (s : UndoState) :
    (push s).redo_current = levels - 1 ∧
    popRedo env (push s) = push s ∧
    (s.redo_current < levels - 1 → (pop env s).redo_current < levels - 1) ∧
    (s.undo_current < levels - 1 → s.redo_current ≤ levels - 1 →
      (pop env s).redo_current < levels - 1) := by
  have h1 : (push s).redo_current = levels - 1 := rfl
  refine ⟨h1, ?_, ?_, ?_⟩
  · unfold popRedo
    rw [if_pos (by rw [h1])]
  · intro h
    unfold pop pushRedo newImage clampView
    unfold levels at h ⊢
    split_ifs <;> (try dsimp only) <;> omega
  · intro hu hr
    exact (pop_redo env s hu hr).2

theorem push_clears_redo_witness :
    ((push marginState).undo_current < levels - 1 ∧
      (push marginState).redo_current ≤ levels - 1 ∧
      (pop plainEnv (push marginState)).redo_current < levels - 1) ∧
    (push (push marginState)).redo_current = levels - 1 ∧
    popRedo plainEnv (push (push marginState)) = push (push marginState) ∧
    (pop plainEnv (push marginState)).redo_current < levels - 1 ∧
    (pop plainEnv (pop plainEnv (push marginState))).redo_current < levels - 1 :=
  ⟨by decide, (push_clears_redo plainEnv (push marginState)).1,
    (push_clears_redo plainEnv (push marginState)).2.1,
    (push_clears_redo plainEnv (push marginState)).2.2.2 (by decide) (by decide),
    (push_clears_redo plainEnv (pop plainEnv (push marginState))).2.2.1 (by decide)⟩

end Undo

/-! ## C18, C19: `vline` and `xorLine` do not look at the clip rectangle -/

namespace Bitmap

set_option maxRecDepth 100000 in
/-- C18 fails on the code. On the 4 x 4 canvas of colour 0 with the clip
rectangle `[1,2] x [1,2]`, `vline(0, 0, 3, 9, 0)` under a blend that replaces
the pixel writes column 0, which lies outside the clip rectangle: every pixel
of that column holds 9 afterwards, the pixel `(0, 0)` among them, and the
pixels of the other columns are as before. -/
theorem vline_outside_clip :
    ¬ insetCanvas.inClip 0 0 ∧
    insetCanvas.pix 0 0 = 0 ∧
    ∀ X : Int, 0 ≤ X → X < 4 → ∀ Y : Int, 0 ≤ Y → Y < 4 →
      (insetCanvas.vline (fun _ c _ => c) 0 0 3 9 0).pix X Y =
        if X = 0 then 9 else 0 := by
  decide!

set_option maxRecDepth 100000 in
/-- C19 fails on the code. On the 4 x 4 canvas of colour 0 with the clip
rectangle `[1,2] x [1,2]`, `xorLine(0, 0, 3, 0)` returns and has inverted the
four pixels of row 0, which lies outside the clip rectangle: they hold
`0x00FFFFFF` and `0x00808080` in turn, and the other rows are as before. -/
theorem xorLine_outside_clip :
    insetCanvas.BoxOutside 0 0 3 0 ∧
    insetCanvas.pix 0 0 = 0 ∧
    (xorLine 10 insetCanvas 0 0 3 0).map
      (fun r => decide (∀ X : Int, 0 ≤ X → X < 4 → ∀ Y : Int, 0 ≤ Y → Y < 4 →
        r.pix X Y = if Y = 0 then (if X % 2 = 0 then 16777215 else 8421504) else 0))
      = some true := by
  decide!

end Bitmap

/-! ## C20: `setpixelWrap` -/

namespace Bitmap

/-- The loop `while(x1 < cl) x1 += cw`. -/
theorem wrapUp (cl cw : Int) (hcw : 1 ≤ cw) :
    ∀ (fuel : Nat) (x : Int), (cl - x).toNat < fuel →
      whileLoop (fun x1 => decide (x1 < cl)) (fun x1 => x1 + cw) fuel x
        = some (if x < cl then cl + (x - cl) % cw else x)
  | 0, x, h => absurd h (Nat.not_lt_zero _)
  | fuel + 1, x, h => by
      unfold whileLoop
      by_cases hx : x < cl
      · rw [if_pos (decide_eq_true hx), if_pos hx, wrapUp cl cw hcw fuel (x + cw) (by omega)]
        congr 1
        have e : (x - cl) % cw = (x + cw - cl) % cw := by
          rw [show x + cw - cl = (x - cl) + cw by ring, Int.add_emod_self]
        by_cases h2 : x + cw < cl
        · rw [if_pos h2, e]
        · rw [if_neg h2, e, Int.emod_eq_of_lt (by omega) (by omega)]
          omega
      · rw [if_neg (by simpa using hx), if_neg hx]

/-- The loop `while(x1 > cr) x1 -= cw`, for a clip range of `cw` columns. -/
theorem wrapDown (cl cr cw : Int) (hcw : 1 ≤ cw) (hw : cw = cr - cl + 1) :
    ∀ (fuel : Nat) (x : Int), (x - cr).toNat < fuel →
      whileLoop (fun x1 => decide (x1 > cr)) (fun x1 => x1 - cw) fuel x
        = some (if x > cr then cl + (x - cl) % cw else x)
  | 0, x, h => absurd h (Nat.not_lt_zero _)
  | fuel + 1, x, h => by
      unfold whileLoop
      by_cases hx : x > cr
      · rw [if_pos (decide_eq_true hx), if_pos hx,
          wrapDown cl cr cw hcw hw fuel (x - cw) (by omega)]
        congr 1
        have e : (x - cl) % cw = (x - cw - cl) % cw := by
          rw [show x - cl = (x - cw - cl) + cw by ring, Int.add_emod_self]
        by_cases h2 : x - cw > cr
        · rw [if_pos h2, e]
        · rw [if_neg h2, e, Int.emod_eq_of_lt (by omega) (by omega)]
          omega
      · rw [if_neg (by simpa using hx), if_neg hx]

/-- The two loops of one axis bring the coordinate to `cl + (x - cl) mod cw`. -/
theorem wrapAxis (cl cr cw : Int) (hcw : 1 ≤ cw) (hw : cw = cr - cl + 1) (fuel : Nat)
    (x : Int) (h1 : (cl - x).toNat < fuel) (h2 : (x - cr).toNat < fuel) :
    (whileLoop (fun x1 => decide (x1 < cl)) (fun x1 => x1 + cw) fuel x).bind
      (fun x1 => whileLoop (fun x1 => decide (x1 > cr)) (fun x1 => x1 - cw) fuel x1)
      = some (cl + (x - cl) % cw) ∧
    cl ≤ cl + (x - cl) % cw ∧ cl + (x - cl) % cw ≤ cr := by
  have hm0 := Int.emod_nonneg (x - cl) (show cw ≠ 0 by omega)
  have hm1 := Int.emod_lt_of_pos (x - cl) (show 0 < cw by omega)
  refine ⟨?_, by omega, by omega⟩
  rw [wrapUp cl cw hcw fuel x h1, Option.some_bind]
  by_cases hx : x < cl
  · rw [if_pos hx, wrapDown cl cr cw hcw hw fuel _ (by omega), if_neg (by omega)]
  · rw [if_neg hx, wrapDown cl cr cw hcw hw fuel _ h2]
    by_cases h3 : x > cr
    · rw [if_pos h3]
    · rw [if_neg h3, Int.emod_eq_of_lt (by omega) (by omega)]
      congr 1
      omega

/-- A value of `[cl, cl + cw)` congruent to `x` modulo `cw` is `cl + (x - cl) mod cw`. -/
theorem wrap_unique (cl cw x X : Int) (h0 : cl ≤ X) (h1 : X < cl + cw)
    (hc : (X - x) % cw = 0) : X = cl + (x - cl) % cw := by
  have e : (X - cl) % cw = (x - cl) % cw := by
    rw [Int.emod_eq_emod_iff_emod_sub_eq_zero]
    rw [show X - cl - (x - cl) = X - x by ring]
    exact hc
  rw [← e, Int.emod_eq_of_lt (by omega) (by omega)]
  omega

/-- C20. For every canvas whose clip width `cw = cr - cl + 1` and clip height
`ch = cb - ct + 1` are at least 1 and all integers `x`, `y`, `setpixelWrap`
returns as soon as the fuel exceeds the distance of `(x, y)` from the clip
rectangle, and the canvas it returns is the old one with one cell composited,
the cell of the pixel `(cl + ((x - cl) mod cw), ct + ((y - ct) mod ch))`, with
`mod` non-negative. That pixel lies in the clip rectangle and is the only clip
pixel congruent to `(x, y)` modulo `(cw, ch)`. When the clip columns are columns
of the buffer, every other pixel of the buffer is unchanged. For `(x, y)` inside
the clip rectangle the result is that of `setpixelSolid`. -/
theorem setpixelWrap_spec (blend : Int → Int → Int → Int) (b : Bitmap)
    (hcw : b.cw = b.cr - b.cl + 1) (hch : b.ch = b.cb - b.ct + 1)
    (h1 : 1 ≤ b.cw) (h2 : 1 ≤ b.ch) (x y c t : Int) (fuel : Nat)
    (hfx : (b.cl - x).toNat < fuel ∧ (x - b.cr).toNat < fuel)
    (hfy : (b.ct - y).toNat < fuel ∧ (y - b.cb).toNat < fuel) :
    b.setpixelWrap blend fuel x y c t = some { b with data :=
      (setCell b.data (b.w * (b.ct + (y - b.ct) % b.ch) + (b.cl + (x - b.cl) % b.cw))
        (blend (b.data (b.w * (b.ct + (y - b.ct) % b.ch) + (b.cl + (x - b.cl) % b.cw))) c t)) } ∧
    b.inClip (b.cl + (x - b.cl) % b.cw) (b.ct + (y - b.ct) % b.ch) ∧
    (∀ X Y : Int, b.inClip X Y → (X - x) % b.cw = 0 → (Y - y) % b.ch = 0 →
      X = b.cl + (x - b.cl) % b.cw ∧ Y = b.ct + (y - b.ct) % b.ch) ∧
    (0 ≤ b.cl → b.cr < b.w → ∀ r, b.setpixelWrap blend fuel x y c t = some r →
      r.pix (b.cl + (x - b.cl) % b.cw) (b.ct + (y - b.ct) % b.ch)
        = blend (b.pix (b.cl + (x - b.cl) % b.cw) (b.ct + (y - b.ct) % b.ch)) c t ∧
      ∀ X Y : Int, 0 ≤ X → X < b.w →
        ¬ (X = b.cl + (x - b.cl) % b.cw ∧ Y = b.ct + (y - b.ct) % b.ch) →
        r.pix X Y = b.pix X Y) ∧
    (b.inClip x y → b.setpixelWrap blend fuel x y c t = some (b.setpixelSolid blend x y c t)) := by
  obtain ⟨ex, hx0, hx1⟩ := wrapAxis b.cl b.cr b.cw h1 (by omega) fuel x hfx.1 hfx.2
  obtain ⟨ey, hy0, hy1⟩ := wrapAxis b.ct b.cb b.ch h2 (by omega) fuel y hfy.1 hfy.2
  have hres : b.setpixelWrap blend fuel x y c t = some { b with data :=
      (setCell b.data (b.w * (b.ct + (y - b.ct) % b.ch) + (b.cl + (x - b.cl) % b.cw))
        (blend (b.data (b.w * (b.ct + (y - b.ct) % b.ch) + (b.cl + (x - b.cl) % b.cw))) c t)) } := by
    unfold setpixelWrap
    rw [← Option.bind_assoc, ex, Option.some_bind, ← Option.bind_assoc, ey, Option.some_bind]
  refine ⟨hres, ⟨hx0, hx1, hy0, hy1⟩, ?_, ?_, ?_⟩
  · intro X Y hc hX hY
    unfold inClip at hc
    exact ⟨wrap_unique b.cl b.cw x X hc.1 (by omega) hX,
      wrap_unique b.ct b.ch y Y hc.2.2.1 (by omega) hY⟩
  · intro c1 c3 r hr
    rw [hres] at hr
    injection hr with hr
    subst hr
    refine ⟨by simp [pix, idx, setCell], fun X Y hX0 hX hne => ?_⟩
    simp only [pix, idx, setCell]
    rw [if_neg]
    intro e
    exact hne (cell_inj hX0 hX (by omega) (by omega) e)
  · intro hc
    unfold inClip at hc
    rw [hres]
    unfold setpixelSolid
    rw [if_neg (show ¬ (x < b.cl ∨ x > b.cr ∨ y < b.ct ∨ y > b.cb) by omega),
      Int.emod_eq_of_lt (show 0 ≤ x - b.cl by omega) (show x - b.cl < b.cw by omega),
      Int.emod_eq_of_lt (show 0 ≤ y - b.ct by omega) (show y - b.ct < b.ch by omega),
      show b.cl + (x - b.cl) = x by omega, show b.ct + (y - b.ct) = y by omega]

set_option maxRecDepth 100000 in
theorem setpixelWrap_spec_witness :
    (insetCanvas.cw = insetCanvas.cr - insetCanvas.cl + 1 ∧
      insetCanvas.ch = insetCanvas.cb - insetCanvas.ct + 1 ∧
      1 ≤ insetCanvas.cw ∧ 1 ≤ insetCanvas.ch ∧
      ((insetCanvas.cl - 7).toNat < 20 ∧ (7 - insetCanvas.cr).toNat < 20) ∧
      ((insetCanvas.ct - (-4)).toNat < 20 ∧ (-4 - insetCanvas.cb).toNat < 20)) ∧
    insetCanvas.setpixelWrap (fun _ c _ => c) 20 7 (-4) 9 0 = some { insetCanvas with data :=
      (setCell insetCanvas.data
        (insetCanvas.w * (insetCanvas.ct + (-4 - insetCanvas.ct) % insetCanvas.ch)
          + (insetCanvas.cl + (7 - insetCanvas.cl) % insetCanvas.cw))
        ((fun _ c _ => c) (insetCanvas.data
          (insetCanvas.w * (insetCanvas.ct + (-4 - insetCanvas.ct) % insetCanvas.ch)
            + (insetCanvas.cl + (7 - insetCanvas.cl) % insetCanvas.cw))) 9 0)) } ∧
    insetCanvas.inClip (insetCanvas.cl + (7 - insetCanvas.cl) % insetCanvas.cw)
      (insetCanvas.ct + (-4 - insetCanvas.ct) % insetCanvas.ch) :=
  ⟨by decide!,
    (setpixelWrap_spec (fun _ c _ => c) insetCanvas (by decide!) (by decide!) (by decide!)
      (by decide!) 7 (-4) 9 0 20 (by decide!) (by decide!)).1,
    (setpixelWrap_spec (fun _ c _ => c) insetCanvas (by decide!) (by decide!) (by decide!)
      (by decide!) 7 (-4) 9 0 20 (by decide!) (by decide!)).2.1⟩

end Bitmap

/-! ## C16: `crop` -/

/-- `absrect` on two corners of the clip rectangle puts them in order. -/
theorem absrect_inside (b : Bitmap) (x1 y1 x2 y2 : Int)
    (h1 : b.inClip x1 y1) (h2 : b.inClip x2 y2) :
    absrect b x1 y1 x2 y2 = (min x1 x2, min y1 y2, max x1 x2, max y1 y2) := by
  unfold Bitmap.inClip at h1 h2
  unfold absrect
  simp only []
  have e1 : (if x1 > x2 then x2 else x1) = min x1 x2 := by split_ifs <;> omega
  have e2 : (if x1 > x2 then x1 else x2) = max x1 x2 := by split_ifs <;> omega
  have e3 : (if y1 > y2 then y2 else y1) = min y1 y2 := by split_ifs <;> omega
  have e4 : (if y1 > y2 then y1 else y2) = max y1 y2 := by split_ifs <;> omega
  rw [e1, e2, e3, e4, if_neg (by omega), if_neg (by omega), if_neg (by omega),
    if_neg (by omega)]

namespace Bitmap

/-- The right and bottom edges of the clip rectangle of `Bitmap(width, height)`. -/
theorem create_cr_cb (width height : Int) (hw : 0 < width) (hh : 0 < height) :
    (create width height).cr = width - 1 ∧ (create width height).cb = height - 1 := by
  simp only [create, setClip]
  rw [if_neg (by omega), if_neg (by omega)]
  exact ⟨rfl, rfl⟩

/-- Copying the `W x H` rectangle at `(x0, y0)` of `b` into a `W x H` canvas `C`
with the full clip rectangle, and that into the image area of a canvas `N` with
a margin of `ov`: the result is `N` with the rectangle in its image area. -/
theorem paste_pix (b C N : Bitmap) (ov x0 y0 W H : Int) (hov : 0 ≤ ov)
    (hx : 0 ≤ x0 ∧ x0 + W ≤ b.w) (hy : 0 ≤ y0 ∧ y0 + H ≤ b.h)
    (hC : C.w = W ∧ C.h = H ∧ C.cl = 0 ∧ C.cr = W - 1 ∧ C.ct = 0 ∧ C.cb = H - 1)
    (hN : N.w = W + ov * 2 ∧ N.cl = ov ∧ N.cr = W + ov - 1 ∧ N.ct = ov ∧ N.cb = H + ov - 1) :
    (∃ d, (b.blit C x0 y0 0 0 W H).blit N 0 0 ov ov W H = { N with data := d }) ∧
    ∀ X Y : Int, 0 ≤ X → X < W + ov * 2 →
      ((b.blit C x0 y0 0 0 W H).blit N 0 0 ov ov W H).pix X Y =
        if InImage ov (W + ov * 2) (H + ov * 2) X Y then b.pix (x0 + (X - ov)) (y0 + (Y - ov))
        else N.pix X Y := by
  obtain ⟨c1, c2, c3, c4, c5, c6⟩ := hC
  obtain ⟨n1, n2, n3, n4, n5⟩ := hN
  obtain ⟨⟨d1, e1⟩, p1, _⟩ := blit_pix b C (by omega) (by omega) x0 y0 0 0 W H
  obtain ⟨e2, p2, _⟩ := blit_pix (b.blit C x0 y0 0 0 W H) N (by omega) (by omega)
    0 0 ov ov W H
  have tw : (b.blit C x0 y0 0 0 W H).w = W := by rw [e1]; exact c1
  have th : (b.blit C x0 y0 0 0 W H).h = H := by rw [e1]; exact c2
  refine ⟨e2, fun X Y hX0 hX => ?_⟩
  rw [p2 X Y hX0 (by omega)]
  by_cases hi : InImage ov (W + ov * 2) (H + ov * 2) X Y
  · have hi2 := hi
    unfold InImage at hi2
    rw [if_pos hi, if_pos]
    · rw [p1 (X - ov + 0) (Y - ov + 0) (by omega) (by omega), if_pos]
      · congr 1 <;> omega
      · unfold BlitRegion inClip
        omega
    · unfold BlitRegion inClip
      omega
  · rw [if_neg hi, if_neg]
    intro hr
    apply hi
    unfold BlitRegion inClip at hr
    unfold InImage
    omega

/-- Cutting the `W x H` rectangle at `(x0, y0)` out of a canvas and pasting it
into a new image with a margin of `ov`: the result is the new image with the
rectangle in its image area. -/
theorem cut_paste (env : Env) (b : Bitmap) (ov x0 y0 W H : Int) (hov : 0 ≤ ov)
    (hW : 1 ≤ W) (hH : 1 ≤ H) (hx : 0 ≤ x0 ∧ x0 + W ≤ b.w) (hy : 0 ≤ y0 ∧ y0 + H ≤ b.h) :
    (∃ d, (b.blit (create W H) x0 y0 0 0 W H).blit (createOverscroll env W H ov) 0 0 ov ov W H
      = { createOverscroll env W H ov with data := d }) ∧
    ∀ X Y : Int, 0 ≤ X → X < W + ov * 2 →
      ((b.blit (create W H) x0 y0 0 0 W H).blit (createOverscroll env W H ov)
          0 0 ov ov W H).pix X Y =
        if InImage ov (W + ov * 2) (H + ov * 2) X Y then b.pix (x0 + (X - ov)) (y0 + (Y - ov))
        else (createOverscroll env W H ov).pix X Y := by
  obtain ⟨g1, g2, g3, g4, g5, g6⟩ := createOverscroll_geom env W H ov
  obtain ⟨hr, hb⟩ := create_cr_cb W H (by omega) (by omega)
  exact paste_pix b (create W H) (createOverscroll env W H ov) ov x0 y0 W H hov hx hy
    ⟨create_w W H (by omega), create_h W H (by omega), rfl, hr, rfl, hb⟩
    ⟨by rw [g1]; omega, g3, by rw [g4]; omega, g5, by rw [g6]; omega⟩

end Bitmap

theorem push_bmp (s : UndoState) :
    (Undo.push s).bmp = s.bmp ∧ (Undo.push s).overscroll = s.overscroll := by
  unfold Undo.push Undo.doPush
  split_ifs <;> exact ⟨rfl, rfl⟩

/-- What `crop` leaves when the two corners of the selection are clip pixels:
the knife is idle, the view origin is `(0, 0)`, and the working canvas is the
selected rectangle pasted into a new image. -/
theorem crop_eq (env : Env) (k : KnifeState) (s : UndoState) (hstate : k.state ≠ 3)
    (h1 : s.bmp.inClip k.beginx k.beginy) (h2 : s.bmp.inClip k.lastx k.lasty) :
    (crop env k s).1.state = 0 ∧ (crop env k s).1.active = false ∧
    (crop env k s).2.ox = 0 ∧ (crop env k s).2.oy = 0 ∧
    (crop env k s).2.overscroll = s.overscroll ∧
    (crop env k s).2.bmp =
      (s.bmp.blit
          (Bitmap.create (max k.beginx k.lastx - min k.beginx k.lastx + 1)
            (max k.beginy k.lasty - min k.beginy k.lasty + 1))
          (min k.beginx k.lastx) (min k.beginy k.lasty) 0 0
          (max k.beginx k.lastx - min k.beginx k.lastx + 1)
          (max k.beginy k.lasty - min k.beginy k.lasty + 1)).blit
        (Bitmap.createOverscroll env (max k.beginx k.lastx - min k.beginx k.lastx + 1)
          (max k.beginy k.lasty - min k.beginy k.lasty + 1) s.overscroll)
        0 0 s.overscroll s.overscroll
        (max k.beginx k.lastx - min k.beginx k.lastx + 1)
        (max k.beginy k.lasty - min k.beginy k.lasty + 1) := by
  have hp := push_bmp s
  have ha := absrect_inside s.bmp k.beginx k.beginy k.lastx k.lasty h1 h2
  unfold crop
  rw [if_neg hstate]
  simp only [newImage, hp.1, hp.2, ha]
  rw [if_neg (show ¬ max k.beginx k.lastx - min k.beginx k.lastx + 1 < 1 by omega),
    if_neg (show ¬ max k.beginy k.lasty - min k.beginy k.lasty + 1 < 1 by omega)]
  exact ⟨trivial, trivial, trivial, trivial, trivial, rfl⟩

/-- C16. With a selection that is not in the duplicate state (`state != 3`)
and whose two corners are clip pixels of the working canvas (in either order),
on a working canvas whose clip rectangle lies in its buffer and with
`Project::overscroll >= 0`: `crop` replaces the working canvas by one whose
image area (its clip rectangle, at offset `overscroll`) is `|lastx-beginx|+1`
wide and `|lasty-beginy|+1` high, whose pixel at `(overscroll+i, overscroll+j)`
is the old pixel at `(min(beginx,lastx)+i, min(beginy,lasty)+j)` for every `i`,
`j` in range, and whose margin is that of a newly created image of that size;
the knife is idle afterwards (`state = 0`, not active) and the view origin is
`(0, 0)`. -/
theorem crop_spec (env : Env) (k : KnifeState) (s : UndoState) (hstate : k.state ≠ 3)
    (hb : s.bmp.ClipInside) (hov : 0 ≤ s.overscroll)
    (h1 : s.bmp.inClip k.beginx k.beginy) (h2 : s.bmp.inClip k.lastx k.lasty) :
    ((crop env k s).2.bmp.w = |k.lastx - k.beginx| + 1 + s.overscroll * 2 ∧
      (crop env k s).2.bmp.h = |k.lasty - k.beginy| + 1 + s.overscroll * 2 ∧
      (crop env k s).2.bmp.cl = s.overscroll ∧
      (crop env k s).2.bmp.cr = s.overscroll + |k.lastx - k.beginx| ∧
      (crop env k s).2.bmp.ct = s.overscroll ∧
      (crop env k s).2.bmp.cb = s.overscroll + |k.lasty - k.beginy|) ∧
    (∀ i j : Int, 0 ≤ i → i ≤ |k.lastx - k.beginx| → 0 ≤ j → j ≤ |k.lasty - k.beginy| →
      (crop env k s).2.bmp.pix (s.overscroll + i) (s.overscroll + j)
        = s.bmp.pix (min k.beginx k.lastx + i) (min k.beginy k.lasty + j)) ∧
    (∀ X Y : Int, 0 ≤ X → X < (crop env k s).2.bmp.w →
      ¬ (crop env k s).2.bmp.inClip X Y →
      (crop env k s).2.bmp.pix X Y =
        (Bitmap.createOverscroll env (|k.lastx - k.beginx| + 1) (|k.lasty - k.beginy| + 1)
          s.overscroll).pix X Y) ∧
    ((crop env k s).1.state = 0 ∧ (crop env k s).1.active = false) ∧
    ((crop env k s).2.ox = 0 ∧ (crop env k s).2.oy = 0) := by
  obtain ⟨k1, k2, k3, k4, _, k6⟩ := crop_eq env k s hstate h1 h2
  have ex : |k.lastx - k.beginx| = max k.beginx k.lastx - min k.beginx k.lastx := by
    rcases abs_cases (k.lastx - k.beginx) with h | h <;> omega
  have ey : |k.lasty - k.beginy| = max k.beginy k.lasty - min k.beginy k.lasty := by
    rcases abs_cases (k.lasty - k.beginy) with h | h <;> omega
  rw [ex, ey, k6]
  obtain ⟨c1, c2, c3, c4, c5, c6⟩ := hb
  have q1 := h1
  have q2 := h2
  unfold Bitmap.inClip at q1 q2
  obtain ⟨⟨d, e⟩, hp⟩ := Bitmap.cut_paste env s.bmp s.overscroll
    (min k.beginx k.lastx) (min k.beginy k.lasty)
    (max k.beginx k.lastx - min k.beginx k.lastx + 1)
    (max k.beginy k.lasty - min k.beginy k.lasty + 1) hov (by omega) (by omega)
    (by omega) (by omega)
  obtain ⟨g1, g2, g3, g4, g5, g6⟩ := Bitmap.createOverscroll_geom env
    (max k.beginx k.lastx - min k.beginx k.lastx + 1)
    (max k.beginy k.lasty - min k.beginy k.lasty + 1) s.overscroll
  refine ⟨?_, ?_, ?_, ⟨k1, k2⟩, ⟨k3, k4⟩⟩
  · rw [e]
    simp only []
    rw [g1, g2, g3, g4, g5, g6]
    omega
  · intro i j hi0 hi hj0 hj
    rw [hp (s.overscroll + i) (s.overscroll + j) (by omega) (by omega), if_pos]
    · congr 1 <;> omega
    · unfold Bitmap.InImage
      omega
  · intro X Y hX0 hX hnc
    rw [e] at hX hnc
    simp only [] at hX
    rw [g1] at hX
    rw [hp X Y hX0 (by omega), if_neg]
    intro hi
    apply hnc
    unfold Bitmap.InImage at hi
    unfold Bitmap.inClip
    simp only []
    rw [g3, g4, g5, g6]
    omega

set_option maxRecDepth 100000 in
theorem crop_spec_witness :
    (cropKnife.state ≠ 3 ∧ cropProject.bmp.ClipInside ∧ 0 ≤ cropProject.overscroll ∧
      cropProject.bmp.inClip cropKnife.beginx cropKnife.beginy ∧
      cropProject.bmp.inClip cropKnife.lastx cropKnife.lasty) ∧
    ((crop Undo.plainEnv cropKnife cropProject).2.bmp.w
        = |cropKnife.lastx - cropKnife.beginx| + 1 + cropProject.overscroll * 2 ∧
      (crop Undo.plainEnv cropKnife cropProject).2.bmp.h
        = |cropKnife.lasty - cropKnife.beginy| + 1 + cropProject.overscroll * 2 ∧
      (crop Undo.plainEnv cropKnife cropProject).2.bmp.cl = cropProject.overscroll ∧
      (crop Undo.plainEnv cropKnife cropProject).2.bmp.cr
        = cropProject.overscroll + |cropKnife.lastx - cropKnife.beginx| ∧
      (crop Undo.plainEnv cropKnife cropProject).2.bmp.ct = cropProject.overscroll ∧
      (crop Undo.plainEnv cropKnife cropProject).2.bmp.cb
        = cropProject.overscroll + |cropKnife.lasty - cropKnife.beginy|) ∧
    (∀ i j : Int, 0 ≤ i → i ≤ |cropKnife.lastx - cropKnife.beginx| →
      0 ≤ j → j ≤ |cropKnife.lasty - cropKnife.beginy| →
      (crop Undo.plainEnv cropKnife cropProject).2.bmp.pix
          (cropProject.overscroll + i) (cropProject.overscroll + j)
        = cropProject.bmp.pix (min cropKnife.beginx cropKnife.lastx + i)
            (min cropKnife.beginy cropKnife.lasty + j)) ∧
    ((crop Undo.plainEnv cropKnife cropProject).1.state = 0 ∧
      (crop Undo.plainEnv cropKnife cropProject).1.active = false) :=
  ⟨by decide!,
    (crop_spec Undo.plainEnv cropKnife cropProject (by decide!) (by decide!) (by decide!)
      (by decide!) (by decide!)).1,
    (crop_spec Undo.plainEnv cropKnife cropProject (by decide!) (by decide!) (by decide!)
      (by decide!) (by decide!)).2.1,
    (crop_spec Undo.plainEnv cropKnife cropProject (by decide!) (by decide!) (by decide!)
      (by decide!) (by decide!)).2.2.2.1⟩

/-! ## C17: `scale` to one pixel -/

theorem truncQ_intCast (n : Int) : truncQ (n : Rat) = n := by
  unfold truncQ
  split_ifs
  · exact Int.floor_intCast n
  · exact Int.ceil_intCast n

theorem truncQ_zero : truncQ 0 = 0 := by
  have := truncQ_intCast 0
  simpa using this

/-- The channels of a packed pixel. -/
theorem channel_makeRgba (r g b a : Int) (hr : 0 ≤ r ∧ r ≤ 255) (hg : 0 ≤ g ∧ g ≤ 255)
    (hb : 0 ≤ b ∧ b ≤ 255) (ha : 0 ≤ a ∧ a ≤ 255) :
    channel (makeRgba r g b a) 0 = r ∧ channel (makeRgba r g b a) 1 = g ∧
    channel (makeRgba r g b a) 2 = b ∧ channel (makeRgba r g b a) 3 = a := by
  unfold channel makeRgba ofU32
  norm_num
  split_ifs <;> omega

namespace Bitmap

/-- With both fractions 0 the pixel `scale` computes is made of the channels of
the first source cell. -/
theorem scalePixel_zero (fix unfix : Int → Int) (c0 c1 c2 c3 : Int) :
    scalePixel fix unfix c0 c1 c2 c3 0 0 =
      makeRgba (unfix (fix (channel c0 0))) (unfix (fix (channel c0 1)))
        (unfix (fix (channel c0 2))) (channel c0 3) := by
  unfold scalePixel
  simp only [sub_zero, mul_one, mul_zero, zero_add, add_zero, truncQ_intCast]

/-- The edge policy of `scale`: when the first row of the source clip rectangle
is the last row of the buffer or below it, the first test of the row loop
leaves the loop and the destination is returned as it was. -/
theorem scale_edge_row (fix unfix : Int → Int) (src dest : Bitmap)
    (h : src.ct ≥ src.h - 1) : src.scale fix unfix dest = dest := by
  unfold scale
  simp only []
  split_ifs with g1 g2
  · rfl
  · rfl
  · have hd : 0 < dest.ch := by omega
    obtain ⟨n, hn⟩ : ∃ n : Nat, dest.ch.toNat = n + 1 := ⟨dest.ch.toNat - 1, by omega⟩
    rw [hn]
    unfold forBreak
    simp only [Int.cast_zero, zero_mul, truncQ_zero, add_zero]
    rw [if_pos h]

end Bitmap

theorem forBreak_one {σ : Type} (body : Int → σ → Option σ) (i : Int) (s : σ) :
    forBreak body 1 i s = match body i s with
      | none => s
      | some s2 => s2 := by
  unfold forBreak
  cases body i s <;> rfl

namespace Bitmap

/-- `scale` into a destination whose clip area is one pixel, from a source
whose clip area starts before the last column and the last row of its buffer:
the one destination pixel is computed from the first pixel of the source clip
area, with both fractions 0. -/
theorem scale_one (fix unfix : Int → Int) (src dest : Bitmap)
    (hs : 1 ≤ src.cw ∧ 1 ≤ src.ch) (hd : dest.cw = 1 ∧ dest.ch = 1)
    (hx : src.cl < src.w - 1) (hy : src.ct < src.h - 1) :
    src.scale fix unfix dest = { dest with data :=
      (setCell dest.data (dest.w * dest.ct + dest.cl)
        (makeRgba (unfix (fix (channel (src.pix src.cl src.ct) 0)))
          (unfix (fix (channel (src.pix src.cl src.ct) 1)))
          (unfix (fix (channel (src.pix src.cl src.ct) 2)))
          (channel (src.pix src.cl src.ct) 3))) } := by
  have e1 : dest.ch.toNat = 1 := by rw [hd.2]; rfl
  have e2 : dest.cw.toNat = 1 := by rw [hd.1]; rfl
  unfold scale
  simp only []
  rw [if_neg (by omega), if_neg (by omega), e1, e2, forBreak_one]
  simp only [Int.cast_zero, zero_mul, truncQ_zero, add_zero, sub_zero]
  rw [if_neg (by omega)]
  simp only []
  rw [forBreak_one]
  simp only [Int.cast_zero, zero_mul, truncQ_zero, add_zero, sub_zero]
  rw [if_neg (by omega)]
  simp only [scalePixel_zero, pix, idx]

set_option maxRecDepth 1000000 in
/-- The gamma round trip on the 256 channel values gives the value back or the
value less one. -/
theorem gamma_round_trip :
    ∀ v : Nat, v < 256 →
      gammaUnfix (gammaFix (v : Int)) ≤ v ∧ (v : Int) ≤ gammaUnfix (gammaFix (v : Int)) + 1 := by
  decide!

theorem gammaUnfix_nonneg (j : Int) : 0 ≤ gammaUnfix j := by
  unfold gammaUnfix
  exact Int.natCast_nonneg _

/-- C17 (as amended). For every source canvas whose clip area (at least one
pixel wide and high, its first pixel a clip pixel) is uniformly one colour
`(r, g, b, a)` and starts before the last column and the last row of the buffer,
and every destination canvas whose clip area is 1 x 1, `scale` writes the
destination pixel at `(cl, ct)` and nothing else; the pixel written has alpha
`a` and red, green and blue `Gamma::unfix(Gamma::fix(v))` for the source
channel value `v`, each within 1 of `v`. -/
theorem scale_uniform (src dest : Bitmap) (col : Int)
    (hs : 1 ≤ src.cw ∧ 1 ≤ src.ch) (hne : src.inClip src.cl src.ct)
    (hu : ∀ X Y : Int, src.inClip X Y → src.pix X Y = col)
    (hd : dest.cw = 1 ∧ dest.ch = 1)
    (hx : src.cl < src.w - 1) (hy : src.ct < src.h - 1) :
    ∃ p : Int,
      src.scale gammaFix gammaUnfix dest =
        { dest with data := setCell dest.data (dest.w * dest.ct + dest.cl) p } ∧
      channel p 3 = channel col 3 ∧
      ∀ k : Nat, k < 3 →
        channel p k = gammaUnfix (gammaFix (channel col k)) ∧
        |channel p k - channel col k| ≤ 1 := by
  have hbound : ∀ k : Nat, 0 ≤ channel col k ∧ channel col k ≤ 255 := by
    intro k
    unfold channel
    omega
  have hrt : ∀ k : Nat, 0 ≤ gammaUnfix (gammaFix (channel col k)) ∧
      gammaUnfix (gammaFix (channel col k)) ≤ 255 ∧
      gammaUnfix (gammaFix (channel col k)) ≤ channel col k ∧
      channel col k ≤ gammaUnfix (gammaFix (channel col k)) + 1 := by
    intro k
    obtain ⟨b0, b1⟩ := hbound k
    have := gamma_round_trip (channel col k).toNat (by omega)
    rw [Int.toNat_of_nonneg b0] at this
    exact ⟨gammaUnfix_nonneg _, by omega, this.1, this.2⟩
  obtain ⟨c0, c1, c2, c3⟩ := channel_makeRgba
    (gammaUnfix (gammaFix (channel col 0))) (gammaUnfix (gammaFix (channel col 1)))
    (gammaUnfix (gammaFix (channel col 2))) (channel col 3)
    ⟨(hrt 0).1, (hrt 0).2.1⟩ ⟨(hrt 1).1, (hrt 1).2.1⟩ ⟨(hrt 2).1, (hrt 2).2.1⟩ (hbound 3)
  refine ⟨_, ?_, c3, ?_⟩
  · rw [scale_one gammaFix gammaUnfix src dest hs hd hx hy, hu _ _ hne]
  · intro k hk
    have hk3 : k = 0 ∨ k = 1 ∨ k = 2 := by omega
    rcases hk3 with rfl | rfl | rfl
    · rw [c0]
      refine ⟨rfl, ?_⟩
      rw [abs_le]
      have := hrt 0
      omega
    · rw [c1]
      refine ⟨rfl, ?_⟩
      rw [abs_le]
      have := hrt 1
      omega
    · rw [c2]
      refine ⟨rfl, ?_⟩
      rw [abs_le]
      have := hrt 2
      omega

/-- After `clear` every cell of the buffer holds the colour. -/
theorem clear_pix (b : Bitmap) (c X Y : Int) (h0 : 0 ≤ b.w * Y + X)
    (h1 : b.w * Y + X < b.w * b.h) : (b.clear c).pix X Y = c := by
  unfold clear pix idx
  simp only []
  rw [forLoop_store (fun _ => c), if_pos]
  omega

/-- A cleared new canvas is uniformly of the colour. -/
theorem uniform_clear (W H c : Int) (hW : 0 < W) (hH : 0 < H) :
    ∀ X Y : Int, ((create W H).clear c).inClip X Y → ((create W H).clear c).pix X Y = c := by
  intro X Y hc
  have hw : ((create W H).clear c).w = W := create_w W H hW
  have hh : ((create W H).clear c).h = H := create_h W H hH
  obtain ⟨hr, hb⟩ := create_cr_cb W H hW hH
  have e : ((create W H).clear c).inClip X Y ↔ (0 ≤ X ∧ X ≤ W - 1 ∧ 0 ≤ Y ∧ Y ≤ H - 1) := by
    unfold inClip
    show (create W H).cl ≤ X ∧ X ≤ (create W H).cr ∧ (create W H).ct ≤ Y ∧ Y ≤ (create W H).cb ↔ _
    rw [hr, hb]
    exact Iff.rfl
  rw [e] at hc
  have m1 : 0 ≤ W * Y := mul_nonneg hW.le hc.2.2.1
  have m2 : W * Y ≤ W * (H - 1) := mul_le_mul_of_nonneg_left hc.2.2.2 hW.le
  have m3 : W * (H - 1) = W * H - W := by ring
  have hw2 : (create W H).w = W := create_w W H hW
  have hh2 : (create W H).h = H := create_h W H hH
  apply clear_pix
  · rw [hw2]; omega
  · rw [hw2, hh2]; omega

set_option maxRecDepth 100000 in
theorem scale_uniform_witness :
    ((1 ≤ ((create 3 3).clear 70000).cw ∧ 1 ≤ ((create 3 3).clear 70000).ch) ∧
      ((create 3 3).clear 70000).inClip ((create 3 3).clear 70000).cl
        ((create 3 3).clear 70000).ct ∧
      (dotCanvas.cw = 1 ∧ dotCanvas.ch = 1) ∧
      ((create 3 3).clear 70000).cl < ((create 3 3).clear 70000).w - 1 ∧
      ((create 3 3).clear 70000).ct < ((create 3 3).clear 70000).h - 1) ∧
    ∃ p : Int,
      ((create 3 3).clear 70000).scale gammaFix gammaUnfix dotCanvas =
        { dotCanvas with data := setCell dotCanvas.data (dotCanvas.w * dotCanvas.ct + dotCanvas.cl) p } ∧
      channel p 3 = channel 70000 3 ∧
      ∀ k : Nat, k < 3 →
        channel p k = gammaUnfix (gammaFix (channel 70000 k)) ∧
        |channel p k - channel 70000 k| ≤ 1 :=
  ⟨by decide!, scale_uniform ((create 3 3).clear 70000) dotCanvas 70000 (by decide!) (by decide!)
    (uniform_clear 3 3 70000 (by decide) (by decide)) (by decide!) (by decide!) (by decide!)⟩

set_option maxRecDepth 100000 in
/-- C17 (as stated) fails: the source is the 1 x 1 canvas of colour 5, uniformly
of one colour, and the destination the 1 x 1 canvas of colour 0. `scale` leaves
the row loop at its first test, because the first row of the source is the last
row of its buffer, and the destination pixel still holds 0, whose red channel 0
is not within 1 of the red channel 5 of the source. -/
theorem scale_single_pixel_counterexample :
    (((create 1 1).clear 5).cw = 1 ∧ ((create 1 1).clear 5).ch = 1 ∧
      ((create 1 1).clear 5).pix 0 0 = 5) ∧
    ((create 1 1).cw = 1 ∧ (create 1 1).ch = 1) ∧
    (((create 1 1).clear 5).scale gammaFix gammaUnfix (create 1 1)).pix 0 0 = 0 ∧
    channel 5 0 = 5 ∧ channel 0 0 = 0 := by
  refine ⟨by decide!, by decide!, ?_, by decide, by decide⟩
  rw [scale_edge_row gammaFix gammaUnfix _ _ (by decide!)]
  decide!

set_option maxRecDepth 1000000 in
/-- The entries 1 to 254 of `table_fix`, as exact values, are farther than
`10^-6` from every integer (the entries 0 and 255 are the exact powers 0 and 1). -/
theorem gammaFix_margin :
    ∀ i : Nat, i < 256 → 0 < i → i < 255 →
      (1000000 * (gammaFix (i : Int)).toNat + 1) ^ 5 * 255 ^ 11
          ≤ 1000000 ^ 5 * (65535 ^ 5 * i ^ 11) ∧
      1000000 ^ 5 * (65535 ^ 5 * i ^ 11)
          ≤ (1000000 * ((gammaFix (i : Int)).toNat + 1) - 1) ^ 5 * 255 ^ 11 := by
  decide!

set_option maxRecDepth 1000000 in
/-- The entries of `table_unfix` that the round trip of a channel value reads,
as exact values, are farther than `10^-6` from every integer, apart from the
entries 0 and 65535, the exact powers 0 and 1. -/
theorem gammaUnfix_margin :
    ∀ v : Nat, v < 256 →
      (gammaFix (v : Int)).toNat = 0 ∨ (gammaFix (v : Int)).toNat = 65535 ∨
      ((1000000 * (gammaUnfix (gammaFix (v : Int))).toNat + 1) ^ 11 * 65535 ^ 5
          ≤ 1000000 ^ 11 * (255 ^ 11 * (gammaFix (v : Int)).toNat ^ 5) ∧
       1000000 ^ 11 * (255 ^ 11 * (gammaFix (v : Int)).toNat ^ 5)
          ≤ (1000000 * ((gammaUnfix (gammaFix (v : Int))).toNat + 1) - 1) ^ 11 * 65535 ^ 5) := by
  decide!

end Bitmap

/-! ## C21, C22: moving the selection, the pointer going down outside it -/

namespace Knife

/-- One move drag: the four bounds are translated when the translated corners
are clip pixels, and nothing changes otherwise. -/
theorem drag_step (k : KnifeState) (pbmp : Bitmap) (imgx imgy oldimgx oldimgy : Int)
    (hs : k.state = 2) (hd : k.drag_started = true) :
    (pbmp.inClip (k.beginx + (imgx - oldimgx)) (k.beginy + (imgy - oldimgy)) ∧
      pbmp.inClip (k.lastx + (imgx - oldimgx)) (k.lasty + (imgy - oldimgy)) →
      drag k pbmp imgx imgy oldimgx oldimgy =
        { k with beginx := k.beginx + (imgx - oldimgx), beginy := k.beginy + (imgy - oldimgy),
                 lastx := k.lastx + (imgx - oldimgx), lasty := k.lasty + (imgy - oldimgy) }) ∧
    (¬ (pbmp.inClip (k.beginx + (imgx - oldimgx)) (k.beginy + (imgy - oldimgy)) ∧
      pbmp.inClip (k.lastx + (imgx - oldimgx)) (k.lasty + (imgy - oldimgy))) →
      drag k pbmp imgx imgy oldimgx oldimgy = k) := by
  unfold drag Bitmap.inClip
  rw [if_neg (by omega), if_pos hs, if_pos hd]
  simp only []
  constructor
  · intro h
    rw [if_pos (by omega)]
  · intro h
    rw [if_neg (by omega)]

/-- A move drag keeps a selection inside the clip rectangle there, with its
width and height, still in the committed state with the move in progress. -/
theorem drag_keeps (k : KnifeState) (pbmp : Bitmap) (imgx imgy oldimgx oldimgy : Int)
    (hs : k.state = 2) (hd : k.drag_started = true)
    (h1 : pbmp.inClip k.beginx k.beginy) (h2 : pbmp.inClip k.lastx k.lasty) :
    (drag k pbmp imgx imgy oldimgx oldimgy).state = 2 ∧
    (drag k pbmp imgx imgy oldimgx oldimgy).drag_started = true ∧
    pbmp.inClip (drag k pbmp imgx imgy oldimgx oldimgy).beginx
      (drag k pbmp imgx imgy oldimgx oldimgy).beginy ∧
    pbmp.inClip (drag k pbmp imgx imgy oldimgx oldimgy).lastx
      (drag k pbmp imgx imgy oldimgx oldimgy).lasty ∧
    (drag k pbmp imgx imgy oldimgx oldimgy).lastx
        - (drag k pbmp imgx imgy oldimgx oldimgy).beginx = k.lastx - k.beginx ∧
    (drag k pbmp imgx imgy oldimgx oldimgy).lasty
        - (drag k pbmp imgx imgy oldimgx oldimgy).beginy = k.lasty - k.beginy := by
  obtain ⟨a, b⟩ := drag_step k pbmp imgx imgy oldimgx oldimgy hs hd
  by_cases h : pbmp.inClip (k.beginx + (imgx - oldimgx)) (k.beginy + (imgy - oldimgy)) ∧
      pbmp.inClip (k.lastx + (imgx - oldimgx)) (k.lasty + (imgy - oldimgy))
  · rw [a h]
    exact ⟨hs, hd, h.1, h.2, by simp only []; omega, by simp only []; omega⟩
  · rw [b h]
    exact ⟨hs, hd, h1, h2, rfl, rfl⟩

end Knife

/-- C21. In the committed state with a move in progress (`state = 2`,
`drag_started`), `Knife::drag` with the pointer delta `(dx, dy)` adds `(dx, dy)`
to all four bounds of the selection when both translated corners are pixels of
the clip rectangle of the working canvas, that is when every translated bound
stays inside it, and returns the knife unchanged otherwise; and under any
sequence of such drags a selection whose corners are clip pixels keeps its
corners in the clip rectangle and keeps its width and height. -/
theorem drag_translates (k : KnifeState) (pbmp : Bitmap)
    (hs : k.state = 2) (hd : k.drag_started = true) :
    (∀ imgx imgy oldimgx oldimgy : Int,
      (pbmp.inClip (k.beginx + (imgx - oldimgx)) (k.beginy + (imgy - oldimgy)) ∧
        pbmp.inClip (k.lastx + (imgx - oldimgx)) (k.lasty + (imgy - oldimgy)) →
        Knife.drag k pbmp imgx imgy oldimgx oldimgy =
          { k with beginx := k.beginx + (imgx - oldimgx),
                   beginy := k.beginy + (imgy - oldimgy),
                   lastx := k.lastx + (imgx - oldimgx),
                   lasty := k.lasty + (imgy - oldimgy) }) ∧
      (¬ (pbmp.inClip (k.beginx + (imgx - oldimgx)) (k.beginy + (imgy - oldimgy)) ∧
        pbmp.inClip (k.lastx + (imgx - oldimgx)) (k.lasty + (imgy - oldimgy))) →
        Knife.drag k pbmp imgx imgy oldimgx oldimgy = k)) ∧
    (pbmp.inClip k.beginx k.beginy → pbmp.inClip k.lastx k.lasty →
      ∀ moves : List (Int × Int × Int × Int),
        pbmp.inClip (dragAll pbmp moves k).beginx (dragAll pbmp moves k).beginy ∧
        pbmp.inClip (dragAll pbmp moves k).lastx (dragAll pbmp moves k).lasty ∧
        (dragAll pbmp moves k).lastx - (dragAll pbmp moves k).beginx = k.lastx - k.beginx ∧
        (dragAll pbmp moves k).lasty - (dragAll pbmp moves k).beginy = k.lasty - k.beginy) := by
  refine ⟨fun imgx imgy oldimgx oldimgy =>
    Knife.drag_step k pbmp imgx imgy oldimgx oldimgy hs hd, ?_⟩
  intro h1 h2 moves
  induction moves generalizing k with
  | nil => exact ⟨h1, h2, rfl, rfl⟩
  | cons m ms ih =>
      obtain ⟨a1, a2, a3, a4, a5, a6⟩ :=
        Knife.drag_keeps k pbmp m.1 m.2.1 m.2.2.1 m.2.2.2 hs hd h1 h2
      obtain ⟨b1, b2, b3, b4⟩ := ih _ a1 a2 a3 a4
      unfold dragAll
      exact ⟨b1, b2, by omega, by omega⟩

set_option maxRecDepth 100000 in
theorem drag_translates_witness :
    (({ selKnife with drag_started := true } : KnifeState).state = 2 ∧
      ({ selKnife with drag_started := true } : KnifeState).drag_started = true ∧
      Bitmap.insetCanvas.inClip ({ selKnife with drag_started := true } : KnifeState).beginx
        ({ selKnife with drag_started := true } : KnifeState).beginy ∧
      Bitmap.insetCanvas.inClip ({ selKnife with drag_started := true } : KnifeState).lastx
        ({ selKnife with drag_started := true } : KnifeState).lasty) ∧
    Knife.drag { selKnife with drag_started := true } Bitmap.insetCanvas 5 5 4 5
      = { selKnife with drag_started := true } ∧
    (dragAll Bitmap.insetCanvas [(5, 5, 4, 5), (3, 3, 3, 4)]
        { selKnife with drag_started := true }).lastx
      - (dragAll Bitmap.insetCanvas [(5, 5, 4, 5), (3, 3, 3, 4)]
        { selKnife with drag_started := true }).beginx
      = ({ selKnife with drag_started := true } : KnifeState).lastx
        - ({ selKnife with drag_started := true } : KnifeState).beginx :=
  ⟨by decide!,
    ((drag_translates { selKnife with drag_started := true } Bitmap.insetCanvas
      (by decide!) (by decide!)).1 5 5 4 5).2 (by decide!),
    ((drag_translates { selKnife with drag_started := true } Bitmap.insetCanvas
      (by decide!) (by decide!)).2 (by decide!) (by decide!)
      [(5, 5, 4, 5), (3, 3, 3, 4)]).2.2.1⟩

/-- C22 (as amended). In the committed state (`state = 2`) with no move and no
resize in progress, the pointer going down at a point outside the selection
rectangle starts a resize: `resize_started` becomes true, the state stays 2, the
four bounds, the overlay map and the working canvas are unchanged, and the side
and the offset of the grab point are those of the first bound the pointer lies
beyond, in the order left, right, top, bottom. -/
theorem push_outside_resizes (k : KnifeState) (map : Map) (pbmp : Bitmap) (imgx imgy : Int)
    (hs : k.state = 2) (hd : k.drag_started = false) (hr : k.resize_started = false)
    (hout : inbox imgx imgy k.beginx k.beginy k.lastx k.lasty = false) :
    ((Knife.push k map pbmp imgx imgy).1.state = 2 ∧
      (Knife.push k map pbmp imgx imgy).1.resize_started = true ∧
      (Knife.push k map pbmp imgx imgy).1.drag_started = false) ∧
    ((Knife.push k map pbmp imgx imgy).1.beginx = k.beginx ∧
      (Knife.push k map pbmp imgx imgy).1.beginy = k.beginy ∧
      (Knife.push k map pbmp imgx imgy).1.lastx = k.lastx ∧
      (Knife.push k map pbmp imgx imgy).1.lasty = k.lasty) ∧
    ((Knife.push k map pbmp imgx imgy).2.1 = map ∧
      (Knife.push k map pbmp imgx imgy).2.2 = pbmp) ∧
    (imgx < k.beginx →
      (Knife.push k map pbmp imgx imgy).1.side = 0 ∧
      (Knife.push k map pbmp imgx imgy).1.offset = |imgx - k.beginx|) ∧
    (¬ imgx < k.beginx → imgx > k.lastx →
      (Knife.push k map pbmp imgx imgy).1.side = 1 ∧
      (Knife.push k map pbmp imgx imgy).1.offset = |imgx - k.lastx|) ∧
    (¬ imgx < k.beginx → ¬ imgx > k.lastx → imgy < k.beginy →
      (Knife.push k map pbmp imgx imgy).1.side = 2 ∧
      (Knife.push k map pbmp imgx imgy).1.offset = |imgy - k.beginy|) ∧
    (¬ imgx < k.beginx → ¬ imgx > k.lastx → ¬ imgy < k.beginy → imgy > k.lasty →
      (Knife.push k map pbmp imgx imgy).1.side = 3 ∧
      (Knife.push k map pbmp imgx imgy).1.offset = |imgy - k.lasty|) := by
  unfold Knife.push
  rw [if_neg (by omega), if_pos hs, hd, hr, hout]
  rw [if_pos (show (!false && !false) = true by decide), if_neg (show ¬ (false = true) by decide)]
  refine ⟨?_, ?_, ⟨rfl, rfl⟩, ?_, ?_, ?_, ?_⟩
  · split_ifs <;> first | exact ⟨hs, rfl, rfl⟩ | exact ⟨hs, rfl, hd⟩
  · split_ifs <;> exact ⟨rfl, rfl, rfl, rfl⟩
  · intro h1
    rw [if_pos h1]
    exact ⟨rfl, rfl⟩
  · intro h1 h2
    rw [if_neg h1, if_pos h2]
    exact ⟨rfl, rfl⟩
  · intro h1 h2 h3
    rw [if_neg h1, if_neg h2, if_pos h3]
    exact ⟨rfl, rfl⟩
  · intro h1 h2 h3 h4
    rw [if_neg h1, if_neg h2, if_neg h3, if_pos h4]
    exact ⟨rfl, rfl⟩

theorem push_outside_resizes_witness :
    (selKnife.state = 2 ∧ selKnife.drag_started = false ∧ selKnife.resize_started = false ∧
      inbox 50 60 selKnife.beginx selKnife.beginy selKnife.lastx selKnife.lasty = false) ∧
    ((Knife.push selKnife (Map.create 4 4) Bitmap.insetCanvas 50 60).1.state = 2 ∧
      (Knife.push selKnife (Map.create 4 4) Bitmap.insetCanvas 50 60).1.resize_started = true ∧
      (Knife.push selKnife (Map.create 4 4) Bitmap.insetCanvas 50 60).1.drag_started = false) :=
  ⟨by decide, (push_outside_resizes selKnife (Map.create 4 4) Bitmap.insetCanvas 50 60
    (by decide) (by decide) (by decide) (by decide)).1⟩

/-- C22 (as stated) fails: the selection has the corners `(1, 1)` and `(2, 2)`,
committed, with no move or resize in progress, and the pointer goes down at
`(50, 60)`, far outside the rectangle. The state is still 2, not 1, neither
corner is at the pointer position, and a resize of the right side has begun. -/
theorem push_outside_counterexample :
    (selKnife.state = 2 ∧ selKnife.drag_started = false ∧ selKnife.resize_started = false ∧
      inbox 50 60 selKnife.beginx selKnife.beginy selKnife.lastx selKnife.lasty = false) ∧
    (Knife.push selKnife (Map.create 4 4) Bitmap.insetCanvas 50 60).1.state = 2 ∧
    (Knife.push selKnife (Map.create 4 4) Bitmap.insetCanvas 50 60).1.beginx = 1 ∧
    (Knife.push selKnife (Map.create 4 4) Bitmap.insetCanvas 50 60).1.beginy = 1 ∧
    (Knife.push selKnife (Map.create 4 4) Bitmap.insetCanvas 50 60).1.lastx = 2 ∧
    (Knife.push selKnife (Map.create 4 4) Bitmap.insetCanvas 50 60).1.lasty = 2 ∧
    (Knife.push selKnife (Map.create 4 4) Bitmap.insetCanvas 50 60).1.resize_started = true ∧
    (Knife.push selKnife (Map.create 4 4) Bitmap.insetCanvas 50 60).1.side = 1 := by
  decide

/-! ## C23: `fill` with a new colour in range of the old one -/

namespace Bitmap

theorem ping_inRange (v : Int) (h : v = 0 ∨ v = 1) : (inRange v 0 0).1 = true := by
  rcases h with h | h <;> subst h <;> decide

theorem spanStep_off (inr : Bool) (px py : Int) (st : Stack) :
    spanStep false inr px py false st = some (false, st) := by
  simp [spanStep]

theorem spanStep_on (px py : Int) (st : Stack) (h : st.sp < stack_size - 1) :
    spanStep true true px py false st =
      some (true, { stack_x := setCell st.stack_x (st.sp + 1) px,
                    stack_y := setCell st.stack_y (st.sp + 1) py, sp := st.sp + 1 }) := by
  simp [spanStep, push_room st px py h]

theorem ping_step0 (s : FillState) (h : PingInv s) (hy : s.stack.stack_y 1 = 0) :
    ∃ s2, PingInv s2 ∧ ∀ fuel, fillLoop (fun _ c _ => c) pingCanvas 1 0 0 (fuel + 1) s =
      fillLoop (fun _ c _ => c) pingCanvas 1 0 0 fuel s2 := by
  obtain ⟨hw, hcl, hcr, hct, hcb, d0, d1, hsp, hsx, -⟩ := h
  have hpop : s.stack.pop = some ((0, 0), { s.stack with sp := 0 }) := by
    unfold Stack.pop
    rw [if_pos (show s.stack.sp > 0 by omega), hsp, hsx, hy]
    rfl
  have g00 : s.temp.getpixel 0 0 = s.temp.data 0 := by
    rw [getpixel_inside s.temp 0 0 (by unfold inClip; omega), hw]; rfl
  have hscan : scanLeft s.temp pingCanvas.cl 0 0 0 (0 - pingCanvas.cl + 1).toNat 0 = -1 := by
    show scanLeft s.temp 0 0 0 0 1 0 = -1
    unfold scanLeft
    rw [if_pos ⟨le_refl _, by rw [g00]; exact ping_inRange _ d0⟩]
    rfl
  refine ⟨{ temp := { s.temp with data := setCell s.temp.data 0 1 },
            map := s.map.setpixel 0 0 (inRange (s.temp.getpixel 0 0) 0 0).2,
            stack := { stack_x := setCell s.stack.stack_x 1 0,
                       stack_y := setCell s.stack.stack_y 1 1, sp := 1 } },
    ⟨hw, hcl, hcr, hct, hcb, Or.inr rfl, d1, rfl, rfl, Or.inr rfl⟩, fun fuel => ?_⟩
  have hrow : fillRow (fun _ c _ => c) pingCanvas 1 0 0 0 1 0 false false
      { s with stack := { s.stack with sp := 0 } } = FillRun.finished
        { temp := { s.temp with data := setCell s.temp.data 0 1 },
          map := s.map.setpixel 0 0 (inRange (s.temp.getpixel 0 0) 0 0).2,
          stack := { stack_x := setCell s.stack.stack_x 1 0,
                     stack_y := setCell s.stack.stack_y 1 1, sp := 1 } } := by
    have hset : s.temp.setpixelSolid (fun _ c _ => c) 0 0 1 0 =
        { s.temp with data := setCell s.temp.data 0 1 } := by
      rw [setpixelSolid_inside _ s.temp 0 0 1 0 (by unfold inClip; omega)]
      show ({ s.temp with data := setCell s.temp.data (s.temp.w * 0 + 0) 1 } : Bitmap) = _
      rw [show s.temp.w * 0 + 0 = 0 by omega]
    have g01 : ({ s.temp with data := setCell s.temp.data 0 1 } : Bitmap).getpixel 0 (0 + 1) =
        s.temp.data 1 := by
      rw [getpixel_inside _ 0 (0 + 1) (by unfold inClip; simp only []; omega)]
      show setCell s.temp.data 0 1 (s.temp.w * (0 + 1) + 0) = _
      rw [show s.temp.w * (0 + 1) + 0 = 1 by omega]
      rfl
    unfold fillRow
    rw [if_pos ⟨by decide, by rw [g00]; exact ping_inRange _ d0⟩]
    simp only [hset]
    rw [show decide (0 > pingCanvas.ct) = false by decide,
      show decide (0 < pingCanvas.cb) = true by decide, spanStep_off]
    simp only []
    rw [g01, ping_inRange _ d1, spanStep_on _ _ _ (show (0 : Int) < stack_size - 1 by decide)]
    simp only []
    unfold fillRow
    rfl
  rw [fillLoop, hpop]
  simp only [hscan]
  show (match fillRow (fun _ c _ => c) pingCanvas 1 0 0 0 1 0 false false
      { s with stack := { s.stack with sp := 0 } } with
    | FillRun.overflow s2 => some (FillRun.overflow s2)
    | FillRun.finished s2 => fillLoop (fun _ c _ => c) pingCanvas 1 0 0 fuel s2) = _
  rw [hrow]


theorem ping_step1 (s : FillState) (h : PingInv s) (hy : s.stack.stack_y 1 = 1) :
    ∃ s2, PingInv s2 ∧ ∀ fuel, fillLoop (fun _ c _ => c) pingCanvas 1 0 0 (fuel + 1) s =
      fillLoop (fun _ c _ => c) pingCanvas 1 0 0 fuel s2 := by
  obtain ⟨hw, hcl, hcr, hct, hcb, d0, d1, hsp, hsx, -⟩ := h
  have hpop : s.stack.pop = some ((0, 1), { s.stack with sp := 0 }) := by
    unfold Stack.pop
    rw [if_pos (show s.stack.sp > 0 by omega), hsp, hsx, hy]
    rfl
  have g01 : s.temp.getpixel 0 1 = s.temp.data 1 := by
    rw [getpixel_inside s.temp 0 1 (by unfold inClip; omega),
      show s.temp.w * 1 + 0 = 1 by omega]
  have hscan : scanLeft s.temp pingCanvas.cl 0 0 1 (0 - pingCanvas.cl + 1).toNat 0 = -1 := by
    show scanLeft s.temp 0 0 0 1 1 0 = -1
    unfold scanLeft
    rw [if_pos ⟨le_refl _, by rw [g01]; exact ping_inRange _ d1⟩]
    rfl
  have hrow : fillRow (fun _ c _ => c) pingCanvas 1 0 0 1 1 0 false false
      { s with stack := { s.stack with sp := 0 } } = FillRun.finished
        { temp := { s.temp with data := setCell s.temp.data 1 1 },
          map := s.map.setpixel 0 1 (inRange (s.temp.getpixel 0 1) 0 0).2,
          stack := { stack_x := setCell s.stack.stack_x 1 0,
                     stack_y := setCell s.stack.stack_y 1 0, sp := 1 } } := by
    have hset : s.temp.setpixelSolid (fun _ c _ => c) 0 1 1 0 =
        { s.temp with data := setCell s.temp.data 1 1 } := by
      rw [setpixelSolid_inside _ s.temp 0 1 1 0 (by unfold inClip; omega)]
      show ({ s.temp with data := setCell s.temp.data (s.temp.w * 1 + 0) 1 } : Bitmap) = _
      rw [show s.temp.w * 1 + 0 = 1 by omega]
    have g00 : ({ s.temp with data := setCell s.temp.data 1 1 } : Bitmap).getpixel 0 (1 - 1) =
        s.temp.data 0 := by
      rw [getpixel_inside _ 0 (1 - 1) (by unfold inClip; simp only []; omega)]
      show setCell s.temp.data 1 1 (s.temp.w * (1 - 1) + 0) = _
      rw [show s.temp.w * (1 - 1) + 0 = 0 by omega]
      rfl
    unfold fillRow
    rw [if_pos ⟨by decide, by rw [g01]; exact ping_inRange _ d1⟩]
    simp only [hset]
    rw [show decide (1 > pingCanvas.ct) = true by decide,
      show decide (1 < pingCanvas.cb) = false by decide, g00, ping_inRange _ d0,
      spanStep_on _ _ _ (show (0 : Int) < stack_size - 1 by decide)]
    simp only []
    rw [spanStep_off]
    simp only []
    unfold fillRow
    rfl
  refine ⟨{ temp := { s.temp with data := setCell s.temp.data 1 1 },
            map := s.map.setpixel 0 1 (inRange (s.temp.getpixel 0 1) 0 0).2,
            stack := { stack_x := setCell s.stack.stack_x 1 0,
                       stack_y := setCell s.stack.stack_y 1 0, sp := 1 } },
    ⟨hw, hcl, hcr, hct, hcb, d0, Or.inr rfl, rfl, rfl, Or.inl rfl⟩, fun fuel => ?_⟩
  rw [fillLoop, hpop]
  simp only [hscan]
  show (match fillRow (fun _ c _ => c) pingCanvas 1 0 0 1 1 0 false false
      { s with stack := { s.stack with sp := 0 } } with
    | FillRun.overflow s2 => some (FillRun.overflow s2)
    | FillRun.finished s2 => fillLoop (fun _ c _ => c) pingCanvas 1 0 0 fuel s2) = _
  rw [hrow]

/-- While the invariant holds the main loop of `fill` does not end, whatever the
number of iterations allowed. -/
theorem ping_loops (fuel : Nat) : ∀ s : FillState, PingInv s →
    fillLoop (fun _ c _ => c) pingCanvas 1 0 0 fuel s = none := by
  induction fuel with
  | zero => intro s _; rfl
  | succ n ih =>
      intro s h
      have hy := h.2.2.2.2.2.2.2.2.2
      rcases hy with hy | hy
      · obtain ⟨s2, h2, e⟩ := ping_step0 s h hy
        rw [e n]
        exact ih s2 h2
      · obtain ⟨s2, h2, e⟩ := ping_step1 s h hy
        rw [e n]
        exact ih s2 h2

set_option maxRecDepth 100000 in
/-- C23 fails on the code: on the 1 x 2 canvas of colour 0,
`fill(0, 0, 1, 0, 0)` with a blend function that replaces the pixel does not
terminate. The colour 1 differs from `old_color` 0, so the test
`old_color == new_color` lets the call through, and it is in range of 0 (the
integer part of `sqrt(1) / 2` is 0), so a pixel that was filled still passes the
range test: the row `y = 0` pushes `(0, 1)`, the row `y = 1` pushes `(0, 0)`, and
the stack never empties. No number of iterations of the main loop is enough. -/
theorem fill_near_colour_diverges (fuel : Nat) :
    fill (fun _ c _ => c) fuel emptyStk pingCanvas 0 0 1 0 0 = none := by
  have hloop := ping_loops fuel
    { temp := pingCanvas.blit (create pingCanvas.w pingCanvas.h) 0 0 0 0 pingCanvas.w
        pingCanvas.h,
      map := (Map.create pingCanvas.w pingCanvas.h).clear 255,
      stack := { stack_x := setCell emptyStk.emptyStack.stack_x (emptyStk.emptyStack.sp + 1) 0,
                 stack_y := setCell emptyStk.emptyStack.stack_y (emptyStk.emptyStack.sp + 1) 0,
                 sp := emptyStk.emptyStack.sp + 1 } }
    (by unfold PingInv; decide!)
  unfold fill
  rw [if_neg (by decide)]
  simp only []
  rw [push_room emptyStk.emptyStack 0 0 (by decide!)]
  simp only []
  rw [hloop]

end Bitmap

/-! ## C24: the pixels `fill` changes -/

namespace Bitmap

set_option maxRecDepth 1000000 in
/-- C24 fails on the code. On the 16 x 17 canvas whose first row holds the
colour 0 and whose other rows hold 7, which is not in range of 0 at tolerance
0, `fill(0, 0, 100, 0, 0)` under a replacing blend returns and has set the pixel
`(0, 16)` of the last row to 100 with the first row. The row table of the map
holds `16 * 16` modulo 256, which is 0, for row 16, so that the last row reads
the cells of the first. The pixel `(0, 1)` holds 7 as before. -/
theorem fill_alias_row :
    ((inRange (aliasCanvas.pix 0 16) 0 0).1 = false ∧ aliasCanvas.pix 0 16 = 7 ∧
      aliasCanvas.inClip 0 16) ∧
    (fill (fun _ c _ => c) 50 emptyStk aliasCanvas 0 0 100 0 0).map
      (fun r => (r.1.pix 0 0, r.1.pix 0 16, r.1.pix 0 1)) = some (100, 100, 7) := by
  decide!

end Bitmap

/-! ## C25: the overlay map at its bounds -/

/-- The row table of a new map: `width * i` in an `unsigned char`. -/
theorem map_create_row_mod (w h : Int) (hw : 0 < w) (hh : 0 < h)
    (Y : Int) (hY0 : 0 ≤ Y) (hY : Y < h) : (Map.create w h).row Y = (w * Y) % 256 := by
  unfold Map.create
  simp only
  rw [if_neg (show ¬ w < 1 by omega), if_neg (show ¬ h < 1 by omega), Bitmap.forLoop_store,
    if_pos (by omega)]

/-- C25. For every overlay map and every coordinate `(x, y)` outside
`[0, w) x [0, h)`, `getpixel(x, y)` is 0 and `setpixel(x, y, c)` returns the map
unchanged; `clear(c)` keeps the size and the row table and stores `c & 0xff`, the
remainder of `c` modulo 256, in every cell `0 .. w*h - 1` of the map, so that in
a map made by the constructor every pixel reads `c & 0xff` afterwards. -/
theorem map_bounds (m : Map) (c : Int) :
    (∀ x y : Int, ¬ (0 ≤ x ∧ x < m.w ∧ 0 ≤ y ∧ y < m.h) →
      m.getpixel x y = 0 ∧ m.setpixel x y c = m) ∧
    ((m.clear c).w = m.w ∧ (m.clear c).h = m.h ∧ (m.clear c).row = m.row) ∧
    (∀ i : Int, 0 ≤ i → i < m.w * m.h → (m.clear c).data i = c % 256) ∧
    (∀ width height x y : Int, 0 < width → 0 < height → 0 ≤ x → x < width →
      0 ≤ y → y < height → ((Map.create width height).clear c).getpixel x y = c % 256) := by
  refine ⟨?_, ⟨rfl, rfl, rfl⟩, ?_, ?_⟩
  · intro x y h
    unfold Map.getpixel Map.setpixel
    rw [if_pos (by omega), if_pos (by omega)]
    exact ⟨rfl, rfl⟩
  · intro i h0 h1
    unfold Map.clear
    simp only []
    rw [Bitmap.forLoop_store (fun _ => c % 256), if_pos (by omega)]
  · intro width height x y hw hh hx0 hx hy0 hy
    have ew : (Map.create width height).w = width := by
      unfold Map.create; simp only []; rw [if_neg (by omega)]
    have eh : (Map.create width height).h = height := by
      unfold Map.create; simp only []; rw [if_neg (by omega)]
    have m1 : 0 ≤ width * y := mul_nonneg hw.le hy0
    have m2 : width * y ≤ width * (height - 1) := mul_le_mul_of_nonneg_left (by omega) hw.le
    have m3 : width * (height - 1) = width * height - width := by ring
    have r0 := Int.emod_nonneg (width * y) (show (256 : Int) ≠ 0 by decide)
    have r1 : (width * y) % 256 ≤ width * y := by omega
    unfold Map.getpixel
    show (if x < 0 ∨ x ≥ (Map.create width height).w ∨ y < 0 ∨ y ≥ (Map.create width height).h
      then 0 else ((Map.create width height).clear c).data ((Map.create width height).row y + x))
      = c % 256
    rw [ew, eh, if_neg (by omega), map_create_row_mod width height hw hh y hy0 hy]
    unfold Map.clear
    simp only []
    rw [Bitmap.forLoop_store (fun _ => c % 256), if_pos]
    rw [ew, eh]
    omega

theorem map_bounds_witness :
    ¬ (0 ≤ (7 : Int) ∧ 7 < (Map.create 4 4).w ∧ 0 ≤ (0 : Int) ∧ 0 < (Map.create 4 4).h) ∧
    ((Map.create 4 4).getpixel 7 0 = 0 ∧ (Map.create 4 4).setpixel 7 0 300 = Map.create 4 4) ∧
    ((Map.create 4 4).clear 300).getpixel 3 3 = 300 % 256 :=
  ⟨by decide, (map_bounds (Map.create 4 4) 300).1 7 0 (by decide),
    (map_bounds (Map.create 4 4) 300).2.2.2 4 4 3 3 (by decide) (by decide) (by decide)
      (by decide) (by decide) (by decide)⟩

/-! ## C26: the positions that `line` composites -/

/-- Two `while` loops whose states stay related and whose tests agree on related
states end together, in related states. -/
theorem whileLoop_sim {σ τ : Type} (c1 : σ → Bool) (b1 : σ → σ) (c2 : τ → Bool) (b2 : τ → τ)
    (Rel : σ → τ → Prop) (hc : ∀ s t, Rel s t → c1 s = c2 t)
    (hb : ∀ s t, Rel s t → c1 s = true → Rel (b1 s) (b2 t)) :
    ∀ (fuel : Nat) (s : σ) (t t2 : τ), Rel s t → whileLoop c2 b2 fuel t = some t2 →
      ∃ s2, whileLoop c1 b1 fuel s = some s2 ∧ Rel s2 t2
  | 0, _, _, _, _, h => by simp [whileLoop] at h
  | fuel + 1, s, t, t2, hR, h => by
      unfold whileLoop at h ⊢
      by_cases hcs : c1 s = true
      · rw [if_pos hcs]
        rw [if_pos (by rw [← hc s t hR]; exact hcs)] at h
        exact whileLoop_sim c1 b1 c2 b2 Rel hc hb fuel (b1 s) (b2 t) t2 (hb s t hR hcs) h
      · rw [if_neg hcs]
        rw [if_neg (by rw [← hc s t hR]; exact hcs)] at h
        cases h
        exact ⟨s, rfl, hR⟩

/-- A list `L` that ends in `cur` and is extended by `nxt`: the length, the
head, the steps and the distinctness carry over when `nxt` follows `cur` and
its major coordinate is new. -/
theorem trace_extend {R : Int × Int → Int × Int → Prop} {f : Int × Int → Int}
    {x0 inx k : Int} (hinx : inx = 1 ∨ inx = -1)
    (pts : List (Int × Int)) (cur nxt start : Int × Int)
    (hlen : ((pts ++ [cur]).length : Int) = k + 1)
    (hhead : (pts ++ [cur]).head? = some start)
    (hchain : (pts ++ [cur]).Chain' R)
    (hmem : ∀ p ∈ pts ++ [cur], ∃ i : Int, 0 ≤ i ∧ i ≤ k ∧ f p = x0 + i * inx)
    (hnd : (pts ++ [cur]).Nodup)
    (hR : R cur nxt) (hnxt : f nxt = x0 + (k + 1) * inx) (hk : 0 ≤ k) :
    (((pts ++ [cur]) ++ [nxt]).length : Int) = k + 1 + 1 ∧
    ((pts ++ [cur]) ++ [nxt]).head? = some start ∧
    ((pts ++ [cur]) ++ [nxt]).Chain' R ∧
    (∀ p ∈ (pts ++ [cur]) ++ [nxt], ∃ i : Int, 0 ≤ i ∧ i ≤ k + 1 ∧ f p = x0 + i * inx) ∧
    ((pts ++ [cur]) ++ [nxt]).Nodup := by
  refine ⟨?_, ?_, ?_, ?_, ?_⟩
  · rw [List.length_append (pts ++ [cur])]
    push_cast
    rw [hlen]
    simp
  · rw [List.head?_append_of_ne_nil _ (by simp)]
    exact hhead
  · rw [List.chain'_append]
    refine ⟨hchain, List.chain'_singleton _, ?_⟩
    intro x hx y hy
    simp at hx hy
    subst hx; subst hy
    exact hR
  · intro p hp
    rw [List.mem_append] at hp
    rcases hp with hp | hp
    · obtain ⟨i, h0, h1, h2⟩ := hmem p hp
      exact ⟨i, h0, by omega, h2⟩
    · simp at hp
      subst hp
      exact ⟨k + 1, by omega, le_refl _, hnxt⟩
  · rw [List.nodup_append]
    refine ⟨hnd, List.nodup_singleton _, ?_⟩
    intro p hp hq
    simp at hq
    subst hq
    obtain ⟨i, h0, h1, h2⟩ := hmem p hp
    rw [hnxt] at h2
    rcases hinx with e | e <;> subst e <;> omega

namespace Bitmap

/-- One iteration of the `dx >= dy` loop keeps `TraceInvX` and brings `x1`
nearer to `x2`. -/
theorem traceStepX_inv (x1 y1 x2 inx iny DX DY : Int) (hinx : inx = 1 ∨ inx = -1)
    (hx2 : x2 = x1 + DX * inx) (hDY : 0 ≤ DY) (hmaj : DY ≤ DX)
    (s : TraceState) (hc : s.x1 ≠ x2) (h : TraceInvX x1 y1 inx iny DX DY s) :
    TraceInvX x1 y1 inx iny DX DY (traceStepX inx iny (2 * DX) (2 * DY) s) ∧
      (x2 - (traceStepX inx iny (2 * DX) (2 * DY) s).x1).natAbs < (x2 - s.x1).natAbs := by
  obtain ⟨k, j, hk0, hk, hj0, hjk, hx, hy, he, hlow, hup, hlen, hhead, hchain, hmem, hnd⟩ := h
  have hk1 : k < DX := by
    rcases lt_or_eq_of_le hk with h | h
    · exact h
    · exfalso; apply hc; rw [hx, hx2, h]
  have hup2 : s.e < 2 * DY := by omega
  have e1 : DY * (k + 1) = DY * k + DY := by ring
  have e2 : DX * (j + 1) = DX * j + DX := by ring
  have e3 : (k + 1) * inx = k * inx + inx := by ring
  have e4 : (j + 1) * iny = j * iny + iny := by ring
  have hmeas : (x2 - (s.x1 + inx)).natAbs < (x2 - s.x1).natAbs := by
    rw [hx, hx2]
    rcases hinx with e | e <;> subst e <;> omega
  refine ⟨?_, hmeas⟩
  by_cases hpos : s.e ≥ 0
  · obtain ⟨l1, l2, l3, l4, l5⟩ := @trace_extend
      (fun p q => q.1 = p.1 + inx ∧ (q.2 = p.2 ∨ q.2 = p.2 + iny)) Prod.fst x1 inx k hinx
      s.pts (s.x1, s.y1) (s.x1 + inx, s.y1 + iny) (x1, y1) hlen hhead hchain hmem hnd
      ⟨rfl, Or.inr rfl⟩ (by show s.x1 + inx = _; rw [hx, e3, add_assoc]) hk0
    refine ⟨k + 1, j + 1, by omega, by omega, by omega, by omega, ?_, ?_, ?_, ?_, ?_, ?_⟩
    · show s.x1 + inx = _
      rw [hx, e3, add_assoc]
    · show (if s.e ≥ 0 then s.y1 + iny else s.y1) = _
      rw [if_pos hpos, hy, e4, add_assoc]
    · show (if s.e ≥ 0 then s.e - 2 * DX else s.e) + 2 * DY = _
      rw [if_pos hpos, e1, e2]; omega
    · show 2 * DY - 2 * DX ≤ (if s.e ≥ 0 then s.e - 2 * DX else s.e) + 2 * DY
      rw [if_pos hpos]; omega
    · show DX = 0 ∨ (if s.e ≥ 0 then s.e - 2 * DX else s.e) + 2 * DY < 2 * DY
      rw [if_pos hpos]; omega
    · show _ ∧ _ ∧ _ ∧ _ ∧ _
      unfold traceStepX
      simp only [if_pos hpos]
      exact ⟨l1, l2, l3, l4, l5⟩
  · obtain ⟨l1, l2, l3, l4, l5⟩ := @trace_extend
      (fun p q => q.1 = p.1 + inx ∧ (q.2 = p.2 ∨ q.2 = p.2 + iny)) Prod.fst x1 inx k hinx
      s.pts (s.x1, s.y1) (s.x1 + inx, s.y1) (x1, y1) hlen hhead hchain hmem hnd
      ⟨rfl, Or.inl rfl⟩ (by show s.x1 + inx = _; rw [hx, e3, add_assoc]) hk0
    refine ⟨k + 1, j, by omega, by omega, by omega, by omega, ?_, ?_, ?_, ?_, ?_, ?_⟩
    · show s.x1 + inx = _
      rw [hx, e3, add_assoc]
    · show (if s.e ≥ 0 then s.y1 + iny else s.y1) = _
      rw [if_neg hpos, hy]
    · show (if s.e ≥ 0 then s.e - 2 * DX else s.e) + 2 * DY = _
      rw [if_neg hpos, e1]; omega
    · show 2 * DY - 2 * DX ≤ (if s.e ≥ 0 then s.e - 2 * DX else s.e) + 2 * DY
      rw [if_neg hpos]; omega
    · show DX = 0 ∨ (if s.e ≥ 0 then s.e - 2 * DX else s.e) + 2 * DY < 2 * DY
      rw [if_neg hpos]; omega
    · show _ ∧ _ ∧ _ ∧ _ ∧ _
      unfold traceStepX
      simp only [if_neg hpos]
      exact ⟨l1, l2, l3, l4, l5⟩

/-- When the `dx >= dy` loop has ended the running point is `(x2, y2)` and the
loop has run `DX` times. -/
theorem traceInvX_end (x1 y1 x2 y2 inx iny DX DY : Int) (hinx : inx = 1 ∨ inx = -1)
    (hx2 : x2 = x1 + DX * inx) (hy2 : y2 = y1 + DY * iny) (hDY : 0 ≤ DY) (hmaj : DY ≤ DX)
    (s : TraceState) (hc : s.x1 = x2) (h : TraceInvX x1 y1 inx iny DX DY s) :
    s.y1 = y2 ∧ ((s.pts ++ [(s.x1, s.y1)]).length : Int) = DX + 1 := by
  obtain ⟨k, j, hk0, hk, hj0, hjk, hx, hy, he, hlow, hup, hlen, -⟩ := h
  have hkD : k = DX := by
    rw [hx, hx2] at hc
    rcases hinx with e | e <;> subst e <;> omega
  subst hkD
  refine ⟨?_, hlen⟩
  have hj : j = DY := by
    rcases hup with h0 | hup
    · omega
    · have hpos : 0 < k := by omega
      rcases lt_trichotomy j DY with hlt | heq | hgt
      · exfalso
        have h1 : k * j ≤ k * (DY - 1) := mul_le_mul_of_nonneg_left (by omega) hk0
        have h2 : k * (DY - 1) = DY * k - k := by ring
        omega
      · exact heq
      · exfalso
        have h1 : k * (DY + 1) ≤ k * j := mul_le_mul_of_nonneg_left (by omega) hk0
        have h2 : k * (DY + 1) = DY * k + k := by ring
        omega
  rw [hy, hy2, hj]


/-- One iteration of the `dx < dy` loop keeps `TraceInvY` and brings `y1`
nearer to `y2`. -/
theorem traceStepY_inv (x1 y1 y2 inx iny DX DY : Int) (hiny : iny = 1 ∨ iny = -1)
    (hy2 : y2 = y1 + DY * iny) (hDX : 0 ≤ DX) (hmaj : DX ≤ DY)
    (s : TraceState) (hc : s.y1 ≠ y2) (h : TraceInvY x1 y1 inx iny DX DY s) :
    TraceInvY x1 y1 inx iny DX DY (traceStepY inx iny (2 * DX) (2 * DY) s) ∧
      (y2 - (traceStepY inx iny (2 * DX) (2 * DY) s).y1).natAbs < (y2 - s.y1).natAbs := by
  obtain ⟨k, j, hk0, hk, hj0, hjk, hy, hx, he, hlow, hup, hlen, hhead, hchain, hmem, hnd⟩ := h
  have hk1 : k < DY := by
    rcases lt_or_eq_of_le hk with h | h
    · exact h
    · exfalso; apply hc; rw [hy, hy2, h]
  have hup2 : s.e < 2 * DX := by omega
  have e1 : DX * (k + 1) = DX * k + DX := by ring
  have e2 : DY * (j + 1) = DY * j + DY := by ring
  have e3 : (k + 1) * iny = k * iny + iny := by ring
  have e4 : (j + 1) * inx = j * inx + inx := by ring
  have hmeas : (y2 - (s.y1 + iny)).natAbs < (y2 - s.y1).natAbs := by
    rw [hy, hy2]
    rcases hiny with e | e <;> subst e <;> omega
  refine ⟨?_, hmeas⟩
  by_cases hpos : s.e ≥ 0
  · obtain ⟨l1, l2, l3, l4, l5⟩ := @trace_extend
      (fun p q => q.2 = p.2 + iny ∧ (q.1 = p.1 ∨ q.1 = p.1 + inx)) Prod.snd y1 iny k hiny
      s.pts (s.x1, s.y1) (s.x1 + inx, s.y1 + iny) (x1, y1) hlen hhead hchain hmem hnd
      ⟨rfl, Or.inr rfl⟩ (by show s.y1 + iny = _; rw [hy, e3, add_assoc]) hk0
    refine ⟨k + 1, j + 1, by omega, by omega, by omega, by omega, ?_, ?_, ?_, ?_, ?_, ?_⟩
    · show s.y1 + iny = _
      rw [hy, e3, add_assoc]
    · show (if s.e ≥ 0 then s.x1 + inx else s.x1) = _
      rw [if_pos hpos, hx, e4, add_assoc]
    · show (if s.e ≥ 0 then s.e - 2 * DY else s.e) + 2 * DX = _
      rw [if_pos hpos, e1, e2]; omega
    · show 2 * DX - 2 * DY ≤ (if s.e ≥ 0 then s.e - 2 * DY else s.e) + 2 * DX
      rw [if_pos hpos]; omega
    · show DY = 0 ∨ (if s.e ≥ 0 then s.e - 2 * DY else s.e) + 2 * DX < 2 * DX
      rw [if_pos hpos]; omega
    · show _ ∧ _ ∧ _ ∧ _ ∧ _
      unfold traceStepY
      simp only [if_pos hpos]
      exact ⟨l1, l2, l3, l4, l5⟩
  · obtain ⟨l1, l2, l3, l4, l5⟩ := @trace_extend
      (fun p q => q.2 = p.2 + iny ∧ (q.1 = p.1 ∨ q.1 = p.1 + inx)) Prod.snd y1 iny k hiny
      s.pts (s.x1, s.y1) (s.x1, s.y1 + iny) (x1, y1) hlen hhead hchain hmem hnd
      ⟨rfl, Or.inl rfl⟩ (by show s.y1 + iny = _; rw [hy, e3, add_assoc]) hk0
    refine ⟨k + 1, j, by omega, by omega, by omega, by omega, ?_, ?_, ?_, ?_, ?_, ?_⟩
    · show s.y1 + iny = _
      rw [hy, e3, add_assoc]
    · show (if s.e ≥ 0 then s.x1 + inx else s.x1) = _
      rw [if_neg hpos, hx]
    · show (if s.e ≥ 0 then s.e - 2 * DY else s.e) + 2 * DX = _
      rw [if_neg hpos, e1]; omega
    · show 2 * DX - 2 * DY ≤ (if s.e ≥ 0 then s.e - 2 * DY else s.e) + 2 * DX
      rw [if_neg hpos]; omega
    · show DY = 0 ∨ (if s.e ≥ 0 then s.e - 2 * DY else s.e) + 2 * DX < 2 * DX
      rw [if_neg hpos]; omega
    · show _ ∧ _ ∧ _ ∧ _ ∧ _
      unfold traceStepY
      simp only [if_neg hpos]
      exact ⟨l1, l2, l3, l4, l5⟩

/-- When the `dx < dy` loop has ended the running point is `(y2, x2)` and the
loop has run `DY` times. -/
theorem traceInvY_end (x1 y1 x2 y2 inx iny DX DY : Int) (hiny : iny = 1 ∨ iny = -1)
    (hy2 : y2 = y1 + DY * iny) (hx2 : x2 = x1 + DX * inx) (hDX : 0 ≤ DX) (hmaj : DX ≤ DY)
    (s : TraceState) (hc : s.y1 = y2) (h : TraceInvY x1 y1 inx iny DX DY s) :
    s.x1 = x2 ∧ ((s.pts ++ [(s.x1, s.y1)]).length : Int) = DY + 1 := by
  obtain ⟨k, j, hk0, hk, hj0, hjk, hy, hx, he, hlow, hup, hlen, -⟩ := h
  have hkD : k = DY := by
    rw [hy, hy2] at hc
    rcases hiny with e | e <;> subst e <;> omega
  subst hkD
  refine ⟨?_, hlen⟩
  have hj : j = DX := by
    rcases hup with h0 | hup
    · omega
    · have hpos : 0 < k := by omega
      rcases lt_trichotomy j DX with hlt | heq | hgt
      · exfalso
        have h1 : k * j ≤ k * (DX - 1) := mul_le_mul_of_nonneg_left (by omega) hk0
        have h2 : k * (DX - 1) = DX * k - k := by ring
        omega
      · exact heq
      · exfalso
        have h1 : k * (DX + 1) ≤ k * j := mul_le_mul_of_nonneg_left (by omega) hk0
        have h2 : k * (DX + 1) = DX * k + k := by ring
        omega
  rw [hx, hx2, hj]


theorem plotAll_concat (blend : Int → Int → Int → Int) (c t : Int) (b : Bitmap)
    (pts : List (Int × Int)) (p : Int × Int) :
    plotAll blend c t b (pts ++ [p]) =
      (plotAll blend c t b pts).setpixelSolid blend p.1 p.2 c t := by
  unfold plotAll
  rw [List.foldl_append]
  rfl

/-- The positions recorded by `linePoints` are the positions at which `line`
calls `setpixelSolid`: whenever `linePoints` returns a list, `line` returns the
canvas with `setpixelSolid` applied along that list. -/
theorem line_plots (blend : Int → Int → Int → Int) (b : Bitmap) (x1 y1 x2 y2 c t : Int)
    (fuel : Nat) (pts : List (Int × Int)) (h : linePoints fuel x1 y1 x2 y2 = some pts) :
    b.line blend fuel x1 y1 x2 y2 c t = some (plotAll blend c t b pts) := by
  unfold linePoints at h
  simp only [Option.map_eq_some'] at h
  obtain ⟨u, hu, rfl⟩ := h
  unfold line
  simp only [Option.map_eq_some']
  by_cases hmaj : |x2 - x1| ≥ |y2 - y1|
  · rw [if_pos hmaj] at hu ⊢
    obtain ⟨s, hs, h1, h2, _, h4⟩ := whileLoop_sim
      (fun s : LineState => decide (s.x1 ≠ x2))
      (lineStepX blend c t (if x2 - x1 > 0 then 1 else -1) (if y2 - y1 > 0 then 1 else -1)
        (2 * |x2 - x1|) (2 * |y2 - y1|))
      (fun s : TraceState => decide (s.x1 ≠ x2))
      (traceStepX (if x2 - x1 > 0 then 1 else -1) (if y2 - y1 > 0 then 1 else -1)
        (2 * |x2 - x1|) (2 * |y2 - y1|))
      (fun s u => s.x1 = u.x1 ∧ s.y1 = u.y1 ∧ s.e = u.e ∧ s.bmp = plotAll blend c t b u.pts)
      (fun s u hR => by simp only [hR.1])
      (fun s u hR _ => by
        obtain ⟨r1, r2, r3, r4⟩ := hR
        unfold lineStepX traceStepX
        simp only [r1, r2, r3, r4, plotAll_concat]
        exact ⟨trivial, trivial, trivial, trivial⟩)
      fuel { bmp := b, x1 := x1, y1 := y1, e := 2 * |y2 - y1| - |x2 - x1| }
      { pts := [], x1 := x1, y1 := y1, e := 2 * |y2 - y1| - |x2 - x1| } u
      ⟨rfl, rfl, rfl, rfl⟩ hu
    exact ⟨s, hs, by rw [plotAll_concat, h1, h2, h4]⟩
  · rw [if_neg hmaj] at hu ⊢
    obtain ⟨s, hs, h1, h2, _, h4⟩ := whileLoop_sim
      (fun s : LineState => decide (s.y1 ≠ y2))
      (lineStepY blend c t (if x2 - x1 > 0 then 1 else -1) (if y2 - y1 > 0 then 1 else -1)
        (2 * |x2 - x1|) (2 * |y2 - y1|))
      (fun s : TraceState => decide (s.y1 ≠ y2))
      (traceStepY (if x2 - x1 > 0 then 1 else -1) (if y2 - y1 > 0 then 1 else -1)
        (2 * |x2 - x1|) (2 * |y2 - y1|))
      (fun s u => s.x1 = u.x1 ∧ s.y1 = u.y1 ∧ s.e = u.e ∧ s.bmp = plotAll blend c t b u.pts)
      (fun s u hR => by simp only [hR.2.1])
      (fun s u hR _ => by
        obtain ⟨r1, r2, r3, r4⟩ := hR
        unfold lineStepY traceStepY
        simp only [r1, r2, r3, r4, plotAll_concat]
        exact ⟨trivial, trivial, trivial, trivial⟩)
      fuel { bmp := b, x1 := x1, y1 := y1, e := 2 * |x2 - x1| - |y2 - y1| }
      { pts := [], x1 := x1, y1 := y1, e := 2 * |x2 - x1| - |y2 - y1| } u
      ⟨rfl, rfl, rfl, rfl⟩ hu
    exact ⟨s, hs, by rw [plotAll_concat, h1, h2, h4]⟩

theorem sign_unit (a : Int) : (if a > 0 then (1 : Int) else -1) = 1 ∨
    (if a > 0 then (1 : Int) else -1) = -1 := by
  split_ifs
  · exact Or.inl rfl
  · exact Or.inr rfl

/-- The list of `linePoints`: it is returned once the fuel exceeds the longer
side of the box of the end points, and it has one entry per value of the major
coordinate. -/
theorem linePoints_spec (x1 y1 x2 y2 : Int) (fuel : Nat)
    (hf : max |x2 - x1| |y2 - y1| < (fuel : Int)) :
    ∃ pts, linePoints fuel x1 y1 x2 y2 = some pts ∧
      (pts.length : Int) = max |x2 - x1| |y2 - y1| + 1 ∧ pts.Nodup ∧
      pts.head? = some (x1, y1) ∧ pts.getLast? = some (x2, y2) ∧
      pts.Chain' (fun p q =>
        if |x2 - x1| ≥ |y2 - y1| then |q.1 - p.1| = 1 ∧ |q.2 - p.2| ≤ 1
        else |q.2 - p.2| = 1 ∧ |q.1 - p.1| ≤ 1) := by
  have hdx := abs_nonneg (x2 - x1)
  have hdy := abs_nonneg (y2 - y1)
  have hinx := sign_unit (x2 - x1)
  have hiny := sign_unit (y2 - y1)
  have hx2 := sign_mul_abs x1 x2
  have hy2 := sign_mul_abs y1 y2
  have hmx : (x2 - x1).natAbs < fuel := by
    have := Int.natCast_natAbs (x2 - x1)
    omega
  have hmy : (y2 - y1).natAbs < fuel := by
    have := Int.natCast_natAbs (y2 - y1)
    omega
  unfold linePoints
  simp only [Option.map_eq_some']
  by_cases hmaj : |x2 - x1| ≥ |y2 - y1|
  · rw [if_pos hmaj]
    have hinit : TraceInvX x1 y1 (if x2 - x1 > 0 then 1 else -1)
        (if y2 - y1 > 0 then 1 else -1) |x2 - x1| |y2 - y1|
        { pts := [], x1 := x1, y1 := y1, e := 2 * |y2 - y1| - |x2 - x1| } :=
      ⟨0, 0, le_rfl, hdx, le_rfl, le_rfl, by simp, by simp, by simp, by simp; omega,
        by simp only; omega, by simp, by simp, by simp,
        fun p hp => ⟨0, le_rfl, le_rfl, by simp at hp; subst hp; simp⟩, by simp⟩
    have hstep := fun (s : TraceState) (hc : decide (s.x1 ≠ x2) = true)
        (hP : TraceInvX x1 y1 (if x2 - x1 > 0 then 1 else -1)
          (if y2 - y1 > 0 then 1 else -1) |x2 - x1| |y2 - y1| s) =>
      traceStepX_inv x1 y1 x2 _ _ _ _ hinx hx2 hdy hmaj s (by simpa using hc) hP
    obtain ⟨s, hs⟩ := whileLoop_terminates (fun s : TraceState => decide (s.x1 ≠ x2)) _ _
      (fun s => (x2 - s.x1).natAbs) hstep fuel _ hinit (by simp only; assumption)
    obtain ⟨hinv, hcond⟩ := whileLoop_inv _ _ _ (fun s hc hP => (hstep s hc hP).1) fuel _ s
      hinit hs
    have hxe : s.x1 = x2 := by simpa using hcond
    obtain ⟨hye, hlen⟩ := traceInvX_end x1 y1 x2 y2 _ _ _ _ hinx hx2 hy2 hdy hmaj s hxe hinv
    obtain ⟨k, j, -, -, -, -, -, -, -, -, -, -, hhead, hchain, -, hnd⟩ := hinv
    refine ⟨_, ⟨s, hs, rfl⟩, ?_, hnd, hhead, ?_, ?_⟩
    · rw [hlen, max_eq_left hmaj]
    · rw [hxe, hye]
      simp
    · refine hchain.imp ?_
      intro p q hpq
      rw [if_pos hmaj]
      obtain ⟨h1, h2⟩ := hpq
      constructor
      · rw [h1]
        rcases hinx with e | e <;> rw [e] <;> simp
      · rcases h2 with h2 | h2
        · rw [h2]; simp
        · rw [h2]
          rcases hiny with e | e <;> rw [e] <;> simp
  · rw [if_neg hmaj]
    have hmaj2 : |x2 - x1| ≤ |y2 - y1| := by omega
    have hinit : TraceInvY x1 y1 (if x2 - x1 > 0 then 1 else -1)
        (if y2 - y1 > 0 then 1 else -1) |x2 - x1| |y2 - y1|
        { pts := [], x1 := x1, y1 := y1, e := 2 * |x2 - x1| - |y2 - y1| } :=
      ⟨0, 0, le_rfl, hdy, le_rfl, le_rfl, by simp, by simp, by simp, by simp; omega,
        by simp only; omega, by simp, by simp, by simp,
        fun p hp => ⟨0, le_rfl, le_rfl, by simp at hp; subst hp; simp⟩, by simp⟩
    have hstep := fun (s : TraceState) (hc : decide (s.y1 ≠ y2) = true)
        (hP : TraceInvY x1 y1 (if x2 - x1 > 0 then 1 else -1)
          (if y2 - y1 > 0 then 1 else -1) |x2 - x1| |y2 - y1| s) =>
      traceStepY_inv x1 y1 y2 _ _ _ _ hiny hy2 hdx hmaj2 s (by simpa using hc) hP
    obtain ⟨s, hs⟩ := whileLoop_terminates (fun s : TraceState => decide (s.y1 ≠ y2)) _ _
      (fun s => (y2 - s.y1).natAbs) hstep fuel _ hinit (by simp only; assumption)
    obtain ⟨hinv, hcond⟩ := whileLoop_inv _ _ _ (fun s hc hP => (hstep s hc hP).1) fuel _ s
      hinit hs
    have hye : s.y1 = y2 := by simpa using hcond
    obtain ⟨hxe, hlen⟩ := traceInvY_end x1 y1 x2 y2 _ _ _ _ hiny hy2 hx2 hdx hmaj2 s hye hinv
    obtain ⟨k, j, -, -, -, -, -, -, -, -, -, -, hhead, hchain, -, hnd⟩ := hinv
    refine ⟨_, ⟨s, hs, rfl⟩, ?_, hnd, hhead, ?_, ?_⟩
    · rw [hlen, max_eq_right hmaj2]
    · rw [hxe, hye]
      simp
    · refine hchain.imp ?_
      intro p q hpq
      rw [if_neg hmaj]
      obtain ⟨h1, h2⟩ := hpq
      constructor
      · rw [h1]
        rcases hiny with e | e <;> rw [e] <;> simp
      · rcases h2 with h2 | h2
        · rw [h2]; simp
        · rw [h2]
          rcases hinx with e | e <;> rw [e] <;> simp


/-- `setpixelSolid` along a list without repetition: every field but the buffer
is untouched; a pixel of the list inside the clip rectangle is composited once,
and every other pixel keeps its value. -/
theorem plotAll_data (blend : Int → Int → Int → Int) (c t : Int) (b : Bitmap)
    (hcl : 0 ≤ b.cl) (hcr : b.cr < b.w) (pts : List (Int × Int)) :
    pts.Nodup →
      ∃ d, plotAll blend c t b pts = { b with data := d } ∧
        ∀ X Y : Int, 0 ≤ X → X < b.w →
          ((X, Y) ∈ pts → b.inClip X Y →
            d (b.w * Y + X) = blend (b.data (b.w * Y + X)) c t) ∧
          (¬ ((X, Y) ∈ pts ∧ b.inClip X Y) → d (b.w * Y + X) = b.data (b.w * Y + X)) := by
  induction pts using List.reverseRecOn with
  | nil =>
      intro _
      exact ⟨b.data, rfl, fun X Y _ _ => ⟨fun h => by simp at h, fun _ => rfl⟩⟩
  | append_singleton l p ih =>
      intro hnd
      rw [List.nodup_append] at hnd
      obtain ⟨hl, -, hdis⟩ := hnd
      have hpl : p ∉ l := fun h => hdis h (List.mem_singleton_self p)
      obtain ⟨d, hd, hpix⟩ := ih hl
      rw [plotAll_concat, hd]
      by_cases hp : b.inClip p.1 p.2
      · have hp2 : ({ b with data := d } : Bitmap).inClip p.1 p.2 := hp
        rw [setpixelSolid_inside blend _ p.1 p.2 c t hp2]
        have hpx : 0 ≤ p.1 ∧ p.1 < b.w := by unfold inClip at hp; omega
        refine ⟨setCell d (b.w * p.2 + p.1) (blend (d (b.w * p.2 + p.1)) c t), rfl,
          fun X Y hX0 hX => ?_⟩
        obtain ⟨i1, i2⟩ := hpix X Y hX0 hX
        obtain ⟨j1, j2⟩ := hpix p.1 p.2 hpx.1 hpx.2
        by_cases hcell : b.w * Y + X = b.w * p.2 + p.1
        · have e := cell_inj hX0 hX hpx.1 hpx.2 hcell
          have e2 : (X, Y) = p := Prod.ext e.1 e.2
          constructor
          · intro _ _
            show (if b.w * Y + X = b.w * p.2 + p.1 then _ else _) = _
            rw [if_pos hcell, j2 (fun hh => hpl hh.1), hcell]
          · intro hnot
            exact absurd ⟨by rw [e2]; simp, by rw [e.1, e.2]; exact hp⟩ hnot
        · have hne : (X, Y) ≠ p := fun e => hcell (by rw [← e])
          constructor
          · intro hmem hin
            show (if b.w * Y + X = b.w * p.2 + p.1 then _ else _) = _
            rw [if_neg hcell]
            rw [List.mem_append] at hmem
            rcases hmem with hmem | hmem
            · exact i1 hmem hin
            · exact absurd (List.mem_singleton.mp hmem) hne
          · intro hnot
            show (if b.w * Y + X = b.w * p.2 + p.1 then _ else _) = _
            rw [if_neg hcell]
            exact i2 (fun hh => hnot ⟨List.mem_append_left _ hh.1, hh.2⟩)
      · have hp2 : ¬ ({ b with data := d } : Bitmap).inClip p.1 p.2 := hp
        rw [setpixelSolid_outside blend _ p.1 p.2 c t hp2]
        refine ⟨d, rfl, fun X Y hX0 hX => ?_⟩
        obtain ⟨i1, i2⟩ := hpix X Y hX0 hX
        constructor
        · intro hmem hin
          rw [List.mem_append] at hmem
          rcases hmem with hmem | hmem
          · exact i1 hmem hin
          · exact absurd ((List.mem_singleton.mp hmem) ▸ hin) hp
        · intro hnot
          exact i2 (fun hh => hnot ⟨List.mem_append_left _ hh.1, hh.2⟩)

theorem plotAll_pix (blend : Int → Int → Int → Int) (c t : Int) (pts : List (Int × Int))
    (b : Bitmap) (hcl : 0 ≤ b.cl) (hcr : b.cr < b.w) (hnd : pts.Nodup) :
    (∃ d, plotAll blend c t b pts = { b with data := d }) ∧
      ∀ X Y : Int, 0 ≤ X → X < b.w →
        ((X, Y) ∈ pts → b.inClip X Y →
          (plotAll blend c t b pts).pix X Y = blend (b.pix X Y) c t) ∧
        (¬ ((X, Y) ∈ pts ∧ b.inClip X Y) → (plotAll blend c t b pts).pix X Y = b.pix X Y) := by
  obtain ⟨d, hd, hpix⟩ := plotAll_data blend c t b hcl hcr pts hnd
  rw [hd]
  exact ⟨⟨d, rfl⟩, hpix⟩

/-- Two loops with the same test whose bodies agree on the states of an
invariant that one of them keeps run alike. -/
theorem whileLoop_congr {σ : Type} (c : σ → Bool) (b1 b2 : σ → σ) (P : σ → Prop)
    (hP : ∀ s, P s → c s = true → P (b2 s))
    (he : ∀ s, P s → c s = true → b1 s = b2 s) :
    ∀ (fuel : Nat) (s : σ), P s → whileLoop c b1 fuel s = whileLoop c b2 fuel s
  | 0, _, _ => rfl
  | fuel + 1, s, h => by
      unfold whileLoop
      by_cases hc : c s = true
      · rw [if_pos hc, if_pos hc, he s h hc]
        exact whileLoop_congr c b1 b2 P hP he fuel (b2 s) (hP s h hc)
      · rw [if_neg hc, if_neg hc]


/-- In the `dx >= dy` loop the minor axis has made at most `DY` steps, and the
running point is a value of `int` when the end points are; the error term is
between `2 * DY - 2 * DX` and `2 * DY`. -/
theorem traceInvX_word (x1 y1 x2 y2 inx iny DX DY : Int)
    (hinx : inx = 1 ∨ inx = -1) (hiny : iny = 1 ∨ iny = -1)
    (hx2 : x2 = x1 + DX * inx) (hy2 : y2 = y1 + DY * iny) (hDY : 0 ≤ DY) (hmaj : DY ≤ DX)
    (wx1 : Word x1) (wy1 : Word y1) (wx2 : Word x2) (wy2 : Word y2)
    (s : TraceState) (h : TraceInvX x1 y1 inx iny DX DY s) :
    Word s.x1 ∧ Word s.y1 ∧ 2 * DY - 2 * DX ≤ s.e ∧ s.e ≤ 2 * DY := by
  obtain ⟨k, j, hk0, hk, hj0, hjk, hx, hy, he, hlow, hup, -⟩ := h
  have hj : j ≤ DY := by
    by_contra hcon
    have h1 : DY * k ≤ DY * DX := mul_le_mul_of_nonneg_left hk hDY
    have h2 : DX * (DY + 1) ≤ DX * j := mul_le_mul_of_nonneg_left (by omega) (by omega)
    have e1 : DX * (DY + 1) = DY * DX + DX := by ring
    omega
  have hkx : (0 ≤ k * inx ∧ k * inx ≤ DX * inx) ∨ (DX * inx ≤ k * inx ∧ k * inx ≤ 0) := by
    rcases hinx with e | e <;> subst e <;> omega
  have hjy : (0 ≤ j * iny ∧ j * iny ≤ DY * iny) ∨ (DY * iny ≤ j * iny ∧ j * iny ≤ 0) := by
    rcases hiny with e | e <;> subst e <;> omega
  have hee : s.e ≤ 2 * DY := by
    rcases hup with h0 | hlt
    · have hk2 : k = 0 := by omega
      have hj2 : j = 0 := by omega
      rw [h0, hk2, hj2] at he
      simp at he
      omega
    · omega
  unfold Word at *
  refine ⟨by omega, by omega, hlow, hee⟩

/-- On the states of the `dx >= dy` loop the 32-bit body is the exact one. -/
theorem traceStepX32_eq (x1 y1 x2 y2 inx iny DX DY : Int)
    (hinx : inx = 1 ∨ inx = -1) (hiny : iny = 1 ∨ iny = -1)
    (hx2 : x2 = x1 + DX * inx) (hy2 : y2 = y1 + DY * iny) (hDY : 0 ≤ DY) (hmaj : DY ≤ DX)
    (hX : DX < 1073741824)
    (wx1 : Word x1) (wy1 : Word y1) (wx2 : Word x2) (wy2 : Word y2)
    (s : TraceState) (hc : s.x1 ≠ x2) (h : TraceInvX x1 y1 inx iny DX DY s) :
    traceStepX32 inx iny (2 * DX) (2 * DY) s = traceStepX inx iny (2 * DX) (2 * DY) s := by
  have hn := (traceStepX_inv x1 y1 x2 inx iny DX DY hinx hx2 hDY hmaj s hc h).1
  obtain ⟨a1, a2, a3, a4⟩ := traceInvX_word x1 y1 x2 y2 inx iny DX DY hinx hiny hx2 hy2 hDY hmaj
    wx1 wy1 wx2 wy2 s h
  obtain ⟨n1, n2, n3, n4⟩ := traceInvX_word x1 y1 x2 y2 inx iny DX DY hinx hiny hx2 hy2 hDY hmaj
    wx1 wy1 wx2 wy2 _ hn
  have m1 : (traceStepX inx iny (2 * DX) (2 * DY) s).x1 = s.x1 + inx := rfl
  have m2 : (traceStepX inx iny (2 * DX) (2 * DY) s).y1
      = if s.e ≥ 0 then s.y1 + iny else s.y1 := rfl
  have m3 : (traceStepX inx iny (2 * DX) (2 * DY) s).e
      = (if s.e ≥ 0 then s.e - 2 * DX else s.e) + 2 * DY := rfl
  rw [m1] at n1
  rw [m2] at n2
  rw [m3] at n3 n4
  unfold traceStepX32 traceStepX
  by_cases hpos : s.e ≥ 0
  · rw [if_pos hpos] at n2 n3 n4
    simp only [if_pos hpos]
    rw [wrap32_id _ n1, wrap32_id _ n2, wrap32_id (s.e - 2 * DX) (by unfold Word; omega),
      wrap32_id (s.e - 2 * DX + 2 * DY) (by unfold Word; omega)]
  · rw [if_neg hpos] at n2 n3 n4
    simp only [if_neg hpos]
    rw [wrap32_id _ n1, wrap32_id (s.e + 2 * DY) (by unfold Word; omega)]


/-- The mirror image of `traceInvX_word` for the `dx < dy` loop. -/
theorem traceInvY_word (x1 y1 x2 y2 inx iny DX DY : Int)
    (hinx : inx = 1 ∨ inx = -1) (hiny : iny = 1 ∨ iny = -1)
    (hx2 : x2 = x1 + DX * inx) (hy2 : y2 = y1 + DY * iny) (hDX : 0 ≤ DX) (hmaj : DX ≤ DY)
    (wx1 : Word x1) (wy1 : Word y1) (wx2 : Word x2) (wy2 : Word y2)
    (s : TraceState) (h : TraceInvY x1 y1 inx iny DX DY s) :
    Word s.x1 ∧ Word s.y1 ∧ 2 * DX - 2 * DY ≤ s.e ∧ s.e ≤ 2 * DX := by
  obtain ⟨k, j, hk0, hk, hj0, hjk, hy, hx, he, hlow, hup, -⟩ := h
  have hj : j ≤ DX := by
    by_contra hcon
    have h1 : DX * k ≤ DX * DY := mul_le_mul_of_nonneg_left hk hDX
    have h2 : DY * (DX + 1) ≤ DY * j := mul_le_mul_of_nonneg_left (by omega) (by omega)
    have e1 : DY * (DX + 1) = DX * DY + DY := by ring
    omega
  have hky : (0 ≤ k * iny ∧ k * iny ≤ DY * iny) ∨ (DY * iny ≤ k * iny ∧ k * iny ≤ 0) := by
    rcases hiny with e | e <;> subst e <;> omega
  have hjx : (0 ≤ j * inx ∧ j * inx ≤ DX * inx) ∨ (DX * inx ≤ j * inx ∧ j * inx ≤ 0) := by
    rcases hinx with e | e <;> subst e <;> omega
  have hee : s.e ≤ 2 * DX := by
    rcases hup with h0 | hlt
    · have hk2 : k = 0 := by omega
      have hj2 : j = 0 := by omega
      rw [h0, hk2, hj2] at he
      simp at he
      omega
    · omega
  unfold Word at *
  refine ⟨by omega, by omega, hlow, hee⟩

/-- On the states of the `dx < dy` loop the 32-bit body is the exact one. -/
theorem traceStepY32_eq (x1 y1 x2 y2 inx iny DX DY : Int)
    (hinx : inx = 1 ∨ inx = -1) (hiny : iny = 1 ∨ iny = -1)
    (hx2 : x2 = x1 + DX * inx) (hy2 : y2 = y1 + DY * iny) (hDX : 0 ≤ DX) (hmaj : DX ≤ DY)
    (hY : DY < 1073741824)
    (wx1 : Word x1) (wy1 : Word y1) (wx2 : Word x2) (wy2 : Word y2)
    (s : TraceState) (hc : s.y1 ≠ y2) (h : TraceInvY x1 y1 inx iny DX DY s) :
    traceStepY32 inx iny (2 * DX) (2 * DY) s = traceStepY inx iny (2 * DX) (2 * DY) s := by
  have hn := (traceStepY_inv x1 y1 y2 inx iny DX DY hiny hy2 hDX hmaj s hc h).1
  obtain ⟨a1, a2, a3, a4⟩ := traceInvY_word x1 y1 x2 y2 inx iny DX DY hinx hiny hx2 hy2 hDX hmaj
    wx1 wy1 wx2 wy2 s h
  obtain ⟨n1, n2, n3, n4⟩ := traceInvY_word x1 y1 x2 y2 inx iny DX DY hinx hiny hx2 hy2 hDX hmaj
    wx1 wy1 wx2 wy2 _ hn
  have m1 : (traceStepY inx iny (2 * DX) (2 * DY) s).y1 = s.y1 + iny := rfl
  have m2 : (traceStepY inx iny (2 * DX) (2 * DY) s).x1
      = if s.e ≥ 0 then s.x1 + inx else s.x1 := rfl
  have m3 : (traceStepY inx iny (2 * DX) (2 * DY) s).e
      = (if s.e ≥ 0 then s.e - 2 * DY else s.e) + 2 * DX := rfl
  rw [m2] at n1
  rw [m1] at n2
  rw [m3] at n3 n4
  unfold traceStepY32 traceStepY
  by_cases hpos : s.e ≥ 0
  · rw [if_pos hpos] at n1 n3 n4
    simp only [if_pos hpos]
    rw [wrap32_id _ n1, wrap32_id _ n2, wrap32_id (s.e - 2 * DY) (by unfold Word; omega),
      wrap32_id (s.e - 2 * DY + 2 * DX) (by unfold Word; omega)]
  · rw [if_neg hpos] at n1 n3 n4
    simp only [if_neg hpos]
    rw [wrap32_id _ n2, wrap32_id (s.e + 2 * DX) (by unfold Word; omega)]

/-- For end points that are values of `int` and whose box has sides below
`2^30`, no operation of `line` leaves the range of `int`: the positions of the
32-bit walk are those of the exact one. -/
theorem linePoints32_eq (x1 y1 x2 y2 : Int) (fuel : Nat)
    (wx1 : Word x1) (wy1 : Word y1) (wx2 : Word x2) (wy2 : Word y2)
    (hX : |x2 - x1| < 1073741824) (hY : |y2 - y1| < 1073741824) :
    linePoints32 fuel x1 y1 x2 y2 = linePoints fuel x1 y1 x2 y2 := by
  have hdx := abs_nonneg (x2 - x1)
  have hdy := abs_nonneg (y2 - y1)
  have hinx := sign_unit (x2 - x1)
  have hiny := sign_unit (y2 - y1)
  have hx2 := sign_mul_abs x1 x2
  have hy2 := sign_mul_abs y1 y2
  have ax := abs_le.mp (le_of_lt hX)
  have ay := abs_le.mp (le_of_lt hY)
  have e1 : wrap32 (x2 - x1) = x2 - x1 := wrap32_id _ (by unfold Word; omega)
  have e2 : wrap32 (y2 - y1) = y2 - y1 := wrap32_id _ (by unfold Word; omega)
  have e3 : wrap32 |x2 - x1| = |x2 - x1| := wrap32_id _ (by unfold Word; omega)
  have e4 : wrap32 |y2 - y1| = |y2 - y1| := wrap32_id _ (by unfold Word; omega)
  have e5 : wrap32 (2 * |x2 - x1|) = 2 * |x2 - x1| := wrap32_id _ (by unfold Word; omega)
  have e6 : wrap32 (2 * |y2 - y1|) = 2 * |y2 - y1| := wrap32_id _ (by unfold Word; omega)
  have e7 : wrap32 (2 * |y2 - y1| - |x2 - x1|) = 2 * |y2 - y1| - |x2 - x1| :=
    wrap32_id _ (by unfold Word; omega)
  have e8 : wrap32 (2 * |x2 - x1| - |y2 - y1|) = 2 * |x2 - x1| - |y2 - y1| :=
    wrap32_id _ (by unfold Word; omega)
  unfold linePoints32 linePoints
  simp only [e1, e2, e3, e4, e5, e6, e7, e8]
  by_cases hmaj : |x2 - x1| ≥ |y2 - y1|
  · rw [if_pos hmaj, if_pos hmaj]
    congr 1
    refine whileLoop_congr _ _ _
      (TraceInvX x1 y1 (if x2 - x1 > 0 then 1 else -1) (if y2 - y1 > 0 then 1 else -1)
        |x2 - x1| |y2 - y1|)
      (fun s hP hc => (traceStepX_inv x1 y1 x2 _ _ _ _ hinx hx2 hdy hmaj s
        (by simpa using hc) hP).1)
      (fun s hP hc => traceStepX32_eq x1 y1 x2 y2 _ _ _ _ hinx hiny hx2 hy2 hdy hmaj hX
        wx1 wy1 wx2 wy2 s (by simpa using hc) hP) fuel _ ?_
    exact ⟨0, 0, le_rfl, hdx, le_rfl, le_rfl, by simp, by simp, by simp, by simp; omega,
      by simp only; omega, by simp, by simp, by simp,
      fun p hp => ⟨0, le_rfl, le_rfl, by simp at hp; subst hp; simp⟩, by simp⟩
  · rw [if_neg hmaj, if_neg hmaj]
    have hmaj2 : |x2 - x1| ≤ |y2 - y1| := by omega
    congr 1
    refine whileLoop_congr _ _ _
      (TraceInvY x1 y1 (if x2 - x1 > 0 then 1 else -1) (if y2 - y1 > 0 then 1 else -1)
        |x2 - x1| |y2 - y1|)
      (fun s hP hc => (traceStepY_inv x1 y1 y2 _ _ _ _ hiny hy2 hdx hmaj2 s
        (by simpa using hc) hP).1)
      (fun s hP hc => traceStepY32_eq x1 y1 x2 y2 _ _ _ _ hinx hiny hx2 hy2 hdx hmaj2 hY
        wx1 wy1 wx2 wy2 s (by simpa using hc) hP) fuel _ ?_
    exact ⟨0, 0, le_rfl, hdy, le_rfl, le_rfl, by simp, by simp, by simp, by simp; omega,
      by simp only; omega, by simp, by simp, by simp,
      fun p hp => ⟨0, le_rfl, le_rfl, by simp at hp; subst hp; simp⟩, by simp⟩

/-- The positions recorded by `linePoints32` are the positions at which `line32`
calls `setpixelSolid`: whenever `linePoints32` returns a list, `line32` returns
the canvas with `setpixelSolid` applied along that list. -/
theorem line32_plots (blend : Int → Int → Int → Int) (b : Bitmap) (x1 y1 x2 y2 c t : Int)
    (fuel : Nat) (pts : List (Int × Int)) (h : linePoints32 fuel x1 y1 x2 y2 = some pts) :
    b.line32 blend fuel x1 y1 x2 y2 c t = some (plotAll blend c t b pts) := by
  unfold linePoints32 at h
  simp only [Option.map_eq_some'] at h
  obtain ⟨u, hu, rfl⟩ := h
  unfold line32
  simp only [Option.map_eq_some']
  by_cases hmaj : wrap32 |wrap32 (x2 - x1)| ≥ wrap32 |wrap32 (y2 - y1)|
  · rw [if_pos hmaj] at hu ⊢
    obtain ⟨s, hs, h1, h2, _, h4⟩ := whileLoop_sim
      (fun s : LineState => decide (s.x1 ≠ x2))
      (lineStepX32 blend c t (if wrap32 (x2 - x1) > 0 then 1 else -1)
        (if wrap32 (y2 - y1) > 0 then 1 else -1)
        (wrap32 (2 * wrap32 |wrap32 (x2 - x1)|)) (wrap32 (2 * wrap32 |wrap32 (y2 - y1)|)))
      (fun s : TraceState => decide (s.x1 ≠ x2))
      (traceStepX32 (if wrap32 (x2 - x1) > 0 then 1 else -1)
        (if wrap32 (y2 - y1) > 0 then 1 else -1)
        (wrap32 (2 * wrap32 |wrap32 (x2 - x1)|)) (wrap32 (2 * wrap32 |wrap32 (y2 - y1)|)))
      (fun s u => s.x1 = u.x1 ∧ s.y1 = u.y1 ∧ s.e = u.e ∧ s.bmp = plotAll blend c t b u.pts)
      (fun s u hR => by simp only [hR.1])
      (fun s u hR _ => by
        obtain ⟨r1, r2, r3, r4⟩ := hR
        unfold lineStepX32 traceStepX32
        simp only [r1, r2, r3, r4, plotAll_concat]
        exact ⟨trivial, trivial, trivial, trivial⟩)
      fuel { bmp := b, x1 := x1, y1 := y1,
             e := wrap32 (wrap32 (2 * wrap32 |wrap32 (y2 - y1)|) - wrap32 |wrap32 (x2 - x1)|) }
      { pts := [], x1 := x1, y1 := y1,
        e := wrap32 (wrap32 (2 * wrap32 |wrap32 (y2 - y1)|) - wrap32 |wrap32 (x2 - x1)|) } u
      ⟨rfl, rfl, rfl, rfl⟩ hu
    exact ⟨s, hs, by rw [plotAll_concat, h1, h2, h4]⟩
  · rw [if_neg hmaj] at hu ⊢
    obtain ⟨s, hs, h1, h2, _, h4⟩ := whileLoop_sim
      (fun s : LineState => decide (s.y1 ≠ y2))
      (lineStepY32 blend c t (if wrap32 (x2 - x1) > 0 then 1 else -1)
        (if wrap32 (y2 - y1) > 0 then 1 else -1)
        (wrap32 (2 * wrap32 |wrap32 (x2 - x1)|)) (wrap32 (2 * wrap32 |wrap32 (y2 - y1)|)))
      (fun s : TraceState => decide (s.y1 ≠ y2))
      (traceStepY32 (if wrap32 (x2 - x1) > 0 then 1 else -1)
        (if wrap32 (y2 - y1) > 0 then 1 else -1)
        (wrap32 (2 * wrap32 |wrap32 (x2 - x1)|)) (wrap32 (2 * wrap32 |wrap32 (y2 - y1)|)))
      (fun s u => s.x1 = u.x1 ∧ s.y1 = u.y1 ∧ s.e = u.e ∧ s.bmp = plotAll blend c t b u.pts)
      (fun s u hR => by simp only [hR.2.1])
      (fun s u hR _ => by
        obtain ⟨r1, r2, r3, r4⟩ := hR
        unfold lineStepY32 traceStepY32
        simp only [r1, r2, r3, r4, plotAll_concat]
        exact ⟨trivial, trivial, trivial, trivial⟩)
      fuel { bmp := b, x1 := x1, y1 := y1,
             e := wrap32 (wrap32 (2 * wrap32 |wrap32 (x2 - x1)|) - wrap32 |wrap32 (y2 - y1)|) }
      { pts := [], x1 := x1, y1 := y1,
        e := wrap32 (wrap32 (2 * wrap32 |wrap32 (x2 - x1)|) - wrap32 |wrap32 (y2 - y1)|) } u
      ⟨rfl, rfl, rfl, rfl⟩ hu
    exact ⟨s, hs, by rw [plotAll_concat, h1, h2, h4]⟩

/-- C26, for the end points that the arithmetic of `line` can handle. For end
points that are values of `int` and whose box has both sides below `2^30`,
`line` (with every arithmetic result stored in 32 bits) terminates: it returns
once the fuel exceeds `max(|x2-x1|, |y2-y1|)`. The positions it passes to
`setpixelSolid`, in the order of the calls, are the list `linePoints32`: exactly
`max(|x2-x1|, |y2-y1|) + 1` pairwise distinct positions, the first `(x1, y1)`,
the last `(x2, y2)`, each step moving by exactly one along the major axis and by
at most one along the minor axis. On a canvas whose clip rectangle lies within
the row width every clip pixel of the list is therefore composited exactly once
and every other pixel keeps its value. -/
theorem line_positions (x1 y1 x2 y2 : Int) (fuel : Nat)
    (wx1 : Word x1) (wy1 : Word y1) (wx2 : Word x2) (wy2 : Word y2)
    (hX : |x2 - x1| < 1073741824) (hY : |y2 - y1| < 1073741824)
    (hf : max |x2 - x1| |y2 - y1| < (fuel : Int)) :
    ∃ pts, linePoints32 fuel x1 y1 x2 y2 = some pts ∧
      (pts.length : Int) = max |x2 - x1| |y2 - y1| + 1 ∧ pts.Nodup ∧
      pts.head? = some (x1, y1) ∧ pts.getLast? = some (x2, y2) ∧
      pts.Chain' (fun p q =>
        if |x2 - x1| ≥ |y2 - y1| then |q.1 - p.1| = 1 ∧ |q.2 - p.2| ≤ 1
        else |q.2 - p.2| = 1 ∧ |q.1 - p.1| ≤ 1) ∧
      ∀ (blend : Int → Int → Int → Int) (b : Bitmap) (c t : Int),
        b.line32 blend fuel x1 y1 x2 y2 c t = some (plotAll blend c t b pts) ∧
        (0 ≤ b.cl → b.cr < b.w →
          (∃ d, plotAll blend c t b pts = { b with data := d }) ∧
          ∀ X Y : Int, 0 ≤ X → X < b.w →
            ((X, Y) ∈ pts → b.inClip X Y →
              (plotAll blend c t b pts).pix X Y = blend (b.pix X Y) c t) ∧
            (¬ ((X, Y) ∈ pts ∧ b.inClip X Y) →
              (plotAll blend c t b pts).pix X Y = b.pix X Y)) := by
  obtain ⟨pts, hp, hlen, hnd, hhead, hlast, hchain⟩ := linePoints_spec x1 y1 x2 y2 fuel hf
  have hp32 : linePoints32 fuel x1 y1 x2 y2 = some pts := by
    rw [linePoints32_eq x1 y1 x2 y2 fuel wx1 wy1 wx2 wy2 hX hY]
    exact hp
  exact ⟨pts, hp32, hlen, hnd, hhead, hlast, hchain, fun blend b c t =>
    ⟨line32_plots blend b x1 y1 x2 y2 c t fuel pts hp32,
      fun hcl hcr => plotAll_pix blend c t pts b hcl hcr hnd⟩⟩

/-- C26 for the line from `(4, 1)` to `(0, 3)` on the canvas `demoCanvas`, drawn
with a replacing blend: five positions, walked from right to left. -/
theorem line_positions_witness :
    (Word 4 ∧ Word 1 ∧ Word 0 ∧ Word 3 ∧ |(0 : Int) - 4| < 1073741824 ∧
      |(3 : Int) - 1| < 1073741824 ∧ max |(0 : Int) - 4| |(3 : Int) - 1| < ((5 : Nat) : Int)) ∧
    linePoints32 5 4 1 0 3 = some [(4, 1), (3, 2), (2, 2), (1, 3), (0, 3)] ∧
    ∃ pts, linePoints32 5 4 1 0 3 = some pts ∧ (pts.length : Int) = 5 ∧ pts.Nodup ∧
      pts.head? = some (4, 1) ∧ pts.getLast? = some (0, 3) ∧
      demoCanvas.line32 (fun _ c _ => c) 5 4 1 0 3 9 0 =
        some (plotAll (fun _ c _ => c) 9 0 demoCanvas pts) := by
  have hw : Word 4 ∧ Word 1 ∧ Word 0 ∧ Word 3 ∧ |(0 : Int) - 4| < 1073741824 ∧
      |(3 : Int) - 1| < 1073741824 ∧ max |(0 : Int) - 4| |(3 : Int) - 1| < ((5 : Nat) : Int) := by
    decide
  obtain ⟨pts, hp, hlen, hnd, hhead, hlast, -, hall⟩ :=
    line_positions 4 1 0 3 5 hw.1 hw.2.1 hw.2.2.1 hw.2.2.2.1 hw.2.2.2.2.1 hw.2.2.2.2.2.1
      hw.2.2.2.2.2.2
  exact ⟨hw, by decide, pts, hp, by rw [hlen]; decide, hnd, hhead, hlast,
    (hall (fun _ c _ => c) demoCanvas 9 0).1⟩

/-- C26 as stated fails at the ends of the range of `int`. From
`(-2147483648, 0)` to `(2147483647, 0)` the difference `x2 - x1` is stored as
`-1`, so the walk goes to the left, and the first step `x1 += inx` wraps `x1`
around to `x2`: `setpixelSolid` receives two positions, `2^32 - 1` apart, where
the claim has `max(|x2-x1|, |y2-y1|) + 1 = 2^32` positions one step apart. -/
theorem line_wrap_counterexample :
    linePoints32 4294967296 (-2147483648) 0 2147483647 0
      = some [(-2147483648, 0), (2147483647, 0)] ∧
    max |(2147483647 : Int) - (-2147483648)| |(0 : Int) - 0| + 1 = 4294967296 := by
  decide

end Bitmap

/-! ## C27: the sides of `xorRect` -/

namespace Bitmap

set_option maxRecDepth 100000 in
/-- C27 fails on the code. On the 4 x 4 canvas of colour 0, `xorRect(0, 0, 1, 2)`
XORs the pixel `(1, 1)` of its right side with the checkerboard value of
`(0, 1)`, the pixel of the left side in the same row: the pixel holds
`0x00808080` afterwards, where the value of its own coordinates is `0x00FFFFFF`. -/
theorem xorRect_side_value :
    ((create 4 4).xorRect 0 0 1 2).pix 1 1 = xor32 ((create 4 4).pix 1 1) (xorValue 0 1) ∧
    ((create 4 4).xorRect 0 0 1 2).pix 1 1 = 0x00808080 ∧
    xor32 ((create 4 4).pix 1 1) (xorValue 1 1) = 0x00FFFFFF := by
  decide!

end Bitmap

/-! ## C28: XOR drawing twice -/

theorem toU32_lt (a : Int) : toU32 a < 4294967296 := by
  unfold toU32
  omega

theorem ofU32_toU32 (a : Int) (h : Word a) : ofU32 (toU32 a) = a := by
  unfold Word at h
  unfold ofU32 toU32
  split_ifs <;> omega

theorem toU32_ofU32 (n : Nat) (h : n < 4294967296) : toU32 (ofU32 n) = n := by
  unfold ofU32 toU32
  split_ifs <;> omega

theorem word_ofU32 (n : Nat) (h : n < 4294967296) : Word (ofU32 n) := by
  unfold Word ofU32
  split_ifs <;> omega

theorem xor_lt_u32 (a b : Nat) (ha : a < 4294967296) (hb : b < 4294967296) :
    a ^^^ b < 4294967296 :=
  @Nat.xor_lt_two_pow a b 32 ha hb

/-- An `XorMap` keeps the cells 32-bit values. -/
theorem xorMap_word {T : (Int → Int) → Int → Int} (h : XorMap T) (d : Int → Int)
    (hd : ∀ i, Word (d i)) : ∀ i, Word (T d i) := by
  obtain ⟨m, hm, hT⟩ := h
  intro i
  rw [hT d hd i]
  exact word_ofU32 _ (xor_lt_u32 _ _ (toU32_lt _) (hm i))

/-- Applying an `XorMap` twice restores a buffer of 32-bit values. -/
theorem xorMap_twice {T : (Int → Int) → Int → Int} (h : XorMap T) (d : Int → Int)
    (hd : ∀ i, Word (d i)) : T (T d) = d := by
  have hw := xorMap_word h d hd
  obtain ⟨m, hm, hT⟩ := h
  funext i
  rw [hT (T d) hw i, hT d hd i, toU32_ofU32 _ (xor_lt_u32 _ _ (toU32_lt _) (hm i)),
    Nat.xor_assoc, Nat.xor_self, Nat.xor_zero, ofU32_toU32 _ (hd i)]

theorem xorMap_id : XorMap (fun d => d) :=
  ⟨fun _ => 0, fun _ => (by decide : (0 : Nat) < 4294967296), fun d hd i => by
    rw [Nat.xor_zero, ofU32_toU32 _ (hd i)]⟩

theorem xorMap_comp {T1 T2 : (Int → Int) → Int → Int} (h1 : XorMap T1) (h2 : XorMap T2) :
    XorMap (fun d => T2 (T1 d)) := by
  have hw := xorMap_word h1
  obtain ⟨m1, hm1, hT1⟩ := h1
  obtain ⟨m2, hm2, hT2⟩ := h2
  refine ⟨fun i => m1 i ^^^ m2 i, fun i => xor_lt_u32 _ _ (hm1 i) (hm2 i), fun d hd i => ?_⟩
  show T2 (T1 d) i = _
  rw [hT2 (T1 d) (hw d hd) i, hT1 d hd i,
    toU32_ofU32 _ (xor_lt_u32 _ _ (toU32_lt _) (hm1 i)), Nat.xor_assoc]

/-- The statement `*p ^= v` on one cell. -/
theorem xorMap_cell (i0 v : Int) :
    XorMap (fun d => setCell d i0 (xor32 (d i0) v)) := by
  refine ⟨fun i => if i = i0 then toU32 v else 0, fun i => ?_, fun d hd i => ?_⟩
  · show (if i = i0 then toU32 v else 0) < 4294967296
    split_ifs
    · exact toU32_lt v
    · decide
  · show (if i = i0 then xor32 (d i0) v else d i) = ofU32 (toU32 (d i) ^^^ if i = i0 then toU32 v else 0)
    by_cases h : i = i0
    · rw [if_pos h, if_pos h, h]
      rfl
    · rw [if_neg h, if_neg h, Nat.xor_zero, ofU32_toU32 _ (hd i)]

theorem xorMap_forLoop (body : Int → (Int → Int) → Int → Int) (h : ∀ k, XorMap (body k)) :
    ∀ (n : Nat) (i : Int), XorMap (fun d => forLoop body n i d)
  | 0, _ => xorMap_id
  | n + 1, i =>
      @xorMap_comp (body i) (fun d => forLoop body n (i + 1) d) (h i)
        (xorMap_forLoop body h n (i + 1))

theorem xorOp_id : XorOp (fun b => b) :=
  fun _ => ⟨fun d => d, xorMap_id, fun _ => rfl⟩

theorem xorOp_comp {f g : Bitmap → Bitmap} (hf : XorOp f) (hg : XorOp g) :
    XorOp (fun b => g (f b)) := by
  intro b
  obtain ⟨T1, h1, e1⟩ := hf b
  obtain ⟨T2, h2, e2⟩ := hg b
  exact ⟨fun d => T2 (T1 d), xorMap_comp h1 h2, fun d => by
    show g (f _) = _
    rw [e1 d, e2 (T1 d)]⟩

theorem xorOp_forLoop (F : Int → Bitmap → Bitmap) (h : ∀ k, XorOp (F k)) :
    ∀ (n : Nat) (i : Int), XorOp (fun b => forLoop F n i b)
  | 0, _ => xorOp_id
  | n + 1, i =>
      @xorOp_comp (F i) (fun b => forLoop F n (i + 1) b) (h i) (xorOp_forLoop F h n (i + 1))

theorem xorOp_foldl (g : Bitmap → Int × Int → Bitmap) (h : ∀ p, XorOp (fun b => g b p)) :
    ∀ pts : List (Int × Int), XorOp (fun b => pts.foldl g b)
  | [] => xorOp_id
  | p :: l => @xorOp_comp (fun b => g b p) (fun b => l.foldl g b) (h p) (xorOp_foldl g h l)

/-- An `XorOp` applied twice restores a canvas whose cells are 32-bit values. -/
theorem xorOp_twice {f : Bitmap → Bitmap} (h : XorOp f) (b : Bitmap)
    (hb : ∀ i, Word (b.data i)) : f (f b) = b := by
  obtain ⟨T, hT, e⟩ := h b
  have e1 : f b = { b with data := T b.data } := e b.data
  rw [e1, e (T b.data), xorMap_twice hT b.data hb]

namespace Bitmap

theorem xorOp_xorHline (x1 y x2 : Int) : XorOp (fun b => b.xorHline x1 y x2) := by
  intro b
  by_cases h1 : y < b.ct ∨ y > b.cb
  · exact ⟨fun d => d, xorMap_id, fun d => by
      show xorHline _ x1 y x2 = _
      unfold xorHline
      simp only []
      rw [if_pos h1]⟩
  by_cases h2 : (if x1 > x2 then x2 else x1) > b.cr
  · exact ⟨fun d => d, xorMap_id, fun d => by
      show xorHline _ x1 y x2 = _
      unfold xorHline
      simp only []
      rw [if_neg h1, if_pos h2]⟩
  by_cases h3 : (if x1 > x2 then x1 else x2) < b.cl
  · exact ⟨fun d => d, xorMap_id, fun d => by
      show xorHline _ x1 y x2 = _
      unfold xorHline
      simp only []
      rw [if_neg h1, if_neg h2, if_pos h3]⟩
  refine ⟨fun d => (xorHline { b with data := d } x1 y x2).data, ?_, fun d => ?_⟩
  · unfold xorHline forUpTo
    simp only [if_neg h1, if_neg h2, if_neg h3]
    exact xorMap_forLoop _ (fun k => xorMap_cell _ _) _ _
  · show xorHline _ x1 y x2 = _
    unfold xorHline
    simp only []
    rw [if_neg h1, if_neg h2, if_neg h3]

theorem xorOp_xorPlot (p : Int × Int) : XorOp (fun b => b.xorPlot p.1 p.2) :=
  fun b => ⟨_, xorMap_cell (b.w * p.2 + p.1) (xorValue p.1 p.2), fun _ => rfl⟩

theorem xorMap_sides (w xa xb y : Int) : XorMap (xorRectSides w xa xb y) :=
  @xorMap_comp (fun d => setCell d (w * y + xa) (xor32 (d (w * y + xa)) (xorValue xa y)))
    (fun d => setCell d (w * y + xb) (xor32 (d (w * y + xb)) (xorValue xa y)))
    (xorMap_cell _ _) (xorMap_cell _ _)


theorem xorOp_xorRectfill (x1 y1 x2 y2 : Int) : XorOp (fun b => b.xorRectfill x1 y1 x2 y2) := by
  intro b
  by_cases h1 : (if x1 > x2 then x2 else x1) > b.cr
  · exact ⟨fun d => d, xorMap_id, fun d => by
      show xorRectfill _ x1 y1 x2 y2 = _
      unfold xorRectfill
      simp only []
      rw [if_pos h1]⟩
  by_cases h2 : (if x1 > x2 then x1 else x2) < b.cl
  · exact ⟨fun d => d, xorMap_id, fun d => by
      show xorRectfill _ x1 y1 x2 y2 = _
      unfold xorRectfill
      simp only []
      rw [if_neg h1, if_pos h2]⟩
  by_cases h3 : (if y1 > y2 then y2 else y1) > b.cb
  · exact ⟨fun d => d, xorMap_id, fun d => by
      show xorRectfill _ x1 y1 x2 y2 = _
      unfold xorRectfill
      simp only []
      rw [if_neg h1, if_neg h2, if_pos h3]⟩
  by_cases h4 : (if y1 > y2 then y1 else y2) < b.ct
  · exact ⟨fun d => d, xorMap_id, fun d => by
      show xorRectfill _ x1 y1 x2 y2 = _
      unfold xorRectfill
      simp only []
      rw [if_neg h1, if_neg h2, if_neg h3, if_pos h4]⟩
  obtain ⟨T, hT, e⟩ := xorOp_forLoop
    (fun y b0 => b0.xorHline
      (b.clip (if x1 > x2 then x2 else x1) (if y1 > y2 then y2 else y1)
        (if x1 > x2 then x1 else x2) (if y1 > y2 then y1 else y2)).1 y
      (b.clip (if x1 > x2 then x2 else x1) (if y1 > y2 then y2 else y1)
        (if x1 > x2 then x1 else x2) (if y1 > y2 then y1 else y2)).2.2.1)
    (fun y => xorOp_xorHline _ y _)
    ((b.clip (if x1 > x2 then x2 else x1) (if y1 > y2 then y2 else y1)
        (if x1 > x2 then x1 else x2) (if y1 > y2 then y1 else y2)).2.2.2 + 1 -
      (b.clip (if x1 > x2 then x2 else x1) (if y1 > y2 then y2 else y1)
        (if x1 > x2 then x1 else x2) (if y1 > y2 then y1 else y2)).2.1).toNat
    (b.clip (if x1 > x2 then x2 else x1) (if y1 > y2 then y2 else y1)
        (if x1 > x2 then x1 else x2) (if y1 > y2 then y1 else y2)).2.1 b
  refine ⟨T, hT, fun d => ?_⟩
  show xorRectfill _ x1 y1 x2 y2 = _
  unfold xorRectfill
  simp only []
  rw [if_neg h1, if_neg h2, if_neg h3, if_neg h4]
  exact e d

theorem xorOp_xorRect (x1 y1 x2 y2 : Int) : XorOp (fun b => b.xorRect x1 y1 x2 y2) := by
  intro b
  by_cases h1 : (if x1 > x2 then x2 else x1) > b.cr
  · exact ⟨fun d => d, xorMap_id, fun d => by
      show xorRect _ x1 y1 x2 y2 = _
      unfold xorRect
      simp only []
      rw [if_pos h1]⟩
  by_cases h2 : (if x1 > x2 then x1 else x2) < b.cl
  · exact ⟨fun d => d, xorMap_id, fun d => by
      show xorRect _ x1 y1 x2 y2 = _
      unfold xorRect
      simp only []
      rw [if_neg h1, if_pos h2]⟩
  by_cases h3 : (if y1 > y2 then y2 else y1) > b.cb
  · exact ⟨fun d => d, xorMap_id, fun d => by
      show xorRect _ x1 y1 x2 y2 = _
      unfold xorRect
      simp only []
      rw [if_neg h1, if_neg h2, if_pos h3]⟩
  by_cases h4 : (if y1 > y2 then y1 else y2) < b.ct
  · exact ⟨fun d => d, xorMap_id, fun d => by
      show xorRect _ x1 y1 x2 y2 = _
      unfold xorRect
      simp only []
      rw [if_neg h1, if_neg h2, if_neg h3, if_pos h4]⟩
  generalize hr : b.clip (if x1 > x2 then x2 else x1) (if y1 > y2 then y2 else y1)
        (if x1 > x2 then x1 else x2) (if y1 > y2 then y1 else y2) = r
  obtain ⟨T1, hT1, e1⟩ := xorOp_xorHline r.1 r.2.1 r.2.2.1 b
  obtain ⟨T2, hT2, e2⟩ := xorOp_xorHline r.1 r.2.2.2 r.2.2.1 b
  have hr2 : ∀ d : Int → Int, ({ b with data := d } : Bitmap).clip
      (if x1 > x2 then x2 else x1) (if y1 > y2 then y2 else y1)
      (if x1 > x2 then x1 else x2) (if y1 > y2 then y1 else y2) = r := fun _ => hr
  by_cases h5 : r.2.1 = r.2.2.2
  · refine ⟨fun d => T2 (T1 d), xorMap_comp hT1 hT2, fun d => ?_⟩
    show xorRect _ x1 y1 x2 y2 = _
    unfold xorRect
    simp only []
    rw [if_neg h1, if_neg h2, if_neg h3, if_neg h4, hr2 d, if_pos h5]
    have := e1 d
    simp only [] at this
    rw [this]
    exact e2 (T1 d)
  · refine ⟨fun d => forLoop (xorRectSides b.w r.1 r.2.2.1) (r.2.2.2 - (r.2.1 + 1)).toNat
        (r.2.1 + 1) (T2 (T1 d)),
      @xorMap_comp (fun d => T2 (T1 d))
        (fun d => forLoop (xorRectSides b.w r.1 r.2.2.1) (r.2.2.2 - (r.2.1 + 1)).toNat
          (r.2.1 + 1) d)
        (xorMap_comp hT1 hT2) (xorMap_forLoop _ (fun k => xorMap_sides _ _ _ k) _ _),
      fun d => ?_⟩
    show xorRect _ x1 y1 x2 y2 = _
    unfold xorRect
    simp only []
    rw [if_neg h1, if_neg h2, if_neg h3, if_neg h4, hr2 d, if_neg h5]
    have h6 := e1 d
    simp only [] at h6
    have h7 := e2 (T1 d)
    simp only [] at h7
    rw [h6, h7]

/-- `xorLine` writes at the positions of `linePoints`, in their order. -/
theorem xorLine_plots (b : Bitmap) (x1 y1 x2 y2 : Int)
    (fuel : Nat) (pts : List (Int × Int)) (h : linePoints fuel x1 y1 x2 y2 = some pts) :
    b.xorLine fuel x1 y1 x2 y2 = some (pts.foldl (fun b p => b.xorPlot p.1 p.2) b) := by
  unfold linePoints at h
  simp only [Option.map_eq_some'] at h
  obtain ⟨u, hu, rfl⟩ := h
  unfold xorLine
  simp only [Option.map_eq_some']
  by_cases hmaj : |x2 - x1| ≥ |y2 - y1|
  · rw [if_pos hmaj] at hu ⊢
    obtain ⟨s, hs, h1, h2, _, h4⟩ := whileLoop_sim
      (fun s : LineState => decide (s.x1 ≠ x2))
      (xorLineStepX (if x2 - x1 > 0 then 1 else -1) (if y2 - y1 > 0 then 1 else -1)
        (2 * |x2 - x1|) (2 * |y2 - y1|))
      (fun s : TraceState => decide (s.x1 ≠ x2))
      (traceStepX (if x2 - x1 > 0 then 1 else -1) (if y2 - y1 > 0 then 1 else -1)
        (2 * |x2 - x1|) (2 * |y2 - y1|))
      (fun s u => s.x1 = u.x1 ∧ s.y1 = u.y1 ∧ s.e = u.e ∧
        s.bmp = u.pts.foldl (fun b p => b.xorPlot p.1 p.2) b)
      (fun s u hR => by simp only [hR.1])
      (fun s u hR _ => by
        obtain ⟨r1, r2, r3, r4⟩ := hR
        unfold xorLineStepX traceStepX
        simp only [r1, r2, r3, r4, List.foldl_append, List.foldl_cons, List.foldl_nil]
        exact ⟨trivial, trivial, trivial, trivial⟩)
      fuel { bmp := b, x1 := x1, y1 := y1, e := 2 * |y2 - y1| - |x2 - x1| }
      { pts := [], x1 := x1, y1 := y1, e := 2 * |y2 - y1| - |x2 - x1| } u
      ⟨rfl, rfl, rfl, rfl⟩ hu
    exact ⟨s, hs, by rw [List.foldl_append, h1, h2, h4]; rfl⟩
  · rw [if_neg hmaj] at hu ⊢
    obtain ⟨s, hs, h1, h2, _, h4⟩ := whileLoop_sim
      (fun s : LineState => decide (s.y1 ≠ y2))
      (xorLineStepY (if x2 - x1 > 0 then 1 else -1) (if y2 - y1 > 0 then 1 else -1)
        (2 * |x2 - x1|) (2 * |y2 - y1|))
      (fun s : TraceState => decide (s.y1 ≠ y2))
      (traceStepY (if x2 - x1 > 0 then 1 else -1) (if y2 - y1 > 0 then 1 else -1)
        (2 * |x2 - x1|) (2 * |y2 - y1|))
      (fun s u => s.x1 = u.x1 ∧ s.y1 = u.y1 ∧ s.e = u.e ∧
        s.bmp = u.pts.foldl (fun b p => b.xorPlot p.1 p.2) b)
      (fun s u hR => by simp only [hR.2.1])
      (fun s u hR _ => by
        obtain ⟨r1, r2, r3, r4⟩ := hR
        unfold xorLineStepY traceStepY
        simp only [r1, r2, r3, r4, List.foldl_append, List.foldl_cons, List.foldl_nil]
        exact ⟨trivial, trivial, trivial, trivial⟩)
      fuel { bmp := b, x1 := x1, y1 := y1, e := 2 * |x2 - x1| - |y2 - y1| }
      { pts := [], x1 := x1, y1 := y1, e := 2 * |x2 - x1| - |y2 - y1| } u
      ⟨rfl, rfl, rfl, rfl⟩ hu
    exact ⟨s, hs, by rw [List.foldl_append, h1, h2, h4]; rfl⟩

/-- C28. XOR drawing is non-destructive. On a canvas whose cells hold C++ `int`
values, `xorHline`, `xorRect` and `xorRectfill` applied twice with the same
arguments give the canvas back, every pixel included; `xorLine`, for any end
points (those inside the buffer among them), returns once the fuel exceeds
`max(|x2-x1|, |y2-y1|)`, and applied to its own result with the same arguments it
returns the canvas as it was. -/
theorem xor_twice (b : Bitmap) (hb : ∀ i, Word (b.data i)) :
    (∀ x1 y x2 : Int, (b.xorHline x1 y x2).xorHline x1 y x2 = b) ∧
    (∀ x1 y1 x2 y2 : Int, (b.xorRect x1 y1 x2 y2).xorRect x1 y1 x2 y2 = b) ∧
    (∀ x1 y1 x2 y2 : Int, (b.xorRectfill x1 y1 x2 y2).xorRectfill x1 y1 x2 y2 = b) ∧
    (∀ (x1 y1 x2 y2 : Int) (fuel : Nat), max |x2 - x1| |y2 - y1| < (fuel : Int) →
      ∃ b1, b.xorLine fuel x1 y1 x2 y2 = some b1 ∧ b1.xorLine fuel x1 y1 x2 y2 = some b) := by
  refine ⟨fun x1 y x2 => xorOp_twice (xorOp_xorHline x1 y x2) b hb,
    fun x1 y1 x2 y2 => xorOp_twice (xorOp_xorRect x1 y1 x2 y2) b hb,
    fun x1 y1 x2 y2 => xorOp_twice (xorOp_xorRectfill x1 y1 x2 y2) b hb,
    fun x1 y1 x2 y2 fuel hf => ?_⟩
  obtain ⟨pts, hp, -⟩ := linePoints_spec x1 y1 x2 y2 fuel hf
  refine ⟨_, xorLine_plots b x1 y1 x2 y2 fuel pts hp, ?_⟩
  rw [xorLine_plots _ x1 y1 x2 y2 fuel pts hp]
  exact congrArg some (xorOp_twice (xorOp_foldl _ xorOp_xorPlot pts) b hb)

theorem xor_twice_witness :
    (∀ i, Word ((create 4 4).data i)) ∧
    ((create 4 4).xorRect 0 0 3 3).xorRect 0 0 3 3 = create 4 4 ∧
    ∃ b1, (create 4 4).xorLine 4 0 0 3 1 = some b1 ∧ b1.xorLine 4 0 0 3 1 = some (create 4 4) :=
  ⟨fun _ => (by decide : Word 0), (xor_twice (create 4 4) (fun _ => (by decide : Word 0))).2.1 0 0 3 3,
    (xor_twice (create 4 4) (fun _ => (by decide : Word 0))).2.2.2 0 0 3 1 4 (by decide)⟩

end Bitmap

/-! ## C29: the clip rectangle of a canvas with a border -/

namespace Bitmap

set_option maxRecDepth 100000 in
/-- C29 fails on the code. `Bitmap(0, 0, 1)` is a 2 x 2 canvas whose clip
rectangle has `cl = ct = 1` and `cr = cb = 0`: it is empty, and `cw = ch = 0`.
`Bitmap(-5, -5, 1)` is a 1 x 1 canvas with `cl = ct = 1` and `cr = cb = -1`,
outside the buffer. The width and height are clamped after the border is added. -/
theorem overscroll_clip_empty :
    ((createOverscroll Undo.plainEnv 0 0 1).w = 2 ∧ (createOverscroll Undo.plainEnv 0 0 1).h = 2 ∧
      (createOverscroll Undo.plainEnv 0 0 1).cl = 1 ∧ (createOverscroll Undo.plainEnv 0 0 1).cr = 0 ∧
      (createOverscroll Undo.plainEnv 0 0 1).ct = 1 ∧ (createOverscroll Undo.plainEnv 0 0 1).cb = 0 ∧
      (createOverscroll Undo.plainEnv 0 0 1).cw = 0 ∧ (createOverscroll Undo.plainEnv 0 0 1).ch = 0) ∧
    ((createOverscroll Undo.plainEnv (-5) (-5) 1).w = 1 ∧
      (createOverscroll Undo.plainEnv (-5) (-5) 1).cl = 1 ∧
      (createOverscroll Undo.plainEnv (-5) (-5) 1).cr = -1) := by
  decide!

/-- The clip rectangle of `Bitmap(width, height, overscroll)` for a width and a
height of at least 1 and a border of at least 0: it is the `width x height`
rectangle at `(overscroll, overscroll)`, inside the buffer. -/
theorem createOverscroll_clipInside (env : Env) (width height ov : Int)
    (hw : 1 ≤ width) (hh : 1 ≤ height) (hov : 0 ≤ ov) :
    (createOverscroll env width height ov).ClipInside ∧
    (createOverscroll env width height ov).cw = width ∧
    (createOverscroll env width height ov).ch = height := by
  obtain ⟨g1, g2, g3, g4, g5, g6⟩ := createOverscroll_geom env width height ov
  have ecw : (createOverscroll env width height ov).cw =
      (createOverscroll env width height ov).cr - (createOverscroll env width height ov).cl + 1 :=
    rfl
  have ech : (createOverscroll env width height ov).ch =
      (createOverscroll env width height ov).cb - (createOverscroll env width height ov).ct + 1 :=
    rfl
  refine ⟨?_, by rw [ecw, g3, g4]; omega, by rw [ech, g5, g6]; omega⟩
  unfold ClipInside
  rw [g1, g2, g3, g4, g5, g6]
  omega

end Bitmap

/-! ## C30: the capacity of the flood-fill stack -/

theorem holds_lt {l : List (Int × Int)} {i : Nat} {p : Int × Int}
    (h : l[i]? = some p) : i < l.length :=
  (List.getElem?_eq_some_iff.mp h).1

/-- `push` on a stack that holds fewer than 4095 pairs adds the pair on top. -/
theorem holds_push (st : Stack) (l : List (Int × Int)) (x y : Int) (h : Holds st l)
    (hl : l.length < 4095) :
    ∃ st2, st.push x y = some st2 ∧ Holds st2 (l ++ [(x, y)]) := by
  obtain ⟨hsp, hent⟩ := h
  have hroom : st.sp < stack_size - 1 := by unfold stack_size; omega
  refine ⟨_, Bitmap.push_room st x y hroom, ?_, ?_⟩
  · simp only [List.length_append, List.length_singleton]
    push_cast
    omega
  · intro i p hp
    simp only [setCell]
    by_cases hi : i < l.length
    · rw [List.getElem?_append_left hi] at hp
      rw [if_neg (by omega), if_neg (by omega)]
      exact hent i p hp
    · have hlen := holds_lt hp
      simp only [List.length_append, List.length_singleton] at hlen
      have e : i = l.length := by omega
      subst e
      rw [List.getElem?_append_right (le_refl _)] at hp
      simp only [Nat.sub_self, List.getElem?_cons_zero, Option.some.injEq] at hp
      subst hp
      rw [if_pos (by omega), if_pos (by omega)]
      exact ⟨rfl, rfl⟩

/-- `pop` on a stack that holds a pair returns the pair pushed last. -/
theorem holds_pop (st : Stack) (l : List (Int × Int)) (p : Int × Int)
    (h : Holds st (l ++ [p])) : ∃ st2, st.pop = some (p, st2) ∧ Holds st2 l := by
  obtain ⟨hsp, hent⟩ := h
  simp only [List.length_append, List.length_singleton] at hsp
  push_cast at hsp
  have htop := hent l.length p (by
    rw [List.getElem?_append_right (le_refl _)]
    simp)
  refine ⟨{ st with sp := st.sp - 1 }, ?_, ?_, fun i q hq => ?_⟩
  · unfold Stack.pop
    rw [if_pos (show st.sp > 0 by omega), hsp, htop.1, htop.2]
  · show st.sp - 1 = (l.length : Int)
    omega
  · have hi := holds_lt hq
    exact hent i q (by rw [List.getElem?_append_left hi]; exact hq)

/-- C30 (as amended). The flood-fill stack holds at most 4095 coordinate pairs
(slot 0 of the 4096 is not used). An empty stack holds no pair; `push` succeeds
whenever fewer than 4095 pairs are held, adding the pair on top, and fails,
leaving the stack as it is, when 4095 are held; `pop` returns the pair pushed
last and leaves the pairs below it, so that pairs come back in last-in-first-out
order, and fails on a stack that holds no pair. -/
theorem stack_capacity :
    Holds Bitmap.emptyStk [] ∧
    (∀ (st : Stack) (l : List (Int × Int)) (x y : Int), Holds st l → l.length < 4095 →
      ∃ st2, st.push x y = some st2 ∧ Holds st2 (l ++ [(x, y)])) ∧
    (∀ (st : Stack) (l : List (Int × Int)) (x y : Int), Holds st l → 4095 ≤ l.length →
      st.push x y = none) ∧
    (∀ (st : Stack) (l : List (Int × Int)) (p : Int × Int), Holds st (l ++ [p]) →
      ∃ st2, st.pop = some (p, st2) ∧ Holds st2 l) ∧
    (∀ st : Stack, Holds st [] → st.pop = none) := by
  refine ⟨⟨rfl, fun i p h => ?_⟩, holds_push, ?_, holds_pop, ?_⟩
  · simp at h
  · intro st l x y h hl
    unfold Stack.push stack_size
    rw [if_neg]
    have := h.1
    omega
  · intro st h
    unfold Stack.pop
    rw [if_neg]
    have := h.1
    simp only [List.length_nil] at this
    omega

theorem stack_capacity_witness :
    (Holds Bitmap.emptyStk [] ∧ ([] : List (Int × Int)).length < 4095) ∧
    ∃ st2, Bitmap.emptyStk.push 3 4 = some st2 ∧ Holds st2 ([] ++ [(3, 4)]) :=
  ⟨⟨stack_capacity.1, by decide⟩, stack_capacity.2.1 Bitmap.emptyStk [] 3 4 stack_capacity.1
    (by decide)⟩

set_option maxRecDepth 1000000 in
/-- C30 (as stated) fails: 4095 calls of `push` on an empty stack all succeed
and leave `sp = 4095`; the stack then holds 4095 pairs, fewer than 4096, and the
next `push` fails. -/
theorem push_4096_counterexample :
    (pushZeros 4095 Bitmap.emptyStk).map (fun st => st.sp) = some 4095 ∧
    ((pushZeros 4095 Bitmap.emptyStk).bind (fun st => st.push 0 0)).isSome = false := by
  decide!

/-! ## C31: a `push` that fails during `fill` -/

namespace Bitmap

/-- A `push` fails on a full stack only. -/
theorem spanStep_none (edge inr : Bool) (px py : Int) (span : Bool) (st : Stack)
    (h : spanStep edge inr px py span st = none) : ¬ st.sp < stack_size - 1 := by
  intro hlt
  unfold spanStep at h
  rw [push_room st px py hlt] at h
  split_ifs at h

/-- When the scan of a row ends with a failed `push`, the stack is full. -/
theorem fillRow_overflow_full (blend : Int → Int → Int → Int) (b : Bitmap)
    (new_color old_color range y : Int) :
    ∀ (n : Nat) (x1 : Int) (span_t span_b : Bool) (s s2 : FillState),
      fillRow blend b new_color old_color range y n x1 span_t span_b s = FillRun.overflow s2 →
      ¬ s2.stack.sp < stack_size - 1
  | 0, _, _, _, _, _, h => by simp [fillRow] at h
  | n + 1, x1, span_t, span_b, s, s2, h => by
      rw [fillRow] at h
      split_ifs at h with hc
      simp only [] at h
      split at h
      · next e1 =>
        cases h
        exact spanStep_none _ _ _ _ _ _ e1
      · next span_t2 st2 e1 =>
        split at h
        · next e2 =>
          cases h
          exact spanStep_none _ _ _ _ _ _ e2
        · next span_b2 st3 e2 =>
          exact fillRow_overflow_full blend b new_color old_color range y n _ _ _ _ s2 h

/-- When the main loop of `fill` ends with a failed `push`, the stack is full. -/
theorem fillLoop_overflow_full (blend : Int → Int → Int → Int) (b : Bitmap)
    (new_color old_color range : Int) :
    ∀ (fuel : Nat) (s s2 : FillState),
      fillLoop blend b new_color old_color range fuel s = some (FillRun.overflow s2) →
      ¬ s2.stack.sp < stack_size - 1
  | 0, _, _, h => by simp [fillLoop] at h
  | fuel + 1, s, s2, h => by
      rw [fillLoop] at h
      split at h
      · cases h
      · next x y st e =>
        simp only [] at h
        split at h
        · next s3 e3 =>
          cases h
          exact fillRow_overflow_full _ _ _ _ _ _ _ _ _ _ _ _ e3
        · next s3 e3 =>
          exact fillLoop_overflow_full blend b new_color old_color range fuel s3 s2 h

/-- C31. When a `push` fails during `fill`, the call returns the live canvas as
it was, every pixel included, without the final sweep: this holds for the `push`
of the seed, and for a `push` in the main loop, which ends the loop (the run is
an overflow) with a full stack, whatever was marked in the map until then. -/
theorem fill_overflow_unchanged (blend : Int → Int → Int → Int) (fuel : Nat) (st : Stack)
    (b : Bitmap) (x y new_color old_color range : Int) (hne : old_color ≠ new_color) :
    (st.emptyStack.push x y = none →
      fill blend fuel st b x y new_color old_color range = some (b, st.emptyStack)) ∧
    (∀ (st1 : Stack) (s : FillState), st.emptyStack.push x y = some st1 →
      fillLoop blend b new_color old_color range fuel
        { temp := b.blit (create b.w b.h) 0 0 0 0 b.w b.h,
          map := (Map.create b.w b.h).clear 255, stack := st1 } = some (FillRun.overflow s) →
      fill blend fuel st b x y new_color old_color range = some (b, s.stack) ∧
      ¬ s.stack.sp < stack_size - 1) := by
  constructor
  · intro h
    unfold fill
    rw [if_neg hne]
    simp only []
    rw [h]
  · intro st1 s h1 h2
    refine ⟨?_, fillLoop_overflow_full _ _ _ _ _ _ _ _ h2⟩
    unfold fill
    rw [if_neg hne]
    simp only []
    rw [h1]
    simp only []
    rw [h2]


theorem spanStep_no_edge (inr : Bool) (px py : Int) (span : Bool) (st : Stack) :
    spanStep false inr px py span st = some (span, st) := by
  cases span <;> cases inr <;> rfl

theorem spanStep_close (px py : Int) (st : Stack) :
    spanStep true false px py true st = some (false, st) := rfl

theorem spanStep_full (px py : Int) (st : Stack) (h : ¬ st.sp < stack_size - 1) :
    spanStep true true px py false st = none := by
  unfold spanStep Stack.push
  simp [h]

/-- The scan of row 0 of the comb at an even column: the pixel is filled and
the tooth below it is pushed, or, when the stack is full, the `push` fails. -/
theorem comb_even (x : Int) (hx0 : 0 ≤ x) (hx : x ≤ 8190) (he : x % 2 = 0) (n : Nat)
    (s : FillState) (h : CombInv x s) :
    (x < 8190 → ∃ s2, CombInv (x + 1) s2 ∧
      fillRow (fun _ c _ => c) combCanvas 100 0 0 0 (n + 1) x false false s =
        fillRow (fun _ c _ => c) combCanvas 100 0 0 0 n (x + 1) false true s2) ∧
    (x = 8190 → ∃ s2,
      fillRow (fun _ c _ => c) combCanvas 100 0 0 0 (n + 1) x false false s =
        FillRun.overflow s2) := by
  obtain ⟨⟨hw, hcl, hcr, hct, hcb⟩, hrow0, hrow1, hsp⟩ := h
  have g0 : s.temp.getpixel x 0 = 0 := by
    rw [getpixel_inside s.temp x 0 (by unfold inClip; omega),
      show s.temp.w * 0 + x = x by omega]
    exact hrow0 x le_rfl (by omega)
  have hset : s.temp.setpixelSolid (fun _ c _ => c) x 0 100 0 =
      { s.temp with data := setCell s.temp.data x 100 } := by
    rw [setpixelSolid_inside _ s.temp x 0 100 0 (by unfold inClip; omega)]
    show ({ s.temp with data := setCell s.temp.data (s.temp.w * 0 + x) 100 } : Bitmap) = _
    rw [show s.temp.w * 0 + x = x by omega]
  have g1 : ({ s.temp with data := setCell s.temp.data x 100 } : Bitmap).getpixel x (0 + 1) = 0 := by
    rw [getpixel_inside _ x (0 + 1) (by unfold inClip; simp only []; omega)]
    show setCell s.temp.data x 100 (s.temp.w * (0 + 1) + x) = 0
    rw [show s.temp.w * (0 + 1) + x = 8191 + x by omega]
    unfold setCell
    rw [if_neg (by omega), hrow1 x hx0 (by omega), if_pos he]
  have hcond : x ≤ combCanvas.cr ∧ (inRange (s.temp.getpixel x 0) 0 0).1 = true := by
    rw [g0]
    exact ⟨hx, by decide⟩
  constructor
  · intro hlt
    have hroom : s.stack.sp < stack_size - 1 := by
      rw [hsp]; unfold stack_size; omega
    refine ⟨{ temp := { s.temp with data := setCell s.temp.data x 100 },
              map := s.map.setpixel x 0 (inRange (s.temp.getpixel x 0) 0 0).2,
              stack := { stack_x := setCell s.stack.stack_x (s.stack.sp + 1) x,
                         stack_y := setCell s.stack.stack_y (s.stack.sp + 1) (0 + 1),
                         sp := s.stack.sp + 1 } },
      ⟨⟨hw, hcl, hcr, hct, hcb⟩, ?_, ?_, ?_⟩, ?_⟩
    · intro X h1 h2
      show setCell s.temp.data x 100 X = 0
      unfold setCell
      rw [if_neg (by omega)]
      exact hrow0 X (by omega) h2
    · intro X h1 h2
      show setCell s.temp.data x 100 (8191 + X) = _
      unfold setCell
      rw [if_neg (by omega)]
      exact hrow1 X h1 h2
    · show s.stack.sp + 1 = (x + 1 + 1) / 2
      rw [hsp]
      omega
    · rw [fillRow, if_pos hcond]
      simp only [hset]
      rw [show decide (0 > combCanvas.ct) = false by decide,
        show decide (0 < combCanvas.cb) = true by decide, spanStep_no_edge]
      simp only []
      rw [g1, show (inRange 0 0 0).1 = true by decide, spanStep_on _ _ _ hroom]
  · intro heq
    have hfull : ¬ s.stack.sp < stack_size - 1 := by
      rw [hsp]; unfold stack_size; omega
    refine ⟨{ temp := { s.temp with data := setCell s.temp.data x 100 },
              map := s.map.setpixel x 0 (inRange (s.temp.getpixel x 0) 0 0).2,
              stack := s.stack }, ?_⟩
    rw [fillRow, if_pos hcond]
    simp only [hset]
    rw [show decide (0 > combCanvas.ct) = false by decide,
      show decide (0 < combCanvas.cb) = true by decide, spanStep_no_edge]
    simp only []
    rw [g1, show (inRange 0 0 0).1 = true by decide, spanStep_full _ _ _ hfull]

/-- The scan of row 0 of the comb at an odd column: the pixel is filled and the
span below is closed. -/
theorem comb_odd (x : Int) (hx0 : 0 ≤ x) (hx : x ≤ 8190) (ho : x % 2 = 1) (n : Nat)
    (s : FillState) (h : CombInv x s) :
    ∃ s2, CombInv (x + 1) s2 ∧
      fillRow (fun _ c _ => c) combCanvas 100 0 0 0 (n + 1) x false true s =
        fillRow (fun _ c _ => c) combCanvas 100 0 0 0 n (x + 1) false false s2 := by
  obtain ⟨⟨hw, hcl, hcr, hct, hcb⟩, hrow0, hrow1, hsp⟩ := h
  have g0 : s.temp.getpixel x 0 = 0 := by
    rw [getpixel_inside s.temp x 0 (by unfold inClip; omega),
      show s.temp.w * 0 + x = x by omega]
    exact hrow0 x le_rfl (by omega)
  have hset : s.temp.setpixelSolid (fun _ c _ => c) x 0 100 0 =
      { s.temp with data := setCell s.temp.data x 100 } := by
    rw [setpixelSolid_inside _ s.temp x 0 100 0 (by unfold inClip; omega)]
    show ({ s.temp with data := setCell s.temp.data (s.temp.w * 0 + x) 100 } : Bitmap) = _
    rw [show s.temp.w * 0 + x = x by omega]
  have g1 : ({ s.temp with data := setCell s.temp.data x 100 } : Bitmap).getpixel x (0 + 1) = 7 := by
    rw [getpixel_inside _ x (0 + 1) (by unfold inClip; simp only []; omega)]
    show setCell s.temp.data x 100 (s.temp.w * (0 + 1) + x) = 7
    rw [show s.temp.w * (0 + 1) + x = 8191 + x by omega]
    unfold setCell
    rw [if_neg (by omega), hrow1 x hx0 (by omega), if_neg (by omega)]
  have hcond : x ≤ combCanvas.cr ∧ (inRange (s.temp.getpixel x 0) 0 0).1 = true := by
    rw [g0]
    exact ⟨hx, by decide⟩
  refine ⟨{ temp := { s.temp with data := setCell s.temp.data x 100 },
            map := s.map.setpixel x 0 (inRange (s.temp.getpixel x 0) 0 0).2,
            stack := s.stack },
    ⟨⟨hw, hcl, hcr, hct, hcb⟩, ?_, ?_, ?_⟩, ?_⟩
  · intro X h1 h2
    show setCell s.temp.data x 100 X = 0
    unfold setCell
    rw [if_neg (by omega)]
    exact hrow0 X (by omega) h2
  · intro X h1 h2
    show setCell s.temp.data x 100 (8191 + X) = _
    unfold setCell
    rw [if_neg (by omega)]
    exact hrow1 X h1 h2
  · show s.stack.sp = (x + 1 + 1) / 2
    rw [hsp]
    omega
  · rw [fillRow, if_pos hcond]
    simp only [hset]
    rw [show decide (0 > combCanvas.ct) = false by decide,
      show decide (0 < combCanvas.cb) = true by decide, spanStep_no_edge]
    simp only []
    rw [g1, show (inRange 7 0 0).1 = false by decide, spanStep_close]

/-- The scan of row 0 of the comb from column `8190 - k` ends with a failed
`push`. -/
theorem comb_row : ∀ (k : Nat), (k : Int) ≤ 8190 → ∀ s : FillState,
    CombInv (8190 - (k : Int)) s →
    ∃ s2, fillRow (fun _ c _ => c) combCanvas 100 0 0 0 (k + 1) (8190 - (k : Int)) false
      (decide ((8190 - (k : Int)) % 2 = 1)) s = FillRun.overflow s2
  | 0, _, s, h => by
      have e : (8190 : Int) - ((0 : Nat) : Int) = 8190 := by norm_num
      rw [e] at h ⊢
      rw [show decide ((8190 : Int) % 2 = 1) = false by decide]
      exact (comb_even 8190 (by decide) (by decide) (by decide) 0 s h).2 rfl
  | k + 1, hk, s, h => by
      have hk2 : ((k + 1 : Nat) : Int) = (k : Int) + 1 := by push_cast; rfl
      have e : (8190 : Int) - ((k + 1 : Nat) : Int) + 1 = 8190 - (k : Int) := by omega
      rcases Int.emod_two_eq_zero_or_one (8190 - ((k + 1 : Nat) : Int)) with he | ho
      · obtain ⟨s2, inv2, estep⟩ := (comb_even _ (by omega) (by omega) he (k + 1) s h).1
          (by omega)
        rw [show decide ((8190 - ((k + 1 : Nat) : Int)) % 2 = 1) = false by
          rw [he]; decide, estep]
        rw [e] at inv2 ⊢
        have hp : decide ((8190 - (k : Int)) % 2 = 1) = true := by
          rw [decide_eq_true_eq]; omega
        have hrec := comb_row k (by omega) s2 inv2
        rw [hp] at hrec
        exact hrec
      · obtain ⟨s2, inv2, estep⟩ := comb_odd _ (by omega) (by omega) ho (k + 1) s h
        rw [show decide ((8190 - ((k + 1 : Nat) : Int)) % 2 = 1) = true by
          rw [ho]; decide, estep]
        rw [e] at inv2 ⊢
        have hp : decide ((8190 - (k : Int)) % 2 = 1) = false := by
          rw [decide_eq_false_iff_not]; omega
        have hrec := comb_row k (by omega) s2 inv2
        rw [hp] at hrec
        exact hrec


/-- On the comb, `fill(0, 0, 100, 0, 0)` ends its main loop with a failed
`push`: the scan of row 0 pushes one pair for each of the first 4095 teeth, and
the stack has no room for the pair of the last one. -/
theorem comb_overflows (fuel : Nat) :
    ∃ s, fillLoop (fun _ c _ => c) combCanvas 100 0 0 (fuel + 1)
      { temp := combCanvas.blit (create combCanvas.w combCanvas.h) 0 0 0 0 combCanvas.w
          combCanvas.h,
        map := (Map.create combCanvas.w combCanvas.h).clear 255,
        stack := { stack_x := setCell emptyStk.emptyStack.stack_x (emptyStk.emptyStack.sp + 1) 0,
                   stack_y := setCell emptyStk.emptyStack.stack_y (emptyStk.emptyStack.sp + 1) 0,
                   sp := emptyStk.emptyStack.sp + 1 } } = some (FillRun.overflow s) := by
  obtain ⟨⟨d, hd⟩, -, -⟩ := blit_pix combCanvas (create combCanvas.w combCanvas.h)
    (by decide) (by decide) 0 0 0 0 combCanvas.w combCanvas.h
  obtain ⟨-, -, hpix⟩ := blit_copy combCanvas (by decide) (by decide)
  obtain ⟨T, hT⟩ : ∃ T : Bitmap, T = combCanvas.blit (create combCanvas.w combCanvas.h) 0 0 0 0
    combCanvas.w combCanvas.h := ⟨_, rfl⟩
  rw [← hT] at hpix hd ⊢
  have hgeo : T.w = 8191 ∧ T.cl = 0 ∧ T.cr = 8190 ∧ T.ct = 0 ∧ T.cb = 1 := by
    rw [hd]
    exact ⟨rfl, rfl, rfl, rfl, rfl⟩
  obtain ⟨hw, hcl, hcr, hct, hcb⟩ := hgeo
  have hrow0 : ∀ X : Int, 0 ≤ X → X < 8191 → T.data X = 0 := by
    intro X h0 h1
    have e : T.data (T.w * 0 + X) = combCanvas.data (8191 * 0 + X) :=
      hpix X 0 h0 h1 (by decide) (by decide)
    rw [show T.w * 0 + X = X by omega, show (8191 : Int) * 0 + X = X by omega] at e
    rw [e]
    show (if X < 8191 then (0 : Int) else if X % 2 = 1 then 0 else 7) = 0
    rw [if_pos h1]
  have hrow1 : ∀ X : Int, 0 ≤ X → X < 8191 →
      T.data (8191 + X) = if X % 2 = 0 then 0 else 7 := by
    intro X h0 h1
    have e : T.data (T.w * 1 + X) = combCanvas.data (8191 * 1 + X) :=
      hpix X 1 h0 h1 (by decide) (by decide)
    rw [show T.w * 1 + X = 8191 + X by omega,
      show (8191 : Int) * 1 + X = 8191 + X by omega] at e
    rw [e]
    show (if 8191 + X < 8191 then (0 : Int) else if (8191 + X) % 2 = 1 then 0 else 7) = _
    rw [if_neg (by omega)]
    split_ifs <;> first | rfl | (exfalso; omega)
  have hinv : CombInv (8190 - ((8190 : Nat) : Int))
      { temp := T,
        map := (Map.create combCanvas.w combCanvas.h).clear 255,
        stack := { stack_x := setCell emptyStk.emptyStack.stack_x (emptyStk.emptyStack.sp + 1) 0,
                   stack_y := setCell emptyStk.emptyStack.stack_y (emptyStk.emptyStack.sp + 1) 0,
                   sp := 0 } } :=
    ⟨⟨hw, hcl, hcr, hct, hcb⟩, fun X h0 h1 => hrow0 X (by omega) h1, hrow1, rfl⟩
  obtain ⟨s2, hs2⟩ := comb_row 8190 (by decide) _ hinv
  refine ⟨s2, ?_⟩
  have g00 : T.getpixel 0 0 = 0 := by
    rw [getpixel_inside T 0 0 (by unfold inClip; omega), show T.w * 0 + 0 = 0 by omega]
    exact hrow0 0 (by decide) (by decide)
  have hpop : ({ stack_x := setCell emptyStk.emptyStack.stack_x (emptyStk.emptyStack.sp + 1) 0,
                 stack_y := setCell emptyStk.emptyStack.stack_y (emptyStk.emptyStack.sp + 1) 0,
                 sp := emptyStk.emptyStack.sp + 1 } : Stack).pop =
      some ((0, 0),
        { stack_x := setCell emptyStk.emptyStack.stack_x (emptyStk.emptyStack.sp + 1) 0,
          stack_y := setCell emptyStk.emptyStack.stack_y (emptyStk.emptyStack.sp + 1) 0,
          sp := 0 }) := rfl
  have hscan : scanLeft T combCanvas.cl 0 0 0 (0 - combCanvas.cl + 1).toNat 0 = -1 := by
    show scanLeft T 0 0 0 0 1 0 = -1
    unfold scanLeft
    rw [if_pos ⟨le_refl _, by rw [g00]; decide⟩]
    rfl
  have hs3 : fillRow (fun _ c _ => c) combCanvas 100 0 0 0
      (combCanvas.cr - (-1 + 1) + 1).toNat (-1 + 1) false false
      { temp := T,
        map := (Map.create combCanvas.w combCanvas.h).clear 255,
        stack := { stack_x := setCell emptyStk.emptyStack.stack_x (emptyStk.emptyStack.sp + 1) 0,
                   stack_y := setCell emptyStk.emptyStack.stack_y (emptyStk.emptyStack.sp + 1) 0,
                   sp := 0 } } = FillRun.overflow s2 := hs2
  rw [fillLoop]
  simp only []
  rw [hpop]
  simp only [hscan]
  rw [hs3]


theorem fill_overflow_unchanged_witness :
    (0 : Int) ≠ 100 ∧
    ∃ (st1 : Stack) (s : FillState), emptyStk.emptyStack.push 0 0 = some st1 ∧
      fillLoop (fun _ c _ => c) combCanvas 100 0 0 1
        { temp := combCanvas.blit (create combCanvas.w combCanvas.h) 0 0 0 0 combCanvas.w
            combCanvas.h,
          map := (Map.create combCanvas.w combCanvas.h).clear 255, stack := st1 } =
        some (FillRun.overflow s) ∧
      fill (fun _ c _ => c) 1 emptyStk combCanvas 0 0 100 0 0 = some (combCanvas, s.stack) ∧
      ¬ s.stack.sp < stack_size - 1 := by
  obtain ⟨s, hs⟩ := comb_overflows 0
  have hp := push_room emptyStk.emptyStack 0 0 (by decide)
  exact ⟨by decide, _, s, hp, hs,
    (fill_overflow_unchanged (fun _ c _ => c) 1 emptyStk combCanvas 0 0 100 0 0 (by decide)).2
      _ s hp hs⟩

end Bitmap

/-! ## C32: a seed that is not in range -/

namespace Bitmap

set_option maxRecDepth 100000 in
/-- C32 fails on the code. On the 2 x 1 canvas with the colours 7 and 0 the seed
`(0, 0)` is a clip pixel whose colour 7 is not in range of `old_color` 0 at
tolerance 0, yet `fill(0, 0, 100, 0, 0)` under a replacing blend sets the pixel
`(1, 0)` to 100: the scan to the left does not move, `x1++` steps over the seed,
and the scan to the right starts at the neighbour `(1, 0)`, which is in range. -/
theorem fill_seed_out_of_range :
    (farCanvas.inClip 0 0 ∧ (inRange (farCanvas.pix 0 0) 0 0).1 = false ∧
      farCanvas.pix 1 0 = 0) ∧
    (fill (fun _ c _ => c) 50 emptyStk farCanvas 0 0 100 0 0).map
      (fun r => (r.1.pix 0 0, r.1.pix 1 0)) = some (7, 100) := by
  decide!

end Bitmap

/-! ## C33: the cursors and the slots of the two rings -/

namespace Undo

theorem ringEq_setSlot {st st2 : Int → Bitmap} (h : RingEq st st2) (i : Int) (v : Bitmap) :
    RingEq (setSlot st i v) (setSlot st2 i v) := by
  intro j h0 h9
  unfold setSlot
  split_ifs
  · rfl
  · exact h j h0 h9

theorem ringEq_shift {st st2 : Int → Bitmap} (h : RingEq st st2) :
    RingEq (shiftStack st) (shiftStack st2) := by
  intro j h0 h9
  rw [shiftStack_spec, shiftStack_spec]
  split_ifs
  · exact h 9 (by decide) (by decide)
  · exact h (j - 1) (by omega) (by omega)
  · exact h j h0 h9

theorem outsideEq_setSlot (st : Int → Bitmap) (i : Int) (v : Bitmap) (h0 : 0 ≤ i) (h9 : i ≤ 9) :
    OutsideEq st (setSlot st i v) := by
  intro j hj
  unfold setSlot
  rw [if_neg (by omega)]

theorem outsideEq_shift (st : Int → Bitmap) : OutsideEq st (shiftStack st) := by
  intro j hj
  rw [shiftStack_spec, if_neg (by omega), if_neg (by omega)]

theorem outsideEq_trans {a b c : Int → Bitmap} (h1 : OutsideEq a b) (h2 : OutsideEq b c) :
    OutsideEq a c :=
  fun j hj => (h1 j hj).trans (h2 j hj)

theorem outsideEq_refl (a : Int → Bitmap) : OutsideEq a a := fun _ _ => rfl

theorem usesRingOnly_comp {f g : UndoState → UndoState} (hf : UsesRingOnly f)
    (hg : UsesRingOnly g) : UsesRingOnly (fun s => g (f s)) := by
  intro s hs
  obtain ⟨c1, o1, o2, r1⟩ := hf s hs
  obtain ⟨c2, p1, p2, r2⟩ := hg (f s) c1
  exact ⟨c2, outsideEq_trans o1 p1, outsideEq_trans o2 p2, fun s2 h => r2 (f s2) (r1 s2 h)⟩

/-- The slots that `init` fills. -/
theorem init_loop (v : Bitmap) :
    ∀ (n : Nat) (lo : Int) (st : Int → Bitmap) (j : Int),
      forLoop (fun i st => setSlot st i v) n lo st j =
        if lo ≤ j ∧ j < lo + n then v else st j
  | 0, lo, st, j => by
      simp only [forLoop]
      rw [if_neg]; push_cast; omega
  | n + 1, lo, st, j => by
      rw [forLoop_succ, init_loop v n (lo + 1)]
      simp only [setSlot]
      by_cases h1 : lo + 1 ≤ j ∧ j < lo + 1 + (n : Int)
      · rw [if_pos h1, if_pos (by push_cast; omega)]
      · rw [if_neg h1]
        by_cases h2 : j = lo
        · rw [if_pos h2, if_pos (by push_cast; omega)]
        · rw [if_neg h2, if_neg (by push_cast; omega)]

theorem init_slots (s : UndoState) (j : Int) :
    (init s).undo_stack j = (if 0 ≤ j ∧ j ≤ 9 then Bitmap.create 8 8 else s.undo_stack j) ∧
    (init s).redo_stack j = (if 0 ≤ j ∧ j ≤ 9 then Bitmap.create 8 8 else s.redo_stack j) := by
  have e : ((levels.toNat : Nat) : Int) = 10 := by decide
  have eu : (init s).undo_stack =
      forLoop (fun i st => setSlot st i (Bitmap.create 8 8)) levels.toNat 0 s.undo_stack := rfl
  have er : (init s).redo_stack =
      forLoop (fun i st => setSlot st i (Bitmap.create 8 8)) levels.toNat 0 s.redo_stack := rfl
  rw [eu, er, init_loop, init_loop, e]
  by_cases h : 0 ≤ j ∧ j ≤ 9
  · simp only [if_pos h, if_pos (show 0 ≤ j ∧ j < 0 + 10 by omega), and_self]
  · simp only [if_neg h, if_neg (show ¬ (0 ≤ j ∧ j < 0 + 10) by omega), and_self]

theorem init_uses : UsesRingOnly init := by
  intro s _
  have hc : (init s).undo_current = 9 ∧ (init s).redo_current = 9 := ⟨rfl, rfl⟩
  refine ⟨⟨by rw [hc.1]; omega, by rw [hc.2]; omega⟩, ?_, ?_, fun s2 h => ?_⟩
  · intro j hj
    rw [(init_slots s j).1, if_neg (by omega)]
  · intro j hj
    rw [(init_slots s j).2, if_neg (by omega)]
  · obtain ⟨h1, h2, h3, h4, h5, h6, h7, h8⟩ := h
    refine ⟨rfl, rfl, h3, h4, h5, h6, ?_, ?_⟩
    · intro j h0 h9
      rw [(init_slots s j).1, (init_slots s2 j).1, if_pos ⟨h0, h9⟩, if_pos ⟨h0, h9⟩]
    · intro j h0 h9
      rw [(init_slots s j).2, (init_slots s2 j).2, if_pos ⟨h0, h9⟩, if_pos ⟨h0, h9⟩]

theorem doPush_uses : UsesRingOnly doPush := by
  intro s hs
  obtain ⟨⟨u0, u9⟩, ⟨r0, r9⟩⟩ := hs
  by_cases hneg : s.undo_current < 0
  · have e : doPush s = { s with
        undo_stack := setSlot (shiftStack s.undo_stack) 0 (snapshot s.bmp),
        undo_current := 0 - 1 } := by
      unfold doPush
      rw [if_pos hneg]
    rw [e]
    refine ⟨⟨⟨(by decide : (-1 : Int) ≤ 0 - 1), (by decide : (0 : Int) - 1 ≤ 9)⟩, ⟨r0, r9⟩⟩,
      outsideEq_trans (outsideEq_shift _) (outsideEq_setSlot _ 0 _ (by decide) (by decide)),
      outsideEq_refl _, fun s2 h => ?_⟩
    obtain ⟨h1, h2, h3, h4, h5, h6, h7, h8⟩ := h
    have e2 : doPush s2 = { s2 with
        undo_stack := setSlot (shiftStack s2.undo_stack) 0 (snapshot s2.bmp),
        undo_current := 0 - 1 } := by
      unfold doPush
      rw [if_pos (by rw [← h1]; exact hneg)]
    rw [e2]
    refine ⟨rfl, h2, h3, h4, h5, h6, ?_, h8⟩
    show RingEq (setSlot (shiftStack s.undo_stack) 0 (snapshot s.bmp))
      (setSlot (shiftStack s2.undo_stack) 0 (snapshot s2.bmp))
    rw [h3]
    exact ringEq_setSlot (ringEq_shift h7) _ _
  · have e : doPush s = { s with
        undo_stack := setSlot s.undo_stack s.undo_current (snapshot s.bmp),
        undo_current := s.undo_current - 1 } := by
      unfold doPush
      rw [if_neg hneg]
    rw [e]
    refine ⟨⟨⟨by show -1 ≤ s.undo_current - 1; omega, by show s.undo_current - 1 ≤ 9; omega⟩,
        ⟨r0, r9⟩⟩,
      outsideEq_setSlot _ _ _ (by omega) u9, outsideEq_refl _, fun s2 h => ?_⟩
    obtain ⟨h1, h2, h3, h4, h5, h6, h7, h8⟩ := h
    have e2 : doPush s2 = { s2 with
        undo_stack := setSlot s2.undo_stack s2.undo_current (snapshot s2.bmp),
        undo_current := s2.undo_current - 1 } := by
      unfold doPush
      rw [if_neg (by rw [← h1]; exact hneg)]
    rw [e2]
    refine ⟨by show s.undo_current - 1 = s2.undo_current - 1; rw [h1], h2, h3, h4, h5, h6, ?_, h8⟩
    show RingEq (setSlot s.undo_stack s.undo_current (snapshot s.bmp))
      (setSlot s2.undo_stack s2.undo_current (snapshot s2.bmp))
    rw [h3, h1]
    exact ringEq_setSlot h7 _ _


theorem pushRedo_uses : UsesRingOnly pushRedo := by
  intro s hs
  obtain ⟨⟨u0, u9⟩, ⟨r0, r9⟩⟩ := hs
  by_cases hneg : s.redo_current < 0
  · have e : pushRedo s = { s with
        redo_stack := setSlot (shiftStack s.redo_stack) 0 (snapshot s.bmp),
        redo_current := 0 - 1 } := by
      unfold pushRedo
      rw [if_pos hneg]
    rw [e]
    refine ⟨⟨⟨u0, u9⟩, ⟨(by decide : (-1 : Int) ≤ 0 - 1), (by decide : (0 : Int) - 1 ≤ 9)⟩⟩,
      outsideEq_refl _,
      outsideEq_trans (outsideEq_shift _) (outsideEq_setSlot _ 0 _ (by decide) (by decide)),
      fun s2 h => ?_⟩
    obtain ⟨h1, h2, h3, h4, h5, h6, h7, h8⟩ := h
    have e2 : pushRedo s2 = { s2 with
        redo_stack := setSlot (shiftStack s2.redo_stack) 0 (snapshot s2.bmp),
        redo_current := 0 - 1 } := by
      unfold pushRedo
      rw [if_pos (by rw [← h2]; exact hneg)]
    rw [e2]
    refine ⟨h1, rfl, h3, h4, h5, h6, h7, ?_⟩
    show RingEq (setSlot (shiftStack s.redo_stack) 0 (snapshot s.bmp))
      (setSlot (shiftStack s2.redo_stack) 0 (snapshot s2.bmp))
    rw [h3]
    exact ringEq_setSlot (ringEq_shift h8) _ _
  · have e : pushRedo s = { s with
        redo_stack := setSlot s.redo_stack s.redo_current (snapshot s.bmp),
        redo_current := s.redo_current - 1 } := by
      unfold pushRedo
      rw [if_neg hneg]
    rw [e]
    refine ⟨⟨⟨u0, u9⟩,
        ⟨by show -1 ≤ s.redo_current - 1; omega, by show s.redo_current - 1 ≤ 9; omega⟩⟩,
      outsideEq_refl _, outsideEq_setSlot _ _ _ (by omega) r9, fun s2 h => ?_⟩
    obtain ⟨h1, h2, h3, h4, h5, h6, h7, h8⟩ := h
    have e2 : pushRedo s2 = { s2 with
        redo_stack := setSlot s2.redo_stack s2.redo_current (snapshot s2.bmp),
        redo_current := s2.redo_current - 1 } := by
      unfold pushRedo
      rw [if_neg (by rw [← h2]; exact hneg)]
    rw [e2]
    refine ⟨h1, by show s.redo_current - 1 = s2.redo_current - 1; rw [h2], h3, h4, h5, h6, h7, ?_⟩
    show RingEq (setSlot s.redo_stack s.redo_current (snapshot s.bmp))
      (setSlot s2.redo_stack s2.redo_current (snapshot s2.bmp))
    rw [h3, h2]
    exact ringEq_setSlot h8 _ _

theorem push_uses : UsesRingOnly push := by
  intro s hs
  obtain ⟨⟨⟨u0, u9⟩, _⟩, o1, o2, r⟩ := doPush_uses s hs
  refine ⟨⟨⟨u0, u9⟩, ⟨(by decide : (-1 : Int) ≤ levels - 1), (by decide : levels - 1 ≤ 9)⟩⟩,
    o1, o2, fun s2 h => ?_⟩
  obtain ⟨h1, h2, h3, h4, h5, h6, h7, h8⟩ := r s2 h
  exact ⟨h1, rfl, h3, h4, h5, h6, h7, h8⟩

/-- What the second half of `pop` does with the state `pushRedo` left: the undo
cursor moves up and the snapshot under it is installed. -/
theorem pop_eq (env : Env) (s : UndoState) (h : ¬ s.undo_current ≥ levels - 1) :
    pop env s = { pushRedo s with
      undo_current := (pushRedo s).undo_current + 1,
      bmp := Bitmap.restore env (pushRedo s).overscroll
        ((pushRedo s).undo_stack ((pushRedo s).undo_current + 1)),
      ox := (clampView (pushRedo s) ((pushRedo s).undo_stack ((pushRedo s).undo_current + 1)).w
        ((pushRedo s).undo_stack ((pushRedo s).undo_current + 1)).h).ox,
      oy := (clampView (pushRedo s) ((pushRedo s).undo_stack ((pushRedo s).undo_current + 1)).w
        ((pushRedo s).undo_stack ((pushRedo s).undo_current + 1)).h).oy } := by
  unfold pop
  rw [if_neg h]
  rfl

/-- The second half of `popRedo`, after `doPush`. -/
theorem popRedo_eq (env : Env) (s : UndoState) (h : ¬ s.redo_current ≥ levels - 1) :
    popRedo env s = { doPush s with
      redo_current := (doPush s).redo_current + 1,
      bmp := Bitmap.restore env (doPush s).overscroll
        ((doPush s).redo_stack ((doPush s).redo_current + 1)),
      ox := (clampView (doPush s) ((doPush s).redo_stack ((doPush s).redo_current + 1)).w
        ((doPush s).redo_stack ((doPush s).redo_current + 1)).h).ox,
      oy := (clampView (doPush s) ((doPush s).redo_stack ((doPush s).redo_current + 1)).w
        ((doPush s).redo_stack ((doPush s).redo_current + 1)).h).oy } := by
  unfold popRedo
  rw [if_neg h]
  rfl

theorem pushRedo_undo_current (s : UndoState) :
    (pushRedo s).undo_current = s.undo_current := by
  unfold pushRedo
  split_ifs <;> rfl

theorem pop_uses (env : Env) : UsesRingOnly (pop env) := by
  intro s hs
  by_cases hg : s.undo_current ≥ levels - 1
  · have e : pop env s = s := by unfold pop; rw [if_pos hg]
    rw [e]
    refine ⟨hs, outsideEq_refl _, outsideEq_refl _, fun s2 h => ?_⟩
    have e2 : pop env s2 = s2 := by unfold pop; rw [if_pos (by rw [← h.1]; exact hg)]
    rw [e2]
    exact h
  · obtain ⟨⟨⟨u0, u9⟩, ⟨r0, r9⟩⟩, o1, o2, r⟩ := pushRedo_uses s hs
    have hu := pushRedo_undo_current s
    have hlt : s.undo_current < 9 := by unfold levels at hg; omega
    rw [pop_eq env s hg]
    refine ⟨⟨⟨by show -1 ≤ (pushRedo s).undo_current + 1; omega,
        by show (pushRedo s).undo_current + 1 ≤ 9; omega⟩, ⟨r0, r9⟩⟩, o1, o2, fun s2 h => ?_⟩
    rw [pop_eq env s2 (by rw [← h.1]; exact hg)]
    obtain ⟨h1, h2, h3, h4, h5, h6, h7, h8⟩ := r s2 h
    have hslot : (pushRedo s).undo_stack ((pushRedo s).undo_current + 1) =
        (pushRedo s2).undo_stack ((pushRedo s2).undo_current + 1) := by
      rw [← h1]
      exact h7 _ (by omega) (by omega)
    refine ⟨by show (pushRedo s).undo_current + 1 = (pushRedo s2).undo_current + 1; rw [h1],
      h2, ?_, h4, ?_, ?_, h7, h8⟩
    · show Bitmap.restore env _ _ = Bitmap.restore env _ _
      rw [hslot, h4]
    · simp only [clampView, hslot, h5]
    · simp only [clampView, hslot, h6]

theorem doPush_redo_current (s : UndoState) :
    (doPush s).redo_current = s.redo_current := by
  unfold doPush
  split_ifs <;> rfl

theorem popRedo_uses (env : Env) : UsesRingOnly (popRedo env) := by
  intro s hs
  by_cases hg : s.redo_current ≥ levels - 1
  · have e : popRedo env s = s := by unfold popRedo; rw [if_pos hg]
    rw [e]
    refine ⟨hs, outsideEq_refl _, outsideEq_refl _, fun s2 h => ?_⟩
    have e2 : popRedo env s2 = s2 := by
      unfold popRedo; rw [if_pos (by rw [← h.2.1]; exact hg)]
    rw [e2]
    exact h
  · obtain ⟨⟨⟨u0, u9⟩, ⟨r0, r9⟩⟩, o1, o2, r⟩ := doPush_uses s hs
    have hu := doPush_redo_current s
    have hlt : s.redo_current < 9 := by unfold levels at hg; omega
    rw [popRedo_eq env s hg]
    refine ⟨⟨⟨u0, u9⟩, ⟨by show -1 ≤ (doPush s).redo_current + 1; omega,
        by show (doPush s).redo_current + 1 ≤ 9; omega⟩⟩, o1, o2, fun s2 h => ?_⟩
    rw [popRedo_eq env s2 (by rw [← h.2.1]; exact hg)]
    obtain ⟨h1, h2, h3, h4, h5, h6, h7, h8⟩ := r s2 h
    have hslot : (doPush s).redo_stack ((doPush s).redo_current + 1) =
        (doPush s2).redo_stack ((doPush s2).redo_current + 1) := by
      rw [← h2]
      exact h8 _ (by omega) (by omega)
    refine ⟨h1,
      by show (doPush s).redo_current + 1 = (doPush s2).redo_current + 1; rw [h2],
      ?_, h4, ?_, ?_, h7, h8⟩
    · show Bitmap.restore env _ _ = Bitmap.restore env _ _
      rw [hslot, h4]
    · simp only [clampView, hslot, h5]
    · simp only [clampView, hslot, h6]

theorem applyOp_uses (env : Env) (op : UndoOp) : UsesRingOnly (applyOp env op) := by
  cases op with
  | init => exact init_uses
  | push => exact push_uses
  | pop => exact pop_uses env
  | popRedo => exact popRedo_uses env
  | edit b ox oy =>
      intro s hs
      refine ⟨hs, outsideEq_refl _, outsideEq_refl _, fun s2 h => ?_⟩
      obtain ⟨h1, h2, h3, h4, h5, h6, h7, h8⟩ := h
      exact ⟨h1, h2, rfl, h4, rfl, rfl, h7, h8⟩

theorem runOps_uses (env : Env) : ∀ ops : List UndoOp, UsesRingOnly (runOps env ops)
  | [] => fun _ hs => ⟨hs, outsideEq_refl _, outsideEq_refl _, fun _ h => h⟩
  | op :: ops =>
      @usesRingOnly_comp (applyOp env op) (runOps env ops) (applyOp_uses env op)
        (runOps_uses env ops)

/-- C33. Every sequence of `Undo::init`, `push`, `pop` and `popRedo`, with any
changes of the working canvas in between, run from a state whose cursors are
between -1 and 9 (the state the program starts in has both at 9, and so has every
state `init` leaves), keeps both cursors between -1 and 9. No slot of
`undo_stack` or `redo_stack` other than the slots 0 to 9 is written, since each
keeps its content, and none is read, since the state the sequence leaves is the
same, in the slots 0 to 9 and everywhere else, whatever the other slots held. -/
theorem ring_indices (env : Env) (ops : List UndoOp) (s : UndoState) (hs : CursorsOk s) :
    CursorsOk (runOps env ops s) ∧
    (∀ j : Int, j < 0 ∨ 9 < j →
      (runOps env ops s).undo_stack j = s.undo_stack j ∧
      (runOps env ops s).redo_stack j = s.redo_stack j) ∧
    (∀ s2 : UndoState, SameRing s s2 → SameRing (runOps env ops s) (runOps env ops s2)) ∧
    (∀ s0 : UndoState, CursorsOk (init s0)) := by
  obtain ⟨c, o1, o2, r⟩ := runOps_uses env ops s hs
  refine ⟨c, fun j hj => ⟨(o1 j hj).symm, (o2 j hj).symm⟩, r, fun s0 => ?_⟩
  exact ⟨⟨(by decide : (-1 : Int) ≤ levels - 1), (by decide : levels - 1 ≤ 9)⟩,
    ⟨(by decide : (-1 : Int) ≤ levels - 1), (by decide : levels - 1 ≤ 9)⟩⟩

set_option maxRecDepth 100000 in
theorem ring_indices_witness :
    CursorsOk marginState ∧
    CursorsOk (runOps plainEnv
      [UndoOp.push, UndoOp.push, UndoOp.pop, UndoOp.popRedo, UndoOp.init, UndoOp.pop]
      marginState) :=
  ⟨by decide!, (ring_indices plainEnv
    [UndoOp.push, UndoOp.push, UndoOp.pop, UndoOp.popRedo, UndoOp.init, UndoOp.pop]
    marginState (by decide!)).1⟩

end Undo

/-! ## C34: `rotate180` and the two flips -/

/-- A cell `w * Y + X` with `0 <= X < w` lies in the buffer of `w * h` cells
exactly when `0 <= Y < h`. -/
theorem cell_range {w h X Y : Int} (hX0 : 0 ≤ X) (hX : X < w) :
    (0 ≤ w * Y + X ∧ w * Y + X < w * h) ↔ (0 ≤ Y ∧ Y < h) := by
  have hw : 0 ≤ w := by omega
  constructor
  · rintro ⟨h1, h2⟩
    constructor
    · by_contra hc
      have : w * Y ≤ w * (-1) := mul_le_mul_of_nonneg_left (by omega) hw
      omega
    · by_contra hc
      have : w * h ≤ w * Y := mul_le_mul_of_nonneg_left (by omega) hw
      omega
  · rintro ⟨h1, h2⟩
    have a1 : 0 ≤ w * Y := mul_nonneg hw h1
    have a2 : w * Y ≤ w * (h - 1) := mul_le_mul_of_nonneg_left (by omega) hw
    have a3 : w * (h - 1) = w * h - w := by ring
    omega

namespace Bitmap

/-- The buffer after `flipHorizontal`, cell by cell. -/
theorem flipHorizontal_data (b : Bitmap) (hw : 0 < b.w) (X Y : Int) (hX0 : 0 ≤ X)
    (hX : X < b.w) :
    b.flipHorizontal.data (b.w * Y + X) =
      if 0 ≤ Y ∧ Y < b.h then b.data (b.w * Y + (b.w - 1 - X)) else b.data (b.w * Y + X) := by
  obtain ⟨m1, m2⟩ := flipHorizontal_moved b hw X Y hX0 hX
  by_cases hS : (0 ≤ Y ∧ Y < b.h) ∧ (X < b.w / 2 ∨ b.w - b.w / 2 ≤ X)
  · rw [m1 hS, if_pos hS.1]
  · rw [m2 hS]
    split_ifs with hY
    · rw [show b.w - 1 - X = X by omega]
    · rfl

/-- The buffer after `flipVertical`, cell by cell. -/
theorem flipVertical_data (b : Bitmap) (hw : 0 < b.w) (hh : 0 < b.h) (X Y : Int)
    (hX0 : 0 ≤ X) (hX : X < b.w) :
    b.flipVertical.data (b.w * Y + X) =
      if 0 ≤ Y ∧ Y < b.h then b.data (b.w * (b.h - 1 - Y) + X) else b.data (b.w * Y + X) := by
  obtain ⟨m1, m2⟩ := flipVertical_moved b hw hh X Y hX0 hX
  by_cases hS : (0 ≤ Y ∧ Y < b.h) ∧ (Y < b.h / 2 ∨ b.h - b.h / 2 ≤ Y)
  · rw [m1 hS, if_pos hS.1]
  · rw [m2 hS]
    split_ifs with hY
    · rw [show b.h - 1 - Y = Y by omega]
    · rfl

/-- The buffer after `rotate180`, cell by cell: the `w * h` cells of the buffer
are reversed. -/
theorem rotate180_data (b : Bitmap) (hs : 0 < b.w * b.h) (i : Int) :
    b.rotate180.data i =
      if 0 ≤ i ∧ i < b.w * b.h then b.data (b.w * b.h - 1 - i) else b.data i := by
  obtain ⟨X, Y, hX0, hX, rfl⟩ := cell_decomp hs i
  obtain ⟨m1, m2⟩ := rotate180_moved b hs X Y hX0 hX
  have hr := @cell_range (b.w * b.h) 1 X Y hX0 hX
  rw [mul_one] at hr
  by_cases hS : Y = 0 ∧ (X < b.w * b.h / 2 ∨ b.w * b.h - b.w * b.h / 2 ≤ X)
  · rw [m1 hS, if_pos (hr.mpr (by omega))]
    obtain ⟨rfl, -⟩ := hS
    simp only [mul_zero, zero_add]
  · rw [m2 hS]
    split_ifs with hY
    · have hY0 : Y = 0 := by have := hr.mp hY; omega
      subst hY0
      have hS2 : ¬ (X < b.w * b.h / 2 ∨ b.w * b.h - b.w * b.h / 2 ≤ X) := fun h => hS ⟨rfl, h⟩
      simp only [mul_zero, zero_add]
      rw [show b.w * b.h - 1 - X = X by omega]
    · rfl

/-- C34. For every canvas (its width and height are at least 1, as every
constructor makes them), `rotate180` gives the same canvas as `flipHorizontal`
followed by `flipVertical` and as `flipVertical` followed by `flipHorizontal`,
and the pixel at `(w-1-x, h-1-y)` of the canvas is at `(x, y)` afterwards: the
pixel at `(x, y)` moves to `(w-1-x, h-1-y)`. -/
theorem rotate180_flips (b : Bitmap) (hw : 0 < b.w) (hh : 0 < b.h) :
    b.rotate180 = b.flipHorizontal.flipVertical ∧
    b.rotate180 = b.flipVertical.flipHorizontal ∧
    ∀ X Y : Int, 0 ≤ X → X < b.w → 0 ≤ Y → Y < b.h →
      b.rotate180.pix X Y = b.pix (b.w - 1 - X) (b.h - 1 - Y) ∧
      b.rotate180.pix (b.w - 1 - X) (b.h - 1 - Y) = b.pix X Y := by
  have hs : 0 < b.w * b.h := mul_pos hw hh
  have key : ∀ X Y : Int, 0 ≤ X → X < b.w →
      b.rotate180.data (b.w * Y + X) =
        if 0 ≤ Y ∧ Y < b.h then b.data (b.w * (b.h - 1 - Y) + (b.w - 1 - X))
        else b.data (b.w * Y + X) := by
    intro X Y hX0 hX
    rw [rotate180_data b hs]
    have hr := @cell_range b.w b.h X Y hX0 hX
    by_cases hY : 0 ≤ Y ∧ Y < b.h
    · rw [if_pos (hr.mpr hY), if_pos hY]
      congr 1
      ring
    · rw [if_neg (fun h => hY (hr.mp h)), if_neg hY]
  have e1 : b.rotate180.data = b.flipHorizontal.flipVertical.data := by
    funext i
    obtain ⟨X, Y, hX0, hX, rfl⟩ := cell_decomp hw i
    rw [key X Y hX0 hX]
    have f1 := flipVertical_data b.flipHorizontal hw hh X Y hX0 hX
    have f2 := flipHorizontal_data b hw X (b.h - 1 - Y) hX0 hX
    have f3 := flipHorizontal_data b hw X Y hX0 hX
    rw [show b.flipHorizontal.flipVertical.data (b.w * Y + X) =
      b.flipHorizontal.flipVertical.data (b.flipHorizontal.w * Y + X) from rfl, f1]
    show _ = if 0 ≤ Y ∧ Y < b.h then b.flipHorizontal.data (b.w * (b.h - 1 - Y) + X)
      else b.flipHorizontal.data (b.w * Y + X)
    by_cases hY : 0 ≤ Y ∧ Y < b.h
    · rw [if_pos hY, if_pos hY, f2, if_pos (by omega)]
    · rw [if_neg hY, if_neg hY, f3, if_neg hY]
  have e2 : b.rotate180.data = b.flipVertical.flipHorizontal.data := by
    funext i
    obtain ⟨X, Y, hX0, hX, rfl⟩ := cell_decomp hw i
    rw [key X Y hX0 hX]
    have f1 := flipHorizontal_data b.flipVertical hw X Y hX0 hX
    have f2 := flipVertical_data b hw hh (b.w - 1 - X) Y (by omega) (by omega)
    have f3 := flipVertical_data b hw hh X Y hX0 hX
    rw [show b.flipVertical.flipHorizontal.data (b.w * Y + X) =
      b.flipVertical.flipHorizontal.data (b.flipVertical.w * Y + X) from rfl, f1]
    show _ = if 0 ≤ Y ∧ Y < b.h then b.flipVertical.data (b.w * Y + (b.w - 1 - X))
      else b.flipVertical.data (b.w * Y + X)
    by_cases hY : 0 ≤ Y ∧ Y < b.h
    · rw [if_pos hY, if_pos hY, f2, if_pos hY]
    · rw [if_neg hY, if_neg hY, f3, if_neg hY]
  refine ⟨?_, ?_, fun X Y hX0 hX hY0 hY => ⟨?_, ?_⟩⟩
  · exact congrArg (fun d => ({ b with data := d } : Bitmap)) e1
  · exact congrArg (fun d => ({ b with data := d } : Bitmap)) e2
  · show b.rotate180.data (b.w * Y + X) = _
    rw [key X Y hX0 hX, if_pos ⟨hY0, hY⟩]
    rfl
  · show b.rotate180.data (b.w * (b.h - 1 - Y) + (b.w - 1 - X)) = _
    rw [key (b.w - 1 - X) (b.h - 1 - Y) (by omega) (by omega), if_pos (by omega)]
    show _ = b.data (b.w * Y + X)
    congr 1
    have : b.h - 1 - (b.h - 1 - Y) = Y := by omega
    rw [this]
    omega

set_option maxRecDepth 100000 in
theorem rotate180_flips_witness :
    (0 < nearCanvas.w ∧ 0 < nearCanvas.h) ∧
    nearCanvas.rotate180 = nearCanvas.flipHorizontal.flipVertical ∧
    nearCanvas.rotate180.pix 0 0 = 1 ∧ nearCanvas.pix 1 0 = 1 := by
  have h := rotate180_flips nearCanvas (by decide) (by decide)
  refine ⟨by decide, h.1, ?_, by decide⟩
  have h2 := (h.2.2 0 0 (by decide) (by decide) (by decide) (by decide)).1
  rw [h2]
  decide

end Bitmap

/-! ## C35: `rect` on a single row or column -/

namespace Bitmap


set_option maxRecDepth 100000 in
/-- C35 fails on the code. With a blend function that adds the colour to the
pixel, `rect(0, 0, 3, 0, 1, 0)` on the 4 x 4 canvas of colour 0 leaves 2 in the
pixels of row 0 where `hline(0, 0, 3, 1, 0)` leaves 1: both calls of `hline` in
`rect` draw the same row before the test `y1 == y2`. In `rect(1, 0, 1, 3, 1, 0)`
the pixels `(1, 1)` and `(1, 2)` of the column hold 2: the loop over the sides
composites its left and its right pixel, which are the same cell. -/
theorem rect_degenerate_twice :
    (((create 4 4).rect addBlend 0 0 3 0 1 0).pix 0 0 = 2 ∧
      ((create 4 4).hline addBlend 0 0 3 1 0).pix 0 0 = 1) ∧
    (((create 4 4).rect addBlend 1 0 1 3 1 0).pix 1 0 = 1 ∧
      ((create 4 4).rect addBlend 1 0 1 3 1 0).pix 1 1 = 2 ∧
      ((create 4 4).rect addBlend 1 0 1 3 1 0).pix 1 2 = 2 ∧
      ((create 4 4).rect addBlend 1 0 1 3 1 0).pix 1 3 = 1) := by
  decide!

end Bitmap

/-! ## C36: the outline that `rect` draws -/

namespace Bitmap

/-- `hline` on a row of the clip rectangle between two of its columns, cell by
cell. -/
theorem hline_cell (blend : Int → Int → Int → Int) (b : Bitmap) (hcl : 0 ≤ b.cl)
    (hcr : b.cr < b.w) (xa y xb c t : Int) (hy : b.ct ≤ y ∧ y ≤ b.cb)
    (hxa : b.cl ≤ xa) (hx : xa ≤ xb) (hxb : xb ≤ b.cr) :
    ∃ d, b.hline blend xa y xb c t = { b with data := d } ∧
      ∀ X Y : Int, 0 ≤ X → X < b.w →
        d (b.w * Y + X) = if Y = y ∧ xa ≤ X ∧ X ≤ xb then blend (b.data (b.w * Y + X)) c t
          else b.data (b.w * Y + X) := by
  refine ⟨_, hline_data blend b xa y xb c t, fun X Y hX0 hX => ?_⟩
  have e1 : max (min xa xb) b.cl = xa := by omega
  have e2 : min (max xa xb) b.cr = xb := by omega
  have key := @cell_in_row b.w xa xb (by omega) (by omega) (b.w * Y + X) y
  obtain ⟨q1, q2⟩ := @cell_row_col b.w X Y hX0 hX
  rw [q1, q2] at key
  simp only [e1, e2]
  by_cases h : Y = y ∧ xa ≤ X ∧ X ≤ xb
  · rw [if_pos ⟨hy, key.mpr h⟩, if_pos h]
  · rw [if_neg (fun hh => h (key.mp hh.2)), if_neg h]

/-- One iteration of the loop over the sides of `rect`, cell by cell. -/
theorem rectSides_cell (blend : Int → Int → Int → Int) (w xa xb c t y : Int)
    (d : Int → Int) (i : Int) (hx : xa ≤ xb) :
    rectSides blend w xa xb c t y d i =
      if True ∧ xa ≤ i - w * (0 + y) ∧ i - w * (0 + y) ≤ xb then
        (fun (_ x p : Int) =>
          if x = xb then (if xa = xb then blend (blend p c t) c t else blend p c t)
          else if x = xa then blend p c t else p) y (i - w * (0 + y)) (d i)
      else d i := by
  unfold rectSides
  simp only [setCell, zero_add, true_and]
  by_cases h1 : i = w * y + xb
  · have r1 : xa ≤ i - w * y ∧ i - w * y ≤ xb := by omega
    have r2 : i - w * y = xb := by omega
    rw [if_pos h1, if_pos r1, if_pos r2]
    by_cases h2 : xa = xb
    · rw [if_pos h2, if_pos (show w * y + xb = w * y + xa by rw [h2]), h1, h2]
    · rw [if_neg h2, if_neg (show ¬ w * y + xb = w * y + xa by omega), h1]
  · rw [if_neg h1]
    by_cases h3 : i = w * y + xa
    · have r1 : xa ≤ i - w * y ∧ i - w * y ≤ xb := by omega
      have r2 : ¬ i - w * y = xb := by omega
      have r3 : i - w * y = xa := by omega
      rw [if_pos h3, if_pos r1, if_neg r2, if_pos r3, h3]
    · rw [if_neg h3]
      by_cases h4 : xa ≤ i - w * y ∧ i - w * y ≤ xb
      · have r2 : ¬ i - w * y = xb := by omega
        have r3 : ¬ i - w * y = xa := by omega
        rw [if_pos h4, if_neg r2, if_neg r3]
      · rw [if_neg h4]

/-- The loop over the sides of `rect`, cell by cell. -/
theorem rectSides_loop (blend : Int → Int → Int → Int) (w xa xb c t : Int)
    (hxa : 0 ≤ xa) (hx : xa ≤ xb) (hxb : xb < w) (n : Nat) (ylo : Int) (d : Int → Int)
    (X Y : Int) (hX0 : 0 ≤ X) (hX : X < w) :
    forLoop (rectSides blend w xa xb c t) n ylo d (w * Y + X) =
      if ylo ≤ Y ∧ Y < ylo + n ∧ (X = xa ∨ X = xb) then
        (if xa = xb then blend (blend (d (w * Y + X)) c t) c t else blend (d (w * Y + X)) c t)
      else d (w * Y + X) := by
  rw [forLoop_rows w xa xb 0 hxa hxb (fun _ => True)
    (fun (_ x p : Int) =>
      if x = xb then (if xa = xb then blend (blend p c t) c t else blend p c t)
      else if x = xa then blend p c t else p)
    (rectSides blend w xa xb c t)
    (fun y d i => rectSides_cell blend w xa xb c t y d i hx)]
  obtain ⟨q1, q2⟩ := @cell_row_col w X Y hX0 hX
  rw [q1, q2]
  simp only [sub_zero, true_and]
  by_cases h : ylo ≤ Y ∧ Y < ylo + (n : Int) ∧ (X = xa ∨ X = xb)
  · have r1 : ylo ≤ Y ∧ Y < ylo + (n : Int) ∧ xa ≤ X ∧ X ≤ xb := by omega
    rw [if_pos h, if_pos r1]
    by_cases h2 : xa = xb
    · have r2 : X = xb := by omega
      rw [if_pos h2, if_pos r2]
    · rw [if_neg h2]
      by_cases h3 : X = xb
      · rw [if_pos h3]
      · have r3 : X = xa := by omega
        rw [if_neg h3, if_pos r3]
  · rw [if_neg h]
    by_cases h5 : ylo ≤ Y ∧ Y < ylo + (n : Int) ∧ xa ≤ X ∧ X ≤ xb
    · have r2 : ¬ X = xb := by omega
      have r3 : ¬ X = xa := by omega
      rw [if_pos h5, if_neg r2, if_neg r3]
    · rw [if_neg h5]


/-- `rect`, cell by cell, when the box of its corners meets the clip rectangle:
`(xa, ya)` and `(xb, yb)` are the ordered corners clamped to the clip rectangle. -/
theorem rect_cells (blend : Int → Int → Int → Int) (b : Bitmap) (hcl : 0 ≤ b.cl)
    (hc : b.cl ≤ b.cr) (hcr : b.cr < b.w) (hct : b.ct ≤ b.cb) (x1 y1 x2 y2 c t : Int)
    (hg : min x1 x2 ≤ b.cr ∧ b.cl ≤ max x1 x2 ∧ min y1 y2 ≤ b.cb ∧ b.ct ≤ max y1 y2)
    (xa ya xb yb : Int) (exa : xa = max (min x1 x2) b.cl) (eya : ya = max (min y1 y2) b.ct)
    (exb : xb = min (max x1 x2) b.cr) (eyb : yb = min (max y1 y2) b.cb) :
    ∃ d, b.rect blend x1 y1 x2 y2 c t = { b with data := d } ∧
      ∀ X Y : Int, 0 ≤ X → X < b.w →
        d (b.w * Y + X) =
          if OnOutline xa ya xb yb X Y then
            (if ya = yb ∨ (xa = xb ∧ ya < Y ∧ Y < yb)
              then blend (blend (b.data (b.w * Y + X)) c t) c t
              else blend (b.data (b.w * Y + X)) c t)
          else b.data (b.w * Y + X) := by
  have hxab : xa ≤ xb := by omega
  have hyab : ya ≤ yb := by omega
  obtain ⟨d1, e1, p1⟩ := hline_cell blend b hcl hcr xa ya xb c t (by omega) (by omega) hxab
    (by omega)
  obtain ⟨d2, e2, p2⟩ := hline_cell blend { b with data := d1 } hcl hcr xa yb xb c t
    (by constructor <;> simp only [] <;> omega) (by simp only []; omega) hxab
    (by simp only []; omega)
  rw [rect_eq, if_pos hg]
  simp only []
  rw [← exa, ← eya, ← exb, ← eyb, e1, e2]
  by_cases hyy : ya = yb
  · rw [if_pos hyy]
    refine ⟨d2, rfl, fun X Y hX0 hX => ?_⟩
    have q2 := p2 X Y hX0 hX
    have q1 := p1 X Y hX0 hX
    simp only [] at q2
    rw [q2, q1]
    unfold OnOutline
    split_ifs <;> first | rfl | (exfalso; omega)
  · rw [if_neg hyy]
    refine ⟨forLoop (rectSides blend b.w xa xb c t) (yb - (ya + 1)).toNat (ya + 1) d2, rfl,
      fun X Y hX0 hX => ?_⟩
    have q2 := p2 X Y hX0 hX
    have q1 := p1 X Y hX0 hX
    simp only [] at q2
    rw [rectSides_loop blend b.w xa xb c t (by omega) hxab (by omega) _ _ _ X Y hX0 hX, q2, q1]
    have en : (((yb - (ya + 1)).toNat : Nat) : Int) = yb - (ya + 1) := by omega
    rw [en]
    unfold OnOutline
    split_ifs <;> first | rfl | (exfalso; omega)


/-- C36 (as amended). On a canvas whose clip rectangle is not empty and lies
within the row width, for every blend function and all arguments, `rect`
changes the buffer only. A pixel that `rect` changes is a pixel of the clip
rectangle on the outline of the requested rectangle clamped to the clip
rectangle, the rectangle with the corners `(max(min(x1,x2), cl), max(min(y1,y2), ct))`
and `(min(max(x1,x2), cr), min(max(y1,y2), cb))`, and the box of the corners
meets the clip rectangle. Conversely, when the box meets the clip rectangle,
every pixel of that outline is composited: once, or twice where the two
horizontal lines or the two sides fall on the same pixels. A rectangle partly
outside the clip rectangle is thus drawn with edges along the clip boundary in
place of those cut off. -/
theorem rect_outline (blend : Int → Int → Int → Int) (b : Bitmap) (hcl : 0 ≤ b.cl)
    (hc : b.cl ≤ b.cr) (hcr : b.cr < b.w) (hct : b.ct ≤ b.cb) (x1 y1 x2 y2 c t : Int) :
    (∃ d, b.rect blend x1 y1 x2 y2 c t = { b with data := d }) ∧
    ∀ X Y : Int, 0 ≤ X → X < b.w →
      ((b.rect blend x1 y1 x2 y2 c t).pix X Y ≠ b.pix X Y →
        (min x1 x2 ≤ b.cr ∧ b.cl ≤ max x1 x2 ∧ min y1 y2 ≤ b.cb ∧ b.ct ≤ max y1 y2) ∧
        OnOutline (max (min x1 x2) b.cl) (max (min y1 y2) b.ct) (min (max x1 x2) b.cr)
          (min (max y1 y2) b.cb) X Y ∧
        b.inClip X Y) ∧
      ((min x1 x2 ≤ b.cr ∧ b.cl ≤ max x1 x2 ∧ min y1 y2 ≤ b.cb ∧ b.ct ≤ max y1 y2) →
        OnOutline (max (min x1 x2) b.cl) (max (min y1 y2) b.ct) (min (max x1 x2) b.cr)
          (min (max y1 y2) b.cb) X Y →
        b.inClip X Y ∧
        ((b.rect blend x1 y1 x2 y2 c t).pix X Y = blend (b.pix X Y) c t ∨
          (b.rect blend x1 y1 x2 y2 c t).pix X Y = blend (blend (b.pix X Y) c t) c t)) := by
  by_cases hg : min x1 x2 ≤ b.cr ∧ b.cl ≤ max x1 x2 ∧ min y1 y2 ≤ b.cb ∧ b.ct ≤ max y1 y2
  · obtain ⟨d, e, p⟩ := rect_cells blend b hcl hc hcr hct x1 y1 x2 y2 c t hg _ _ _ _ rfl rfl
      rfl rfl
    rw [e]
    refine ⟨⟨d, rfl⟩, fun X Y hX0 hX => ?_⟩
    have q := p X Y hX0 hX
    have hin : OnOutline (max (min x1 x2) b.cl) (max (min y1 y2) b.ct) (min (max x1 x2) b.cr)
        (min (max y1 y2) b.cb) X Y → b.inClip X Y := by
      intro ho
      unfold OnOutline at ho
      unfold inClip
      omega
    constructor
    · intro hne
      by_cases ho : OnOutline (max (min x1 x2) b.cl) (max (min y1 y2) b.ct)
          (min (max x1 x2) b.cr) (min (max y1 y2) b.cb) X Y
      · exact ⟨hg, ho, hin ho⟩
      · exfalso
        apply hne
        show d (b.w * Y + X) = b.data (b.w * Y + X)
        rw [q, if_neg ho]
    · intro _ ho
      refine ⟨hin ho, ?_⟩
      show d (b.w * Y + X) = blend (b.data (b.w * Y + X)) c t ∨
        d (b.w * Y + X) = blend (blend (b.data (b.w * Y + X)) c t) c t
      rw [q, if_pos ho]
      split_ifs
      · exact Or.inr rfl
      · exact Or.inl rfl
  · have e : b.rect blend x1 y1 x2 y2 c t = b := by rw [rect_eq, if_neg hg]
    rw [e]
    exact ⟨⟨b.data, rfl⟩, fun X Y _ _ => ⟨fun hne => absurd rfl hne, fun h => absurd h hg⟩⟩

set_option maxRecDepth 100000 in
theorem rect_outline_witness :
    (0 ≤ insetCanvas.cl ∧ insetCanvas.cl ≤ insetCanvas.cr ∧ insetCanvas.cr < insetCanvas.w ∧
      insetCanvas.ct ≤ insetCanvas.cb) ∧
    (0 ≤ (2 : Int) ∧ (2 : Int) < insetCanvas.w) ∧
    ((min (0 : Int) 3 ≤ insetCanvas.cr ∧ insetCanvas.cl ≤ max (0 : Int) 3 ∧
        min (0 : Int) 3 ≤ insetCanvas.cb ∧ insetCanvas.ct ≤ max (0 : Int) 3) ∧
      OnOutline (max (min 0 3) insetCanvas.cl) (max (min 0 3) insetCanvas.ct)
        (min (max 0 3) insetCanvas.cr) (min (max 0 3) insetCanvas.cb) 2 1) ∧
    (insetCanvas.inClip 2 1 ∧
      ((insetCanvas.rect addBlend 0 0 3 3 1 0).pix 2 1 = addBlend (insetCanvas.pix 2 1) 1 0 ∨
        (insetCanvas.rect addBlend 0 0 3 3 1 0).pix 2 1 =
          addBlend (addBlend (insetCanvas.pix 2 1) 1 0) 1 0)) :=
  ⟨by decide, by decide, by decide,
    ((rect_outline addBlend insetCanvas (by decide) (by decide) (by decide) (by decide)
      0 0 3 3 1 0).2 2 1 (by decide) (by decide)).2 (by decide) (by decide)⟩

set_option maxRecDepth 100000 in
/-- C36 (as stated) fails: on the 4 x 4 canvas of colour 0 with the clip
rectangle `[1,2] x [1,2]`, `rect(0, 0, 3, 3, 9, 0)` under a replacing blend sets
the four clip pixels to 9. None of them is on the boundary of the requested
rectangle, whose columns are 0 and 3 and whose rows are 0 and 3: the outline
drawn is that of the clamped rectangle, along the clip boundary. -/
theorem rect_clamped_counterexample :
    (insetCanvas.rect (fun _ c _ => c) 0 0 3 3 9 0).pix 1 1 = 9 ∧
    (insetCanvas.rect (fun _ c _ => c) 0 0 3 3 9 0).pix 2 1 = 9 ∧
    (insetCanvas.rect (fun _ c _ => c) 0 0 3 3 9 0).pix 1 2 = 9 ∧
    (insetCanvas.rect (fun _ c _ => c) 0 0 3 3 9 0).pix 2 2 = 9 ∧
    insetCanvas.pix 1 1 = 0 ∧
    ¬ ((1 : Int) = 0 ∨ (1 : Int) = 3 ∨ (2 : Int) = 0 ∨ (2 : Int) = 3) := by
  decide!

end Bitmap

/-! ## C37: `setpixel` and `getpixel` of a map with more than 256 cells -/

set_option maxRecDepth 100000 in
/-- C37 fails on the code. In the 16 x 17 map, cleared to 0, `setpixel(0, 16, 5)`
changes what `getpixel(0, 0)` returns from 0 to 5: the row table holds
`16 * 16` modulo 256, which is 0, for row 16, so that `(0, 16)` and `(0, 0)` are
the same cell. -/
theorem map_rows_alias :
    (((Map.create 16 17).clear 0).getpixel 0 0 = 0 ∧
      (((Map.create 16 17).clear 0).setpixel 0 16 5).getpixel 0 0 = 5 ∧
      (((Map.create 16 17).clear 0).setpixel 0 16 5).getpixel 0 16 = 5) ∧
    (Map.create 16 17).row 16 = 0 := by
  decide!

/-! ## C38: `absrect` -/

/-- The value of `absrect`: the ordered corners, clamped one by one. -/
theorem absrect_eq (b : Bitmap) (x1 y1 x2 y2 : Int) :
    absrect b x1 y1 x2 y2 =
      (max (min x1 x2) b.cl, max (min y1 y2) b.ct, min (max x1 x2) b.cr, min (max y1 y2) b.cb) := by
  unfold absrect
  simp only []
  refine Prod.ext ?_ (Prod.ext ?_ (Prod.ext ?_ ?_)) <;> simp only [] <;> split_ifs <;> omega

/-- C38 (as amended). `absrect` always returns `x1 >= cl`, `x2 <= cr`,
`y1 >= ct` and `y2 <= cb`. When the clip rectangle of the working canvas is not
empty and the box of the two corner points meets it, the result is a normalised
rectangle inside the clip rectangle, `cl <= x1 <= x2 <= cr` and
`ct <= y1 <= y2 <= cb`, so that the width `x2 - x1 + 1` and the height
`y2 - y1 + 1` that `crop` and `duplicate` compute are at least 1. The result has
`x1 <= x2` in no other case, and `y1 <= y2` in no other case. -/
theorem absrect_normalised (b : Bitmap) (x1 y1 x2 y2 : Int) :
    (b.cl ≤ (absrect b x1 y1 x2 y2).1 ∧ (absrect b x1 y1 x2 y2).2.2.1 ≤ b.cr ∧
      b.ct ≤ (absrect b x1 y1 x2 y2).2.1 ∧ (absrect b x1 y1 x2 y2).2.2.2 ≤ b.cb) ∧
    (b.cl ≤ b.cr → b.ct ≤ b.cb → min x1 x2 ≤ b.cr → b.cl ≤ max x1 x2 →
      min y1 y2 ≤ b.cb → b.ct ≤ max y1 y2 →
      (b.cl ≤ (absrect b x1 y1 x2 y2).1 ∧
        (absrect b x1 y1 x2 y2).1 ≤ (absrect b x1 y1 x2 y2).2.2.1 ∧
        (absrect b x1 y1 x2 y2).2.2.1 ≤ b.cr) ∧
      (b.ct ≤ (absrect b x1 y1 x2 y2).2.1 ∧
        (absrect b x1 y1 x2 y2).2.1 ≤ (absrect b x1 y1 x2 y2).2.2.2 ∧
        (absrect b x1 y1 x2 y2).2.2.2 ≤ b.cb) ∧
      1 ≤ (absrect b x1 y1 x2 y2).2.2.1 - (absrect b x1 y1 x2 y2).1 + 1 ∧
      1 ≤ (absrect b x1 y1 x2 y2).2.2.2 - (absrect b x1 y1 x2 y2).2.1 + 1) ∧
    ((absrect b x1 y1 x2 y2).1 ≤ (absrect b x1 y1 x2 y2).2.2.1 ↔
      b.cl ≤ b.cr ∧ min x1 x2 ≤ b.cr ∧ b.cl ≤ max x1 x2) ∧
    ((absrect b x1 y1 x2 y2).2.1 ≤ (absrect b x1 y1 x2 y2).2.2.2 ↔
      b.ct ≤ b.cb ∧ min y1 y2 ≤ b.cb ∧ b.ct ≤ max y1 y2) := by
  rw [absrect_eq]
  simp only []
  refine ⟨by omega, ?_, by omega, by omega⟩
  intro h1 h2 h3 h4 h5 h6
  omega

theorem absrect_normalised_witness :
    ((Bitmap.create 4 4).cl ≤ (Bitmap.create 4 4).cr ∧
      (Bitmap.create 4 4).ct ≤ (Bitmap.create 4 4).cb ∧
      min (7 : Int) (-2) ≤ (Bitmap.create 4 4).cr ∧ (Bitmap.create 4 4).cl ≤ max (7 : Int) (-2) ∧
      min (2 : Int) 1 ≤ (Bitmap.create 4 4).cb ∧ (Bitmap.create 4 4).ct ≤ max (2 : Int) 1) ∧
    absrect (Bitmap.create 4 4) 7 2 (-2) 1 = (0, 1, 3, 2) ∧
    1 ≤ (absrect (Bitmap.create 4 4) 7 2 (-2) 1).2.2.1 - (absrect (Bitmap.create 4 4) 7 2 (-2) 1).1
      + 1 :=
  ⟨by decide, by decide,
    ((absrect_normalised (Bitmap.create 4 4) 7 2 (-2) 1).2.1 (by decide) (by decide) (by decide)
      (by decide) (by decide) (by decide)).2.2.1⟩

/-- C38 (as stated) fails: with both corner points to the left of and above the
clip rectangle of the 4 x 4 canvas, `absrect` returns `x1 = 0 > x2 = -3` and
`y1 = 0 > y2 = -3`; the width and the height computed from it are `-2`, which
`crop` and `duplicate` raise to 1. -/
theorem absrect_outside_counterexample :
    absrect (Bitmap.create 4 4) (-5) (-5) (-3) (-3) = (0, 0, -3, -3) ∧
    (Bitmap.create 4 4).cl = 0 ∧ (Bitmap.create 4 4).ct = 0 ∧
    ¬ (absrect (Bitmap.create 4 4) (-5) (-5) (-3) (-3)).1 ≤
      (absrect (Bitmap.create 4 4) (-5) (-5) (-3) (-3)).2.2.1 ∧
    (absrect (Bitmap.create 4 4) (-5) (-5) (-3) (-3)).2.2.1 -
      (absrect (Bitmap.create 4 4) (-5) (-5) (-3) (-3)).1 + 1 = -2 := by
  decide

end Rendera
